import Mathlib

/-!
# slowlap_planner: the path planner of `path_planner.cpp`

A shallow embedding of `PathPlanner` (src/slowlap_planner/src/path_planner.cpp).

Modelling conventions

* `float` values are rationals; the libm functions `sqrt` and `atan2`, the
  constant `M_PI` and the constants of `path_planner.h` (which is not part of
  the sources) are fields of `Config`.
* A `Cone*` is a handle: the index of the cone in `raw_cones`; `NULL` is
  `none`.  `raw_cones` only ever grows, so handles stay valid.
* Undefined behaviour of the C++ program (NULL dereference, `front()`/`back()`
  of an empty vector, flowing off the end of a non-void function) is a
  `Fault`; every member function that can hit one returns `Except Fault _`.
* `std::sort` is modelled by insertion sort on the comparison key.
* The output vectors of `update` are in/out parameters, record `Output`.
-/

namespace SlowLap

/-- Undefined behaviour of the C++ program, made explicit. -/
inductive Fault where
  | nullDeref
  | badHandle
  | emptyAccess
  | noReturn
  | uninitialised
  deriving DecidableEq, Repr

/-- The C++ `PathPoint`: position, scratch distance, turn angle, the two cone
back-references and the display flag. -/
structure PathPoint where
  x : ℚ
  y : ℚ
  dist : ℚ
  angle : ℚ
  cone1 : Option Nat
  cone2 : Option Nat
  accepted : Bool
  deriving DecidableEq, Repr

/-- Modelled from the spec: the constructor `PathPoint(x, y)` of
`path_planner.h`; a point built from coordinates has no cone back-references
(the code tests `cone1 != NULL` on the initial point and on the start/finish
point). -/
def PathPoint.ofXY (x y : ℚ) : PathPoint :=
  { x := x, y := y, dist := 0, angle := 0, cone1 := none, cone2 := none, accepted := false }

/-- The C++ `Cone`: position, colour character, passed flag, pairing and
mapping counters, and the two scratch sort keys. -/
structure Cone where
  position : PathPoint
  colour : Char
  passedBy : Bool
  paired : Int
  mapped : Int
  dist : ℚ
  cost : ℚ
  deriving DecidableEq, Repr

/-- Modelled from the spec: `Cone::updateConePos` of `path_planner.h`; "later
observations update position in place until passed". -/
def Cone.updateConePos (c : Cone) (p : PathPoint) : Cone :=
  { c with position := { c.position with x := p.x, y := p.y } }

/-- External functions and the constants of `path_planner.h`. -/
structure Config where
  sqrt : ℚ → ℚ
  atan2 : ℚ → ℚ → ℚ
  M_PI : ℚ
  TRACKWIDTH : ℚ
  CERTAIN_RANGE : ℚ
  MAX_PATH_ANGLE1 : ℚ
  MAX_PATH_ANGLE2 : ℚ
  MIN_POINT_DIST : ℚ
  MAX_POINT_DIST : ℚ
  passedByAll : Bool

/-- The data members of the C++ class `PathPlanner` that the code reads. -/
structure PathPlanner where
  car_pos : PathPoint
  init_pos : PathPoint
  startFinish : PathPoint
  raw_cones : List Cone
  left_unsorted : List Nat
  right_unsorted : List Nat
  left_cones : List Nat
  right_cones : List Nat
  centre_points : List PathPoint
  cenPoints_temp1 : List PathPoint
  cenPoints_temp2 : List PathPoint
  rejected_points : List PathPoint
  thisSide_cone : List Nat
  oppSide_cone : List Nat
  oppSide_cone2 : List Nat
  future_cones : List Nat
  timing_cones : List Nat
  complete : Bool
  left_start_zone : Bool
  reached_end_zone : Bool
  timingCalc : Bool
  newConesToSort : Bool
  newConesSorted : Bool
  gotNewCones : Bool
  passedByAll : Bool
  l_cones_sorted : Bool
  r_cones_sorted : Bool
  leftIndx : Nat
  rightIndx : Nat
  rejectCount : Int
  deriving DecidableEq, Repr

/-- The in/out parameters of `update`: `Path`, `Left`, `Right`, `markers` and
`plannerComp`. -/
structure Output where
  Path : List PathPoint
  Left : List Cone
  Right : List Cone
  markers : List PathPoint
  plannerComp : Bool
  deriving DecidableEq, Repr

/-- The function `calcDist`. -/
def calcDist (cfg : Config) (p1 p2 : PathPoint) : ℚ :=
  let x_dist := (p2.x - p1.x) ^ 2
  let y_dist := (p2.y - p1.y) ^ 2
  cfg.sqrt (x_dist + y_dist)

/-- The function `calcRelativeAngle`: the bearing from `p1` to `p2`, degrees. -/
def calcRelativeAngle (cfg : Config) (p1 p2 : PathPoint) : ℚ :=
  cfg.atan2 (p2.y - p1.y) (p2.x - p1.x) * 180 / cfg.M_PI

/-- Dereference of a `Cone*` handle. -/
def deref (raw : List Cone) (h : Nat) : Except Fault Cone :=
  match raw[h]? with
  | some c => .ok c
  | none => .error .badHandle

/-- Dereference of a possibly-NULL `Cone*`. -/
def derefPtr (raw : List Cone) (p : Option Nat) : Except Fault Cone :=
  match p with
  | none => .error .nullDeref
  | some h => deref raw h

/-- A write through a `Cone*` handle. -/
def modifyCone (raw : List Cone) (h : Nat) (f : Cone → Cone) : Except Fault (List Cone) :=
  match raw[h]? with
  | some c => .ok (raw.set h (f c))
  | none => .error .badHandle

/-- A write through a possibly-NULL `Cone*`. -/
def modifyPtr (raw : List Cone) (p : Option Nat) (f : Cone → Cone) : Except Fault (List Cone) :=
  match p with
  | none => .error .nullDeref
  | some h => modifyCone raw h f

/-- The expression `v.front()`. -/
def front {α : Type} (v : List α) : Except Fault α :=
  match v with
  | [] => .error .emptyAccess
  | a :: _ => .ok a

/-- The expression `v.back()`. -/
def back {α : Type} (v : List α) : Except Fault α :=
  match v.getLast? with
  | none => .error .emptyAccess
  | some a => .ok a

/-- The expression `*(v.end() - 2)`. -/
def back2 {α : Type} (v : List α) : Except Fault α :=
  if 2 ≤ v.length then
    match v[v.length - 2]? with
    | some a => .ok a
    | none => .error .emptyAccess
  else .error .emptyAccess

/-- The call `sort(v.begin(), v.end(), comparePointDist)`. -/
def sortPointsByDist (v : List PathPoint) : List PathPoint :=
  v.insertionSort (fun a b => a.dist ≤ b.dist)

/-- The scratch key a handle is compared by in `compareConeDist`. -/
def coneDist (raw : List Cone) (h : Nat) : ℚ :=
  match raw[h]? with
  | some c => c.dist
  | none => 0

/-- The scratch key a handle is compared by in `compareConeCost`. -/
def coneCost (raw : List Cone) (h : Nat) : ℚ :=
  match raw[h]? with
  | some c => c.cost
  | none => 0

/-- The call `sort(v.begin(), v.end(), compareConeDist)`. -/
def sortConesByKey (key : Nat → ℚ) (v : List Nat) : List Nat :=
  v.insertionSort (fun a b => key a ≤ key b)

namespace PathPlanner

/-- The function `sortPathPoints`: write the distance to `refPoint` into every
point, then sort by it. -/
def sortPathPoints (cfg : Config) (cenPoin : List PathPoint) (refPoint : PathPoint) :
    List PathPoint :=
  sortPointsByDist (cenPoin.map (fun p => { p with dist := calcDist cfg p refPoint }))

/-- The capacity that the constructor reserves for `raw_cones`
(`raw_cones.reserve(500)`). -/
def raw_cones_capacity : Nat := 500

/-- One iteration of the ingest loop of `updateStoredCones` at index `i`, on
`(raw_cones, future_cones, timingCalc)`.  A `push_back` onto a store that has
reached the reserved capacity reallocates it, and every `Cone*` held so far
(in `future_cones`, the boundary sequences, the centre-line points) dangles:
the embedding stops there with a fault. -/
def ingestStep (cfg : Config) (car_pos : PathPoint) (i : Nat) (nc : Cone)
    (st : List Cone × List Nat × Bool) : Except Fault (List Cone × List Nat × Bool) :=
  if i = st.1.length then
    if st.1.length < raw_cones_capacity then .ok (st.1 ++ [nc], st.2.1 ++ [i], st.2.2)
    else .error .badHandle
  else
    match st.1[i]? with
    | none => .error .badHandle
    | some c =>
      if !c.passedBy then
        if calcDist cfg c.position car_pos < cfg.CERTAIN_RANGE then
          .ok (st.1.set i { c with passedBy := true }, st.2.1, st.2.2)
        else
          let raw := st.1.set i (c.updateConePos nc.position)
          if c.colour = 'r' then .ok (raw, st.2.1, false)
          else .ok (raw, st.2.1 ++ [i], st.2.2)
      else
        if c.paired = 0 then .ok (st.1, st.2.1 ++ [i], st.2.2)
        else .ok st

/-- The ingest loop of `updateStoredCones`: `for (i = 0; i < new_cones.size(); i++)`,
started at index `i` on the remaining observations. -/
def ingestLoop (cfg : Config) (car_pos : PathPoint) :
    List Cone → Nat → List Cone × List Nat × Bool → Except Fault (List Cone × List Nat × Bool)
  | [], _, st => .ok st
  | nc :: rest, i, st =>
    match ingestStep cfg car_pos i nc st with
    | .error e => .error e
    | .ok st1 => ingestLoop cfg car_pos rest (i + 1) st1

/-- The trimming loop of `updateStoredCones` on one boundary, given back to
front: pop while the last cone is not passed or unpaired, else record its index. -/
def trimLoop (raw : List Cone) : List Nat → Nat → Except Fault (List Nat × Nat)
  | [], indx => .ok ([], indx)
  | h :: rest, indx =>
    match deref raw h with
    | .error e => .error e
    | .ok c =>
      if !c.passedBy || c.paired = 0 then trimLoop raw rest indx
      else .ok (h :: rest, rest.length)

/-- The trimming of one boundary sequence in `updateStoredCones`. -/
def trimCones (raw : List Cone) (cones : List Nat) (indx : Nat) :
    Except Fault (List Nat × Nat) :=
  match trimLoop raw cones.reverse indx with
  | .error e => .error e
  | .ok (r, i) => .ok (r.reverse, i)

/-- The function `updateStoredCones`. -/
def updateStoredCones (cfg : Config) (s : PathPlanner) (new_cones : List Cone) :
    Except Fault PathPlanner :=
  let got := if s.raw_cones.length ≠ new_cones.length then true else s.gotNewCones
  match ingestLoop cfg s.car_pos new_cones 0 (s.raw_cones, s.future_cones, s.timingCalc) with
  | .error e => .error e
  | .ok (raw, future, tc) =>
    match trimCones raw s.left_cones s.leftIndx with
    | .error e => .error e
    | .ok (left, li) =>
      match trimCones raw s.right_cones s.rightIndx with
      | .error e => .error e
      | .ok (right, ri) =>
        .ok { s with gotNewCones := got, raw_cones := raw, future_cones := future,
                     timingCalc := tc, left_cones := left, leftIndx := li,
                     right_cones := right, rightIndx := ri }

/-- The classification loop of `addCones` over `future_cones`, on
`(left_unsorted, right_unsorted, timing_cones, l_cones_sorted, r_cones_sorted,
newConesToSort)`. -/
def classifyLoop (raw : List Cone) :
    List Nat → List Nat × List Nat × List Nat × Bool × Bool × Bool →
      Except Fault (List Nat × List Nat × List Nat × Bool × Bool × Bool)
  | [], acc => .ok acc
  | h :: rest, (lu, ru, tm, ls, rs, nts) =>
    match deref raw h with
    | .error e => .error e
    | .ok c =>
      if c.colour = 'b' then classifyLoop raw rest (lu ++ [h], ru, tm, false, rs, true)
      else if c.colour = 'y' then classifyLoop raw rest (lu, ru ++ [h], tm, ls, false, true)
      else classifyLoop raw rest (lu, ru, tm ++ [h], ls, rs, nts)

/-- The function `addCones`. -/
def addCones (cfg : Config) (s : PathPlanner) (new_cones : List Cone) :
    Except Fault PathPlanner :=
  match updateStoredCones cfg s new_cones with
  | .error e => .error e
  | .ok s1 =>
    if s1.gotNewCones || !s1.passedByAll then
      match classifyLoop s1.raw_cones s1.future_cones
          (s1.left_unsorted, s1.right_unsorted, s1.timing_cones, s1.l_cones_sorted,
            s1.r_cones_sorted, s1.newConesToSort) with
      | .error e => .error e
      | .ok (lu, ru, tm, ls, rs, nts) =>
        .ok { s1 with left_unsorted := lu, right_unsorted := ru, timing_cones := tm,
                      l_cones_sorted := ls, r_cones_sorted := rs, newConesToSort := nts }
    else .ok s1

/-- The nearest-point scan of `updateCentrePoints`, on the centre-line given
back to front: `nearest_indx` moves while the distance strictly decreases. -/
def nearestLoop (cfg : Config) (car_pos : PathPoint) : List PathPoint → ℚ → Int → Int
  | [], _, nearest => nearest
  | p :: rest, min_dist, nearest =>
    if calcDist cfg car_pos p < min_dist then
      nearestLoop cfg car_pos rest (calcDist cfg car_pos p) (rest.length : Int)
    else nearest

/-- The statement pair `c->paired--` on the two cones of a popped point. -/
def unpairPoint (raw : List Cone) (p : PathPoint) : Except Fault (List Cone) :=
  match modifyPtr raw p.cone1 (fun c => { c with paired := c.paired - 1 }) with
  | .error e => .error e
  | .ok raw1 => modifyPtr raw1 p.cone2 (fun c => { c with paired := c.paired - 1 })

/-- The second loop of `updateCentrePoints`, on `(centre_points back to front,
raw_cones, timingCalc)`: pop trailing points above index 1 that have no cones
or a cone not yet passed. -/
def popUnpassedLoop : List PathPoint → List Cone → Bool →
    Except Fault (List PathPoint × List Cone × Bool)
  | [], raw, tc => .ok ([], raw, tc)
  | p :: rest, raw, tc =>
    if 1 < rest.length then
      match p.cone1, p.cone2 with
      | some a, some b =>
        match deref raw a, deref raw b with
        | .ok ca, .ok cb =>
          if !ca.passedBy || !cb.passedBy then
            match unpairPoint raw p with
            | .error e => .error e
            | .ok raw1 => popUnpassedLoop rest raw1 tc
          else .ok (p :: rest, raw, tc)
        | .error e, _ => .error e
        | _, .error e => .error e
      | _, _ => popUnpassedLoop rest raw false
    else .ok (p :: rest, raw, tc)

/-- The third loop of `updateCentrePoints`, on `(centre_points back to front,
raw_cones)`: pop every point whose index is greater than `nearest_indx + 2`. -/
def capLoop (nearest : Int) : List PathPoint → List Cone →
    Except Fault (List PathPoint × List Cone)
  | [], raw => .ok ([], raw)
  | p :: rest, raw =>
    if nearest + 2 < (rest.length : Int) then
      match unpairPoint raw p with
      | .error e => .error e
      | .ok raw1 => capLoop nearest rest raw1
    else .ok (p :: rest, raw)

/-- The value of `nearest_indx` that `updateCentrePoints` computes. -/
def nearestIndx (cfg : Config) (s : PathPlanner) : Int :=
  nearestLoop cfg s.car_pos s.centre_points.reverse 9000 (-1)

/-- The function `updateCentrePoints`. -/
def updateCentrePoints (cfg : Config) (s : PathPlanner) : Except Fault PathPlanner :=
  if s.centre_points.length ≤ 2 then .ok s
  else
    let nearest_indx := nearestIndx cfg s
    match popUnpassedLoop s.centre_points.reverse s.raw_cones s.timingCalc with
    | .error e => .error e
    | .ok (cps, raw, tc) =>
      if nearest_indx ≠ -1 ∨ nearest_indx + 2 < (cps.length : Int) - 1 then
        match capLoop nearest_indx cps raw with
        | .error e => .error e
        | .ok (cps2, raw2) =>
          .ok { s with centre_points := cps2.reverse, raw_cones := raw2, timingCalc := tc }
      else .ok { s with centre_points := cps.reverse, raw_cones := raw, timingCalc := tc }

/-- The summation loop of `centralizeTimingCones`. -/
def sumPositions (raw : List Cone) : List Nat → PathPoint → Except Fault PathPoint
  | [], acc => .ok acc
  | h :: rest, acc =>
    match deref raw h with
    | .error e => .error e
    | .ok c => sumPositions raw rest { acc with x := acc.x + c.position.x, y := acc.y + c.position.y }

/-- The loop `for (auto &t : timing_cones) t->paired++`. -/
def pairAll (raw : List Cone) : List Nat → Except Fault (List Cone)
  | [] => .ok raw
  | h :: rest =>
    match modifyCone raw h (fun c => { c with paired := c.paired + 1 }) with
    | .error e => .error e
    | .ok raw1 => pairAll raw1 rest

/-- The average point that `centralizeTimingCones` computes. -/
def timingAverage (s : PathPlanner) : Except Fault PathPoint :=
  match sumPositions s.raw_cones s.timing_cones (PathPoint.ofXY 0 0) with
  | .error e => .error e
  | .ok sum =>
    .ok { sum with x := sum.x / (s.timing_cones.length : ℚ), y := sum.y / (s.timing_cones.length : ℚ) }

/-- The function `centralizeTimingCones`. -/
def centralizeTimingCones (cfg : Config) (s : PathPlanner) : Except Fault PathPlanner :=
  match s.timing_cones with
  | [] => .ok s
  | t0 :: _ =>
    match timingAverage s, deref s.raw_cones t0 with
    | .error e, _ => .error e
    | _, .error e => .error e
    | .ok avg_point, .ok c0 =>
      let coneTemp := PathPoint.ofXY c0.position.x c0.position.y
      let dist := calcDist cfg coneTemp avg_point
      let angle := calcRelativeAngle cfg s.init_pos avg_point
      if dist < cfg.TRACKWIDTH ∧ |angle| < 20 then
        let startFinish := { avg_point with angle := angle }
        match pairAll s.raw_cones s.timing_cones with
        | .error e => .error e
        | .ok raw =>
          .ok { s with startFinish := startFinish, timingCalc := true,
                       centre_points := s.centre_points ++ [startFinish], raw_cones := raw }
      else .ok { s with timingCalc := false }

/-- The scan loop of `findOppositeClosest`, on the candidate handles given back
to front, with the running `min_dist`, `closest_cone` and `count`. -/
def closestLoop (cfg : Config) (raw : List Cone) (cone : Cone) :
    List Nat → ℚ → Nat → Nat → Except Fault Nat
  | [], _, closest, _ => .ok closest
  | h :: rest, min_dist, closest, count =>
    match deref raw h with
    | .error e => .error e
    | .ok c =>
      let dist := calcDist cfg cone.position c.position
      if dist < min_dist then
        closestLoop cfg raw cone rest dist h 1
      else if count = 10 then .ok closest
      else closestLoop cfg raw cone rest min_dist closest (count + 1)

/-- The function `findOppositeClosest`. -/
def findOppositeClosest (cfg : Config) (raw : List Cone) (cone : Cone) (cones : List Nat) :
    Except Fault Nat :=
  match back cones with
  | .error e => .error e
  | .ok last => closestLoop cfg raw cone cones.reverse 9999 last 0

/-- The function `generateCentrePoint`; the result is the midpoint, the
`feasible` flag and the new `rejected_points`. -/
def generateCentrePoint (cfg : Config) (raw : List Cone) (cone_one cone_two : Nat)
    (cenPoints_temp : List PathPoint) (rejected_points : List PathPoint) :
    Except Fault (PathPoint × Bool × List PathPoint) :=
  match deref raw cone_one, deref raw cone_two with
  | .error e, _ => .error e
  | _, .error e => .error e
  | .ok c1, .ok c2 =>
    let midpoint := PathPoint.ofXY ((c1.position.x + c2.position.x) / 2)
      ((c1.position.y + c2.position.y) / 2)
    let dist := calcDist cfg c1.position c2.position
    if dist > cfg.TRACKWIDTH * (3 / 2) ∨ dist < cfg.TRACKWIDTH * (1 / 2) then
      let rej := { midpoint with cone1 := some cone_one, cone2 := some cone_two }
      .ok (rej, false, rejected_points ++ [rej])
    else
      match back cenPoints_temp, back2 cenPoints_temp with
      | .error e, _ => .error e
      | _, .error e => .error e
      | .ok b1, .ok b2 =>
        let dist_back1 := calcDist cfg b1 midpoint
        let angle1 := calcRelativeAngle cfg b1 midpoint
        let angle2 := calcRelativeAngle cfg b2 b1
        let angle := angle1 - angle2
        if (|angle| < cfg.MAX_PATH_ANGLE1 ∨ |angle| > cfg.MAX_PATH_ANGLE2)
            ∧ dist_back1 > cfg.MIN_POINT_DIST ∧ dist_back1 < cfg.MAX_POINT_DIST then
          .ok ({ midpoint with cone1 := some cone_one, cone2 := some cone_two, angle := angle },
            true, rejected_points)
        else
          let rej := { midpoint with cone1 := some cone_one, cone2 := some cone_two }
          .ok (rej, false, rejected_points ++ [rej])

/-- One side walk of `addCentrePoints`, over the handles of this side from the
anchor index on, with the counter `c`, the side's temporary list and
`rejected_points`. -/
def walkLoop (cfg : Config) (raw : List Cone) (opp : List Nat) :
    List Nat → Nat → List PathPoint → List PathPoint →
      Except Fault (List PathPoint × List PathPoint)
  | [], _, temp, rej => .ok (temp, rej)
  | h :: rest, c, temp, rej =>
    if c = 2 then .ok (temp, rej)
    else
      match deref raw h with
      | .error e => .error e
      | .ok cone =>
        if !cone.passedBy || cone.paired < 3 then
          match findOppositeClosest cfg raw cone opp with
          | .error e => .error e
          | .ok opp_cone =>
            match generateCentrePoint cfg raw h opp_cone temp rej with
            | .error e => .error e
            | .ok (cp, feasible, rej1) =>
              if feasible then walkLoop cfg raw opp rest (c + 1) (temp ++ [cp]) rej1
              else walkLoop cfg raw opp rest c temp rej1
        else walkLoop cfg raw opp rest c temp rej

/-- The merge of the two temporary lists in `addCentrePoints`: `temp` starts as
`cenPoints_temp2` and takes every point of `cenPoints_temp1` that has no point
of `cenPoints_temp2` at distance at most 0.1. -/
def mergeTemp (cfg : Config) (temp1 temp2 : List PathPoint) : List PathPoint :=
  temp2 ++ temp1.filter (fun p1 => !(temp2.any (fun p2 => decide (calcDist cfg p1 p2 ≤ 1 / 10))))

/-- The statements `paired++; mapped++` on one cone. -/
def pairAndMap (c : Cone) : Cone :=
  { c with paired := c.paired + 1, mapped := c.mapped + 1 }

/-- The final loop of `addCentrePoints` over `temp[2], temp[3], ...`, on
`(raw_cones, centre_points)`. -/
def appendLoop : List PathPoint → List Cone → List PathPoint →
    Except Fault (List Cone × List PathPoint)
  | [], raw, cps => .ok (raw, cps)
  | p :: rest, raw, cps =>
    match modifyPtr raw p.cone1 pairAndMap with
    | .error e => .error e
    | .ok raw1 =>
      match modifyPtr raw1 p.cone2 pairAndMap with
      | .error e => .error e
      | .ok raw2 => appendLoop rest raw2 (cps ++ [p])

/-- The function `addCentrePoints`. -/
def addCentrePoints (cfg : Config) (s : PathPlanner) : Except Fault PathPlanner :=
  if s.left_cones = [] ∨ s.right_cones = [] then .ok s
  else
    match back2 s.centre_points, back s.centre_points with
    | .error e, _ => .error e
    | _, .error e => .error e
    | .ok b2, .ok b1 =>
      match walkLoop cfg s.raw_cones s.right_cones (s.left_cones.drop s.leftIndx) 0 [b2, b1]
          s.rejected_points with
      | .error e => .error e
      | .ok (temp1, rej1) =>
        match walkLoop cfg s.raw_cones s.left_cones (s.right_cones.drop s.rightIndx) 0 [b2, b1]
            rej1 with
        | .error e => .error e
        | .ok (temp2, rej2) =>
          match front (mergeTemp cfg temp1 temp2) with
          | .error e => .error e
          | .ok t0 =>
            match appendLoop ((sortPathPoints cfg (mergeTemp cfg temp1 temp2) t0).drop 2)
                s.raw_cones s.centre_points with
            | .error e => .error e
            | .ok (raw, cps) =>
              .ok { s with cenPoints_temp1 := temp1, cenPoints_temp2 := temp2,
                           rejected_points := rej2, raw_cones := raw, centre_points := cps }

/-- The loops `cone->dist = calcDist(pos, cone->position)` of `sortConesByDist`. -/
def assignDist (cfg : Config) (pos : PathPoint) : List Nat → List Cone → Except Fault (List Cone)
  | [], raw => .ok raw
  | h :: rest, raw =>
    match modifyCone raw h (fun c => { c with dist := calcDist cfg pos c.position }) with
    | .error e => .error e
    | .ok raw1 => assignDist cfg pos rest raw1

/-- The function `sortConesByDist`. -/
def sortConesByDist (cfg : Config) (s : PathPlanner) (pos : PathPoint) :
    Except Fault PathPlanner :=
  if s.left_unsorted = [] ∨ s.right_unsorted = [] then .ok s
  else
    match assignDist cfg pos s.left_unsorted s.raw_cones with
    | .error e => .error e
    | .ok raw1 =>
      match assignDist cfg pos s.right_unsorted raw1 with
      | .error e => .error e
      | .ok raw2 =>
        let lu := if 1 < s.left_unsorted.length then
          sortConesByKey (coneDist raw2) s.left_unsorted else s.left_unsorted
        let ru := if 1 < s.right_unsorted.length then
          sortConesByKey (coneDist raw2) s.right_unsorted else s.right_unsorted
        .ok { s with raw_cones := raw2, left_unsorted := lu, right_unsorted := ru,
                     l_cones_sorted := true, r_cones_sorted := true,
                     left_cones := s.left_cones ++ lu, right_cones := s.right_cones ++ ru }

/-- The function `addFirstCentrePoints`. -/
def addFirstCentrePoints (cfg : Config) (s : PathPlanner) : Except Fault PathPlanner :=
  match sortConesByDist cfg s s.init_pos with
  | .error e => .error e
  | .ok s1 =>
    match front s1.left_cones, front s1.right_cones with
    | .error e, _ => .error e
    | _, .error e => .error e
    | .ok l, .ok r =>
      match deref s1.raw_cones l, deref s1.raw_cones r with
      | .error e, _ => .error e
      | _, .error e => .error e
      | .ok cl, .ok cr =>
        let p := { PathPoint.ofXY ((cl.position.x + cr.position.x) / 2)
                     ((cl.position.y + cr.position.y) / 2) with
                   cone1 := some l, cone2 := some r }
        match modifyCone s1.raw_cones l pairAndMap with
        | .error e => .error e
        | .ok raw1 =>
          match modifyCone raw1 r pairAndMap with
          | .error e => .error e
          | .ok raw2 =>
            .ok { s1 with centre_points := s1.centre_points ++ [p], raw_cones := raw2 }

/-- The function `computeCost1`. -/
def computeCost1 (cfg : Config) (raw : List Cone) (cn1 cn2 : Nat) : Except Fault ℚ :=
  match deref raw cn1, deref raw cn2 with
  | .error e, _ => .error e
  | _, .error e => .error e
  | .ok c1, .ok c2 => .ok (calcDist cfg c1.position c2.position)

/-- The function `computeCost2a`. -/
def computeCost2a (cfg : Config) (raw : List Cone) (cn1 : Nat) (oppCone1 oppCone2 : List Nat) :
    Except Fault ℚ :=
  match deref raw cn1 with
  | .error e => .error e
  | .ok c1 =>
    match findOppositeClosest cfg raw c1 oppCone1 with
    | .error e => .error e
    | .ok opp_cone =>
      match deref raw opp_cone with
      | .error e => .error e
      | .ok oc =>
        let dist1 := calcDist cfg c1.position oc.position
        if 0 < oppCone2.length then
          match findOppositeClosest cfg raw c1 oppCone2 with
          | .error e => .error e
          | .ok opp_cone2 =>
            match deref raw opp_cone2 with
            | .error e => .error e
            | .ok oc2 => .ok (min dist1 (calcDist cfg c1.position oc2.position))
        else .ok (min dist1 99)

/-- The loop of `computeCost2b`, on the opposite handles given back to front;
when no cone is passed the C++ function ends without a `return`. -/
def cost2bLoop (cfg : Config) (raw : List Cone) (c1 : Cone) : List Nat → Except Fault ℚ
  | [] => .error .noReturn
  | h :: rest =>
    match deref raw h with
    | .error e => .error e
    | .ok oc =>
      if oc.passedBy then .ok (calcDist cfg c1.position oc.position)
      else cost2bLoop cfg raw c1 rest

/-- The function `computeCost2b`. -/
def computeCost2b (cfg : Config) (raw : List Cone) (cn1 : Nat) (oppCone : List Nat) :
    Except Fault ℚ :=
  match deref raw cn1 with
  | .error e => .error e
  | .ok c1 => cost2bLoop cfg raw c1 oppCone.reverse

/-- The function `computeCost3`. -/
def computeCost3 (cfg : Config) (raw : List Cone) (cn1 : Nat) (cn2 : List Nat) :
    Except Fault ℚ :=
  if cn2.length < 2 then .ok 0
  else
    match back cn2, back2 cn2 with
    | .error e, _ => .error e
    | _, .error e => .error e
    | .ok hi, .ok hi1 =>
      match deref raw hi, deref raw hi1, deref raw cn1 with
      | .ok ci, .ok ci1, .ok c1 =>
        let theta1 := cfg.atan2 (ci.position.y - ci1.position.y) (ci.position.x - ci1.position.x)
        let theta2 := cfg.atan2 (ci.position.y - c1.position.y) (ci.position.x - c1.position.x)
        .ok (theta1 - theta2)
      | .error e, _, _ => .error e
      | _, .error e, _ => .error e
      | _, _, .error e => .error e

/-- The cost loop of `sortAndPushCone`: `cn[i]->cost` is assigned for every
staged cone. -/
def costLoop (cfg : Config) (thisSide oppSide : List Nat) : List Nat → List Cone →
    Except Fault (List Cone)
  | [], raw => .ok raw
  | h :: rest, raw =>
    match back thisSide with
    | .error e => .error e
    | .ok last =>
      match computeCost1 cfg raw h last, computeCost2b cfg raw h oppSide,
          computeCost3 cfg raw h thisSide with
      | .ok cost1, .ok cost2, .ok cost3 =>
        match modifyCone raw h (fun c =>
            { c with cost := cost1 * cost1 + 2 * cost2 * cost2 + (3 / 2) * cost3 * cost3 }) with
        | .error e => .error e
        | .ok raw1 => costLoop cfg thisSide oppSide rest raw1
      | .error e, _, _ => .error e
      | _, .error e, _ => .error e
      | _, _, .error e => .error e

/-- Which member vector `sortAndPushCone` is called on. -/
inductive Side where
  | left
  | right
  deriving DecidableEq, Repr

/-- The function `sortAndPushCone`, called on `left_unsorted` (`Side.left`) or
on `right_unsorted` (`Side.right`); the local `colour` is `none` while it is
uninitialised. -/
def sortAndPushCone (cfg : Config) (s : PathPlanner) (side : Side) : Except Fault PathPlanner :=
  let cn := match side with
    | .left => s.left_unsorted
    | .right => s.right_unsorted
  match cn with
  | [] => .ok s
  | h0 :: _ =>
    match deref s.raw_cones h0 with
    | .error e => .error e
    | .ok c0 =>
      let colour : Option Char :=
        if c0.colour = 'b' then some 'b' else if c0.colour = 'y' then some 'y' else none
      let thisSide := if c0.colour = 'b' then s.left_cones
        else if c0.colour = 'y' then s.right_cones else []
      let oppSide := if c0.colour = 'b' then s.right_cones
        else if c0.colour = 'y' then s.left_cones else []
      let oppSide2 := if c0.colour = 'b' then s.right_unsorted
        else if c0.colour = 'y' then s.left_unsorted else []
      let s1 := { s with thisSide_cone := thisSide, oppSide_cone := oppSide,
                         oppSide_cone2 := oppSide2 }
      if cn.length < 2 then
        match back cn with
        | .error e => .error e
        | .ok last =>
          match computeCost2a cfg s.raw_cones last oppSide oppSide2 with
          | .error e => .error e
          | .ok cost2 =>
            if cost2 < cfg.TRACKWIDTH * (5 / 4) then
              match colour with
              | none => .error .uninitialised
              | some col =>
                if col = 'b' then
                  .ok { s1 with left_cones := s.left_cones ++ [last], newConesSorted := true }
                else
                  .ok { s1 with right_cones := s.right_cones ++ [last], newConesSorted := true }
            else .ok s1
      else
        match costLoop cfg thisSide oppSide cn s.raw_cones with
        | .error e => .error e
        | .ok raw =>
          let sorted := sortConesByKey (coneCost raw) cn
          let s2 := match side with
            | .left => { s1 with raw_cones := raw, left_unsorted := sorted }
            | .right => { s1 with raw_cones := raw, right_unsorted := sorted }
          match colour with
          | none => .error .uninitialised
          | some col =>
            if col = 'b' then
              .ok { s2 with left_cones := s.left_cones ++ sorted, newConesSorted := true }
            else
              .ok { s2 with right_cones := s.right_cones ++ sorted, newConesSorted := true }

/-- The function `joinFeasible`; when the closeness test holds and the angle
test fails the C++ function ends without a `return`. -/
def joinFeasible (cfg : Config) (s : PathPlanner) : Except Fault Bool :=
  match back s.centre_points with
  | .error e => .error e
  | .ok b =>
    let dist := calcDist cfg b s.init_pos
    let near : Except Fault Bool :=
      if dist < 5 then .ok true
      else
        match front s.left_cones with
        | .error e => .error e
        | .ok l =>
          match deref s.raw_cones l with
          | .error e => .error e
          | .ok c => .ok (decide (calcDist cfg s.car_pos c.position < cfg.CERTAIN_RANGE))
    match near with
    | .error e => .error e
    | .ok false => .ok false
    | .ok true =>
      match front s.centre_points, back2 s.centre_points with
      | .error e, _ => .error e
      | _, .error e => .error e
      | .ok f, .ok b2 =>
        let angle := calcRelativeAngle cfg f b - calcRelativeAngle cfg b b2
        if |angle| < cfg.MAX_PATH_ANGLE1 ∨ |angle| > cfg.MAX_PATH_ANGLE2 then .ok true
        else .error .noReturn

/-- The first loop of `returnResult`, over the centre-line with the counter
`j`, on `(cp, markers)`; `n` is `centre_points.size()`. -/
def pathLoop (raw : List Cone) (n : Nat) : List PathPoint → Nat →
    List PathPoint × List PathPoint → Except Fault (List PathPoint × List PathPoint)
  | [], _, acc => .ok acc
  | e :: rest, j, (cp, markers) =>
    if e.cone1 ≠ none ∧ n - (j + 1) < 10 then
      match derefPtr raw e.cone1, derefPtr raw e.cone2 with
      | .error err, _ => .error err
      | _, .error err => .error err
      | .ok c1, .ok c2 =>
        pathLoop raw n rest (j + 1)
          (cp ++ [e], markers ++ [{ c1.position with accepted := true },
            { c2.position with accepted := true }])
    else pathLoop raw n rest (j + 1) (cp ++ [e], markers)

/-- The loop of `returnResult` over `rejected_points`. -/
def rejectedLoop (raw : List Cone) : List PathPoint → List PathPoint →
    Except Fault (List PathPoint)
  | [], markers => .ok markers
  | r :: rest, markers =>
    match derefPtr raw r.cone1, derefPtr raw r.cone2 with
    | .error err, _ => .error err
    | _, .error err => .error err
    | .ok c1, .ok c2 =>
      rejectedLoop raw rest
        (markers ++ [{ c1.position with accepted := false }, { c2.position with accepted := false }])

/-- The loops `Left.push_back(*lc)` and `Right.push_back(*rc)` of `returnResult`. -/
def copyCones (raw : List Cone) : List Nat → List Cone → Except Fault (List Cone)
  | [], acc => .ok acc
  | h :: rest, acc =>
    match deref raw h with
    | .error e => .error e
    | .ok c => copyCones raw rest (acc ++ [c])

/-- The function `returnResult`. -/
def returnResult (s : PathPlanner) (out : Output) : Except Fault (PathPlanner × Output) :=
  match pathLoop s.raw_cones s.centre_points.length s.centre_points 0 (out.Path, out.markers) with
  | .error e => .error e
  | .ok (cp, markers1) =>
    let rc := if s.rejected_points ≠ [] then s.rejectCount + 1 else s.rejectCount
    match rejectedLoop s.raw_cones s.rejected_points markers1 with
    | .error e => .error e
    | .ok markers2 =>
      match copyCones s.raw_cones s.left_cones out.Left,
          copyCones s.raw_cones s.right_cones out.Right with
      | .error e, _ => .error e
      | _, .error e => .error e
      | .ok l, .ok r =>
        .ok ({ s with rejectCount := rc },
             { out with Path := cp, markers := markers2, Left := l, Right := r })

/-- The function `resetTempConeVectors`. -/
def resetTempConeVectors (s : PathPlanner) : PathPlanner :=
  let s1 := { s with left_unsorted := [], right_unsorted := [], oppSide_cone := [],
                     thisSide_cone := [], future_cones := [], l_cones_sorted := false,
                     r_cones_sorted := false, newConesToSort := false, newConesSorted := false,
                     gotNewCones := false }
  if s1.rejectCount > 5 then { s1 with rejected_points := [], rejectCount := 0 } else s1

/-- Modelled from the spec: the member initialisers of `path_planner.h`, i.e.
the planner before the constructor body runs: every vector empty, the
loop-closure state machine in `NotStarted` (all flags false), all counters 0;
`passedByAll`, which no function of `path_planner.cpp` assigns, is taken from
the configuration. -/
def initial (cfg : Config) (car_x car_y : ℚ) : PathPlanner :=
  { car_pos := PathPoint.ofXY car_x car_y, init_pos := PathPoint.ofXY car_x car_y,
    startFinish := PathPoint.ofXY 0 0, raw_cones := [], left_unsorted := [],
    right_unsorted := [], left_cones := [], right_cones := [], centre_points := [],
    cenPoints_temp1 := [], cenPoints_temp2 := [], rejected_points := [], thisSide_cone := [],
    oppSide_cone := [], oppSide_cone2 := [], future_cones := [], timing_cones := [],
    complete := false, left_start_zone := false, reached_end_zone := false,
    timingCalc := false, newConesToSort := false, newConesSorted := false,
    gotNewCones := false, passedByAll := cfg.passedByAll, l_cones_sorted := false,
    r_cones_sorted := false, leftIndx := 0, rightIndx := 0, rejectCount := 0 }

/-- The constructor `PathPlanner::PathPlanner`. -/
def construct (cfg : Config) (car_x car_y : ℚ) (cones : List Cone) : Except Fault PathPlanner :=
  match addCones cfg (initial cfg car_x car_y) cones with
  | .error e => .error e
  | .ok s1 =>
    let s2 := { s1 with centre_points := s1.centre_points ++ [PathPoint.ofXY car_x car_y] }
    match addFirstCentrePoints cfg s2 with
    | .error e => .error e
    | .ok s3 =>
      match centralizeTimingCones cfg s3 with
      | .error e => .error e
      | .ok s4 =>
        let s5 := if s4.timingCalc then
          { s4 with centre_points := sortPathPoints cfg s4.centre_points s4.init_pos } else s4
        .ok (resetTempConeVectors s5)

/-- The loop-closure part of `update` (the statements before
`if (!reached_end_zone)`), after `car_pos` has been assigned. -/
def closureStep (cfg : Config) (s : PathPlanner) : Except Fault PathPlanner :=
  if s.left_start_zone then
    match joinFeasible cfg s with
    | .error e => .error e
    | .ok true =>
      .ok { s with centre_points := s.centre_points ++ [s.init_pos], reached_end_zone := true,
                   complete := true }
    | .ok false => .ok s
  else
    if calcDist cfg s.init_pos s.car_pos > 15 then .ok { s with left_start_zone := true }
    else .ok s

/-- The block `if (newConesToSort) ...` of `update`. -/
def sortStep (cfg : Config) (s : PathPlanner) : Except Fault PathPlanner :=
  if s.newConesToSort then
    let timed : Except Fault PathPlanner :=
      if !s.timingCalc && !s.left_start_zone then
        match centralizeTimingCones cfg s with
        | .error e => .error e
        | .ok t => .ok { t with centre_points := sortPathPoints cfg t.centre_points t.init_pos }
      else .ok s
    match timed with
    | .error e => .error e
    | .ok s1 =>
      if s1.left_cones ≠ [] ∧ s1.right_cones ≠ [] then
        match sortAndPushCone cfg s1 .left with
        | .error e => .error e
        | .ok s2 =>
          match sortAndPushCone cfg s2 .right with
          | .error e => .error e
          | .ok s3 => addCentrePoints cfg s3
      else .ok s1
  else .ok s

/-- The block `if (!reached_end_zone) ...` of `update`. -/
def buildStep (cfg : Config) (s : PathPlanner) (new_cones : List Cone) :
    Except Fault PathPlanner :=
  if !s.reached_end_zone then
    match addCones cfg s new_cones with
    | .error e => .error e
    | .ok s1 =>
      match updateCentrePoints cfg s1 with
      | .error e => .error e
      | .ok s2 => sortStep cfg s2
  else .ok s

/-- The function `update`. -/
def update (cfg : Config) (s : PathPlanner) (new_cones : List Cone) (car_x car_y : ℚ)
    (out : Output) : Except Fault (PathPlanner × Output) :=
  if s.complete then
    match returnResult s out with
    | .error e => .error e
    | .ok (s1, out1) => .ok (s1, { out1 with plannerComp := true })
  else
    match closureStep cfg { s with car_pos := PathPoint.ofXY car_x car_y } with
    | .error e => .error e
    | .ok s1 =>
      match buildStep cfg s1 new_cones with
      | .error e => .error e
      | .ok s2 =>
        match returnResult s2 out with
        | .error e => .error e
        | .ok (s3, out3) => .ok (resetTempConeVectors s3, out3)

end PathPlanner

/-- One call of `update` as the host node makes it: observations and pose. -/
structure Frame where
  cones : List Cone
  car_x : ℚ
  car_y : ℚ

/-- The empty output vectors a caller passes to `update`. -/
def Output.empty : Output :=
  { Path := [], Left := [], Right := [], markers := [], plannerComp := false }

/-- A sequence of `update` calls, each with fresh output vectors. -/
def run (cfg : Config) : PathPlanner → List Frame → Except Fault PathPlanner
  | s, [] => .ok s
  | s, f :: rest =>
    match PathPlanner.update cfg s f.cones f.car_x f.car_y Output.empty with
    | .error e => .error e
    | .ok (s1, _) => run cfg s1 rest

/-- Bisection for the integer square root: the invariant is `lo² ≤ n < hi²`. -/
def isqrtAux (n : Nat) : Nat → Nat → Nat → Nat
  | 0, lo, _ => lo
  | fuel + 1, lo, hi =>
    if hi ≤ lo + 1 then lo
    else if ((lo + hi) / 2) * ((lo + hi) / 2) ≤ n then isqrtAux n fuel ((lo + hi) / 2) hi
    else isqrtAux n fuel lo ((lo + hi) / 2)

/-- The integer square root, rounded down. -/
def isqrt (n : Nat) : Nat :=
  isqrtAux n (n + 1) 0 (n + 1)

/-- The integer square root, rounded up. -/
def csqrt (n : Nat) : Nat :=
  if isqrt n * isqrt n = n then isqrt n else isqrt n + 1

/-- A computable stand-in for `sqrt`: the square root rounded up to a multiple
of 1/1000; it is exact on squares of such multiples, monotone, and positive on
positive arguments. -/
def demoSqrt (q : ℚ) : ℚ :=
  (csqrt ⌈q * 1000000⌉₊ : ℚ) / 1000

/-- A computable stand-in for `atan2`, exact (as a multiple of `pi`) on the
axes and the diagonals; any other direction is rounded to its diagonal. -/
def demoAtan2 (pi y x : ℚ) : ℚ :=
  if y = 0 then (if 0 ≤ x then 0 else pi)
  else if x = 0 then (if 0 < y then pi / 2 else -(pi / 2))
  else if 0 < x then (if 0 < y then pi / 4 else -(pi / 4))
  else (if 0 < y then 3 * pi / 4 else -(3 * pi / 4))

/-- A concrete configuration for closed evaluations of the planner: track
width 3, proximity radius 2, angle thresholds 50 and 310 degrees, point spacing
between 1/2 and 7. -/
def demoConfig : Config :=
  { sqrt := demoSqrt, atan2 := demoAtan2 (355 / 113), M_PI := 355 / 113, TRACKWIDTH := 3,
    CERTAIN_RANGE := 2, MAX_PATH_ANGLE1 := 50, MAX_PATH_ANGLE2 := 310, MIN_POINT_DIST := 1 / 2,
    MAX_POINT_DIST := 7, passedByAll := false }

/-- A cone as the perception node reports it: position and colour, not passed,
all counters 0. -/
def newCone (x y : ℚ) (colour : Char) : Cone :=
  { position := PathPoint.ofXY x y, colour := colour, passedBy := false, paired := 0,
    mapped := 0, dist := 0, cost := 0 }

/-- The states the planner can be in between two calls of `update`: the result
of the constructor followed by any number of `update` calls, none of which hit
undefined behaviour. -/
def Reachable (cfg : Config) (s : PathPlanner) : Prop :=
  ∃ (car_x car_y : ℚ) (cones : List Cone) (frames : List Frame) (s0 : PathPlanner),
    PathPlanner.construct cfg car_x car_y cones = .ok s0 ∧ run cfg s0 frames = .ok s

deriving instance DecidableEq for Except

/-- The loop-closure flags and the two poses agree in two planner states. -/
def SameZone (s t : PathPlanner) : Prop :=
  t.complete = s.complete ∧ t.left_start_zone = s.left_start_zone ∧
    t.reached_end_zone = s.reached_end_zone ∧ t.init_pos = s.init_pos ∧ t.car_pos = s.car_pos

/-- The function `returnResult` runs to its end on this planner state, whatever
output vectors it is given. -/
def Replayable (s : PathPlanner) : Prop :=
  ∀ out : Output, ∃ r, PathPlanner.returnResult s out = .ok r

/-- The configuration `demoConfig` with the high angle threshold at 150
degrees, the reading of the thresholds as near-straight or near-reversal. -/
def reversalConfig : Config :=
  { demoConfig with MAX_PATH_ANGLE2 := 150 }

/-- One left and one right cone, 3 ahead of the origin, 3 apart. -/
def gateCones : List Cone :=
  [newCone 3 (3 / 2) 'b', newCone 3 (-(3 / 2)) 'y']

/-- The planner constructed at the origin from `gateCones`. -/
def gateStart (cfg : Config) : PathPlanner :=
  match PathPlanner.construct cfg 0 0 gateCones with
  | .ok s => s
  | .error _ => PathPlanner.initial cfg 0 0

/-- The planner `gateStart` after the given frames. -/
def gateAfter (cfg : Config) (frames : List Frame) : PathPlanner :=
  match run cfg (gateStart cfg) frames with
  | .ok s => s
  | .error _ => PathPlanner.initial cfg 0 0

/-- Two frames that show `gateCones` from the pose (16, 0). -/
def farFrames : List Frame :=
  [{ cones := gateCones, car_x := 16, car_y := 0 }, { cones := gateCones, car_x := 16, car_y := 0 }]

/-- A point whose two cone back-references are handles into `raw_cones`. -/
def HasCones (n : Nat) (p : PathPoint) : Prop :=
  ∃ a b, p.cone1 = some a ∧ p.cone2 = some b ∧ a < n ∧ b < n

/-- A planner whose centre-line has four points on the x axis, the last two
with cone back-references, and the car at the origin. -/
def pruneDemo : PathPlanner :=
  { PathPlanner.initial demoConfig 0 0 with
    raw_cones := [{ newCone 3 1 'b' with passedBy := true },
      { newCone 3 (-1) 'y' with passedBy := true }],
    centre_points := [PathPoint.ofXY 0 0, PathPoint.ofXY 1 0,
      { PathPoint.ofXY 2 0 with cone1 := some 0, cone2 := some 1 },
      { PathPoint.ofXY 3 0 with cone1 := some 0, cone2 := some 1 }] }

/-- The list starts with a point at the position of `q`. -/
def HeadAt (q : PathPoint) (l : List PathPoint) : Prop :=
  ∃ p rest, l = p :: rest ∧ p.x = q.x ∧ p.y = q.y

/-- The centre-line starts with a point at the initial position. -/
def Anchored (s : PathPlanner) : Prop :=
  HeadAt s.init_pos s.centre_points

/-- The left/right cone pairs of a straight corridor along the x axis, one pair
at each of the given abscissas, 3 apart. -/
def corridor (xs : List ℚ) : List Cone :=
  match xs with
  | [] => []
  | x :: rest => newCone x (3 / 2) 'b' :: newCone x (-(3 / 2)) 'y' :: corridor rest

/-- Five cone pairs, 3 apart along the track. -/
def corridorCones : List Cone :=
  corridor [3, 6, 9, 12, 15]

/-- The same cones as `corridorCones`, the second pair re-observed at abscissa 4. -/
def corridorSeen : List Cone :=
  corridor [3, 4, 9, 12, 15]

/-- The planner constructed at the origin from `corridorCones`. -/
def corridorStart : PathPlanner :=
  match PathPlanner.construct demoConfig 0 0 corridorCones with
  | .ok s => s
  | .error _ => PathPlanner.initial demoConfig 0 0

/-- The frame that shows `corridorSeen` from the pose (3, 0). -/
def corridorFrame : Frame :=
  { cones := corridorSeen, car_x := 3, car_y := 0 }

/-- The planner `corridorStart` after the given frames. -/
def corridorAfter (frames : List Frame) : PathPlanner :=
  match run demoConfig corridorStart frames with
  | .ok s => s
  | .error _ => PathPlanner.initial demoConfig 0 0

/-- What the ingest loop of `updateStoredCones` does to one stored cone that has
an observation `nc` at its index. -/
def ingestCone (cfg : Config) (car_pos : PathPoint) (c nc : Cone) : Cone :=
  if !c.passedBy then
    if calcDist cfg c.position car_pos < cfg.CERTAIN_RANGE then { c with passedBy := true }
    else c.updateConePos nc.position
  else c

/-- The stored cones after the ingest loop: stored cones with an observation are
updated in place, the remaining ones of the longer list follow unchanged. -/
def ingested (cfg : Config) (car_pos : PathPoint) : List Cone → List Cone → List Cone
  | c :: cs, nc :: ncs => ingestCone cfg car_pos c nc :: ingested cfg car_pos cs ncs
  | [], ncs => ncs
  | cs, [] => cs

/-- The planner built from `gateCones`, with the car moved to (3, 0) between
the two cones, as `update` sets `car_pos` before it ingests. -/
def gateSeen : PathPlanner :=
  { gateStart demoConfig with car_pos := PathPoint.ofXY 3 0 }

/-- An Exploring planner whose centre-line turns left by a right angle after
the first gate: initial position, (3, 0), (3, 3). -/
def cornerDemo (cfg : Config) : PathPlanner :=
  { PathPlanner.initial cfg 0 0 with
    centre_points := [PathPoint.ofXY 0 0, PathPoint.ofXY 3 0, PathPoint.ofXY 3 3],
    left_start_zone := true }

/-- The sums of the x and of the y coordinates of the cones behind a list of
handles. -/
def sumX (raw : List Cone) (hs : List Nat) : ℚ :=
  ((hs.filterMap (fun h => raw[h]?)).map (fun c => c.position.x)).sum

/-- The sum of the y coordinates of the cones behind a list of handles. -/
def sumY (raw : List Cone) (hs : List Nat) : ℚ :=
  ((hs.filterMap (fun h => raw[h]?)).map (fun c => c.position.y)).sum

/-- The arithmetic mean of the positions of the cones in `timing_cones`, as a
point without cone back-references. -/
def timingMean (s : PathPlanner) : PathPoint :=
  PathPoint.ofXY (sumX s.raw_cones s.timing_cones / (s.timing_cones.length : ℚ))
    (sumY s.raw_cones s.timing_cones / (s.timing_cones.length : ℚ))

/-- The acceptance test of `centralizeTimingCones` on the mean: closer to the
first timing cone than the track width, and a bearing from the initial position
of less than 20 degrees either way. -/
def MeanAccepted (cfg : Config) (s : PathPlanner) (c0 : Cone) : Prop :=
  calcDist cfg c0.position (timingMean s) < cfg.TRACKWIDTH ∧
    |calcRelativeAngle cfg s.init_pos (timingMean s)| < 20

/-- The bearings below 20 degrees form a sector that is closed under adding two
displacements and under scaling a displacement by a positive factor, as they do
for the mathematical `atan2`. -/
def SectorClosed (cfg : Config) : Prop :=
  (∀ y1 x1 y2 x2 : ℚ, |cfg.atan2 y1 x1 * 180 / cfg.M_PI| < 20 →
      |cfg.atan2 y2 x2 * 180 / cfg.M_PI| < 20 →
      |cfg.atan2 (y1 + y2) (x1 + x2) * 180 / cfg.M_PI| < 20) ∧
  (∀ k y x : ℚ, 0 < k → |cfg.atan2 y x * 180 / cfg.M_PI| < 20 →
      |cfg.atan2 (k * y) (k * x) * 180 / cfg.M_PI| < 20)

/-- Four timing cones on the x axis, 6 ahead of the origin and 1/5 apart, in a
planner that has just been created at the origin. -/
def timingDemo : PathPlanner :=
  { PathPlanner.initial demoConfig 0 0 with
    raw_cones := [newCone 6 0 'r', newCone (31 / 5) 0 'r', newCone (32 / 5) 0 'r',
      newCone (33 / 5) 0 'r'],
    timing_cones := [0, 1, 2, 3],
    centre_points := [PathPoint.ofXY 0 0] }

/-- The frame that shows `gateCones` from the pose (16, 0). -/
def farFrame : Frame :=
  { cones := gateCones, car_x := 16, car_y := 0 }

/-- The output vectors of the second `farFrame` call on the gate planner. -/
def farOutput : Output :=
  match PathPlanner.update reversalConfig (gateAfter reversalConfig [farFrame]) gateCones 16 0
      Output.empty with
  | .ok r => r.2
  | .error _ => Output.empty

/-- The colour of the cone behind a handle. -/
def colourAt (raw : List Cone) (h : Nat) : Option Char :=
  (raw[h]?).map (fun c => c.colour)

/-- The number of centre-line points whose back-references include the handle. -/
def refCount (cps : List PathPoint) (h : Nat) : Nat :=
  cps.countP (fun p => decide (p.cone1 = some h ∨ p.cone2 = some h))

/-- A point has either no cone back-reference or two different ones. -/
def PointOk (p : PathPoint) : Prop :=
  (p.cone1 = none ∧ p.cone2 = none) ∨ ∃ a b, p.cone1 = some a ∧ p.cone2 = some b ∧ a ≠ b

/-- Every handle of the list is a cone of the given colour. -/
def AllColour (raw : List Cone) (col : Char) (hs : List Nat) : Prop :=
  ∀ h ∈ hs, colourAt raw h = some col

/-- The pairing-count bound for left and right cones: the counter of a blue or
yellow cone is at most the number of centre-line points that reference it. -/
def Bounded (raw : List Cone) (cps : List PathPoint) : Prop :=
  ∀ (h : Nat) (c : Cone), raw[h]? = some c → (c.colour = 'b' ∨ c.colour = 'y') →
    c.paired ≤ (refCount cps h : Int)

/-- The same cones at the same handles, colours kept, each pairing counter
changed by `δ` of its handle. -/
def Shift (δ : Nat → Int) (raw raw2 : List Cone) : Prop :=
  raw2.length = raw.length ∧
    ∀ (h : Nat) (c : Cone), raw[h]? = some c →
      ∃ c2, raw2[h]? = some c2 ∧ c2.colour = c.colour ∧ c2.paired = c.paired + δ h

/-- The invariant behind the pairing-count bound. -/
structure PairInv (s : PathPlanner) : Prop where
  left : AllColour s.raw_cones 'b' s.left_cones
  right : AllColour s.raw_cones 'y' s.right_cones
  leftU : AllColour s.raw_cones 'b' s.left_unsorted
  rightU : AllColour s.raw_cones 'y' s.right_unsorted
  timing : ∀ h ∈ s.timing_cones, ∃ col, colourAt s.raw_cones h = some col ∧ col ≠ 'b' ∧ col ≠ 'y'
  points : ∀ p ∈ s.centre_points, PointOk p
  bound : Bounded s.raw_cones s.centre_points
  init : s.init_pos.cone1 = none ∧ s.init_pos.cone2 = none

/-- Observations as the perception node creates them: pairing counter 0. -/
def FreshCones (cones : List Cone) : Prop :=
  ∀ c ∈ cones, c.paired = 0

/-- Three cones seen at construction: the gate of `gateCones` and one timing
cone 6 ahead of the origin on the x axis. -/
def timedCones : List Cone :=
  gateCones ++ [newCone 6 0 'r']

/-- The planner constructed at the origin from `timedCones`. -/
def timedStart : PathPlanner :=
  match PathPlanner.construct demoConfig 0 0 timedCones with
  | .ok s => s
  | .error _ => PathPlanner.initial demoConfig 0 0

/-- The distance to the car strictly decreases along the scan from the tail of
the centre-line back to index `i`: every point at an index from `i` on is
strictly closer to the car than its successor. -/
def DecreasingTo (cfg : Config) (s : PathPlanner) (i : Nat) : Prop :=
  ∀ (j : Nat) (p q : PathPoint), i ≤ j → s.centre_points[j]? = some p →
    s.centre_points[j + 1]? = some q → calcDist cfg s.car_pos p < calcDist cfg s.car_pos q

/-- The same property on the centre-line given back to front. -/
def DecFrom (cfg : Config) (car : PathPoint) (i : Nat) : List PathPoint → Prop
  | p :: q :: rest =>
    (i ≤ rest.length → calcDist cfg car q < calcDist cfg car p) ∧ DecFrom cfg car i (q :: rest)
  | _ => True

/-- The record `generateCentrePoint` builds for a rejected pair: the midpoint of
the two cones with both back-references. -/
def rejectedRecord (c1 c2 : Cone) (a b : Nat) : PathPoint :=
  { PathPoint.ofXY ((c1.position.x + c2.position.x) / 2) ((c1.position.y + c2.position.y) / 2) with
    cone1 := some a, cone2 := some b }

/-- The track-width gate of `generateCentrePoint`: the two cones are more than
1.5 or less than 0.5 track widths apart. -/
def OffWidth (cfg : Config) (c1 c2 : Cone) : Prop :=
  calcDist cfg c1.position c2.position > cfg.TRACKWIDTH * (3 / 2) ∨
    calcDist cfg c1.position c2.position < cfg.TRACKWIDTH * (1 / 2)

/-- The midpoint of two cones, as `generateCentrePoint` builds it. -/
def midpointOf (c1 c2 : Cone) : PathPoint :=
  PathPoint.ofXY ((c1.position.x + c2.position.x) / 2) ((c1.position.y + c2.position.y) / 2)

/-- The point `generateCentrePoint` returns for an accepted pair: the midpoint
with both back-references and the turn angle. -/
def acceptedRecord (c1 c2 : Cone) (a b : Nat) (angle : ℚ) : PathPoint :=
  { midpointOf c1 c2 with cone1 := some a, cone2 := some b, angle := angle }

/-- The local `angle` of `generateCentrePoint`: the bearing from the latest
point `b1` to the midpoint minus the bearing from `b2` to `b1`. -/
def turnAngle (cfg : Config) (b2 b1 m : PathPoint) : ℚ :=
  calcRelativeAngle cfg b1 m - calcRelativeAngle cfg b2 b1

/-- The acceptance test of `generateCentrePoint`. -/
def Feasible (cfg : Config) (b2 b1 m : PathPoint) : Prop :=
  (|turnAngle cfg b2 b1 m| < cfg.MAX_PATH_ANGLE1 ∨ |turnAngle cfg b2 b1 m| > cfg.MAX_PATH_ANGLE2) ∧
    calcDist cfg b1 m > cfg.MIN_POINT_DIST ∧ calcDist cfg b1 m < cfg.MAX_POINT_DIST

/-- Two cones 3 apart across the x axis at abscissa 6. -/
def nextGate : List Cone :=
  [newCone 6 (3 / 2) 'b', newCone 6 (-(3 / 2)) 'y']

/-- Two cones 9 apart across the x axis: three track widths of `demoConfig`. -/
def wideGate : List Cone :=
  [newCone 0 (9 / 2) 'b', newCone 0 (-(9 / 2)) 'y']

/-- The other side of the track. -/
def PathPlanner.Side.other : PathPlanner.Side → PathPlanner.Side
  | .left => .right
  | .right => .left

/-- The colour character of the cones of a side: blue on the left, yellow on
the right. -/
def PathPlanner.Side.colour : PathPlanner.Side → Char
  | .left => 'b'
  | .right => 'y'

/-- The staged cones of a side: `left_unsorted` or `right_unsorted`. -/
def staged (s : PathPlanner) : PathPlanner.Side → List Nat
  | .left => s.left_unsorted
  | .right => s.right_unsorted

/-- The settled sequence of a side: `left_cones` or `right_cones`. -/
def settled (s : PathPlanner) : PathPlanner.Side → List Nat
  | .left => s.left_cones
  | .right => s.right_cones

/-- One left and one right cone, 1 ahead of the origin, 3 apart: both within
the proximity radius of a car at the origin. -/
def nearGate : List Cone :=
  [newCone 1 (3 / 2) 'b', newCone 1 (-(3 / 2)) 'y']

/-- The planner constructed at the origin from `nearGate`. -/
def nearStart : PathPlanner :=
  match PathPlanner.construct demoConfig 0 0 nearGate with
  | .ok s => s
  | .error _ => PathPlanner.initial demoConfig 0 0

/-- The planner `nearStart` after `addCones` on the given observations, the car
still at the origin: the state in which `update` goes on to `sortAndPushCone`. -/
def nearStaged (cones : List Cone) : PathPlanner :=
  match PathPlanner.addCones demoConfig nearStart cones with
  | .ok s => s
  | .error _ => PathPlanner.initial demoConfig 0 0

/-- The gate of `nearGate` and two further left cones, 30 and 40 ahead. -/
def farLeftCones : List Cone :=
  nearGate ++ [newCone 30 (3 / 2) 'b', newCone 40 (3 / 2) 'b']

/-- The gate of `nearGate` and one further left cone, 2 ahead. -/
def oneLeftCone : List Cone :=
  nearGate ++ [newCone 2 (3 / 2) 'b']

/-- Two cone stores hold, handle by handle, cones with the same position and the
same passed flag. -/
def SameGeom (raw0 raw : List Cone) : Prop :=
  raw.map (fun c => (c.position, c.passedBy)) = raw0.map (fun c => (c.position, c.passedBy))

/-- The cost that the cost loop of `sortAndPushCone` assigns to the staged cone
`h`, evaluated on the cone store `raw`, is `v`. -/
def CompositeCost (cfg : Config) (raw : List Cone) (thisSide oppSide : List Nat) (h : Nat)
    (v : ℚ) : Prop :=
  ∃ (last : Nat) (cost1 cost2 cost3 : ℚ), back thisSide = .ok last ∧
    PathPlanner.computeCost1 cfg raw h last = .ok cost1 ∧
    PathPlanner.computeCost2b cfg raw h oppSide = .ok cost2 ∧
    PathPlanner.computeCost3 cfg raw h thisSide = .ok cost3 ∧
    v = cost1 * cost1 + 2 * cost2 * cost2 + (3 / 2) * cost3 * cost3

/-- A staged left cone at (6, 3/2) and two passed right cones, at (6, -3/2) and
(9, -3/2). -/
def cost2bDemo : List Cone :=
  [newCone 6 (3 / 2) 'b', { newCone 6 (-(3 / 2)) 'y' with passedBy := true },
    { newCone 9 (-(3 / 2)) 'y' with passedBy := true }]

/-- The distance `findOppositeClosest` computes for the candidate behind a
handle (0 for a handle that is no cone of the store). -/
def distTo (cfg : Config) (raw : List Cone) (cone : Cone) (k : Nat) : ℚ :=
  match raw[k]? with
  | some c => calcDist cfg cone.position c.position
  | none => 0

/-- The scan as the specification words it, on the distances in scan order:
`m` is the minimum so far and `fails` the number of consecutive entries that
have failed to improve it; the scan stops with the entry that makes 10 such
failures in a row.  The result is the number of entries scanned. -/
def scanFrom (m : ℚ) (fails : Nat) : List ℚ → Nat
  | [] => 0
  | d :: rest =>
    if d < m then 1 + scanFrom d 0 rest
    else if fails + 1 = 10 then 1
    else 1 + scanFrom m (fails + 1) rest

/-- The number of entries the specification's scan looks at, for the distances
in scan order, starting from the minimum 9999. -/
def scanLength (ds : List ℚ) : Nat :=
  scanFrom 9999 0 ds

/-- A cone at the origin side of two far right cones, 10000 and 20000 away
along the x axis. -/
def farPair : List Cone :=
  [newCone 0 0 'b', newCone 10000 0 'y', newCone 20000 0 'y']

/-- The planner after `addCones` on the given observations (unchanged if
`addCones` does not return). -/
def stagedFrom (cfg : Config) (s : PathPlanner) (cones : List Cone) : PathPlanner :=
  match PathPlanner.addCones cfg s cones with
  | .ok t => t
  | .error _ => s

/-- The planner after the two `sortAndPushCone` calls of `update`, on
`left_unsorted` and then on `right_unsorted` (unchanged if one does not return). -/
def sortedFrom (cfg : Config) (s : PathPlanner) : PathPlanner :=
  match PathPlanner.sortAndPushCone cfg s .left with
  | .ok s2 =>
    match PathPlanner.sortAndPushCone cfg s2 .right with
    | .ok s3 => s3
    | .error _ => s
  | .error _ => s

/-- The gate of `nearGate` and two further gates, 4 and 7 ahead of the origin. -/
def laneCones : List Cone :=
  nearGate ++ [newCone 4 (3 / 2) 'b', newCone 4 (-(3 / 2)) 'y', newCone 7 (3 / 2) 'b',
    newCone 7 (-(3 / 2)) 'y']

/-- The planner `nearStart` after it has ingested and sequenced `laneCones`: the
state in which `update` calls `addCentrePoints`. -/
def laneReady : PathPlanner :=
  sortedFrom demoConfig (nearStaged laneCones)

/-- The gate of `gateCones` and three cones behind it: left cones at abscissas
-1 and 8/5, a right cone at abscissa 1. -/
def backCones : List Cone :=
  gateCones ++ [newCone (-1) (3 / 2) 'b', newCone 1 (-(3 / 2)) 'y', newCone (8 / 5) (3 / 2) 'b']

/-- The planner built from `gateCones` under `reversalConfig`, with the car
between the two cones of the gate, after it has ingested and sequenced
`backCones`. -/
def reverseReady : PathPlanner :=
  sortedFrom reversalConfig
    (stagedFrom reversalConfig { gateStart reversalConfig with car_pos := PathPoint.ofXY 3 0 }
      backCones)

/-- The frame that shows, from the pose (3, 0), the gate of `gateCones` and a
second gate half way back to the origin. -/
def backFrame : Frame :=
  { cones := gateCones ++ [newCone (3 / 2) (3 / 2) 'b', newCone (3 / 2) (-(3 / 2)) 'y'],
    car_x := 3, car_y := 0 }

/-- Position and cone back-references of the points of a list. -/
def pointRefs (l : List PathPoint) : List (ℚ × ℚ × Option Nat × Option Nat) :=
  l.map (fun p => (p.x, p.y, p.cone1, p.cone2))

/-- A point that carries the handles of two stored cones which pass the
track-width gate, and lies at their midpoint. -/
def InWidth (cfg : Config) (raw : List Cone) (p : PathPoint) : Prop :=
  ∃ (a b : Nat) (ca cb : Cone), p.cone1 = some a ∧ p.cone2 = some b ∧
    deref raw a = .ok ca ∧ deref raw b = .ok cb ∧ ¬ OffWidth cfg ca cb ∧
    p.x = (ca.position.x + cb.position.x) / 2 ∧ p.y = (ca.position.y + cb.position.y) / 2

/-- The call does not end by flowing off the end of a non-void function. -/
def Returning {α : Type} (r : Except Fault α) : Prop :=
  r ≠ .error .noReturn

/-- Some cone of the sequence is stored and passed. -/
def HasPassed (raw : List Cone) (l : List Nat) : Prop :=
  ∃ k ∈ l, ∃ c, raw[k]? = some c ∧ c.passedBy = true

/-- Every stored cone that is passed in `raw` is stored and passed in `raw2`. -/
def PassedKept (raw raw2 : List Cone) : Prop :=
  ∀ (k : Nat) (c : Cone), raw[k]? = some c → c.passedBy = true →
    ∃ c2, raw2[k]? = some c2 ∧ c2.passedBy = true

/-- The marker-pair points of a centre-line: position and back-references of
the points that reference a cone. -/
def pairPoints (l : List PathPoint) : List (ℚ × ℚ × Option Nat × Option Nat) :=
  (pointRefs l).filter (fun r => r.2.2.1.isSome || r.2.2.2.isSome)

/-- The frame that shows the gate of `nearGate` from the pose (10, 0). -/
def aheadFrame : Frame :=
  { cones := nearGate, car_x := 10, car_y := 0 }

/-- The frame that shows `laneCones` from the origin. -/
def laneFrame : Frame :=
  { cones := laneCones, car_x := 0, car_y := 0 }

/-- The planner `nearStart` with the car moved to (10, 0), as `update` hands it
to the ingestion. -/
def aheadStart : PathPlanner :=
  { nearStart with car_pos := PathPoint.ofXY 10 0 }

/-- The planner `nearStart` after the tick of `aheadFrame`. -/
def aheadAfter : PathPlanner × Output :=
  (PathPlanner.update demoConfig nearStart nearGate 10 0 Output.empty).toOption.getD
    (nearStart, Output.empty)

/-- The lower pairing-count bound: the counter of every stored cone is at least
the number of centre-line points that reference it, and no centre-line point
references a handle outside the store. -/
def Tallied (raw : List Cone) (cps : List PathPoint) : Prop :=
  (∀ (h : Nat) (c : Cone), raw[h]? = some c → (refCount cps h : Int) ≤ c.paired) ∧
    ∀ h, raw.length ≤ h → refCount cps h = 0

/-- The planner `nearStart` after the tick of `laneFrame`. -/
def laneAfter : PathPlanner :=
  (run demoConfig nearStart [laneFrame]).toOption.getD nearStart

/-- The staging vectors are empty, as between two calls of `update`. -/
def Cleared (s : PathPlanner) : Prop :=
  s.future_cones = [] ∧ s.left_unsorted = [] ∧ s.right_unsorted = []

/-- A cone on which the trimming loop of `updateStoredCones` stops: stored,
passed, pairing counter not 0. -/
def Stable (raw : List Cone) (k : Nat) : Prop :=
  ∃ c, raw[k]? = some c ∧ c.passedBy = true ∧ c.paired ≠ 0

/-- The frame that shows `laneCones` from the pose (7, 0), between the cones of
the third gate. -/
def lastGateFrame : Frame :=
  { cones := laneCones, car_x := 7, car_y := 0 }

/-- The configuration `demoConfig` with the member `passedByAll` initialised to
true. -/
def passedAllConfig : Config :=
  { demoConfig with passedByAll := true }

/-- The planner constructed at the origin from `nearGate` under
`passedAllConfig`. -/
def passedAllStart : PathPlanner :=
  match PathPlanner.construct passedAllConfig 0 0 nearGate with
  | .ok s => s
  | .error _ => PathPlanner.initial passedAllConfig 0 0

/-- The frame that shows, from the pose (7, 0), the cones of `laneCones` and a
fourth gate 10 ahead of the origin. -/
def fourthGateFrame : Frame :=
  { cones := laneCones ++ [newCone 10 (3 / 2) 'b', newCone 10 (-(3 / 2)) 'y'],
    car_x := 7, car_y := 0 }

/-- Modelled from the spec (the general case of the sequencer): `v` is the
composite cost `cost1² + 2·cost2² + 1.5·cost3²` of the staged marker `h`, where
`cost1` is the distance to the last marker of its colour's sequence, `cost2`
the distance to the passed marker nearest the tail of the opposite sequence, and
`cost3` the heading of the last two markers of its colour's sequence minus the
heading from the staged marker to the last one (0 when that sequence has fewer
than two markers). -/
def SequencingCost (cfg : Config) (raw : List Cone) (thisSide oppSide : List Nat) (h : Nat)
    (v : ℚ) : Prop :=
  ∃ (c : Cone) (cost1 cost2 cost3 : ℚ), raw[h]? = some c ∧
    (∃ last cl, thisSide.getLast? = some last ∧ raw[last]? = some cl ∧
      cost1 = calcDist cfg c.position cl.position) ∧
    (∃ pre k post ck, oppSide = pre ++ k :: post ∧ raw[k]? = some ck ∧ ck.passedBy = true ∧
      (∀ j ∈ post, ∃ cj, raw[j]? = some cj ∧ cj.passedBy = false) ∧
      cost2 = calcDist cfg c.position ck.position) ∧
    ((thisSide.length < 2 ∧ cost3 = 0) ∨
      ∃ pre a b ca cb, thisSide = pre ++ [a, b] ∧ raw[a]? = some ca ∧ raw[b]? = some cb ∧
        cost3 = cfg.atan2 (cb.position.y - ca.position.y) (cb.position.x - ca.position.x)
          - cfg.atan2 (cb.position.y - c.position.y) (cb.position.x - c.position.x)) ∧
    v = cost1 * cost1 + 2 * cost2 * cost2 + (3 / 2) * cost3 * cost3

/-- The configuration `reversalConfig` with a nominal track width of 1/2. -/
def narrowConfig : Config :=
  { reversalConfig with TRACKWIDTH := 1 / 2 }

/-- The frame that shows, from the pose (3, 0), the gate of `gateCones` and a
second gate half way back to the origin, its cones 1/2 apart. -/
def narrowFrame : Frame :=
  { cones := gateCones ++ [newCone (3 / 2) (1 / 4) 'b', newCone (3 / 2) (-(1 / 4)) 'y'],
    car_x := 3, car_y := 0 }

/-- A cone without its scratch fields: the counter `mapped`, which no function
of `path_planner.cpp` reads, and the two sort keys `dist` and `cost`, which the
sorting functions assign before they compare by them. -/
def Cone.withoutScratch (c : Cone) : Cone :=
  { c with mapped := 0, dist := 0, cost := 0 }

/-- A point without its scratch sort key `dist`, which `sortPathPoints` assigns
before it compares by it. -/
def PathPoint.withoutScratch (p : PathPoint) : PathPoint :=
  { p with dist := 0 }

/-- Two cone stores that agree, handle by handle, on everything but the scratch
fields of the cones. -/
def SameCones (raw raw2 : List Cone) : Prop :=
  raw.map Cone.withoutScratch = raw2.map Cone.withoutScratch

/-- Two lists of points that agree, index by index, on everything but the
scratch sort key. -/
def SamePoints (l l2 : List PathPoint) : Prop :=
  l.map PathPoint.withoutScratch = l2.map PathPoint.withoutScratch

/-- The planner without its scratch data: the scratch fields of the stored
cones and of the centre-line points, the two temporary lists that
`addCentrePoints` overwrites, the three side copies that `sortAndPushCone`
overwrites, the rejected candidates with their counter, which only the display
output reads, and the staging list and flags that `update` reads only before
the block `if (newConesToSort)` and that `resetTempConeVectors` clears
(`future_cones`, `newConesSorted`, `gotNewCones`, `l_cones_sorted`,
`r_cones_sorted`). -/
def PathPlanner.withoutScratch (s : PathPlanner) : PathPlanner :=
  { s with raw_cones := s.raw_cones.map Cone.withoutScratch,
           centre_points := s.centre_points.map PathPoint.withoutScratch,
           cenPoints_temp1 := [], cenPoints_temp2 := [], rejected_points := [],
           thisSide_cone := [], oppSide_cone := [], oppSide_cone2 := [], future_cones := [],
           newConesSorted := false, gotNewCones := false, l_cones_sorted := false,
           r_cones_sorted := false, rejectCount := 0 }

/-- The planner as a call of `update` on a planner that is not complete has it
on reaching the block `if (newConesToSort)`: after the loop-closure statements
and, unless the end zone is reached, after `addCones` and
`updateCentrePoints`. -/
def entryState (cfg : Config) (s : PathPlanner) (new_cones : List Cone) (car_x car_y : ℚ) :
    Except Fault PathPlanner :=
  match PathPlanner.closureStep cfg { s with car_pos := PathPoint.ofXY car_x car_y } with
  | .error e => .error e
  | .ok s1 =>
    if !s1.reached_end_zone then
      match PathPlanner.addCones cfg s1 new_cones with
      | .error e => .error e
      | .ok s2 => PathPlanner.updateCentrePoints cfg s2
    else .ok s1

/-- Every rejected candidate refers to two cones of the store. -/
def RejectedOk (raw : List Cone) (rej : List PathPoint) : Prop :=
  ∀ r ∈ rej, ∃ a b, r.cone1 = some a ∧ r.cone2 = some b ∧ a < raw.length ∧ b < raw.length

/-- The planner and the output after `update` is called on the planner `s`
with the five-pair corridor observed from pose (3, 0). -/
def steadyAfter (s : PathPlanner) : PathPlanner × Output :=
  (PathPlanner.update demoConfig s corridorCones 3 0 Output.empty).toOption.getD
    (s, Output.empty)

/-- The planner with which a call of `update` on the planner `s`, with the
five-pair corridor observed from pose (3, 0), reaches the block
`if (newConesToSort)`. -/
def steadyEntry (s : PathPlanner) : PathPlanner :=
  (entryState demoConfig s corridorCones 3 0).toOption.getD s

/-! ## Theorems -/

open PathPlanner

theorem SameZone.refl (s : PathPlanner) : SameZone s s := by simp [SameZone]

theorem SameZone.trans {a b c : PathPlanner} (h1 : SameZone a b) (h2 : SameZone b c) :
    SameZone a c := by
  unfold SameZone at *
  obtain ⟨a1, a2, a3, a4, a5⟩ := h1
  obtain ⟨b1, b2, b3, b4, b5⟩ := h2
  exact ⟨b1.trans a1, b2.trans a2, b3.trans a3, b4.trans a4, b5.trans a5⟩

theorem updateStoredCones_zone {cfg : Config} {s t : PathPlanner} {nc : List Cone}
    (h : updateStoredCones cfg s nc = .ok t) : SameZone s t := by
  unfold updateStoredCones at h
  simp only at h
  repeat' (split at h)
  all_goals (first | (cases h; done) | (cases h; simp [SameZone]))

theorem addCones_zone {cfg : Config} {s t : PathPlanner} {nc : List Cone}
    (h : addCones cfg s nc = .ok t) : SameZone s t := by
  unfold addCones at h
  split at h
  · cases h
  · rename_i s1 h1
    have z := updateStoredCones_zone h1
    repeat' (split at h)
    all_goals (first | (cases h; done) | (cases h; exact z.trans (by simp [SameZone])))

theorem updateCentrePoints_zone {cfg : Config} {s t : PathPlanner}
    (h : updateCentrePoints cfg s = .ok t) : SameZone s t := by
  unfold updateCentrePoints at h
  simp only at h
  repeat' (split at h)
  all_goals (first | (cases h; done) | (cases h; simp [SameZone]))

theorem centralizeTimingCones_zone {cfg : Config} {s t : PathPlanner}
    (h : centralizeTimingCones cfg s = .ok t) : SameZone s t := by
  unfold centralizeTimingCones at h
  simp only at h
  repeat' (split at h)
  all_goals (first | (cases h; done) | (cases h; simp [SameZone]))

theorem sortConesByDist_zone {cfg : Config} {s t : PathPlanner} {pos : PathPoint}
    (h : sortConesByDist cfg s pos = .ok t) : SameZone s t := by
  unfold sortConesByDist at h
  simp only at h
  repeat' (split at h)
  all_goals (first | (cases h; done) | (cases h; simp [SameZone]))

theorem addFirstCentrePoints_zone {cfg : Config} {s t : PathPlanner}
    (h : addFirstCentrePoints cfg s = .ok t) : SameZone s t := by
  unfold addFirstCentrePoints at h
  split at h
  · cases h
  · rename_i s1 h1
    have z := sortConesByDist_zone h1
    repeat' (split at h)
    all_goals (first | (cases h; done) | (cases h; exact z.trans (by simp [SameZone])))

theorem addCentrePoints_zone {cfg : Config} {s t : PathPlanner}
    (h : addCentrePoints cfg s = .ok t) : SameZone s t := by
  unfold addCentrePoints at h
  repeat' (split at h)
  all_goals (first | (cases h; done) | (cases h; simp [SameZone]))

theorem sortAndPushCone_zone {cfg : Config} {s t : PathPlanner} {side : Side}
    (h : sortAndPushCone cfg s side = .ok t) : SameZone s t := by
  unfold sortAndPushCone at h
  simp only at h
  repeat' (split at h)
  all_goals (first | (cases h; done) | (cases h; simp [SameZone]))

theorem returnResult_zone {s t : PathPlanner} {out o : Output}
    (h : returnResult s out = .ok (t, o)) : SameZone s t := by
  unfold returnResult at h
  simp only at h
  repeat' (split at h)
  all_goals (first | (cases h; done) | (cases h; simp [SameZone]))

theorem resetTempConeVectors_zone (s : PathPlanner) : SameZone s (resetTempConeVectors s) := by
  unfold resetTempConeVectors
  simp only
  split <;> simp [SameZone]


theorem pathLoop_path (raw : List Cone) (n : Nat) :
    ∀ (cps : List PathPoint) (j : Nat) (cp mk cp2 mk2 : List PathPoint),
      PathPlanner.pathLoop raw n cps j (cp, mk) = .ok (cp2, mk2) → cp2 = cp ++ cps := by
  intro cps
  induction cps with
  | nil =>
    intro j cp mk cp2 mk2 h
    simp [PathPlanner.pathLoop] at h
    simp [h.1]
  | cons e rest ih =>
    intro j cp mk cp2 mk2 h
    unfold PathPlanner.pathLoop at h
    split at h
    · split at h
      · exact absurd h (by simp)
      · exact absurd h (by simp)
      · have := ih _ _ _ _ _ h
        simpa using this
    · have := ih _ _ _ _ _ h
      simpa using this

theorem pathLoop_total (raw : List Cone) (n : Nat) :
    ∀ (cps : List PathPoint) (j : Nat) (acc acc2 r : List PathPoint × List PathPoint),
      PathPlanner.pathLoop raw n cps j acc = .ok r →
      ∃ r2, PathPlanner.pathLoop raw n cps j acc2 = .ok r2 := by
  intro cps
  induction cps with
  | nil =>
    intro j acc acc2 r _
    exact ⟨acc2, by simp [PathPlanner.pathLoop]⟩
  | cons e rest ih =>
    intro j acc acc2 r h
    obtain ⟨cp, mk⟩ := acc
    obtain ⟨cp2, mk2⟩ := acc2
    unfold PathPlanner.pathLoop at h ⊢
    split at h
    · rename_i hc
      rw [if_pos hc]
      split at h
      · exact absurd h (by simp)
      · exact absurd h (by simp)
      · rename_i c1 c2 h1 h2
        simp only [h1, h2]
        exact ih _ _ _ _ h
    · rename_i hc
      rw [if_neg hc]
      exact ih _ _ _ _ h

theorem rejectedLoop_total (raw : List Cone) :
    ∀ (rej : List PathPoint) (mk mk2 r : List PathPoint),
      PathPlanner.rejectedLoop raw rej mk = .ok r →
      ∃ r2, PathPlanner.rejectedLoop raw rej mk2 = .ok r2 := by
  intro rej
  induction rej with
  | nil =>
    intro mk mk2 r _
    exact ⟨mk2, by simp [PathPlanner.rejectedLoop]⟩
  | cons e rest ih =>
    intro mk mk2 r h
    unfold PathPlanner.rejectedLoop at h ⊢
    split at h
    · exact absurd h (by simp)
    · exact absurd h (by simp)
    · rename_i c1 c2 h1 h2
      simp only [h1, h2]
      exact ih _ _ _ h

theorem copyCones_total (raw : List Cone) :
    ∀ (hs : List Nat) (acc acc2 r : List Cone),
      PathPlanner.copyCones raw hs acc = .ok r →
      ∃ r2, PathPlanner.copyCones raw hs acc2 = .ok r2 := by
  intro hs
  induction hs with
  | nil =>
    intro acc acc2 r _
    exact ⟨acc2, by simp [PathPlanner.copyCones]⟩
  | cons e rest ih =>
    intro acc acc2 r h
    unfold PathPlanner.copyCones at h ⊢
    split at h
    · exact absurd h (by simp)
    · rename_i c h1
      exact ih _ _ _ h

theorem returnResult_effect {s t : PathPlanner} {out o : Output}
    (h : PathPlanner.returnResult s out = .ok (t, o)) :
    t = { s with rejectCount :=
            if s.rejected_points ≠ [] then s.rejectCount + 1 else s.rejectCount } ∧
      o.Path = out.Path ++ s.centre_points ∧ o.plannerComp = out.plannerComp := by
  unfold PathPlanner.returnResult at h
  split at h
  · cases h
  · rename_i cp mk1 h1
    have hp := pathLoop_path _ _ _ _ _ _ _ _ h1
    simp only at h
    split at h
    · cases h
    · split at h
      · cases h
      · cases h
      · cases h
        exact ⟨rfl, hp, rfl⟩

theorem returnResult_total {s : PathPlanner} {out : Output} {r : PathPlanner × Output}
    (h : PathPlanner.returnResult s out = .ok r) (s2 : PathPlanner) (out2 : Output)
    (h1 : s2.raw_cones = s.raw_cones) (h2 : s2.centre_points = s.centre_points)
    (h3 : s2.left_cones = s.left_cones) (h4 : s2.right_cones = s.right_cones)
    (h5 : s2.rejected_points = s.rejected_points ∨ s2.rejected_points = []) :
    ∃ r2, PathPlanner.returnResult s2 out2 = .ok r2 := by
  unfold PathPlanner.returnResult at h ⊢
  rw [h1, h2, h3, h4]
  split at h
  · cases h
  · rename_i cp mk1 e1
    obtain ⟨⟨cp2, mk2⟩, e2⟩ := pathLoop_total _ _ _ _ _ (out2.Path, out2.markers) _ e1
    rw [e2]
    simp only at h ⊢
    split at h
    · cases h
    · rename_i mk3 e3
      have e4 : ∃ m, PathPlanner.rejectedLoop s.raw_cones s2.rejected_points mk2 = .ok m := by
        rcases h5 with h5 | h5
        · rw [h5]
          exact rejectedLoop_total _ _ _ _ _ e3
        · rw [h5]
          exact ⟨mk2, by simp [PathPlanner.rejectedLoop]⟩
      obtain ⟨m, e4⟩ := e4
      rw [e4]
      simp only
      split at h
      · cases h
      · cases h
      · rename_i l r e5 e6
        obtain ⟨l2, e7⟩ := copyCones_total _ _ _ out2.Left _ e5
        obtain ⟨r2, e8⟩ := copyCones_total _ _ _ out2.Right _ e6
        rw [e7, e8]
        exact ⟨_, rfl⟩

theorem construct_zone {cfg : Config} {x y : ℚ} {cones : List Cone} {s0 : PathPlanner}
    (h : construct cfg x y cones = .ok s0) : SameZone (initial cfg x y) s0 := by
  unfold construct at h
  split at h
  · cases h
  · rename_i s1 h1
    have z1 := addCones_zone h1
    simp only at h
    split at h
    · cases h
    · rename_i s3 h3
      have z3 := addFirstCentrePoints_zone h3
      split at h
      · cases h
      · rename_i s4 h4
        have z4 := centralizeTimingCones_zone h4
        cases h
        refine SameZone.trans ?_ (resetTempConeVectors_zone _)
        refine SameZone.trans (z1.trans (SameZone.trans ?_ (z3.trans z4))) ?_
        · simp [SameZone]
        · split <;> simp [SameZone]

theorem construct_not_complete {cfg : Config} {x y : ℚ} {cones : List Cone} {s0 : PathPlanner}
    (h : construct cfg x y cones = .ok s0) : s0.complete = false := by
  have z := construct_zone h
  rw [z.1]
  rfl

theorem reset_fields (s : PathPlanner) :
    (resetTempConeVectors s).raw_cones = s.raw_cones ∧
    (resetTempConeVectors s).centre_points = s.centre_points ∧
    (resetTempConeVectors s).left_cones = s.left_cones ∧
    (resetTempConeVectors s).right_cones = s.right_cones ∧
    (resetTempConeVectors s).timing_cones = s.timing_cones ∧
    ((resetTempConeVectors s).rejected_points = s.rejected_points ∨
      (resetTempConeVectors s).rejected_points = []) := by
  unfold resetTempConeVectors
  simp only
  split <;> simp

theorem replayable_of_returnResult {s t : PathPlanner} {out o : Output}
    (h : returnResult s out = .ok (t, o)) : Replayable (resetTempConeVectors t) := by
  intro out2
  have e := (returnResult_effect h).1
  obtain ⟨f1, f2, f3, f4, _, f6⟩ := reset_fields t
  have g1 : t.raw_cones = s.raw_cones := by rw [e]
  have g2 : t.centre_points = s.centre_points := by rw [e]
  have g3 : t.left_cones = s.left_cones := by rw [e]
  have g4 : t.right_cones = s.right_cones := by rw [e]
  have g5 : t.rejected_points = s.rejected_points := by rw [e]
  exact returnResult_total h _ _ (f1.trans g1) (f2.trans g2) (f3.trans g3) (f4.trans g4)
    (by rw [← g5]; exact f6)

theorem update_replayable {cfg : Config} {s t : PathPlanner} {nc : List Cone} {x y : ℚ}
    {out o : Output} (h : update cfg s nc x y out = .ok (t, o))
    (hs : s.complete = true → Replayable s) : t.complete = true → Replayable t := by
  intro _
  unfold update at h
  split at h
  · rename_i hc
    split at h
    · cases h
    · rename_i s1 o1 h1
      cases h
      have e := (returnResult_effect h1).1
      intro out2
      obtain ⟨r, hr⟩ := hs hc out2
      exact returnResult_total hr _ _ (by rw [e]) (by rw [e]) (by rw [e]) (by rw [e])
        (Or.inl (by rw [e]))
  · split at h
    · cases h
    · split at h
      · cases h
      · split at h
        · cases h
        · rename_i s3 o3 h3
          cases h
          exact replayable_of_returnResult h3

theorem run_replayable {cfg : Config} : ∀ (frames : List Frame) (s t : PathPlanner),
    run cfg s frames = .ok t → (s.complete = true → Replayable s) →
      t.complete = true → Replayable t := by
  intro frames
  induction frames with
  | nil =>
    intro s t h hs
    simp [run] at h
    subst h
    exact hs
  | cons f rest ih =>
    intro s t h hs
    unfold run at h
    split at h
    · cases h
    · rename_i s1 o1 h1
      exact ih _ _ h (update_replayable h1 hs)

theorem reachable_replayable {cfg : Config} {s : PathPlanner} (hr : Reachable cfg s)
    (hc : s.complete = true) : Replayable s := by
  obtain ⟨x, y, cones, frames, s0, h0, h1⟩ := hr
  refine run_replayable frames s0 s h1 ?_ hc
  intro hc0
  rw [construct_not_complete h0] at hc0
  cases hc0

/-- C1: in a reachable state whose complete flag is set, every call of update
returns, leaves the centre-line, both boundary sequences and the flag as they
were, appends exactly the stored centre-line to the path vector and sets the
completion output. -/
theorem C1_complete_replays (cfg : Config) (s : PathPlanner) (hr : Reachable cfg s)
    (hc : s.complete = true) (new_cones : List Cone) (car_x car_y : ℚ) (out : Output) :
    ∃ t o, update cfg s new_cones car_x car_y out = .ok (t, o) ∧
      t.centre_points = s.centre_points ∧ t.left_cones = s.left_cones ∧
      t.right_cones = s.right_cones ∧ t.complete = true ∧
      o.Path = out.Path ++ s.centre_points ∧ o.plannerComp = true := by
  obtain ⟨⟨t, o⟩, hret⟩ := reachable_replayable hr hc out
  obtain ⟨e, hp, _⟩ := returnResult_effect hret
  refine ⟨t, { o with plannerComp := true }, ?_, ?_, ?_, ?_, ?_, hp, rfl⟩
  · unfold update
    rw [if_pos hc, hret]
  · rw [e]
  · rw [e]
  · rw [e]
  · rw [e]; exact hc

theorem gateAfter_reachable : Reachable reversalConfig (gateAfter reversalConfig farFrames) :=
  ⟨0, 0, gateCones, farFrames, gateStart reversalConfig, by decide!, by decide!⟩

theorem C1_complete_replays_witness :
    Reachable reversalConfig (gateAfter reversalConfig farFrames) ∧
    (gateAfter reversalConfig farFrames).complete = true ∧
    ∃ t o, update reversalConfig (gateAfter reversalConfig farFrames) [] 0 0 Output.empty
        = .ok (t, o) ∧
      t.centre_points = (gateAfter reversalConfig farFrames).centre_points ∧
      t.left_cones = (gateAfter reversalConfig farFrames).left_cones ∧
      t.right_cones = (gateAfter reversalConfig farFrames).right_cones ∧ t.complete = true ∧
      o.Path = Output.empty.Path ++ (gateAfter reversalConfig farFrames).centre_points ∧
      o.plannerComp = true :=
  ⟨gateAfter_reachable, by decide!,
    C1_complete_replays reversalConfig _ gateAfter_reachable (by decide!) [] 0 0 Output.empty⟩

theorem sortStep_zone {cfg : Config} {s t : PathPlanner}
    (h : sortStep cfg s = .ok t) : SameZone s t := by
  unfold sortStep at h
  split at h
  · simp only at h
    split at h
    · cases h
    · rename_i s1 h1
      have z1 : SameZone s s1 := by
        split at h1
        · split at h1
          · cases h1
          · rename_i t1 ht
            cases h1
            exact (centralizeTimingCones_zone ht).trans (by simp [SameZone])
        · cases h1
          exact SameZone.refl _
      split at h
      · split at h
        · cases h
        · rename_i s2 h2
          split at h
          · cases h
          · rename_i s3 h3
            exact z1.trans ((sortAndPushCone_zone h2).trans
              ((sortAndPushCone_zone h3).trans (addCentrePoints_zone h)))
      · cases h
        exact z1
  · cases h
    exact SameZone.refl _

theorem buildStep_zone {cfg : Config} {s t : PathPlanner} {nc : List Cone}
    (h : buildStep cfg s nc = .ok t) : SameZone s t := by
  unfold buildStep at h
  split at h
  · split at h
    · cases h
    · rename_i s1 h1
      split at h
      · cases h
      · rename_i s2 h2
        exact (addCones_zone h1).trans ((updateCentrePoints_zone h2).trans (sortStep_zone h))
  · cases h
    exact SameZone.refl _

/-- What one call of `update` does to the loop-closure flags. -/
theorem update_flags {cfg : Config} {s t : PathPlanner} {nc : List Cone} {x y : ℚ}
    {out o : Output} (h : update cfg s nc x y out = .ok (t, o)) :
    t.init_pos = s.init_pos ∧ (s.left_start_zone = true → t.left_start_zone = true) ∧
    (t.left_start_zone = true → s.left_start_zone = true ∨
      (calcDist cfg s.init_pos (PathPoint.ofXY x y) > 15 ∧ t.complete = false)) ∧
    (t.complete = true → s.complete = true ∨ s.left_start_zone = true) := by
  unfold update at h
  split at h
  · rename_i hc
    split at h
    · cases h
    · rename_i s1 o1 h1
      cases h
      have z := returnResult_zone h1
      refine ⟨z.2.2.2.1, fun hl => by rw [z.2.1]; exact hl, fun hl => Or.inl (by rw [← z.2.1]; exact hl),
        fun _ => Or.inl hc⟩
  · rename_i hc
    split at h
    · cases h
    · rename_i s1 h1
      split at h
      · cases h
      · rename_i s2 h2
        split at h
        · cases h
        · rename_i s3 o3 h3
          cases h
          have z : SameZone s1 (resetTempConeVectors s3) :=
            (buildStep_zone h2).trans ((returnResult_zone h3).trans (resetTempConeVectors_zone _))
          obtain ⟨zc, zl, _, zi, _⟩ := z
          rw [zc, zl, zi]
          unfold closureStep at h1
          simp only at h1
          split at h1
          · rename_i hl
            split at h1
            · cases h1
            · cases h1
              exact ⟨rfl, fun _ => hl, fun _ => Or.inl hl, fun _ => Or.inr hl⟩
            · cases h1
              exact ⟨rfl, fun _ => hl, fun _ => Or.inl hl, fun _ => Or.inr hl⟩
          · rename_i hl
            split at h1
            · rename_i hd
              cases h1
              refine ⟨rfl, fun _ => rfl, fun _ => Or.inr ⟨hd, ?_⟩, fun hh => ?_⟩
              · simpa using hc
              · simp only at hh
                exact absurd hh hc
            · cases h1
              refine ⟨rfl, fun hh => hh, fun hh => Or.inl hh, fun hh => ?_⟩
              simp only at hh
              exact absurd hh hc

theorem run_init_pos {cfg : Config} : ∀ (frames : List Frame) (s t : PathPlanner),
    run cfg s frames = .ok t → t.init_pos = s.init_pos := by
  intro frames
  induction frames with
  | nil =>
    intro s t h
    simp [run] at h
    rw [h]
  | cons f rest ih =>
    intro s t h
    unfold run at h
    split at h
    · cases h
    · rename_i s1 o1 h1
      rw [ih _ _ h, (update_flags h1).1]

theorem run_zone_kept {cfg : Config} : ∀ (frames : List Frame) (s t : PathPlanner),
    run cfg s frames = .ok t → s.left_start_zone = true → t.left_start_zone = true := by
  intro frames
  induction frames with
  | nil =>
    intro s t h hl
    simp [run] at h
    rw [← h]; exact hl
  | cons f rest ih =>
    intro s t h hl
    unfold run at h
    split at h
    · cases h
    · rename_i s1 o1 h1
      exact ih _ _ h ((update_flags h1).2.1 hl)

theorem run_complete_zone {cfg : Config} : ∀ (frames : List Frame) (s t : PathPlanner),
    run cfg s frames = .ok t → (s.complete = true → s.left_start_zone = true) →
      t.complete = true → t.left_start_zone = true := by
  intro frames
  induction frames with
  | nil =>
    intro s t h hs
    simp [run] at h
    rw [← h]; exact hs
  | cons f rest ih =>
    intro s t h hs
    unfold run at h
    split at h
    · cases h
    · rename_i s1 o1 h1
      refine ih _ _ h ?_
      intro hc
      have u := update_flags h1
      rcases u.2.2.2 hc with h2 | h2
      · exact u.2.1 (hs h2)
      · exact u.2.1 h2

theorem run_append {cfg : Config} : ∀ (pre post : List Frame) (s m : PathPlanner),
    run cfg s pre = .ok m → run cfg s (pre ++ post) = run cfg m post := by
  intro pre
  induction pre with
  | nil =>
    intro post s m h
    simp [run] at h
    rw [h]; rfl
  | cons f rest ih =>
    intro post s m h
    unfold run at h
    simp only [List.cons_append]
    rw [run]
    split at h
    · cases h
    · rename_i s1 o1 h1
      exact ih _ _ _ h

/-- A run that ends outside the start zone contains a tick whose pose is more
than 15 from the initial position and after which the planner is not complete. -/
theorem run_far_tick {cfg : Config} : ∀ (frames : List Frame) (s t : PathPlanner),
    run cfg s frames = .ok t → s.left_start_zone = false → s.complete = false →
      t.left_start_zone = true →
      ∃ pre f post m, frames = pre ++ f :: post ∧
        calcDist cfg s.init_pos (PathPoint.ofXY f.car_x f.car_y) > 15 ∧
        run cfg s (pre ++ [f]) = .ok m ∧ m.complete = false := by
  intro frames
  induction frames with
  | nil =>
    intro s t h hl _ ht
    simp [run] at h
    rw [h] at hl
    rw [hl] at ht
    cases ht
  | cons f rest ih =>
    intro s t h hl hc ht
    have hrun := h
    unfold run at h
    split at h
    · cases h
    · rename_i s1 o1 h1
      have u := update_flags h1
      by_cases hl1 : s1.left_start_zone = true
      · rcases u.2.2.1 hl1 with h2 | ⟨hd, hc1⟩
        · rw [hl] at h2; cases h2
        · refine ⟨[], f, rest, s1, rfl, hd, ?_, hc1⟩
          simp [run, h1]
      · have hl1f : s1.left_start_zone = false := by simpa using hl1
        have hc1 : s1.complete = false := by
          by_contra hh
          have hh1 : s1.complete = true := by simpa using hh
          rcases u.2.2.2 hh1 with h2 | h2
          · rw [hc] at h2; cases h2
          · rw [hl] at h2; cases h2
        obtain ⟨pre, g, post, m, e1, e2, e3, e4⟩ := ih _ _ h hl1f hc1 ht
        refine ⟨f :: pre, g, post, m, by rw [e1]; rfl, by rw [← u.1]; exact e2, ?_, e4⟩
        simp only [List.cons_append, run, h1]
        exact e3

/-- C9: along every run from the constructor, complete implies left_start_zone;
left_start_zone is only ever set by a tick whose pose is more than 15 from the
initial position, and that tick leaves the planner not complete, so completion
needs a strictly later tick; and left_start_zone, once set, stays set. -/
theorem C9_no_premature_closure (cfg : Config) (car_x car_y : ℚ) (cones : List Cone)
    (frames : List Frame) (s0 s : PathPlanner)
    (h0 : construct cfg car_x car_y cones = .ok s0) (h1 : run cfg s0 frames = .ok s) :
    (s.complete = true → s.left_start_zone = true) ∧
    (s.left_start_zone = true → ∃ pre f post m, frames = pre ++ f :: post ∧
      calcDist cfg (PathPoint.ofXY car_x car_y) (PathPoint.ofXY f.car_x f.car_y) > 15 ∧
      run cfg s0 (pre ++ [f]) = .ok m ∧ m.complete = false) ∧
    (s.complete = true → ∃ pre f post, frames = pre ++ f :: post ∧ post ≠ [] ∧
      calcDist cfg (PathPoint.ofXY car_x car_y) (PathPoint.ofXY f.car_x f.car_y) > 15) ∧
    (∀ pre post m, frames = pre ++ post → run cfg s0 pre = .ok m →
      m.left_start_zone = true → s.left_start_zone = true) := by
  have z := construct_zone h0
  have hc0 : s0.complete = false := by rw [z.1]; rfl
  have hl0 : s0.left_start_zone = false := by rw [z.2.1]; rfl
  have hi0 : s0.init_pos = PathPoint.ofXY car_x car_y := by rw [z.2.2.2.1]; rfl
  have hA : s.complete = true → s.left_start_zone = true :=
    run_complete_zone frames s0 s h1 (fun h => by rw [hc0] at h; cases h)
  have hB : s.left_start_zone = true → ∃ pre f post m, frames = pre ++ f :: post ∧
      calcDist cfg (PathPoint.ofXY car_x car_y) (PathPoint.ofXY f.car_x f.car_y) > 15 ∧
      run cfg s0 (pre ++ [f]) = .ok m ∧ m.complete = false := by
    intro hl
    obtain ⟨pre, f, post, m, e1, e2, e3, e4⟩ := run_far_tick frames s0 s h1 hl0 hc0 hl
    exact ⟨pre, f, post, m, e1, by rw [← hi0]; exact e2, e3, e4⟩
  refine ⟨hA, hB, ?_, ?_⟩
  · intro hc
    obtain ⟨pre, f, post, m, e1, e2, e3, e4⟩ := hB (hA hc)
    refine ⟨pre, f, post, e1, ?_, e2⟩
    intro hp
    rw [hp] at e1
    rw [e1, e3] at h1
    cases h1
    rw [hc] at e4
    cases e4
  · intro pre post m e hm hl
    rw [e, run_append pre post s0 m hm] at h1
    exact run_zone_kept post m s h1 hl

theorem C9_no_premature_closure_witness :
    construct reversalConfig 0 0 gateCones = .ok (gateStart reversalConfig) ∧
    run reversalConfig (gateStart reversalConfig) farFrames
      = .ok (gateAfter reversalConfig farFrames) ∧
    (gateAfter reversalConfig farFrames).complete = true ∧
    (((gateAfter reversalConfig farFrames).complete = true →
        (gateAfter reversalConfig farFrames).left_start_zone = true) ∧
    ((gateAfter reversalConfig farFrames).left_start_zone = true →
      ∃ pre f post m, farFrames = pre ++ f :: post ∧
      calcDist reversalConfig (PathPoint.ofXY 0 0) (PathPoint.ofXY f.car_x f.car_y) > 15 ∧
      run reversalConfig (gateStart reversalConfig) (pre ++ [f]) = .ok m ∧ m.complete = false) ∧
    ((gateAfter reversalConfig farFrames).complete = true →
      ∃ pre f post, farFrames = pre ++ f :: post ∧ post ≠ [] ∧
      calcDist reversalConfig (PathPoint.ofXY 0 0) (PathPoint.ofXY f.car_x f.car_y) > 15) ∧
    (∀ pre post m, farFrames = pre ++ post →
      run reversalConfig (gateStart reversalConfig) pre = .ok m →
      m.left_start_zone = true → (gateAfter reversalConfig farFrames).left_start_zone = true)) :=
  ⟨by decide!, by decide!, by decide!,
    C9_no_premature_closure reversalConfig 0 0 gateCones farFrames (gateStart reversalConfig)
      (gateAfter reversalConfig farFrames) (by decide!) (by decide!)⟩

theorem nearestLoop_ge {cfg : Config} {car : PathPoint} :
    ∀ (l : List PathPoint) (md : ℚ) (n : Int), -1 ≤ n → -1 ≤ nearestLoop cfg car l md n := by
  intro l
  induction l with
  | nil => intro md n h; simpa [nearestLoop] using h
  | cons p rest ih =>
    intro md n h
    unfold nearestLoop
    split
    · exact ih _ _ (by omega)
    · exact h

theorem nearestIndx_ge (cfg : Config) (s : PathPlanner) : -1 ≤ nearestIndx cfg s :=
  nearestLoop_ge _ _ _ (le_refl _)

theorem popUnpassedLoop_suffix :
    ∀ (l : List PathPoint) (raw : List Cone) (tc : Bool) (r : List PathPoint) (raw2 : List Cone)
      (tc2 : Bool), popUnpassedLoop l raw tc = .ok (r, raw2, tc2) →
      ∃ pre, l = pre ++ r ∧ (2 ≤ l.length → 2 ≤ r.length) := by
  intro l
  induction l with
  | nil =>
    intro raw tc r raw2 tc2 h
    simp [popUnpassedLoop] at h
    exact ⟨[], by simp [h.1], by simp⟩
  | cons p rest ih =>
    intro raw tc r raw2 tc2 h
    unfold popUnpassedLoop at h
    split at h
    · rename_i hlen
      split at h
      · split at h
        · split at h
          · split at h
            · cases h
            · obtain ⟨pre, e1, e2⟩ := ih _ _ _ _ _ h
              exact ⟨p :: pre, by rw [List.cons_append, ← e1], fun _ => e2 (by omega)⟩
          · cases h
            exact ⟨[], rfl, fun hh => hh⟩
        · cases h
        · cases h
      · obtain ⟨pre, e1, e2⟩ := ih _ _ _ _ _ h
        exact ⟨p :: pre, by rw [List.cons_append, ← e1], fun _ => e2 (by omega)⟩
    · cases h
      exact ⟨[], rfl, fun hh => hh⟩

theorem capLoop_suffix (n : Int) :
    ∀ (l : List PathPoint) (raw : List Cone) (r : List PathPoint) (raw2 : List Cone),
      capLoop n l raw = .ok (r, raw2) →
      ∃ pre, l = pre ++ r ∧ (-1 ≤ n → 2 ≤ l.length → 2 ≤ r.length) ∧
        ((r.length : Int) ≤ n + 3 ∨ r = []) := by
  intro l
  induction l with
  | nil =>
    intro raw r raw2 h
    simp [capLoop] at h
    exact ⟨[], by simp [h.1], by simp, Or.inr h.1⟩
  | cons p rest ih =>
    intro raw r raw2 h
    unfold capLoop at h
    split at h
    · rename_i hlen
      split at h
      · cases h
      · obtain ⟨pre, e1, e2, e3⟩ := ih _ _ _ h
        exact ⟨p :: pre, by rw [List.cons_append, ← e1], fun hn _ => e2 hn (by omega), e3⟩
    · rename_i hlen
      cases h
      refine ⟨[], rfl, fun _ hh => hh, Or.inl ?_⟩
      simp only [List.length_cons, Nat.cast_add, Nat.cast_one]
      omega

/-- The pruner keeps a prefix of the centre-line: at least the first two
points, and at most the points up to index `nearest_indx + 2`. -/
theorem updateCentrePoints_line {cfg : Config} {s t : PathPlanner}
    (h : updateCentrePoints cfg s = .ok t) :
    ∃ tail, s.centre_points = t.centre_points ++ tail ∧
      (2 ≤ s.centre_points.length → 2 ≤ t.centre_points.length) ∧
      (3 ≤ s.centre_points.length → (t.centre_points.length : Int) ≤ nearestIndx cfg s + 3) := by
  unfold updateCentrePoints at h
  split at h
  · rename_i hlen
    cases h
    exact ⟨[], by simp, fun hh => hh, fun hh => by omega⟩
  · rename_i hlen
    simp only at h
    split at h
    · cases h
    · rename_i cps raw tc h1
      obtain ⟨pre1, e1, l1⟩ := popUnpassedLoop_suffix _ _ _ _ _ _ h1
      have hrev : s.centre_points = cps.reverse ++ pre1.reverse := by
        have := congrArg List.reverse e1
        simpa using this
      have hs2 : 2 ≤ s.centre_points.length := by omega
      have hc2 : 2 ≤ cps.length := l1 (by simpa using hs2)
      split at h
      · split at h
        · cases h
        · rename_i cps2 raw2 h2
          cases h
          obtain ⟨pre2, e2, l2, l3⟩ := capLoop_suffix _ _ _ _ _ h2
          have hc3 : 2 ≤ cps2.length := l2 (nearestIndx_ge cfg s) hc2
          refine ⟨pre2.reverse ++ pre1.reverse, ?_, fun _ => by simpa using hc3, fun _ => ?_⟩
          · rw [hrev, e2]
            simp
          · rcases l3 with l3 | l3
            · simpa using l3
            · rw [l3] at hc3
              simp at hc3
      · rename_i hcond
        cases h
        refine ⟨pre1.reverse, by simpa using hrev, fun _ => by simpa using hc2, fun _ => ?_⟩
        simp only [List.length_reverse]
        have := nearestIndx_ge cfg s
        omega

theorem modifyCone_ok {raw : List Cone} {h : Nat} (f : Cone → Cone) (hv : h < raw.length) :
    ∃ raw2, modifyCone raw h f = .ok raw2 ∧ raw2.length = raw.length := by
  unfold modifyCone
  rw [List.getElem?_eq_getElem hv]
  exact ⟨_, rfl, by simp⟩

theorem modifyCone_length {raw raw2 : List Cone} {h : Nat} {f : Cone → Cone}
    (e : modifyCone raw h f = .ok raw2) : raw2.length = raw.length := by
  unfold modifyCone at e
  split at e
  · cases e; simp
  · cases e

theorem deref_ok {raw : List Cone} {h : Nat} (hv : h < raw.length) :
    ∃ c, deref raw h = .ok c := by
  unfold deref
  rw [List.getElem?_eq_getElem hv]
  exact ⟨_, rfl⟩

theorem unpairPoint_ok {raw : List Cone} {p : PathPoint} (hp : HasCones raw.length p) :
    ∃ raw2, unpairPoint raw p = .ok raw2 ∧ raw2.length = raw.length := by
  obtain ⟨a, b, ha, hb, va, vb⟩ := hp
  unfold unpairPoint
  rw [ha, hb]
  simp only [modifyPtr]
  obtain ⟨r1, e1, l1⟩ := modifyCone_ok (fun c => { c with paired := c.paired - 1 }) va
  rw [e1]
  simp only
  obtain ⟨r2, e2, l2⟩ := @modifyCone_ok r1 b (fun c => { c with paired := c.paired - 1 })
    (by rw [l1]; exact vb)
  exact ⟨r2, e2, by rw [l2, l1]⟩

theorem popUnpassedLoop_ok :
    ∀ (l : List PathPoint) (raw : List Cone) (tc : Bool),
      (∀ p ∈ l.take (l.length - 2), HasCones raw.length p) →
      ∃ r raw2 tc2, popUnpassedLoop l raw tc = .ok (r, raw2, tc2) ∧ raw2.length = raw.length := by
  intro l
  induction l with
  | nil =>
    intro raw tc _
    exact ⟨[], raw, tc, by simp [popUnpassedLoop], rfl⟩
  | cons p rest ih =>
    intro raw tc hall
    unfold popUnpassedLoop
    split
    · rename_i hlen
      have hp : HasCones raw.length p := by
        apply hall
        have : (p :: rest).length - 2 = (rest.length - 2) + 1 := by
          simp only [List.length_cons]; omega
        rw [this, List.take_succ_cons]
        exact List.mem_cons_self _ _
      have hrest : ∀ raw2 : List Cone, raw2.length = raw.length →
          ∀ q ∈ rest.take (rest.length - 2), HasCones raw2.length q := by
        intro raw2 e q hq
        rw [e]
        apply hall
        have : (p :: rest).length - 2 = (rest.length - 2) + 1 := by
          simp only [List.length_cons]; omega
        rw [this, List.take_succ_cons]
        exact List.mem_cons_of_mem _ hq
      obtain ⟨a, b, ha, hb, va, vb⟩ := hp
      rw [ha, hb]
      simp only
      obtain ⟨ca, ea⟩ := deref_ok va
      obtain ⟨cb, eb⟩ := deref_ok vb
      rw [ea, eb]
      simp only
      split
      · obtain ⟨raw1, e1, l1⟩ := @unpairPoint_ok raw p ⟨a, b, ha, hb, va, vb⟩
        rw [e1]
        simp only
        obtain ⟨r, raw2, tc2, e2, l2⟩ := ih raw1 tc (hrest raw1 l1)
        exact ⟨r, raw2, tc2, e2, by rw [l2, l1]⟩
      · exact ⟨_, _, _, rfl, rfl⟩
    · exact ⟨_, _, _, rfl, rfl⟩

theorem capLoop_ok (n : Int) (hn : -1 ≤ n) :
    ∀ (l : List PathPoint) (raw : List Cone),
      (∀ p ∈ l.take (l.length - 2), HasCones raw.length p) →
      ∃ r raw2, capLoop n l raw = .ok (r, raw2) := by
  intro l
  induction l with
  | nil =>
    intro raw _
    exact ⟨[], raw, by simp [capLoop]⟩
  | cons p rest ih =>
    intro raw hall
    unfold capLoop
    split
    · rename_i hlen
      have hlen2 : 1 < rest.length := by omega
      have hp : HasCones raw.length p := by
        apply hall
        have : (p :: rest).length - 2 = (rest.length - 2) + 1 := by
          simp only [List.length_cons]; omega
        rw [this, List.take_succ_cons]
        exact List.mem_cons_self _ _
      obtain ⟨raw1, e1, l1⟩ := unpairPoint_ok hp
      rw [e1]
      simp only
      apply ih
      intro q hq
      rw [l1]
      apply hall
      have : (p :: rest).length - 2 = (rest.length - 2) + 1 := by
        simp only [List.length_cons]; omega
      rw [this, List.take_succ_cons]
      exact List.mem_cons_of_mem _ hq
    · exact ⟨_, _, rfl⟩

theorem mem_take_of_suffix {α : Type} {l pre r : List α} (e : l = pre ++ r) {q : α}
    (hq : q ∈ r.take (r.length - 2)) : q ∈ l.take (l.length - 2) := by
  by_cases h2 : 2 ≤ r.length
  · have : l.length - 2 = pre.length + (r.length - 2) := by
      rw [e, List.length_append]; omega
    rw [this, e, List.take_append]
    exact List.mem_append_right _ hq
  · have : r.length - 2 = 0 := by omega
    rw [this] at hq
    simp at hq

theorem updateCentrePoints_ok {cfg : Config} {s : PathPlanner}
    (hall : ∀ p ∈ s.centre_points.drop 2, HasCones s.raw_cones.length p) :
    ∃ t, updateCentrePoints cfg s = .ok t := by
  unfold updateCentrePoints
  split
  · exact ⟨_, rfl⟩
  · simp only
    have hrev : ∀ p ∈ s.centre_points.reverse.take (s.centre_points.reverse.length - 2),
        HasCones s.raw_cones.length p := by
      intro p hp
      apply hall
      rw [List.length_reverse, ← List.reverse_drop] at hp
      · exact List.mem_reverse.1 hp
    obtain ⟨cps, raw, tc, e1, l1⟩ := popUnpassedLoop_ok _ s.raw_cones s.timingCalc hrev
    rw [e1]
    simp only
    obtain ⟨pre, e2, _⟩ := popUnpassedLoop_suffix _ _ _ _ _ _ e1
    split
    · have hc : ∀ p ∈ cps.take (cps.length - 2), HasCones raw.length p := by
        intro p hp
        rw [l1]
        exact hrev p (mem_take_of_suffix e2 hp)
      obtain ⟨r, raw2, e3⟩ := capLoop_ok (nearestIndx cfg s) (nearestIndx_ge cfg s) cps raw hc
      rw [e3]
      exact ⟨_, rfl⟩
    · exact ⟨_, rfl⟩

theorem decFrom_of_indexed (cfg : Config) (car : PathPoint) (i : Nat) :
    ∀ l : List PathPoint,
      (∀ (j : Nat) (p q : PathPoint), i ≤ j → l.reverse[j]? = some p →
        l.reverse[j + 1]? = some q → calcDist cfg car p < calcDist cfg car q) →
      DecFrom cfg car i l := by
  intro l
  induction l with
  | nil => intro _; trivial
  | cons p rest ih =>
    intro h
    cases rest with
    | nil => trivial
    | cons q rest2 =>
      refine ⟨fun hi => ?_, ih ?_⟩
      · apply h rest2.length q p hi
        · simp only [List.reverse_cons, List.append_assoc, List.singleton_append]
          rw [List.getElem?_append_right (by simp)]
          simp
        · simp only [List.reverse_cons, List.append_assoc, List.singleton_append]
          rw [List.getElem?_append_right (by simp)]
          simp
      · intro j a b hj ha hb
        have hlt : j + 1 < (q :: rest2).reverse.length := by
          by_contra hn
          rw [List.getElem?_eq_none (by omega)] at hb
          cases hb
        apply h j a b hj
        · rw [List.reverse_cons, List.getElem?_append_left (by omega)]
          exact ha
        · rw [List.reverse_cons, List.getElem?_append_left hlt]
          exact hb

theorem nearestLoop_le {cfg : Config} {car : PathPoint} (i : Nat) :
    ∀ (l : List PathPoint) (md : ℚ) (n : Int), DecFrom cfg car i l →
      (n ≤ (i : Int) ∨ ∃ p rest, l = p :: rest ∧ calcDist cfg car p < md ∧ i ≤ rest.length) →
      nearestLoop cfg car l md n ≤ (i : Int) := by
  intro l
  induction l with
  | nil =>
    intro md n _ h
    rcases h with h | ⟨p, rest, e, _⟩
    · simpa [nearestLoop] using h
    · cases e
  | cons p rest ih =>
    intro md n hd h
    unfold nearestLoop
    split
    · rename_i hlt
      cases rest with
      | nil =>
        rcases h with h | ⟨p2, rest2, e, _, hi⟩
        · simp only [nearestLoop, List.length_nil, Nat.cast_zero]
          exact Int.natCast_nonneg i
        · simp only [nearestLoop, List.length_nil, Nat.cast_zero]
          exact Int.natCast_nonneg i
      | cons q rest2 =>
        apply ih _ _ hd.2
        by_cases hle : (q :: rest2).length ≤ i
        · left
          exact_mod_cast hle
        · right
          refine ⟨q, rest2, rfl, hd.1 ?_, ?_⟩
          · simp only [List.length_cons] at hle
            omega
          · simp only [List.length_cons] at hle
            omega
    · rename_i hnlt
      rcases h with h | ⟨p2, rest2, e, hlt, _⟩
      · exact h
      · cases e
        exact absurd hlt hnlt

theorem nearestIndx_le {cfg : Config} {s : PathPlanner} {i : Nat}
    (h : DecreasingTo cfg s i) : nearestIndx cfg s ≤ (i : Int) := by
  unfold nearestIndx
  have hd : DecFrom cfg s.car_pos i s.centre_points.reverse := by
    apply decFrom_of_indexed
    intro j p q hj hp hq
    rw [List.reverse_reverse] at hp hq
    exact h j p q hj hp hq
  cases hl : s.centre_points.reverse with
  | nil => simp only [nearestLoop]; omega
  | cons p rest =>
    rw [hl] at hd
    by_cases hlt : calcDist cfg s.car_pos p < 9000
    · by_cases hi : i ≤ rest.length
      · exact nearestLoop_le i _ _ _ hd (Or.inr ⟨p, rest, rfl, hlt, hi⟩)
      · unfold nearestLoop
        rw [if_pos hlt]
        cases rest with
        | nil => simp only [nearestLoop, List.length_nil, Nat.cast_zero]; omega
        | cons q rest2 =>
          apply nearestLoop_le i _ _ _ hd.2
          left
          have : (q :: rest2).length ≤ i := by omega
          exact_mod_cast this
    · unfold nearestLoop
      rw [if_neg hlt]
      omega

/-- C7: the pruner returns the planner unchanged when the centre-line has fewer
than 3 points; otherwise, whenever it returns, the centre-line has no element at
an index greater than nearest_indx + 2, nor at an index greater than n + 2 for
any index n down to which the distance to the car strictly decreases in the
backward scan from the tail, and it does return when every point from index 2
on carries two cone handles. -/
theorem C7_lookahead_cap (cfg : Config) (s : PathPlanner) :
    (s.centre_points.length < 3 → updateCentrePoints cfg s = .ok s) ∧
    (3 ≤ s.centre_points.length → ∀ t, updateCentrePoints cfg s = .ok t →
      ∀ i : Nat, nearestIndx cfg s + 2 < (i : Int) → t.centre_points[i]? = none) ∧
    (3 ≤ s.centre_points.length → ∀ n : Nat, DecreasingTo cfg s n →
      ∀ t, updateCentrePoints cfg s = .ok t →
      ∀ i : Nat, n + 2 < i → t.centre_points[i]? = none) ∧
    (3 ≤ s.centre_points.length →
      (∀ p ∈ s.centre_points.drop 2, HasCones s.raw_cones.length p) →
      ∃ t, updateCentrePoints cfg s = .ok t) := by
  refine ⟨fun h => ?_, fun h t ht i hi => ?_, fun h n hn t ht i hi => ?_,
    fun _ hall => updateCentrePoints_ok hall⟩
  · unfold updateCentrePoints
    rw [if_pos (by omega)]
  · obtain ⟨_, _, _, l3⟩ := updateCentrePoints_line ht
    have := l3 h
    exact List.getElem?_eq_none (by omega)
  · obtain ⟨_, _, _, l3⟩ := updateCentrePoints_line ht
    have := l3 h
    have := nearestIndx_le hn
    exact List.getElem?_eq_none (by omega)

theorem C7_lookahead_cap_witness :
    3 ≤ pruneDemo.centre_points.length ∧
    (∀ p ∈ pruneDemo.centre_points.drop 2, HasCones pruneDemo.raw_cones.length p) ∧
    DecreasingTo demoConfig pruneDemo 0 ∧
    nearestIndx demoConfig pruneDemo = 0 ∧
    ∃ t, updateCentrePoints demoConfig pruneDemo = .ok t ∧ t.centre_points.length = 3 ∧
      (∀ i : Nat, nearestIndx demoConfig pruneDemo + 2 < (i : Int) → t.centre_points[i]? = none) ∧
      ∀ i : Nat, 0 + 2 < i → t.centre_points[i]? = none := by
  have hlen : 3 ≤ pruneDemo.centre_points.length := by decide
  have hall : ∀ p ∈ pruneDemo.centre_points.drop 2, HasCones pruneDemo.raw_cones.length p := by
    intro p hp
    simp only [pruneDemo, List.drop_succ_cons, List.drop_zero, List.mem_cons, List.mem_singleton,
      List.not_mem_nil, or_false] at hp
    rcases hp with hp | hp <;> subst hp <;> exact ⟨0, 1, rfl, rfl, by decide, by decide⟩
  have hdec : DecreasingTo demoConfig pruneDemo 0 := by
    intro j p q _ hp hq
    match j with
    | 0 =>
      have e1 : pruneDemo.centre_points[0]? = some (PathPoint.ofXY 0 0) := rfl
      have e2 : pruneDemo.centre_points[0 + 1]? = some (PathPoint.ofXY 1 0) := rfl
      rw [e1] at hp
      rw [e2] at hq
      cases hp
      cases hq
      decide!
    | 1 =>
      have e1 : pruneDemo.centre_points[1]? = some (PathPoint.ofXY 1 0) := rfl
      have e2 : pruneDemo.centre_points[1 + 1]?
          = some { PathPoint.ofXY 2 0 with cone1 := some 0, cone2 := some 1 } := rfl
      rw [e1] at hp
      rw [e2] at hq
      cases hp
      cases hq
      decide!
    | 2 =>
      have e1 : pruneDemo.centre_points[2]?
          = some { PathPoint.ofXY 2 0 with cone1 := some 0, cone2 := some 1 } := rfl
      have e2 : pruneDemo.centre_points[2 + 1]?
          = some { PathPoint.ofXY 3 0 with cone1 := some 0, cone2 := some 1 } := rfl
      rw [e1] at hp
      rw [e2] at hq
      cases hp
      cases hq
      decide!
    | k + 3 =>
      have e2 : pruneDemo.centre_points[k + 3 + 1]? = none := rfl
      rw [e2] at hq
      cases hq
  obtain ⟨t, ht⟩ := (C7_lookahead_cap demoConfig pruneDemo).2.2.2 hlen hall
  refine ⟨hlen, hall, hdec, by decide!, t, ht, ?_,
    (C7_lookahead_cap demoConfig pruneDemo).2.1 hlen t ht,
    (C7_lookahead_cap demoConfig pruneDemo).2.2.1 hlen 0 hdec t ht⟩
  have e : updateCentrePoints demoConfig pruneDemo
      = .ok ((updateCentrePoints demoConfig pruneDemo).toOption.getD pruneDemo) := by decide!
  rw [e] at ht
  cases ht
  decide!

theorem HeadAt.append {q : PathPoint} {l : List PathPoint} (h : HeadAt q l)
    (ext : List PathPoint) : HeadAt q (l ++ ext) := by
  obtain ⟨p, rest, e, hx, hy⟩ := h
  exact ⟨p, rest ++ ext, by rw [e]; rfl, hx, hy⟩

theorem HeadAt.of_prefix {q : PathPoint} {l k tail : List PathPoint} (h : HeadAt q l)
    (e : l = k ++ tail) (hk : k ≠ []) : HeadAt q k := by
  obtain ⟨p, rest, e2, hx, hy⟩ := h
  cases k with
  | nil => exact absurd rfl hk
  | cons a k2 =>
    rw [e2] at e
    simp only [List.cons_append, List.cons.injEq] at e
    exact ⟨a, k2, rfl, by rw [← e.1]; exact hx, by rw [← e.1]; exact hy⟩

theorem updateStoredCones_line {cfg : Config} {s t : PathPlanner} {nc : List Cone}
    (h : updateStoredCones cfg s nc = .ok t) : t.centre_points = s.centre_points := by
  unfold updateStoredCones at h
  simp only at h
  repeat' (split at h)
  all_goals (first | (cases h; done) | (cases h; rfl))

theorem addCones_line {cfg : Config} {s t : PathPlanner} {nc : List Cone}
    (h : addCones cfg s nc = .ok t) : t.centre_points = s.centre_points := by
  unfold addCones at h
  split at h
  · cases h
  · rename_i s1 h1
    have z := updateStoredCones_line h1
    repeat' (split at h)
    all_goals (first | (cases h; done) | (cases h; exact z))

theorem sortConesByDist_line {cfg : Config} {s t : PathPlanner} {pos : PathPoint}
    (h : sortConesByDist cfg s pos = .ok t) : t.centre_points = s.centre_points := by
  unfold sortConesByDist at h
  simp only at h
  repeat' (split at h)
  all_goals (first | (cases h; done) | (cases h; rfl))

theorem sortAndPushCone_line {cfg : Config} {s t : PathPlanner} {side : Side}
    (h : sortAndPushCone cfg s side = .ok t) : t.centre_points = s.centre_points := by
  unfold sortAndPushCone at h
  simp only at h
  repeat' (split at h)
  all_goals (first | (cases h; done) | (cases h; rfl))

theorem addFirstCentrePoints_line {cfg : Config} {s t : PathPlanner}
    (h : addFirstCentrePoints cfg s = .ok t) :
    ∃ ext, t.centre_points = s.centre_points ++ ext := by
  unfold addFirstCentrePoints at h
  split at h
  · cases h
  · rename_i s1 h1
    have z := sortConesByDist_line h1
    repeat' (split at h)
    all_goals (first | (cases h; done) | (cases h; exact ⟨_, by rw [← z]⟩))

theorem centralizeTimingCones_line {cfg : Config} {s t : PathPlanner}
    (h : centralizeTimingCones cfg s = .ok t) :
    ∃ ext, t.centre_points = s.centre_points ++ ext := by
  unfold centralizeTimingCones at h
  simp only at h
  repeat' (split at h)
  all_goals (first | (cases h; done) | (cases h; exact ⟨_, rfl⟩) |
    (cases h; exact ⟨[], (List.append_nil _).symm⟩))

theorem appendLoop_line : ∀ (l : List PathPoint) (raw : List Cone) (cps : List PathPoint)
    (raw2 : List Cone) (cps2 : List PathPoint),
    appendLoop l raw cps = .ok (raw2, cps2) → cps2 = cps ++ l := by
  intro l
  induction l with
  | nil =>
    intro raw cps raw2 cps2 h
    simp [appendLoop] at h
    simp [h.2]
  | cons p rest ih =>
    intro raw cps raw2 cps2 h
    unfold appendLoop at h
    split at h
    · cases h
    · split at h
      · cases h
      · have := ih _ _ _ _ h
        simpa using this

theorem addCentrePoints_line {cfg : Config} {s t : PathPlanner}
    (h : addCentrePoints cfg s = .ok t) :
    ∃ ext, t.centre_points = s.centre_points ++ ext := by
  unfold addCentrePoints at h
  split at h
  · cases h
    exact ⟨[], by simp⟩
  · split at h
    · cases h
    · cases h
    · split at h
      · cases h
      · split at h
        · cases h
        · split at h
          · cases h
          · split at h
            · cases h
            · rename_i raw cps h5
              cases h
              exact ⟨_, appendLoop_line _ _ _ _ _ h5⟩

theorem sq_sum_zero {a b : ℚ} (h : a ^ 2 + b ^ 2 = 0) : a = 0 ∧ b = 0 := by
  have ha : 0 ≤ a ^ 2 := sq_nonneg a
  have hb : 0 ≤ b ^ 2 := sq_nonneg b
  have h1 : a ^ 2 = 0 := by linarith
  have h2 : b ^ 2 = 0 := by linarith
  exact ⟨pow_eq_zero_iff (two_ne_zero) |>.1 h1, pow_eq_zero_iff (two_ne_zero) |>.1 h2⟩

/-- Sorting by distance to a reference point brings a point at the reference
position to the front, as soon as one is in the list. -/
theorem sortPathPoints_head {cfg : Config} (hsqrt : ∀ x : ℚ, 0 < x → cfg.sqrt 0 < cfg.sqrt x)
    {cps : List PathPoint} {ref : PathPoint}
    (hex : ∃ p ∈ cps, p.x = ref.x ∧ p.y = ref.y) : HeadAt ref (sortPathPoints cfg cps ref) := by
  obtain ⟨p0, hp0, hx0, hy0⟩ := hex
  have instT : IsTotal PathPoint (fun a b => a.dist ≤ b.dist) := ⟨fun a b => le_total _ _⟩
  have instR : IsTrans PathPoint (fun a b => a.dist ≤ b.dist) := ⟨fun a b c => le_trans⟩
  set m := cps.map (fun p => { p with dist := calcDist cfg p ref }) with hm
  have hperm : (sortPathPoints cfg cps ref).Perm m := List.perm_insertionSort _ _
  have hsorted : (sortPathPoints cfg cps ref).Sorted (fun a b => a.dist ≤ b.dist) :=
    List.sorted_insertionSort _ _
  have hq0 : ({ p0 with dist := calcDist cfg p0 ref } : PathPoint) ∈ m :=
    List.mem_map.2 ⟨p0, hp0, rfl⟩
  have hq0s := hperm.mem_iff.2 hq0
  have hd0 : calcDist cfg p0 ref = cfg.sqrt 0 := by
    unfold calcDist
    simp [hx0, hy0]
  cases hl : sortPathPoints cfg cps ref with
  | nil =>
    rw [hl] at hq0s
    cases hq0s
  | cons a rest =>
    rw [hl] at hq0s hsorted
    have ham : a ∈ m := hperm.mem_iff.1 (by rw [hl]; exact List.mem_cons_self _ _)
    obtain ⟨p, _, hpa⟩ := List.mem_map.1 ham
    have hle : a.dist ≤ cfg.sqrt 0 := by
      rcases List.mem_cons.1 hq0s with h1 | h1
      · rw [← h1]
        exact le_of_eq hd0
      · have := List.rel_of_sorted_cons hsorted _ h1
        simp only at this
        rw [hd0] at this
        exact this
    have hadist : a.dist = cfg.sqrt ((ref.x - p.x) ^ 2 + (ref.y - p.y) ^ 2) := by
      rw [← hpa]
      rfl
    have hzero : (ref.x - p.x) ^ 2 + (ref.y - p.y) ^ 2 = 0 := by
      by_contra hne
      have hpos : 0 < (ref.x - p.x) ^ 2 + (ref.y - p.y) ^ 2 :=
        lt_of_le_of_ne (add_nonneg (sq_nonneg _) (sq_nonneg _)) (Ne.symm hne)
      have := hsqrt _ hpos
      rw [← hadist] at this
      exact absurd hle (not_le.2 this)
    obtain ⟨h1, h2⟩ := sq_sum_zero hzero
    refine ⟨a, rest, rfl, ?_, ?_⟩
    · rw [← hpa]
      simp only
      linarith
    · rw [← hpa]
      simp only
      linarith

theorem HeadAt.mem {q : PathPoint} {l : List PathPoint} (h : HeadAt q l) :
    ∃ p ∈ l, p.x = q.x ∧ p.y = q.y := by
  obtain ⟨p, rest, e, hx, hy⟩ := h
  exact ⟨p, by rw [e]; exact List.mem_cons_self _ _, hx, hy⟩

theorem updateCentrePoints_anchored {cfg : Config} {s t : PathPlanner}
    (h : updateCentrePoints cfg s = .ok t) (ha : Anchored s) : Anchored t := by
  have z := updateCentrePoints_zone h
  obtain ⟨tail, e, l2, _⟩ := updateCentrePoints_line h
  unfold Anchored
  rw [z.2.2.2.1]
  by_cases hlen : 2 ≤ s.centre_points.length
  · refine HeadAt.of_prefix ha e ?_
    intro hnil
    have := l2 hlen
    rw [hnil] at this
    simp at this
  · have hs : updateCentrePoints cfg s = .ok s := by
      unfold updateCentrePoints
      rw [if_pos (by omega)]
    rw [hs] at h
    cases h
    exact ha

theorem sortStep_anchored {cfg : Config} (hsqrt : ∀ x : ℚ, 0 < x → cfg.sqrt 0 < cfg.sqrt x)
    {s t : PathPlanner} (h : sortStep cfg s = .ok t) (ha : Anchored s) : Anchored t := by
  unfold sortStep at h
  split at h
  · simp only at h
    split at h
    · cases h
    · rename_i s1 h1
      have a1 : Anchored s1 := by
        split at h1
        · split at h1
          · cases h1
          · rename_i t1 ht
            cases h1
            obtain ⟨ext, e⟩ := centralizeTimingCones_line ht
            have z := centralizeTimingCones_zone ht
            have at1 : HeadAt t1.init_pos t1.centre_points := by
              rw [e, z.2.2.2.1]
              exact ha.append ext
            exact sortPathPoints_head hsqrt at1.mem
        · cases h1
          exact ha
      split at h
      · split at h
        · cases h
        · rename_i s2 h2
          split at h
          · cases h
          · rename_i s3 h3
            obtain ⟨ext, e⟩ := addCentrePoints_line h
            have z := (sortAndPushCone_zone h2).trans
              ((sortAndPushCone_zone h3).trans (addCentrePoints_zone h))
            unfold Anchored
            rw [e, sortAndPushCone_line h3, sortAndPushCone_line h2, z.2.2.2.1]
            exact a1.append ext
      · cases h
        exact a1
  · cases h
    exact ha

theorem buildStep_anchored {cfg : Config} (hsqrt : ∀ x : ℚ, 0 < x → cfg.sqrt 0 < cfg.sqrt x)
    {s t : PathPlanner} {nc : List Cone} (h : buildStep cfg s nc = .ok t) (ha : Anchored s) :
    Anchored t := by
  unfold buildStep at h
  split at h
  · split at h
    · cases h
    · rename_i s1 h1
      split at h
      · cases h
      · rename_i s2 h2
        have a1 : Anchored s1 := by
          unfold Anchored
          rw [addCones_line h1, (addCones_zone h1).2.2.2.1]
          exact ha
        exact sortStep_anchored hsqrt h (updateCentrePoints_anchored h2 a1)
  · cases h
    exact ha

theorem closureStep_anchored {cfg : Config} {s t : PathPlanner}
    (h : closureStep cfg s = .ok t) (ha : Anchored s) : Anchored t := by
  unfold closureStep at h
  repeat' (split at h)
  all_goals (first | (cases h; done) | (cases h; exact ha) | (cases h; exact ha.append _))

theorem update_anchored {cfg : Config} (hsqrt : ∀ x : ℚ, 0 < x → cfg.sqrt 0 < cfg.sqrt x)
    {s t : PathPlanner} {nc : List Cone} {x y : ℚ} {out o : Output}
    (h : update cfg s nc x y out = .ok (t, o)) (ha : Anchored s) : Anchored t := by
  unfold update at h
  split at h
  · split at h
    · cases h
    · rename_i s1 o1 h1
      cases h
      have e := (returnResult_effect h1).1
      rw [e]
      exact ha
  · split at h
    · cases h
    · rename_i s1 h1
      split at h
      · cases h
      · rename_i s2 h2
        split at h
        · cases h
        · rename_i s3 o3 h3
          cases h
          have a2 : Anchored s2 := buildStep_anchored hsqrt h2 (closureStep_anchored h1 ha)
          have e := (returnResult_effect h3).1
          have z := resetTempConeVectors_zone s3
          unfold Anchored
          rw [(reset_fields s3).2.1, z.2.2.2.1, e]
          exact a2

theorem run_anchored {cfg : Config} (hsqrt : ∀ x : ℚ, 0 < x → cfg.sqrt 0 < cfg.sqrt x) :
    ∀ (frames : List Frame) (s t : PathPlanner), run cfg s frames = .ok t →
      Anchored s → Anchored t := by
  intro frames
  induction frames with
  | nil =>
    intro s t h ha
    simp [run] at h
    rw [← h]; exact ha
  | cons f rest ih =>
    intro s t h ha
    unfold run at h
    split at h
    · cases h
    · rename_i s1 o1 h1
      exact ih _ _ h (update_anchored hsqrt h1 ha)

theorem construct_anchored {cfg : Config} (hsqrt : ∀ x : ℚ, 0 < x → cfg.sqrt 0 < cfg.sqrt x)
    {x y : ℚ} {cones : List Cone} {s0 : PathPlanner}
    (h : construct cfg x y cones = .ok s0) : Anchored s0 := by
  unfold construct at h
  split at h
  · cases h
  · rename_i s1 h1
    simp only at h
    split at h
    · cases h
    · rename_i s3 h3
      split at h
      · cases h
      · rename_i s4 h4
        cases h
        have z1 := addCones_zone h1
        have l1 := addCones_line h1
        obtain ⟨e3, l3⟩ := addFirstCentrePoints_line h3
        have z3 := addFirstCentrePoints_zone h3
        obtain ⟨e4, l4⟩ := centralizeTimingCones_line h4
        have z4 := centralizeTimingCones_zone h4
        have a4 : Anchored s4 := by
          unfold Anchored
          rw [l4, l3, z4.2.2.2.1, z3.2.2.2.1]
          simp only
          rw [l1, z1.2.2.2.1]
          exact ⟨PathPoint.ofXY x y, _, rfl, rfl, rfl⟩
        have z := resetTempConeVectors_zone
          (if s4.timingCalc = true then
            { s4 with centre_points := sortPathPoints cfg s4.centre_points s4.init_pos } else s4)
        unfold Anchored
        rw [(reset_fields _).2.1, z.2.2.2.1]
        split
        · exact sortPathPoints_head hsqrt a4.mem
        · exact a4

/-- C2: with a square root that is larger on positive arguments than at 0,
every planner state reached from the constructor through update calls has a
non-empty centre-line whose first point has the coordinates of the initial pose. -/
theorem C2_centre_line_anchor (cfg : Config)
    (hsqrt : ∀ x : ℚ, 0 < x → cfg.sqrt 0 < cfg.sqrt x) (car_x car_y : ℚ) (cones : List Cone)
    (frames : List Frame) (s0 s : PathPlanner)
    (h0 : construct cfg car_x car_y cones = .ok s0) (h1 : run cfg s0 frames = .ok s) :
    ∃ p rest, s.centre_points = p :: rest ∧ p.x = car_x ∧ p.y = car_y := by
  have a := run_anchored hsqrt frames s0 s h1 (construct_anchored hsqrt h0)
  have hi : s.init_pos = PathPoint.ofXY car_x car_y := by
    rw [run_init_pos frames s0 s h1, (construct_zone h0).2.2.2.1]
    rfl
  obtain ⟨p, rest, e, hx, hy⟩ := a
  rw [hi] at hx hy
  exact ⟨p, rest, e, hx, hy⟩

theorem isqrtAux_spec (n : Nat) : ∀ fuel lo hi, lo * lo ≤ n → n < hi * hi → hi ≤ lo + fuel + 1 →
    isqrtAux n fuel lo hi * isqrtAux n fuel lo hi ≤ n ∧
      n < (isqrtAux n fuel lo hi + 1) * (isqrtAux n fuel lo hi + 1) := by
  intro fuel
  induction fuel with
  | zero =>
    intro lo hi h1 h2 h3
    simp only [isqrtAux]
    refine ⟨h1, ?_⟩
    have : hi ≤ lo + 1 := by omega
    calc n < hi * hi := h2
      _ ≤ (lo + 1) * (lo + 1) := Nat.mul_le_mul this this
  | succ f ih =>
    intro lo hi h1 h2 h3
    unfold isqrtAux
    split
    · rename_i hle
      refine ⟨h1, ?_⟩
      calc n < hi * hi := h2
        _ ≤ (lo + 1) * (lo + 1) := Nat.mul_le_mul hle hle
    · rename_i hnle
      split
      · rename_i hm
        exact ih _ _ hm h2 (by omega)
      · rename_i hm
        exact ih _ _ h1 (by omega) (by omega)

theorem isqrt_spec (n : Nat) : isqrt n * isqrt n ≤ n ∧ n < (isqrt n + 1) * (isqrt n + 1) := by
  unfold isqrt
  apply isqrtAux_spec
  · simp
  · nlinarith
  · omega

theorem csqrt_le_iff (n c : Nat) : csqrt n ≤ c ↔ n ≤ c * c := by
  have h := isqrt_spec n
  unfold csqrt
  constructor
  · intro hc
    split at hc
    · rename_i he
      calc n = isqrt n * isqrt n := he.symm
        _ ≤ c * c := Nat.mul_le_mul hc hc
    · calc n ≤ (isqrt n + 1) * (isqrt n + 1) := h.2.le
        _ ≤ c * c := Nat.mul_le_mul hc hc
  · intro hc
    split
    · by_contra hlt
      push_neg at hlt
      have : c * c < isqrt n * isqrt n := Nat.mul_lt_mul'' hlt hlt
      omega
    · rename_i hne
      by_contra hlt
      push_neg at hlt
      have h1 : c ≤ isqrt n := by omega
      have : c * c ≤ isqrt n * isqrt n := Nat.mul_le_mul h1 h1
      omega

theorem csqrt_mono {n m : Nat} (h : n ≤ m) : csqrt n ≤ csqrt m := by
  rw [csqrt_le_iff]
  exact h.trans ((csqrt_le_iff m (csqrt m)).1 le_rfl)

theorem demoSqrt_mono {a b : ℚ} (h : a ≤ b) : demoSqrt a ≤ demoSqrt b := by
  unfold demoSqrt
  have h1 : ⌈a * 1000000⌉₊ ≤ ⌈b * 1000000⌉₊ := Nat.ceil_mono (by linarith)
  have h2 := csqrt_mono h1
  have h3 : (csqrt ⌈a * 1000000⌉₊ : ℚ) ≤ (csqrt ⌈b * 1000000⌉₊ : ℚ) := by exact_mod_cast h2
  linarith

theorem demoSqrt_pos {a : ℚ} (h : 0 < a) : demoSqrt 0 < demoSqrt a := by
  have h0 : demoSqrt 0 = 0 := by decide!
  rw [h0]
  unfold demoSqrt
  have h1 : 0 < ⌈a * 1000000⌉₊ := Nat.ceil_pos.2 (by linarith)
  have h2 : 0 < csqrt ⌈a * 1000000⌉₊ := by
    by_contra hh
    push_neg at hh
    have := (csqrt_le_iff _ 0).1 hh
    omega
  have h3 : (0 : ℚ) < (csqrt ⌈a * 1000000⌉₊ : ℚ) := by exact_mod_cast h2
  positivity

theorem C2_centre_line_anchor_witness :
    (∀ x : ℚ, 0 < x → demoConfig.sqrt 0 < demoConfig.sqrt x) ∧
    construct demoConfig 0 0 corridorCones = .ok corridorStart ∧
    run demoConfig corridorStart [corridorFrame, corridorFrame]
      = .ok (corridorAfter [corridorFrame, corridorFrame]) ∧
    ∃ p rest, (corridorAfter [corridorFrame, corridorFrame]).centre_points = p :: rest ∧
      p.x = 0 ∧ p.y = 0 := by
  have k : construct demoConfig 0 0 corridorCones = .ok corridorStart ∧
      run demoConfig corridorStart [corridorFrame, corridorFrame]
        = .ok (corridorAfter [corridorFrame, corridorFrame]) := by decide!
  exact ⟨fun _ hx => demoSqrt_pos hx, k.1, k.2,
    C2_centre_line_anchor demoConfig (fun _ hx => demoSqrt_pos hx) 0 0 corridorCones
      [corridorFrame, corridorFrame] corridorStart _ k.1 k.2⟩

theorem ingested_nil_left (cfg : Config) (car : PathPoint) (ncs : List Cone) :
    ingested cfg car [] ncs = ncs := by
  cases ncs <;> rfl

theorem ingestStep_raw {cfg : Config} {car : PathPoint} {i : Nat} {nc : Cone}
    {st st1 : List Cone × List Nat × Bool} (h : ingestStep cfg car i nc st = .ok st1)
    (hi : i ≤ st.1.length) :
    st1.1 = st.1.take i ++ ingested cfg car (st.1.drop i) [nc] := by
  unfold ingestStep at h
  split at h
  · rename_i he
    split at h
    · cases h
      simp only
      rw [he, List.take_length, List.drop_length, ingested_nil_left]
    · cases h
  · rename_i hne
    have hlt : i < st.1.length := lt_of_le_of_ne hi hne
    have hd : st.1.drop i = st.1[i] :: st.1.drop (i + 1) := List.drop_eq_getElem_cons hlt
    split at h
    · rename_i hnone
      rw [List.getElem?_eq_getElem hlt] at hnone
      cases hnone
    · rename_i c hsome
      rw [List.getElem?_eq_getElem hlt] at hsome
      cases hsome
      have key : ∀ v : Cone, st.1.set i v = st.1.take i ++ v :: st.1.drop (i + 1) := by
        intro v
        rw [List.set_eq_take_append_cons_drop, if_pos hlt]
      have hing : ∀ v : Cone, ingestCone cfg car st.1[i] nc = v →
          st.1.take i ++ ingested cfg car (st.1.drop i) [nc]
            = st.1.take i ++ v :: st.1.drop (i + 1) := by
        intro v hv
        rw [hd]
        simp only [ingested, hv]
        cases st.1.drop (i + 1) <;> rfl
      split at h
      · rename_i hp
        split at h
        · rename_i hn
          cases h
          simp only
          rw [key, hing]
          simp [ingestCone, hp, hn]
        · rename_i hn
          split at h
          · cases h
            simp only
            rw [key, hing]
            simp [ingestCone, hp, hn]
          · cases h
            simp only
            rw [key, hing]
            simp [ingestCone, hp, hn]
      · rename_i hp
        have hv : ingestCone cfg car st.1[i] nc = st.1[i] := by
          simp [ingestCone, hp]
        have hsame : st.1 = st.1.take i ++ st.1[i] :: st.1.drop (i + 1) := by
          rw [← hd, List.take_append_drop]
        split at h
        · cases h
          simp only
          rw [hing _ hv]
          exact hsame
        · cases h
          rw [hing _ hv]
          exact hsame

theorem ingested_nil_right (cfg : Config) (car : PathPoint) (cs : List Cone) :
    ingested cfg car cs [] = cs := by
  cases cs <;> rfl

theorem take_drop_succ {α : Type} (A : List α) (x : α) (T : List α) :
    (A ++ x :: T).take (A.length + 1) = A ++ [x] ∧ (A ++ x :: T).drop (A.length + 1) = T := by
  constructor
  · rw [List.take_append]
    simp
  · rw [List.drop_append]
    simp

theorem ingestLoop_raw {cfg : Config} {car : PathPoint} :
    ∀ (new_cones : List Cone) (i : Nat) (st st2 : List Cone × List Nat × Bool),
      ingestLoop cfg car new_cones i st = .ok st2 → i ≤ st.1.length →
      st2.1 = st.1.take i ++ ingested cfg car (st.1.drop i) new_cones := by
  intro new_cones
  induction new_cones with
  | nil =>
    intro i st st2 h _
    simp [ingestLoop] at h
    rw [← h, ingested_nil_right, List.take_append_drop]
  | cons nc rest ih =>
    intro i st st2 h hi
    unfold ingestLoop at h
    split at h
    · cases h
    · rename_i st1 h1
      have e1 := ingestStep_raw h1 hi
      have hA : (st.1.take i).length = i := List.length_take_of_le hi
      cases hB : st.1.drop i with
      | nil =>
        rw [hB, ingested_nil_left] at e1
        have td := take_drop_succ (st.1.take i) nc []
        rw [hA, ← e1] at td
        have e2 := ih (i + 1) st1 st2 h (by rw [e1]; simp [hA])
        rw [td.1, td.2, ingested_nil_left] at e2
        rw [e2, ingested_nil_left, e1, List.append_assoc]
        rfl
      | cons c cs =>
        rw [hB] at e1
        simp only [ingested] at e1
        rw [ingested_nil_right] at e1
        have td := take_drop_succ (st.1.take i) (ingestCone cfg car c nc) cs
        rw [hA, ← e1] at td
        have e2 := ih (i + 1) st1 st2 h (by rw [e1]; simp [hA])
        rw [td.1, td.2] at e2
        rw [e2]
        simp [ingested]

theorem ingested_getElem? (cfg : Config) (car : PathPoint) :
    ∀ (cs ncs : List Cone) (k : Nat),
      (ingested cfg car cs ncs)[k]? =
        match cs[k]?, ncs[k]? with
        | some c, some nc => some (ingestCone cfg car c nc)
        | some c, none => some c
        | none, some nc => some nc
        | none, none => none := by
  intro cs
  induction cs with
  | nil =>
    intro ncs k
    rw [ingested_nil_left]
    simp only [List.getElem?_nil]
    cases ncs[k]? <;> rfl
  | cons c cs ih =>
    intro ncs k
    cases ncs with
    | nil =>
      rw [ingested_nil_right]
      simp only [List.getElem?_nil]
      cases (c :: cs)[k]? <;> rfl
    | cons nc ncs =>
      cases k with
      | zero => simp [ingested]
      | succ k =>
        simp only [ingested, List.getElem?_cons_succ]
        exact ih ncs k

theorem ingested_length (cfg : Config) (car : PathPoint) :
    ∀ (cs ncs : List Cone), (ingested cfg car cs ncs).length = max cs.length ncs.length := by
  intro cs
  induction cs with
  | nil => intro ncs; rw [ingested_nil_left]; simp
  | cons c cs ih =>
    intro ncs
    cases ncs with
    | nil => rw [ingested_nil_right]; simp
    | cons nc ncs =>
      simp only [ingested, List.length_cons, ih]
      omega

theorem ingestStep_ok {cfg : Config} {car : PathPoint} {i : Nat} {nc : Cone}
    {st : List Cone × List Nat × Bool} (hi : i ≤ st.1.length)
    (hcap : i < st.1.length ∨ st.1.length < raw_cones_capacity) :
    ∃ st1, ingestStep cfg car i nc st = .ok st1 := by
  unfold ingestStep
  split
  · rename_i he
    have hlt : st.1.length < raw_cones_capacity := by
      rcases hcap with h | h
      · omega
      · exact h
    rw [if_pos hlt]
    exact ⟨_, rfl⟩
  · rename_i hne
    have hlt : i < st.1.length := lt_of_le_of_ne hi hne
    rw [List.getElem?_eq_getElem hlt]
    simp only
    repeat' split
    all_goals exact ⟨_, rfl⟩

theorem ingestLoop_ok {cfg : Config} {car : PathPoint} :
    ∀ (new_cones : List Cone) (i : Nat) (st : List Cone × List Nat × Bool),
      i ≤ st.1.length →
      (i + new_cones.length ≤ st.1.length ∨ i + new_cones.length ≤ raw_cones_capacity) →
      ∃ st2, ingestLoop cfg car new_cones i st = .ok st2 := by
  intro new_cones
  induction new_cones with
  | nil => intro i st _ _; exact ⟨st, rfl⟩
  | cons nc rest ih =>
    intro i st hi hcap
    unfold ingestLoop
    have hstep : i < st.1.length ∨ st.1.length < raw_cones_capacity := by
      simp only [List.length_cons] at hcap
      rcases hcap with h | h
      · exact Or.inl (by omega)
      · by_cases hlt : i < st.1.length
        · exact Or.inl hlt
        · exact Or.inr (by omega)
    obtain ⟨st1, h1⟩ := @ingestStep_ok cfg car i nc st hi hstep
    rw [h1]
    simp only
    have e1 := ingestStep_raw h1 hi
    have hA : (st.1.take i).length = i := List.length_take_of_le hi
    have hlen : i + 1 ≤ st1.1.length ∧ st.1.length ≤ st1.1.length := by
      rw [e1, List.length_append, hA]
      cases hd : st.1.drop i with
      | nil =>
        rw [ingested_nil_left]
        have : st.1.length ≤ i := by
          have := congrArg List.length hd
          simp only [List.length_drop, List.length_nil] at this
          omega
        simp only [List.length_singleton]
        omega
      | cons c cs =>
        have := congrArg List.length hd
        simp only [List.length_drop, List.length_cons] at this
        simp only [ingested, List.length_cons]
        rw [ingested_nil_right]
        omega
    apply ih _ _ hlen.1
    simp only [List.length_cons] at hcap
    rcases hcap with h | h
    · exact Or.inl (by omega)
    · exact Or.inr (by omega)

theorem trimLoop_ok {raw : List Cone} : ∀ (l : List Nat) (indx : Nat),
    (∀ h ∈ l, h < raw.length) → ∃ r, trimLoop raw l indx = .ok r := by
  intro l
  induction l with
  | nil => intro indx _; exact ⟨_, rfl⟩
  | cons h rest ih =>
    intro indx hv
    unfold trimLoop
    obtain ⟨c, hc⟩ := deref_ok (hv h (List.mem_cons_self _ _))
    rw [hc]
    simp only
    split
    · exact ih _ (fun k hk => hv k (List.mem_cons_of_mem _ hk))
    · exact ⟨_, rfl⟩

theorem trimCones_ok {raw : List Cone} {cones : List Nat} (indx : Nat)
    (hv : ∀ h ∈ cones, h < raw.length) : ∃ r, trimCones raw cones indx = .ok r := by
  unfold trimCones
  obtain ⟨⟨r, i⟩, hr⟩ := @trimLoop_ok raw cones.reverse indx
    (fun h hh => hv h (List.mem_reverse.1 hh))
  rw [hr]
  exact ⟨_, rfl⟩

/-- The stored cones after `updateStoredCones`. -/
theorem updateStoredCones_raw {cfg : Config} {s t : PathPlanner} {new_cones : List Cone}
    (h : updateStoredCones cfg s new_cones = .ok t) :
    t.raw_cones = ingested cfg s.car_pos s.raw_cones new_cones := by
  unfold updateStoredCones at h
  simp only at h
  split at h
  · cases h
  · rename_i raw future tc h1
    have e := ingestLoop_raw _ _ _ _ h1 (Nat.zero_le _)
    simp only [List.take_zero, List.drop_zero, List.nil_append] at e
    repeat' (split at h)
    all_goals (first | (cases h; done) | (cases h; exact e))

theorem updateStoredCones_ok {cfg : Config} {s : PathPlanner} (new_cones : List Cone)
    (hv : ∀ h, h ∈ s.left_cones ∨ h ∈ s.right_cones → h < s.raw_cones.length)
    (hcap : new_cones.length ≤ s.raw_cones.length ∨ new_cones.length ≤ raw_cones_capacity) :
    ∃ t, updateStoredCones cfg s new_cones = .ok t := by
  unfold updateStoredCones
  simp only
  obtain ⟨⟨raw, future, tc⟩, h1⟩ := @ingestLoop_ok cfg s.car_pos new_cones 0
    (s.raw_cones, s.future_cones, s.timingCalc) (Nat.zero_le _) (by
      simp only [Nat.zero_add]
      exact hcap)
  rw [h1]
  simp only
  have e := ingestLoop_raw _ _ _ _ h1 (Nat.zero_le _)
  simp only [List.take_zero, List.drop_zero, List.nil_append] at e
  have hlen : s.raw_cones.length ≤ raw.length := by
    rw [e, ingested_length]
    exact le_max_left _ _
  obtain ⟨⟨l, li⟩, hl⟩ := @trimCones_ok raw s.left_cones s.leftIndx
    (fun h hh => lt_of_lt_of_le (hv h (Or.inl hh)) hlen)
  obtain ⟨⟨r, ri⟩, hr⟩ := @trimCones_ok raw s.right_cones s.rightIndx
    (fun h hh => lt_of_lt_of_le (hv h (Or.inr hh)) hlen)
  rw [hl]
  simp only
  rw [hr]
  exact ⟨_, rfl⟩

/-- C3 (as stated) fails: with the car within the proximity radius of both
stored, not yet passed cones and an empty observation list, updateStoredCones
leaves both cones not passed. -/
theorem C3_ingest_counterexample :
    gateSeen.raw_cones.map (fun c => (c.passedBy,
        decide (calcDist demoConfig c.position gateSeen.car_pos < demoConfig.CERTAIN_RANGE)))
      = [(false, true), (false, true)] ∧
    (updateStoredCones demoConfig gateSeen []).toOption.map
        (fun t => t.raw_cones.map (fun c => c.passedBy)) = some [false, false] := by
  decide!

/-- C3 (amended): updateStoredCones keeps every stored cone at its index and
appends the observations at indexes from the previous count on; a stored cone
without an observation at its index is unchanged; a stored cone with one is
unchanged when already passed, becomes passed with its position unchanged when
within CERTAIN_RANGE of the car, and otherwise takes the observed position. The
call returns whenever the boundary sequences hold handles of stored cones and
no new cone is pushed beyond the 500 cones the constructor reserves for
`raw_cones`; a `push_back` beyond them reallocates the store and leaves every
stored `Cone*` dangling, which the embedding counts as a fault. -/
theorem C3_ingest_postcondition (cfg : Config) (s : PathPlanner) (new_cones : List Cone) :
    ((∀ h, h ∈ s.left_cones ∨ h ∈ s.right_cones → h < s.raw_cones.length) →
      (new_cones.length ≤ s.raw_cones.length ∨ new_cones.length ≤ raw_cones_capacity) →
      ∃ t, updateStoredCones cfg s new_cones = .ok t) ∧
    ∀ t, updateStoredCones cfg s new_cones = .ok t →
      t.raw_cones.length = max s.raw_cones.length new_cones.length ∧
      (∀ i : Nat, s.raw_cones.length ≤ i → t.raw_cones[i]? = new_cones[i]?) ∧
      (∀ (i : Nat) (c : Cone), s.raw_cones[i]? = some c → new_cones.length ≤ i →
        t.raw_cones[i]? = some c) ∧
      (∀ (i : Nat) (c nc : Cone), s.raw_cones[i]? = some c → new_cones[i]? = some nc →
        (c.passedBy = true → t.raw_cones[i]? = some c) ∧
        (c.passedBy = false → calcDist cfg c.position s.car_pos < cfg.CERTAIN_RANGE →
          t.raw_cones[i]? = some { c with passedBy := true }) ∧
        (c.passedBy = false → ¬ calcDist cfg c.position s.car_pos < cfg.CERTAIN_RANGE →
          t.raw_cones[i]? = some (c.updateConePos nc.position))) := by
  refine ⟨updateStoredCones_ok new_cones, fun t ht => ?_⟩
  have e := updateStoredCones_raw ht
  refine ⟨by rw [e, ingested_length], fun i hi => ?_,
    fun i c hc hi => ?_,
    fun i c nc hc hn => ⟨fun hp => ?_, fun hp hd => ?_, fun hp hd => ?_⟩⟩
  · rw [e, ingested_getElem?, List.getElem?_eq_none hi]
    cases new_cones[i]? <;> rfl
  · rw [e, ingested_getElem?, hc, List.getElem?_eq_none hi]
  · rw [e, ingested_getElem?, hc, hn]
    simp [ingestCone, hp]
  · rw [e, ingested_getElem?, hc, hn]
    simp [ingestCone, hp, hd]
  · rw [e, ingested_getElem?, hc, hn]
    simp [ingestCone, hp, hd]

theorem C3_ingest_postcondition_witness :
    (∀ h, h ∈ gateSeen.left_cones ∨ h ∈ gateSeen.right_cones → h < gateSeen.raw_cones.length) ∧
    (gateCones.length ≤ gateSeen.raw_cones.length ∨ gateCones.length ≤ raw_cones_capacity) ∧
    ∃ t, updateStoredCones demoConfig gateSeen gateCones = .ok t ∧
      t.raw_cones.map (fun c => c.passedBy) = [true, true] := by
  have hv : ∀ h, h ∈ gateSeen.left_cones ∨ h ∈ gateSeen.right_cones →
      h < gateSeen.raw_cones.length := by
    have hl : gateSeen.left_cones = [0] := by decide!
    have hr : gateSeen.right_cones = [1] := by decide!
    have hn : gateSeen.raw_cones.length = 2 := by decide!
    intro h hh
    rw [hl, hr] at hh
    rw [hn]
    simp only [List.mem_singleton] at hh
    omega
  have hcap : gateCones.length ≤ gateSeen.raw_cones.length ∨
      gateCones.length ≤ raw_cones_capacity := Or.inr (by decide)
  obtain ⟨t, ht⟩ := (C3_ingest_postcondition demoConfig gateSeen gateCones).1 hv hcap
  refine ⟨hv, hcap, t, ht, ?_⟩
  have e : updateStoredCones demoConfig gateSeen gateCones
      = .ok ((updateStoredCones demoConfig gateSeen gateCones).toOption.getD gateSeen) := by
    decide!
  rw [e] at ht
  cases ht
  decide!

theorem updateStoredCones_got {cfg : Config} {s t : PathPlanner} {new_cones : List Cone}
    (h : updateStoredCones cfg s new_cones = .ok t) :
    t.gotNewCones = if s.raw_cones.length ≠ new_cones.length then true else s.gotNewCones := by
  unfold updateStoredCones at h
  simp only at h
  repeat' (split at h)
  all_goals (first | (cases h; done) | (cases h; simp_all))

/-- C4 (as stated) fails: given an empty observation list while two cones are
stored, update returns normally, with the two stored cones kept and the
two-point centre-line emitted; nothing is reported to the caller. -/
theorem C4_malformed_input_counterexample :
    (gateStart demoConfig).raw_cones.length = 2 ∧
    (update demoConfig (gateStart demoConfig) [] 3 0 Output.empty).toOption.map
        (fun r => (r.1.raw_cones.length, r.2.Path.length, r.2.plannerComp))
      = some (2, 2, false) := by
  decide!

/-- C4 (amended): an observation list shorter than the stored cones is processed
silently: updateStoredCones returns (it has no error result), sets gotNewCones
because the sizes differ, keeps the number of stored cones, and leaves every
stored cone without an observation at its index unchanged. -/
theorem C4_short_list_is_processed (cfg : Config) (s : PathPlanner) (new_cones : List Cone)
    (hshort : new_cones.length < s.raw_cones.length) :
    ((∀ h, h ∈ s.left_cones ∨ h ∈ s.right_cones → h < s.raw_cones.length) →
      ∃ t, updateStoredCones cfg s new_cones = .ok t) ∧
    ∀ t, updateStoredCones cfg s new_cones = .ok t →
      t.gotNewCones = true ∧ t.raw_cones.length = s.raw_cones.length ∧
      ∀ (i : Nat) (c : Cone), s.raw_cones[i]? = some c → new_cones.length ≤ i →
        t.raw_cones[i]? = some c := by
  refine ⟨fun hv => updateStoredCones_ok new_cones hv (Or.inl (le_of_lt hshort)),
    fun t ht => ⟨?_, ?_, ?_⟩⟩
  · rw [updateStoredCones_got ht, if_pos (by omega)]
  · rw [updateStoredCones_raw ht, ingested_length]
    omega
  · intro i c hc hi
    rw [updateStoredCones_raw ht, ingested_getElem?, hc, List.getElem?_eq_none hi]

theorem C4_short_list_is_processed_witness :
    ([] : List Cone).length < gateSeen.raw_cones.length ∧
    ((∀ h, h ∈ gateSeen.left_cones ∨ h ∈ gateSeen.right_cones → h < gateSeen.raw_cones.length) →
      ∃ t, updateStoredCones demoConfig gateSeen [] = .ok t) ∧
    ∀ t, updateStoredCones demoConfig gateSeen [] = .ok t →
      t.gotNewCones = true ∧ t.raw_cones.length = gateSeen.raw_cones.length ∧
      ∀ (i : Nat) (c : Cone), gateSeen.raw_cones[i]? = some c → ([] : List Cone).length ≤ i →
        t.raw_cones[i]? = some c :=
  ⟨by decide!, C4_short_list_is_processed demoConfig gateSeen [] (by decide!)⟩

/-- C8: the three outcomes of joinFeasible. With `near` the closeness test and
`angle` the angle difference of the two legs: not near gives false; near and an
angle below the low or above the high threshold gives true; near and an angle
between the thresholds reaches the end of the function without a return
statement. -/
theorem joinFeasible_cases (cfg : Config) (s : PathPlanner) (b f b2 : PathPoint)
    (hb : back s.centre_points = .ok b) (hf : front s.centre_points = .ok f)
    (hb2 : back2 s.centre_points = .ok b2) (hnear : calcDist cfg b s.init_pos < 5) :
    (|calcRelativeAngle cfg f b - calcRelativeAngle cfg b b2| < cfg.MAX_PATH_ANGLE1 ∨
        |calcRelativeAngle cfg f b - calcRelativeAngle cfg b b2| > cfg.MAX_PATH_ANGLE2 →
      joinFeasible cfg s = .ok true) ∧
    (¬ (|calcRelativeAngle cfg f b - calcRelativeAngle cfg b b2| < cfg.MAX_PATH_ANGLE1 ∨
        |calcRelativeAngle cfg f b - calcRelativeAngle cfg b b2| > cfg.MAX_PATH_ANGLE2) →
      joinFeasible cfg s = .error .noReturn) := by
  constructor
  · intro h
    unfold joinFeasible
    rw [hb]
    simp only [hnear, if_true, hf, hb2]
    rw [if_pos h]
  · intro h
    unfold joinFeasible
    rw [hb]
    simp only [hnear, if_true, hf, hb2]
    rw [if_neg h]

/-- C8 (failing input): with the latest centre-line point (3, 3) within 5 of the
initial position and an angle difference of 135 degrees between the legs,
joinFeasible ends without returning a value, under both readings of the angle
thresholds (50/310 and 50/150); the claim says it returns false. The same
happens in a run: from the gate of `gateCones`, two ticks at pose (16, 0) end
in that fault under the thresholds 50/310. -/
theorem C8_joinFeasible_no_return :
    calcDist demoConfig (PathPoint.ofXY 3 3) (cornerDemo demoConfig).init_pos < 5 ∧
    calcRelativeAngle demoConfig (PathPoint.ofXY 0 0) (PathPoint.ofXY 3 3)
      - calcRelativeAngle demoConfig (PathPoint.ofXY 3 3) (PathPoint.ofXY 3 0) = 135 ∧
    joinFeasible demoConfig (cornerDemo demoConfig) = .error .noReturn ∧
    joinFeasible reversalConfig (cornerDemo reversalConfig) = .error .noReturn ∧
    closureStep demoConfig (cornerDemo demoConfig) = .error .noReturn ∧
    run demoConfig (gateStart demoConfig) farFrames = .error .noReturn := by
  decide!

theorem modifyCone_getElem? {raw raw2 : List Cone} {h : Nat} {f : Cone → Cone}
    (e : modifyCone raw h f = .ok raw2) (k : Nat) :
    raw2[k]? = if k = h then (raw[k]?).map f else raw[k]? := by
  unfold modifyCone at e
  split at e
  · rename_i c hc
    cases e
    rw [List.getElem?_set]
    by_cases hk : h = k
    · subst hk
      have hlt : h < raw.length := by
        by_contra hn
        rw [List.getElem?_eq_none (by omega)] at hc
        cases hc
      simp [hlt, hc]
    · have hk2 : ¬ k = h := fun e => hk e.symm
      simp [hk, hk2]
  · cases e

theorem sumPositions_eq {raw : List Cone} : ∀ (hs : List Nat) (acc : PathPoint),
    (∀ h ∈ hs, h < raw.length) →
    sumPositions raw hs acc
      = .ok { acc with x := acc.x + sumX raw hs, y := acc.y + sumY raw hs } := by
  intro hs
  induction hs with
  | nil =>
    intro acc _
    simp [sumPositions, sumX, sumY]
  | cons h rest ih =>
    intro acc hv
    have hlt := hv h (List.mem_cons_self _ _)
    unfold sumPositions
    unfold deref
    rw [List.getElem?_eq_getElem hlt]
    simp only
    rw [ih _ (fun k hk => hv k (List.mem_cons_of_mem _ hk))]
    simp only [sumX, sumY, List.filterMap_cons, List.getElem?_eq_getElem hlt, List.map_cons,
      List.sum_cons]
    congr 2 <;> ring

theorem pairAll_effect : ∀ (hs : List Nat) (raw : List Cone), (∀ h ∈ hs, h < raw.length) →
    ∃ raw2, pairAll raw hs = .ok raw2 ∧ raw2.length = raw.length ∧
      ∀ (k : Nat) (c : Cone), raw[k]? = some c →
        raw2[k]? = some { c with paired := c.paired + (hs.count k : Int) } := by
  intro hs
  induction hs with
  | nil =>
    intro raw _
    exact ⟨raw, rfl, rfl, fun k c hc => by simp [hc]⟩
  | cons h rest ih =>
    intro raw hv
    have hlt := hv h (List.mem_cons_self _ _)
    obtain ⟨r1, e1, l1⟩ := modifyCone_ok (fun c => { c with paired := c.paired + 1 }) hlt
    obtain ⟨r2, e2, l2, g2⟩ := ih r1 (fun k hk => by
      rw [l1]; exact hv k (List.mem_cons_of_mem _ hk))
    refine ⟨r2, ?_, by rw [l2, l1], fun k c hc => ?_⟩
    · unfold pairAll
      rw [e1]
      exact e2
    · have g1 := modifyCone_getElem? e1 k
      rw [hc] at g1
      by_cases hk : k = h
      · rw [if_pos hk] at g1
        rw [g2 k _ g1]
        subst hk
        simp only [List.count_cons_self, Nat.cast_add, Nat.cast_one, Option.some.injEq]
        congr 1
        ring
      · rw [if_neg hk] at g1
        rw [g2 k _ g1]
        have : (h :: rest).count k = rest.count k := by
          rw [List.count_cons_of_ne hk]
        rw [this]

theorem timingAverage_eq {s : PathPlanner} (hv : ∀ h ∈ s.timing_cones, h < s.raw_cones.length) :
    timingAverage s = .ok (timingMean s) := by
  unfold timingAverage
  rw [sumPositions_eq _ _ hv]
  simp [timingMean, PathPoint.ofXY]

theorem calcDist_ofXY (cfg : Config) (p q : PathPoint) :
    calcDist cfg (PathPoint.ofXY p.x p.y) q = calcDist cfg p q := rfl

theorem centralize_accept {cfg : Config} {s : PathPlanner} {t0 : Nat} {ts : List Nat} {c0 : Cone}
    (ht : s.timing_cones = t0 :: ts) (hv : ∀ h ∈ s.timing_cones, h < s.raw_cones.length)
    (hc0 : s.raw_cones[t0]? = some c0) (hacc : MeanAccepted cfg s c0) :
    ∃ t, centralizeTimingCones cfg s = .ok t ∧
      t.centre_points = s.centre_points ++
        [{ timingMean s with angle := calcRelativeAngle cfg s.init_pos (timingMean s) }] ∧
      t.timingCalc = true ∧ t.raw_cones.length = s.raw_cones.length ∧
      ∀ (k : Nat) (c : Cone), s.raw_cones[k]? = some c →
        t.raw_cones[k]? = some { c with paired := c.paired + (s.timing_cones.count k : Int) } := by
  obtain ⟨raw2, e2, l2, g2⟩ := pairAll_effect s.timing_cones s.raw_cones hv
  have hd : deref s.raw_cones t0 = .ok c0 := by
    unfold deref
    rw [hc0]
  have hacc2 : calcDist cfg (PathPoint.ofXY c0.position.x c0.position.y) (timingMean s)
      < cfg.TRACKWIDTH ∧ |calcRelativeAngle cfg s.init_pos (timingMean s)| < 20 := hacc
  refine ⟨{ s with
      startFinish := { timingMean s with angle := calcRelativeAngle cfg s.init_pos (timingMean s) },
      timingCalc := true,
      centre_points := s.centre_points ++
        [{ timingMean s with angle := calcRelativeAngle cfg s.init_pos (timingMean s) }],
      raw_cones := raw2 }, ?_, rfl, rfl, l2, g2⟩
  unfold centralizeTimingCones
  rw [ht]
  simp only
  rw [← ht, timingAverage_eq hv, hd]
  simp only
  rw [if_pos hacc2, e2]

theorem centralize_reject {cfg : Config} {s : PathPlanner} {t0 : Nat} {ts : List Nat} {c0 : Cone}
    (ht : s.timing_cones = t0 :: ts) (hv : ∀ h ∈ s.timing_cones, h < s.raw_cones.length)
    (hc0 : s.raw_cones[t0]? = some c0) (hrej : ¬ MeanAccepted cfg s c0) :
    centralizeTimingCones cfg s = .ok { s with timingCalc := false } := by
  have hd : deref s.raw_cones t0 = .ok c0 := by
    unfold deref
    rw [hc0]
  have hrej2 : ¬ (calcDist cfg (PathPoint.ofXY c0.position.x c0.position.y) (timingMean s)
      < cfg.TRACKWIDTH ∧ |calcRelativeAngle cfg s.init_pos (timingMean s)| < 20) := hrej
  unfold centralizeTimingCones
  rw [ht]
  simp only
  rw [← ht, timingAverage_eq hv, hd]
  simp only
  rw [if_neg hrej2]

theorem mean_sq_le (u1 u2 u3 v1 v2 v3 m : ℚ) (h1 : u1 ^ 2 + v1 ^ 2 ≤ m)
    (h2 : u2 ^ 2 + v2 ^ 2 ≤ m) (h3 : u3 ^ 2 + v3 ^ 2 ≤ m) :
    ((u1 + u2 + u3) / 4) ^ 2 + ((v1 + v2 + v3) / 4) ^ 2 ≤ m := by
  nlinarith [sq_nonneg (u1 - u2), sq_nonneg (u1 - u3), sq_nonneg (u2 - u3), sq_nonneg (v1 - v2),
    sq_nonneg (v1 - v3), sq_nonneg (v2 - v3), sq_nonneg u1, sq_nonneg v1]

/-- Scenario D: four timing cones within a fifth of the track width of the
first one, each at a bearing below 20 degrees from the initial position, have
an accepted mean. -/
theorem four_cones_accepted {cfg : Config} {s : PathPlanner} {a b c d : Nat}
    {ca cb cc cd : Cone} (ht : s.timing_cones = [a, b, c, d])
    (ha : s.raw_cones[a]? = some ca) (hb : s.raw_cones[b]? = some cb)
    (hc : s.raw_cones[c]? = some cc) (hd : s.raw_cones[d]? = some cd)
    (hW : 0 < cfg.TRACKWIDTH) (hmono : Monotone cfg.sqrt) (hsec : SectorClosed cfg)
    (hdist : ∀ q ∈ [ca, cb, cc, cd], calcDist cfg ca.position q.position ≤ cfg.TRACKWIDTH / 5)
    (hbear : ∀ q ∈ [ca, cb, cc, cd], |calcRelativeAngle cfg s.init_pos q.position| < 20) :
    MeanAccepted cfg s ca := by
  have hx : sumX s.raw_cones s.timing_cones
      = ca.position.x + cb.position.x + cc.position.x + cd.position.x := by
    simp [sumX, ht, ha, hb, hc, hd]
    ring
  have hy : sumY s.raw_cones s.timing_cones
      = ca.position.y + cb.position.y + cc.position.y + cd.position.y := by
    simp [sumY, ht, ha, hb, hc, hd]
    ring
  have hn : (s.timing_cones.length : ℚ) = 4 := by
    rw [ht]
    norm_num
  have hmx : (timingMean s).x
      = (ca.position.x + cb.position.x + cc.position.x + cd.position.x) / 4 := by
    simp [timingMean, PathPoint.ofXY, hx, hn]
  have hmy : (timingMean s).y
      = (ca.position.y + cb.position.y + cc.position.y + cd.position.y) / 4 := by
    simp [timingMean, PathPoint.ofXY, hy, hn]
  constructor
  · -- distance
    have hb1 := hdist cb (by simp)
    have hc1 := hdist cc (by simp)
    have hd1 := hdist cd (by simp)
    unfold calcDist at hb1 hc1 hd1 ⊢
    simp only at hb1 hc1 hd1 ⊢
    rw [hmx, hmy]
    set sb := (cb.position.x - ca.position.x) ^ 2 + (cb.position.y - ca.position.y) ^ 2 with hsb
    set sc := (cc.position.x - ca.position.x) ^ 2 + (cc.position.y - ca.position.y) ^ 2 with hsc
    set sd := (cd.position.x - ca.position.x) ^ 2 + (cd.position.y - ca.position.y) ^ 2 with hsd
    have key : ∀ m : ℚ, sb ≤ m → sc ≤ m → sd ≤ m →
        ((ca.position.x + cb.position.x + cc.position.x + cd.position.x) / 4 - ca.position.x) ^ 2 +
          ((ca.position.y + cb.position.y + cc.position.y + cd.position.y) / 4 - ca.position.y) ^ 2
          ≤ m := by
      intro m h1 h2 h3
      have := mean_sq_le (cb.position.x - ca.position.x) (cc.position.x - ca.position.x)
        (cd.position.x - ca.position.x) (cb.position.y - ca.position.y)
        (cc.position.y - ca.position.y) (cd.position.y - ca.position.y) m h1 h2 h3
      have e1 : (ca.position.x + cb.position.x + cc.position.x + cd.position.x) / 4 - ca.position.x
          = (cb.position.x - ca.position.x + (cc.position.x - ca.position.x)
            + (cd.position.x - ca.position.x)) / 4 := by ring
      have e2 : (ca.position.y + cb.position.y + cc.position.y + cd.position.y) / 4 - ca.position.y
          = (cb.position.y - ca.position.y + (cc.position.y - ca.position.y)
            + (cd.position.y - ca.position.y)) / 4 := by ring
      rw [e1, e2]
      exact this
    have hfifth : cfg.TRACKWIDTH / 5 < cfg.TRACKWIDTH := by linarith
    rcases le_total sb sc with hbc | hbc
    · rcases le_total sc sd with hcd | hcd
      · exact lt_of_le_of_lt ((hmono (key sd (hbc.trans hcd) hcd le_rfl)).trans hd1) hfifth
      · exact lt_of_le_of_lt ((hmono (key sc hbc le_rfl hcd)).trans hc1) hfifth
    · rcases le_total sb sd with hbd | hbd
      · exact lt_of_le_of_lt ((hmono (key sd hbd (hbc.trans hbd) le_rfl)).trans hd1) hfifth
      · exact lt_of_le_of_lt ((hmono (key sb le_rfl hbc hbd)).trans hb1) hfifth
  · -- bearing
    have ha2 := hbear ca (by simp)
    have hb2 := hbear cb (by simp)
    have hc2 := hbear cc (by simp)
    have hd2 := hbear cd (by simp)
    unfold calcRelativeAngle at ha2 hb2 hc2 hd2 ⊢
    rw [hmx, hmy]
    have s1 := hsec.1 _ _ _ _ ha2 hb2
    have s2 := hsec.1 _ _ _ _ s1 hc2
    have s3 := hsec.1 _ _ _ _ s2 hd2
    have s4 := hsec.2 (1 / 4) _ _ (by norm_num) s3
    have e1 : (ca.position.y + cb.position.y + cc.position.y + cd.position.y) / 4 - s.init_pos.y
        = 1 / 4 * (ca.position.y - s.init_pos.y + (cb.position.y - s.init_pos.y)
          + (cc.position.y - s.init_pos.y) + (cd.position.y - s.init_pos.y)) := by ring
    have e2 : (ca.position.x + cb.position.x + cc.position.x + cd.position.x) / 4 - s.init_pos.x
        = 1 / 4 * (ca.position.x - s.init_pos.x + (cb.position.x - s.init_pos.x)
          + (cc.position.x - s.init_pos.x) + (cd.position.x - s.init_pos.x)) := by ring
    rw [e1, e2]
    exact s4

/-- C10: for a non-empty timing_cones of valid handles, centralizeTimingCones
accepts the arithmetic mean of the cone positions exactly when MeanAccepted
holds (distance to the first timing cone below TRACKWIDTH, bearing from the
initial position below 20 degrees either way). On acceptance it appends one
point at the mean, without cone back-references, and raises the pairing counter
of each cone by its number of occurrences in timing_cones, that is by one when
timing_cones has no repetition. On rejection only timingCalc is reset. Four
timing cones within a fifth of the track width of the first, each at a bearing
below 20 degrees, are accepted (for a monotone sqrt and an atan2 whose
20-degree sector is closed under sums and positive scaling). -/
theorem C10_start_finish_reference (cfg : Config) (s : PathPlanner) (t0 : Nat) (ts : List Nat)
    (c0 : Cone) (ht : s.timing_cones = t0 :: ts)
    (hv : ∀ h ∈ s.timing_cones, h < s.raw_cones.length) (hc0 : s.raw_cones[t0]? = some c0) :
    (MeanAccepted cfg s c0 → ∃ t, centralizeTimingCones cfg s = .ok t ∧
      t.centre_points = s.centre_points ++
        [{ timingMean s with angle := calcRelativeAngle cfg s.init_pos (timingMean s) }] ∧
      (timingMean s).cone1 = none ∧ (timingMean s).cone2 = none ∧
      t.raw_cones.length = s.raw_cones.length ∧
      (∀ (k : Nat) (c : Cone), s.raw_cones[k]? = some c →
        t.raw_cones[k]? = some { c with paired := c.paired + (s.timing_cones.count k : Int) }) ∧
      (s.timing_cones.Nodup → ∀ (k : Nat) (c : Cone), k ∈ s.timing_cones →
        s.raw_cones[k]? = some c → t.raw_cones[k]? = some { c with paired := c.paired + 1 })) ∧
    (¬ MeanAccepted cfg s c0 →
      centralizeTimingCones cfg s = .ok { s with timingCalc := false }) ∧
    (∀ (b c d : Nat) (cb cc cd : Cone), ts = [b, c, d] → s.raw_cones[b]? = some cb →
      s.raw_cones[c]? = some cc → s.raw_cones[d]? = some cd → 0 < cfg.TRACKWIDTH →
      Monotone cfg.sqrt → SectorClosed cfg →
      (∀ q ∈ [c0, cb, cc, cd], calcDist cfg c0.position q.position ≤ cfg.TRACKWIDTH / 5) →
      (∀ q ∈ [c0, cb, cc, cd], |calcRelativeAngle cfg s.init_pos q.position| < 20) →
      MeanAccepted cfg s c0) := by
  refine ⟨fun hacc => ?_, centralize_reject ht hv hc0, ?_⟩
  · obtain ⟨t, e1, e2, _, e4, e5⟩ := centralize_accept ht hv hc0 hacc
    refine ⟨t, e1, e2, rfl, rfl, e4, e5, fun hnd k c hk hc => ?_⟩
    rw [e5 k c hc, List.count_eq_one_of_mem hnd hk]
    rfl
  · intro b c d cb cc cd hts hb hc hd hW hmono hsec hdist hbear
    exact four_cones_accepted (by rw [ht, hts]) hc0 hb hc hd hW hmono hsec hdist hbear

theorem demoConfig_sector (y x : ℚ) :
    |demoConfig.atan2 y x * 180 / demoConfig.M_PI| < 20 ↔ y = 0 ∧ 0 ≤ x := by
  simp only [demoConfig, demoAtan2]
  constructor
  · intro h
    split_ifs at h with h1 h2 h3 h4 h5 h6 h7
    · exact ⟨h1, h2⟩
    · norm_num [abs_lt] at h
    · norm_num [abs_lt] at h
    · norm_num [abs_lt] at h
    · norm_num [abs_lt] at h
    · norm_num [abs_lt] at h
    · norm_num [abs_lt] at h
    · norm_num [abs_lt] at h
  · rintro ⟨h1, h2⟩
    rw [if_pos h1, if_pos h2]
    norm_num

theorem demoConfig_sectorClosed : SectorClosed demoConfig := by
  constructor
  · intro y1 x1 y2 x2 h1 h2
    rw [demoConfig_sector] at h1 h2 ⊢
    exact ⟨by rw [h1.1, h2.1]; norm_num, add_nonneg h1.2 h2.2⟩
  · intro k y x hk h
    rw [demoConfig_sector] at h ⊢
    exact ⟨by rw [h.1]; norm_num, mul_nonneg hk.le h.2⟩

theorem C10_start_finish_reference_witness :
    timingDemo.timing_cones = 0 :: [1, 2, 3] ∧
    (∀ h ∈ timingDemo.timing_cones, h < timingDemo.raw_cones.length) ∧
    timingDemo.raw_cones[0]? = some (newCone 6 0 'r') ∧
    MeanAccepted demoConfig timingDemo (newCone 6 0 'r') ∧
    ∃ t, centralizeTimingCones demoConfig timingDemo = .ok t ∧
      t.centre_points.map (fun p => (p.x, p.y, p.cone1, p.cone2))
        = [(0, 0, none, none), (63 / 10, 0, none, none)] ∧
      t.raw_cones.map (fun c => c.paired) = [1, 1, 1, 1] := by
  have ht : timingDemo.timing_cones = 0 :: [1, 2, 3] := rfl
  have hv : ∀ h ∈ timingDemo.timing_cones, h < timingDemo.raw_cones.length := by
    intro h hh
    simp only [timingDemo, List.mem_cons, List.mem_singleton, List.not_mem_nil, or_false] at hh
    simp only [timingDemo, List.length_cons, List.length_nil]
    omega
  have hc0 : timingDemo.raw_cones[0]? = some (newCone 6 0 'r') := rfl
  have thm := C10_start_finish_reference demoConfig timingDemo 0 [1, 2, 3] (newCone 6 0 'r')
    ht hv hc0
  have hacc : MeanAccepted demoConfig timingDemo (newCone 6 0 'r') := by
    refine thm.2.2 1 2 3 (newCone (31 / 5) 0 'r') (newCone (32 / 5) 0 'r')
      (newCone (33 / 5) 0 'r') rfl rfl rfl rfl (by decide!) (fun _ _ h => demoSqrt_mono h)
      demoConfig_sectorClosed ?_ ?_
    · intro q hq
      simp only [List.mem_cons, List.mem_singleton, List.not_mem_nil, or_false] at hq
      rcases hq with hq | hq | hq | hq <;> subst hq <;> decide!
    · intro q hq
      simp only [List.mem_cons, List.mem_singleton, List.not_mem_nil, or_false] at hq
      rcases hq with hq | hq | hq | hq <;> subst hq <;> decide!
  obtain ⟨t, e, _⟩ := thm.1 hacc
  refine ⟨ht, hv, hc0, hacc, t, e, ?_⟩
  have ev : centralizeTimingCones demoConfig timingDemo
      = .ok ((centralizeTimingCones demoConfig timingDemo).toOption.getD timingDemo) := by
    decide!
  rw [ev] at e
  cases e
  decide!

/-- Whatever state `update` returns, `returnResult` runs to its end on it. -/
theorem update_ok_replayable {cfg : Config} {s t : PathPlanner} {nc : List Cone} {x y : ℚ}
    {out o : Output} (h : update cfg s nc x y out = .ok (t, o)) : Replayable t := by
  unfold update at h
  split at h
  · split at h
    · cases h
    · rename_i s1 o1 h1
      cases h
      have e := (returnResult_effect h1).1
      intro out2
      exact returnResult_total h1 _ _ (by rw [e]) (by rw [e]) (by rw [e]) (by rw [e])
        (Or.inl (by rw [e]))
  · split at h
    · cases h
    · split at h
      · cases h
      · split at h
        · cases h
        · rename_i s3 o3 h3
          cases h
          exact replayable_of_returnResult h3

/-- C6 (as stated) fails: from the planner constructed on the five-pair
corridor (not complete), the frame that re-observes the second pair at abscissa
4 from pose (3, 0) gives a centre-line of 4 points after the first call and of
5 points after the second call with the same frame. -/
theorem C6_idempotence_counterexample :
    construct demoConfig 0 0 corridorCones = .ok corridorStart ∧
    corridorStart.complete = false ∧
    run demoConfig corridorStart [corridorFrame] = .ok (corridorAfter [corridorFrame]) ∧
    run demoConfig corridorStart [corridorFrame, corridorFrame]
      = .ok (corridorAfter [corridorFrame, corridorFrame]) ∧
    (corridorAfter [corridorFrame]).centre_points.length = 4 ∧
    (corridorAfter [corridorFrame, corridorFrame]).centre_points.length = 5 := by
  decide!

theorem Shift.same (raw : List Cone) : Shift (fun _ => 0) raw raw :=
  ⟨rfl, fun _ c hc => ⟨c, hc, rfl, by simp⟩⟩

theorem Shift.comp {d1 d2 : Nat → Int} {a b c : List Cone} (h1 : Shift d1 a b)
    (h2 : Shift d2 b c) : Shift (fun h => d1 h + d2 h) a c := by
  refine ⟨h2.1.trans h1.1, fun h x hx => ?_⟩
  obtain ⟨y, hy, cy, py⟩ := h1.2 h x hx
  obtain ⟨z, hz, cz, pz⟩ := h2.2 h y hy
  exact ⟨z, hz, cz.trans cy, by rw [pz, py]; ring⟩

theorem Shift.congr {d1 d2 : Nat → Int} {a b : List Cone} (h1 : Shift d1 a b)
    (e : ∀ h, d1 h = d2 h) : Shift d2 a b :=
  ⟨h1.1, fun h c hc => by
    obtain ⟨c2, q1, q2, q3⟩ := h1.2 h c hc
    exact ⟨c2, q1, q2, by rw [q3, e]⟩⟩

theorem Shift.colourAt {d : Nat → Int} {a b : List Cone} (h1 : Shift d a b) (h : Nat) :
    colourAt b h = colourAt a h := by
  unfold SlowLap.colourAt
  cases ha : a[h]? with
  | none =>
    have : b[h]? = none := by
      rw [List.getElem?_eq_none_iff] at ha ⊢
      rw [h1.1]; exact ha
    rw [this]
  | some c =>
    obtain ⟨c2, q1, q2, _⟩ := h1.2 h c ha
    rw [q1]
    simp [q2]

theorem Shift.back {d : Nat → Int} {a b : List Cone} (h1 : Shift d a b) {h : Nat} {c2 : Cone}
    (hb : b[h]? = some c2) :
    ∃ c, a[h]? = some c ∧ c2.colour = c.colour ∧ c2.paired = c.paired + d h := by
  have hlt : h < a.length := by
    rw [← h1.1]
    by_contra hn
    rw [List.getElem?_eq_none (by omega)] at hb
    cases hb
  obtain ⟨c3, q1, q2, q3⟩ := h1.2 h a[h] (List.getElem?_eq_getElem hlt)
  rw [hb] at q1
  cases q1
  exact ⟨a[h], List.getElem?_eq_getElem hlt, q2, q3⟩

theorem AllColour.carry {d : Nat → Int} {a b : List Cone} (h1 : Shift d a b) {col : Char}
    {hs : List Nat} (hc : AllColour a col hs) : AllColour b col hs :=
  fun h hh => by rw [h1.colourAt]; exact hc h hh

theorem modifyCone_shift {raw raw2 : List Cone} {k : Nat} {f : Cone → Cone} (d : Int)
    (hf : ∀ c, (f c).colour = c.colour ∧ (f c).paired = c.paired + d)
    (e : modifyCone raw k f = .ok raw2) :
    Shift (fun h => if h = k then d else 0) raw raw2 := by
  refine ⟨modifyCone_length e, fun h c hc => ?_⟩
  have g := modifyCone_getElem? e h
  rw [hc] at g
  by_cases hk : h = k
  · rw [if_pos hk] at g
    exact ⟨f c, g, (hf c).1, by simp only [if_pos hk]; exact (hf c).2⟩
  · rw [if_neg hk] at g
    exact ⟨c, g, rfl, by simp only [if_neg hk]; simp⟩

theorem deref_colourAt {raw : List Cone} {h : Nat} {c : Cone} (e : deref raw h = .ok c) :
    colourAt raw h = some c.colour := by
  unfold deref at e
  unfold SlowLap.colourAt
  split at e
  · rename_i c1 hc
    cases e
    rw [hc]
    rfl
  · cases e

theorem deref_getElem? {raw : List Cone} {h : Nat} {c : Cone} (e : deref raw h = .ok c) :
    raw[h]? = some c := by
  unfold deref at e
  split at e
  · rename_i c1 hc
    cases e
    exact hc
  · cases e

/-- Writes that change neither colour nor pairing counter. -/
theorem modifyCone_keep {raw raw2 : List Cone} {k : Nat} {f : Cone → Cone}
    (e : modifyCone raw k f = .ok raw2)
    (hf : ∀ c, (f c).colour = c.colour ∧ (f c).paired = c.paired) : Shift (fun _ => 0) raw raw2 :=
  (modifyCone_shift 0 (fun c => ⟨(hf c).1, by rw [(hf c).2]; simp⟩) e).congr
    (fun h => by split <;> rfl)

theorem assignDist_shift {cfg : Config} {pos : PathPoint} : ∀ (hs : List Nat)
    (raw raw2 : List Cone), assignDist cfg pos hs raw = .ok raw2 → Shift (fun _ => 0) raw raw2 := by
  intro hs
  induction hs with
  | nil =>
    intro raw raw2 e
    simp [assignDist] at e
    rw [← e]
    exact Shift.same raw
  | cons h rest ih =>
    intro raw raw2 e
    unfold assignDist at e
    split at e
    · cases e
    · rename_i raw1 e1
      have s1 := modifyCone_keep e1 (fun c => ⟨rfl, rfl⟩)
      exact (s1.comp (ih _ _ e)).congr (fun _ => by simp)

theorem costLoop_shift {cfg : Config} {thisSide oppSide : List Nat} : ∀ (hs : List Nat)
    (raw raw2 : List Cone), costLoop cfg thisSide oppSide hs raw = .ok raw2 →
    Shift (fun _ => 0) raw raw2 := by
  intro hs
  induction hs with
  | nil =>
    intro raw raw2 e
    simp [costLoop] at e
    rw [← e]
    exact Shift.same raw
  | cons h rest ih =>
    intro raw raw2 e
    unfold costLoop at e
    split at e
    · cases e
    · split at e
      · split at e
        · cases e
        · rename_i raw1 e1
          have s1 := modifyCone_keep e1 (fun c => ⟨rfl, rfl⟩)
          exact (s1.comp (ih _ _ e)).congr (fun _ => by simp)
      · cases e
      · cases e
      · cases e

theorem refCount_append (l1 l2 : List PathPoint) (h : Nat) :
    refCount (l1 ++ l2) h = refCount l1 h + refCount l2 h := by
  unfold refCount
  rw [List.countP_append]

theorem refCount_perm {l1 l2 : List PathPoint} (hp : l1.Perm l2) (h : Nat) :
    refCount l1 h = refCount l2 h := by
  unfold refCount
  exact hp.countP_eq _

theorem refCount_reverse (l : List PathPoint) (h : Nat) :
    refCount l.reverse h = refCount l h :=
  refCount_perm (List.reverse_perm l) h

theorem refCount_cons (p : PathPoint) (l : List PathPoint) (h : Nat) :
    refCount (p :: l) h
      = refCount l h + (if p.cone1 = some h ∨ p.cone2 = some h then 1 else 0) := by
  unfold refCount
  rw [List.countP_cons]
  simp

theorem refCount_sortPathPoints (cfg : Config) (cps : List PathPoint) (ref : PathPoint) (h : Nat) :
    refCount (sortPathPoints cfg cps ref) h = refCount cps h := by
  have hperm : (sortPathPoints cfg cps ref).Perm
      (cps.map (fun p => { p with dist := calcDist cfg p ref })) := List.perm_insertionSort _ _
  rw [refCount_perm hperm]
  unfold refCount
  rw [List.countP_map]
  rfl

theorem mem_sortPathPoints {cfg : Config} {cps : List PathPoint} {ref q : PathPoint}
    (hq : q ∈ sortPathPoints cfg cps ref) :
    ∃ p ∈ cps, q.cone1 = p.cone1 ∧ q.cone2 = p.cone2 := by
  have hperm : (sortPathPoints cfg cps ref).Perm
      (cps.map (fun p => { p with dist := calcDist cfg p ref })) := List.perm_insertionSort _ _
  obtain ⟨p, hp, e⟩ := List.mem_map.1 (hperm.mem_iff.1 hq)
  exact ⟨p, hp, by rw [← e], by rw [← e]⟩

theorem PointOk.of_eq {p q : PathPoint} (hp : PointOk p) (e1 : q.cone1 = p.cone1)
    (e2 : q.cone2 = p.cone2) : PointOk q := by
  unfold PointOk at *
  rw [e1, e2]
  exact hp

theorem pointOk_ofXY (x y : ℚ) : PointOk (PathPoint.ofXY x y) := Or.inl ⟨rfl, rfl⟩

theorem points_sortPathPoints {cfg : Config} {cps : List PathPoint} {ref : PathPoint}
    (h : ∀ p ∈ cps, PointOk p) : ∀ q ∈ sortPathPoints cfg cps ref, PointOk q := by
  intro q hq
  obtain ⟨p, hp, e1, e2⟩ := mem_sortPathPoints hq
  exact (h p hp).of_eq e1 e2

theorem Bounded.sortPathPoints {cfg : Config} {raw : List Cone} {cps : List PathPoint}
    {ref : PathPoint} (h : Bounded raw cps) : Bounded raw (sortPathPoints cfg cps ref) := by
  intro k c hc hcol
  rw [refCount_sortPathPoints]
  exact h k c hc hcol

theorem Bounded.append_none {raw : List Cone} {cps : List PathPoint} (h : Bounded raw cps)
    (ext : List PathPoint) : Bounded raw (cps ++ ext) := by
  intro k c hc hcol
  rw [refCount_append]
  have := h k c hc hcol
  push_cast
  omega

theorem colourAt_some_lt {raw : List Cone} {h : Nat} {col : Char}
    (e : colourAt raw h = some col) : h < raw.length := by
  unfold colourAt at e
  by_contra hn
  rw [List.getElem?_eq_none (by omega)] at e
  cases e

theorem colourAt_getElem? {raw : List Cone} {h : Nat} {c : Cone} (e : raw[h]? = some c) :
    colourAt raw h = some c.colour := by
  unfold colourAt
  rw [e]
  rfl

theorem trimLoop_subset {raw : List Cone} : ∀ (l : List Nat) (indx : Nat) (r : List Nat)
    (i2 : Nat), trimLoop raw l indx = .ok (r, i2) → ∀ h ∈ r, h ∈ l := by
  intro l
  induction l with
  | nil =>
    intro indx r i2 e h hh
    simp [trimLoop] at e
    rw [e.1] at hh
    exact hh
  | cons a rest ih =>
    intro indx r i2 e h hh
    unfold trimLoop at e
    split at e
    · cases e
    · split at e
      · exact List.mem_cons_of_mem _ (ih _ _ _ e h hh)
      · cases e
        exact hh

theorem trimCones_subset {raw : List Cone} {cones r : List Nat} {indx i2 : Nat}
    (e : trimCones raw cones indx = .ok (r, i2)) : ∀ h ∈ r, h ∈ cones := by
  unfold trimCones at e
  split at e
  · cases e
  · rename_i r1 i1 e1
    cases e
    intro h hh
    exact List.mem_reverse.1 (trimLoop_subset _ _ _ _ e1 h (List.mem_reverse.1 hh))

theorem updateStoredCones_fields {cfg : Config} {s t : PathPlanner} {nc : List Cone}
    (h : updateStoredCones cfg s nc = .ok t) :
    (∀ k ∈ t.left_cones, k ∈ s.left_cones) ∧ (∀ k ∈ t.right_cones, k ∈ s.right_cones) ∧
    t.left_unsorted = s.left_unsorted ∧ t.right_unsorted = s.right_unsorted ∧
    t.timing_cones = s.timing_cones ∧ t.centre_points = s.centre_points ∧
    t.init_pos = s.init_pos := by
  unfold updateStoredCones at h
  simp only at h
  split at h
  · cases h
  · split at h
    · cases h
    · rename_i l li hl
      split at h
      · cases h
      · rename_i r ri hr
        cases h
        exact ⟨trimCones_subset hl, trimCones_subset hr, rfl, rfl, rfl, rfl, rfl⟩

theorem ingestCone_fields (cfg : Config) (car : PathPoint) (c nc : Cone) :
    (ingestCone cfg car c nc).colour = c.colour ∧ (ingestCone cfg car c nc).paired = c.paired := by
  unfold ingestCone
  split
  · split
    · exact ⟨rfl, rfl⟩
    · exact ⟨rfl, rfl⟩
  · exact ⟨rfl, rfl⟩

theorem ingested_old (cfg : Config) (car : PathPoint) {raw : List Cone} (new_cones : List Cone)
    {h : Nat} {c : Cone} (hc : raw[h]? = some c) :
    ∃ c2, (ingested cfg car raw new_cones)[h]? = some c2 ∧ c2.colour = c.colour ∧
      c2.paired = c.paired := by
  rw [ingested_getElem?, hc]
  cases new_cones[h]? with
  | none => exact ⟨c, rfl, rfl, rfl⟩
  | some nc => exact ⟨_, rfl, (ingestCone_fields cfg car c nc).1, (ingestCone_fields cfg car c nc).2⟩

theorem ingested_colourAt {cfg : Config} {car : PathPoint} {raw new_cones : List Cone} {h : Nat}
    {col : Char} (e : colourAt raw h = some col) :
    colourAt (ingested cfg car raw new_cones) h = some col := by
  have hlt := colourAt_some_lt e
  obtain ⟨c2, q1, q2, _⟩ := ingested_old cfg car new_cones
    (List.getElem?_eq_getElem hlt)
  rw [colourAt_getElem? q1, q2]
  rw [colourAt_getElem? (List.getElem?_eq_getElem hlt)] at e
  exact e

theorem ingested_bounded {cfg : Config} {car : PathPoint} {raw new_cones : List Cone}
    {cps : List PathPoint} (hb : Bounded raw cps) (hf : FreshCones new_cones) :
    Bounded (ingested cfg car raw new_cones) cps := by
  intro h c2 hc2 hcol
  cases hr : raw[h]? with
  | some c =>
    obtain ⟨c3, q1, q2, q3⟩ := ingested_old cfg car new_cones hr
    rw [hc2] at q1
    cases q1
    rw [q3]
    exact hb h c hr (by rw [← q2]; exact hcol)
  | none =>
    rw [ingested_getElem?, hr] at hc2
    cases hn : new_cones[h]? with
    | none => rw [hn] at hc2; cases hc2
    | some nc =>
      rw [hn] at hc2
      cases hc2
      rw [hf c2 (List.getElem?_mem hn)]
      exact Int.natCast_nonneg _

theorem PairInv.updateStoredCones {cfg : Config} {s t : PathPlanner} {nc : List Cone}
    (inv : PairInv s) (hf : FreshCones nc) (h : updateStoredCones cfg s nc = .ok t) :
    PairInv t := by
  have hraw := updateStoredCones_raw h
  obtain ⟨f1, f2, f3, f4, f5, f6, f7⟩ := updateStoredCones_fields h
  refine ⟨?_, ?_, ?_, ?_, ?_, ?_, ?_, ?_⟩
  · intro k hk
    rw [hraw]
    exact ingested_colourAt (inv.left k (f1 k hk))
  · intro k hk
    rw [hraw]
    exact ingested_colourAt (inv.right k (f2 k hk))
  · intro k hk
    rw [hraw]
    rw [f3] at hk
    exact ingested_colourAt (inv.leftU k hk)
  · intro k hk
    rw [hraw]
    rw [f4] at hk
    exact ingested_colourAt (inv.rightU k hk)
  · intro k hk
    rw [f5] at hk
    obtain ⟨col, e, n1, n2⟩ := inv.timing k hk
    exact ⟨col, by rw [hraw]; exact ingested_colourAt e, n1, n2⟩
  · rw [f6]
    exact inv.points
  · rw [hraw, f6]
    exact ingested_bounded inv.bound hf
  · rw [f7]
    exact inv.init

theorem classifyLoop_inv {raw : List Cone} : ∀ (fut : List Nat)
    (lu ru tm : List Nat) (ls rs nts : Bool) (lu2 ru2 tm2 : List Nat) (ls2 rs2 nts2 : Bool),
    classifyLoop raw fut (lu, ru, tm, ls, rs, nts) = .ok (lu2, ru2, tm2, ls2, rs2, nts2) →
    AllColour raw 'b' lu → AllColour raw 'y' ru →
    (∀ h ∈ tm, ∃ col, colourAt raw h = some col ∧ col ≠ 'b' ∧ col ≠ 'y') →
    AllColour raw 'b' lu2 ∧ AllColour raw 'y' ru2 ∧
      (∀ h ∈ tm2, ∃ col, colourAt raw h = some col ∧ col ≠ 'b' ∧ col ≠ 'y') := by
  intro fut
  induction fut with
  | nil =>
    intro lu ru tm ls rs nts lu2 ru2 tm2 ls2 rs2 nts2 e h1 h2 h3
    simp only [classifyLoop, Except.ok.injEq, Prod.mk.injEq] at e
    obtain ⟨e1, e2, e3, _⟩ := e
    subst e1 e2 e3
    exact ⟨h1, h2, h3⟩
  | cons a rest ih =>
    intro lu ru tm ls rs nts lu2 ru2 tm2 ls2 rs2 nts2 e h1 h2 h3
    unfold classifyLoop at e
    split at e
    · cases e
    · rename_i c hc
      have hcol := deref_colourAt hc
      split at e
      · rename_i hb
        refine ih _ _ _ _ _ _ _ _ _ _ _ _ e ?_ h2 h3
        intro k hk
        rcases List.mem_append.1 hk with hk | hk
        · exact h1 k hk
        · rw [List.mem_singleton] at hk
          rw [hk, hcol, hb]
      · rename_i hb
        split at e
        · rename_i hy
          refine ih _ _ _ _ _ _ _ _ _ _ _ _ e h1 ?_ h3
          intro k hk
          rcases List.mem_append.1 hk with hk | hk
          · exact h2 k hk
          · rw [List.mem_singleton] at hk
            rw [hk, hcol, hy]
        · rename_i hy
          refine ih _ _ _ _ _ _ _ _ _ _ _ _ e h1 h2 ?_
          intro k hk
          rcases List.mem_append.1 hk with hk | hk
          · exact h3 k hk
          · rw [List.mem_singleton] at hk
            exact ⟨c.colour, by rw [hk, hcol], hb, hy⟩

theorem PairInv.addCones {cfg : Config} {s t : PathPlanner} {nc : List Cone}
    (inv : PairInv s) (hf : FreshCones nc) (h : addCones cfg s nc = .ok t) : PairInv t := by
  unfold PathPlanner.addCones at h
  split at h
  · cases h
  · rename_i s1 h1
    have i1 := inv.updateStoredCones hf h1
    split at h
    · split at h
      · cases h
      · rename_i lu ru tm ls rs nts hcl
        cases h
        obtain ⟨a1, a2, a3⟩ := classifyLoop_inv _ _ _ _ _ _ _ _ _ _ _ _ _ hcl i1.leftU i1.rightU
          i1.timing
        exact ⟨i1.left, i1.right, a1, a2, a3, i1.points, i1.bound, i1.init⟩
    · cases h
      exact i1

theorem Bounded.carry_zero {raw raw2 : List Cone} {cps : List PathPoint}
    (hs : Shift (fun _ => 0) raw raw2) (hb : Bounded raw cps) : Bounded raw2 cps := by
  intro h c2 hc2 hcol
  obtain ⟨c, q1, q2, q3⟩ := hs.back hc2
  rw [q3]
  have := hb h c q1 (by rw [← q2]; exact hcol)
  simpa using this

theorem PairInv.shift_zero {s t : PathPlanner} (inv : PairInv s)
    (hs : Shift (fun _ => 0) s.raw_cones t.raw_cones)
    (h1 : ∀ k ∈ t.left_cones, k ∈ s.left_cones ∨ k ∈ s.left_unsorted)
    (h2 : ∀ k ∈ t.right_cones, k ∈ s.right_cones ∨ k ∈ s.right_unsorted)
    (h3 : ∀ k ∈ t.left_unsorted, k ∈ s.left_unsorted)
    (h4 : ∀ k ∈ t.right_unsorted, k ∈ s.right_unsorted)
    (h5 : t.timing_cones = s.timing_cones) (h6 : t.centre_points = s.centre_points)
    (h7 : t.init_pos = s.init_pos) : PairInv t := by
  refine ⟨?_, ?_, ?_, ?_, ?_, ?_, ?_, ?_⟩
  · intro k hk
    rw [hs.colourAt]
    rcases h1 k hk with h | h
    · exact inv.left k h
    · exact inv.leftU k h
  · intro k hk
    rw [hs.colourAt]
    rcases h2 k hk with h | h
    · exact inv.right k h
    · exact inv.rightU k h
  · intro k hk
    rw [hs.colourAt]
    exact inv.leftU k (h3 k hk)
  · intro k hk
    rw [hs.colourAt]
    exact inv.rightU k (h4 k hk)
  · intro k hk
    rw [h5] at hk
    rw [hs.colourAt]
    exact inv.timing k hk
  · rw [h6]
    exact inv.points
  · rw [h6]
    exact Bounded.carry_zero hs inv.bound
  · rw [h7]
    exact inv.init

theorem mem_sortConesByKey {key : Nat → ℚ} {v : List Nat} {k : Nat}
    (h : k ∈ sortConesByKey key v) : k ∈ v :=
  (List.perm_insertionSort _ v).mem_iff.1 h

theorem PairInv.sortConesByDist {cfg : Config} {s t : PathPlanner} {pos : PathPoint}
    (inv : PairInv s) (h : sortConesByDist cfg s pos = .ok t) : PairInv t := by
  unfold PathPlanner.sortConesByDist at h
  split at h
  · cases h
    exact inv
  · split at h
    · cases h
    · rename_i raw1 e1
      split at h
      · cases h
      · rename_i raw2 e2
        cases h
        have sh : Shift (fun _ => 0) s.raw_cones raw2 :=
          ((assignDist_shift _ _ _ e1).comp (assignDist_shift _ _ _ e2)).congr (fun _ => by simp)
        refine inv.shift_zero sh ?_ ?_ ?_ ?_ rfl rfl rfl
        · intro k hk
          simp only at hk
          rcases List.mem_append.1 hk with hk | hk
          · exact Or.inl hk
          · right
            split at hk
            · exact mem_sortConesByKey hk
            · exact hk
        · intro k hk
          simp only at hk
          rcases List.mem_append.1 hk with hk | hk
          · exact Or.inl hk
          · right
            split at hk
            · exact mem_sortConesByKey hk
            · exact hk
        · intro k hk
          simp only at hk
          split at hk
          · exact mem_sortConesByKey hk
          · exact hk
        · intro k hk
          simp only at hk
          split at hk
          · exact mem_sortConesByKey hk
          · exact hk

theorem back_mem {α : Type} {v : List α} {a : α} (h : back v = .ok a) : a ∈ v := by
  unfold back at h
  split at h
  · cases h
  · rename_i b hb
    cases h
    exact List.mem_of_getLast?_eq_some hb

theorem front_mem {α : Type} {v : List α} {a : α} (h : front v = .ok a) : a ∈ v := by
  unfold front at h
  split at h
  · cases h
  · cases h
    exact List.mem_cons_self _ _

theorem back2_mem {α : Type} {v : List α} {a : α} (h : back2 v = .ok a) : a ∈ v := by
  unfold back2 at h
  split at h
  · split at h
    · rename_i b hb
      cases h
      exact List.getElem?_mem hb
    · cases h
  · cases h

theorem PairInv.sortAndPushCone {cfg : Config} {s t : PathPlanner} {side : Side}
    (inv : PairInv s) (h : sortAndPushCone cfg s side = .ok t) : PairInv t := by
  unfold PathPlanner.sortAndPushCone at h
  simp only at h
  cases side with
  | left =>
    simp only at h
    split at h
    · cases h
      exact inv
    · rename_i h0 rest hcn
      split at h
      · cases h
      · rename_i c0 hc0
        have hcol : c0.colour = 'b' := by
          have := inv.leftU h0 (by rw [hcn]; exact List.mem_cons_self _ _)
          rw [deref_colourAt hc0] at this
          exact Option.some.inj this
        simp only [hcol, if_true] at h
        split at h
        · split at h
          · cases h
          · rename_i last hlast
            have hmem : last ∈ s.left_unsorted := back_mem hlast
            split at h
            · cases h
            · split at h
              · cases h
                refine inv.shift_zero (Shift.same _) ?_ ?_ ?_ ?_ rfl rfl rfl
                · intro k hk
                  simp only at hk
                  rcases List.mem_append.1 hk with hk | hk
                  · exact Or.inl hk
                  · rw [List.mem_singleton] at hk
                    exact Or.inr (hk ▸ hmem)
                · intro k hk
                  exact Or.inl hk
                · intro k hk
                  exact hk
                · intro k hk
                  exact hk
              · cases h
                exact inv.shift_zero (Shift.same _) (fun k hk => Or.inl hk) (fun k hk => Or.inl hk)
                  (fun k hk => hk) (fun k hk => hk) rfl rfl rfl
        · split at h
          · cases h
          · rename_i raw e1
            cases h
            have sh := costLoop_shift _ _ _ e1
            refine inv.shift_zero sh ?_ ?_ ?_ ?_ rfl rfl rfl
            · intro k hk
              simp only at hk
              rcases List.mem_append.1 hk with hk | hk
              · exact Or.inl hk
              · exact Or.inr (mem_sortConesByKey hk)
            · intro k hk
              exact Or.inl hk
            · intro k hk
              simp only at hk
              exact mem_sortConesByKey hk
            · intro k hk
              exact hk
  | right =>
    simp only at h
    split at h
    · cases h
      exact inv
    · rename_i h0 rest hcn
      split at h
      · cases h
      · rename_i c0 hc0
        have hcol : c0.colour = 'y' := by
          have := inv.rightU h0 (by rw [hcn]; exact List.mem_cons_self _ _)
          rw [deref_colourAt hc0] at this
          exact Option.some.inj this
        have hnb : ¬ c0.colour = 'b' := by rw [hcol]; decide
        simp only [hnb, hcol, if_true, if_false] at h
        split at h
        · split at h
          · cases h
          · rename_i last hlast
            have hmem : last ∈ s.right_unsorted := back_mem hlast
            split at h
            · cases h
            · split at h
              · simp only [show ¬ ('y' : Char) = 'b' by decide, if_false] at h
                cases h
                refine inv.shift_zero (Shift.same _) ?_ ?_ ?_ ?_ rfl rfl rfl
                · intro k hk
                  exact Or.inl hk
                · intro k hk
                  simp only at hk
                  rcases List.mem_append.1 hk with hk | hk
                  · exact Or.inl hk
                  · rw [List.mem_singleton] at hk
                    exact Or.inr (hk ▸ hmem)
                · intro k hk
                  exact hk
                · intro k hk
                  exact hk
              · cases h
                exact inv.shift_zero (Shift.same _) (fun k hk => Or.inl hk) (fun k hk => Or.inl hk)
                  (fun k hk => hk) (fun k hk => hk) rfl rfl rfl
        · split at h
          · cases h
          · rename_i raw e1
            simp only [show ¬ ('y' : Char) = 'b' by decide, if_false] at h
            cases h
            have sh := costLoop_shift _ _ _ e1
            refine inv.shift_zero sh ?_ ?_ ?_ ?_ rfl rfl rfl
            · intro k hk
              exact Or.inl hk
            · intro k hk
              simp only at hk
              rcases List.mem_append.1 hk with hk | hk
              · exact Or.inl hk
              · exact Or.inr (mem_sortConesByKey hk)
            · intro k hk
              exact hk
            · intro k hk
              simp only at hk
              exact mem_sortConesByKey hk

/-- Appending a point that references two different cones, whose counters go
up by one each, keeps the bound. -/
theorem Bounded.pair_append {raw raw2 : List Cone} {cps : List PathPoint} {p : PathPoint}
    {a b : Nat} (hb : Bounded raw cps)
    (hs : Shift (fun h => (if h = a then 1 else 0) + (if h = b then 1 else 0)) raw raw2)
    (hab : a ≠ b) (h1 : p.cone1 = some a) (h2 : p.cone2 = some b) :
    Bounded raw2 (cps ++ [p]) := by
  intro h c2 hc2 hcol
  obtain ⟨c, q1, q2, q3⟩ := hs.back hc2
  have := hb h c q1 (by rw [← q2]; exact hcol)
  rw [q3, refCount_append]
  have hp : refCount [p] h = if (a = h ∨ b = h) then 1 else 0 := by
    rw [refCount_cons]
    simp [refCount, h1, h2]
  rw [hp]
  push_cast
  split_ifs <;> omega

/-- Removing a point whose two cones have their counters lowered by one each
keeps the bound. -/
theorem Bounded.unpair_cons {raw raw2 : List Cone} {rest : List PathPoint} {p : PathPoint}
    {a b : Nat} (hb : Bounded raw (p :: rest))
    (hs : Shift (fun h => (if h = a then -1 else 0) + (if h = b then -1 else 0)) raw raw2)
    (h1 : p.cone1 = some a) (h2 : p.cone2 = some b) : Bounded raw2 rest := by
  intro h c2 hc2 hcol
  obtain ⟨c, q1, q2, q3⟩ := hs.back hc2
  have := hb h c q1 (by rw [← q2]; exact hcol)
  rw [refCount_cons] at this
  rw [q3]
  simp only [h1, h2, Option.some.injEq] at this
  push_cast at this
  split_ifs at this ⊢ <;> omega

theorem Bounded.drop_none {raw : List Cone} {rest : List PathPoint} {p : PathPoint}
    (hb : Bounded raw (p :: rest)) (h1 : p.cone1 = none) (h2 : p.cone2 = none) :
    Bounded raw rest := by
  intro h c hc hcol
  have := hb h c hc hcol
  rw [refCount_cons] at this
  simpa [h1, h2] using this

theorem unpairPoint_shift {raw raw2 : List Cone} {p : PathPoint}
    (e : unpairPoint raw p = .ok raw2) :
    ∃ a b, p.cone1 = some a ∧ p.cone2 = some b ∧
      Shift (fun h => (if h = a then -1 else 0) + (if h = b then -1 else 0)) raw raw2 := by
  unfold unpairPoint at e
  split at e
  · cases e
  · rename_i raw1 e1
    unfold modifyPtr at e1 e
    split at e1
    · cases e1
    · rename_i a ha
      split at e
      · cases e
      · rename_i b hb
        refine ⟨a, b, ha, hb, ?_⟩
        have hf : ∀ c : Cone, ({ c with paired := c.paired - 1 } : Cone).colour = c.colour ∧
            ({ c with paired := c.paired - 1 } : Cone).paired = c.paired + -1 :=
          fun c => ⟨rfl, by simp only; ring⟩
        exact (modifyCone_shift (-1) hf e1).comp (modifyCone_shift (-1) hf e)

theorem popUnpassedLoop_inv : ∀ (l : List PathPoint) (raw : List Cone) (tc : Bool)
    (r : List PathPoint) (raw2 : List Cone) (tc2 : Bool),
    popUnpassedLoop l raw tc = .ok (r, raw2, tc2) → (∀ p ∈ l, PointOk p) → Bounded raw l →
    ∃ d, Shift d raw raw2 ∧ Bounded raw2 r := by
  intro l
  induction l with
  | nil =>
    intro raw tc r raw2 tc2 e _ hb
    simp only [popUnpassedLoop, Except.ok.injEq, Prod.mk.injEq] at e
    obtain ⟨e1, e2, _⟩ := e
    subst e1 e2
    exact ⟨_, Shift.same _, hb⟩
  | cons p rest ih =>
    intro raw tc r raw2 tc2 e hp hb
    have hrest : ∀ q ∈ rest, PointOk q := fun q hq => hp q (List.mem_cons_of_mem _ hq)
    unfold popUnpassedLoop at e
    split at e
    · split at e
      · rename_i a b ha hb2
        split at e
        · split at e
          · split at e
            · cases e
            · rename_i raw1 e1
              obtain ⟨a2, b2, ha2, hb3, sh⟩ := unpairPoint_shift e1
              obtain ⟨d, sh2, bd⟩ := ih _ _ _ _ _ e hrest (hb.unpair_cons sh ha2 hb3)
              exact ⟨_, sh.comp sh2, bd⟩
          · cases e
            exact ⟨_, Shift.same _, hb⟩
        · cases e
        · cases e
      · rename_i hnot
        have hnone : p.cone1 = none ∧ p.cone2 = none := by
          rcases hp p (List.mem_cons_self _ _) with h | ⟨a, b, ha, hb2, _⟩
          · exact h
          · exact absurd hb2 (hnot a b ha)
        exact ih _ _ _ _ _ e hrest (hb.drop_none hnone.1 hnone.2)
    · cases e
      exact ⟨_, Shift.same _, hb⟩

theorem capLoop_inv (n : Int) : ∀ (l : List PathPoint) (raw : List Cone)
    (r : List PathPoint) (raw2 : List Cone),
    capLoop n l raw = .ok (r, raw2) → Bounded raw l →
    ∃ d, Shift d raw raw2 ∧ Bounded raw2 r := by
  intro l
  induction l with
  | nil =>
    intro raw r raw2 e hb
    simp only [capLoop, Except.ok.injEq, Prod.mk.injEq] at e
    obtain ⟨e1, e2⟩ := e
    subst e1 e2
    exact ⟨_, Shift.same _, hb⟩
  | cons p rest ih =>
    intro raw r raw2 e hb
    unfold capLoop at e
    split at e
    · split at e
      · cases e
      · rename_i raw1 e1
        obtain ⟨a2, b2, ha2, hb3, sh⟩ := unpairPoint_shift e1
        obtain ⟨d, sh2, bd⟩ := ih _ _ _ e (hb.unpair_cons sh ha2 hb3)
        exact ⟨_, sh.comp sh2, bd⟩
    · cases e
      exact ⟨_, Shift.same _, hb⟩

/-- A step that changes pairing counters and keeps colours and all handle
lists, with the bound re-established for the new centre-line. -/
theorem PairInv.shift {s t : PathPlanner} {d : Nat → Int} (inv : PairInv s)
    (hs : Shift d s.raw_cones t.raw_cones)
    (h1 : t.left_cones = s.left_cones) (h2 : t.right_cones = s.right_cones)
    (h3 : t.left_unsorted = s.left_unsorted) (h4 : t.right_unsorted = s.right_unsorted)
    (h5 : t.timing_cones = s.timing_cones) (h6 : ∀ p ∈ t.centre_points, PointOk p)
    (h7 : t.init_pos = s.init_pos) (h8 : Bounded t.raw_cones t.centre_points) : PairInv t := by
  refine ⟨?_, ?_, ?_, ?_, ?_, h6, h8, ?_⟩
  · rw [h1]; exact inv.left.carry hs
  · rw [h2]; exact inv.right.carry hs
  · rw [h3]; exact inv.leftU.carry hs
  · rw [h4]; exact inv.rightU.carry hs
  · intro k hk
    rw [h5] at hk
    rw [hs.colourAt]
    exact inv.timing k hk
  · rw [h7]; exact inv.init

theorem Bounded.of_reverse {raw : List Cone} {l : List PathPoint} (h : Bounded raw l.reverse) :
    Bounded raw l := by
  intro k c hc hcol
  have := h k c hc hcol
  rwa [refCount_reverse] at this

theorem Bounded.to_reverse {raw : List Cone} {l : List PathPoint} (h : Bounded raw l) :
    Bounded raw l.reverse := by
  intro k c hc hcol
  rw [refCount_reverse]
  exact h k c hc hcol

theorem PairInv.updateCentrePoints {cfg : Config} {s t : PathPlanner} (inv : PairInv s)
    (h : updateCentrePoints cfg s = .ok t) : PairInv t := by
  obtain ⟨tail, hline, _, _⟩ := updateCentrePoints_line h
  have hpts : ∀ p ∈ t.centre_points, PointOk p := by
    intro p hp
    exact inv.points p (by rw [hline]; exact List.mem_append_left _ hp)
  unfold PathPlanner.updateCentrePoints at h
  split at h
  · cases h
    exact inv
  · simp only at h
    split at h
    · cases h
    · rename_i cps raw tc e1
      obtain ⟨d1, sh1, b1⟩ := popUnpassedLoop_inv _ _ _ _ _ _ e1
        (fun p hp => inv.points p (List.mem_reverse.1 hp)) inv.bound.to_reverse
      split at h
      · split at h
        · cases h
        · rename_i cps2 raw2 e2
          cases h
          obtain ⟨d2, sh2, b2⟩ := capLoop_inv _ _ _ _ _ e2 b1
          exact inv.shift (sh1.comp sh2) rfl rfl rfl rfl rfl hpts rfl b2.to_reverse
      · cases h
        exact inv.shift sh1 rfl rfl rfl rfl rfl hpts rfl b1.to_reverse

theorem pairAll_shift : ∀ (hs : List Nat) (raw raw2 : List Cone), pairAll raw hs = .ok raw2 →
    Shift (fun h => (hs.count h : Int)) raw raw2 := by
  intro hs
  induction hs with
  | nil =>
    intro raw raw2 e
    simp only [pairAll, Except.ok.injEq] at e
    subst e
    exact (Shift.same raw).congr (fun _ => by simp)
  | cons a rest ih =>
    intro raw raw2 e
    unfold pairAll at e
    split at e
    · cases e
    · rename_i raw1 e1
      have hf : ∀ c : Cone, ({ c with paired := c.paired + 1 } : Cone).colour = c.colour ∧
          ({ c with paired := c.paired + 1 } : Cone).paired = c.paired + 1 := fun c => ⟨rfl, rfl⟩
      refine ((modifyCone_shift 1 hf e1).comp (ih _ _ e)).congr (fun h => ?_)
      by_cases hk : h = a
      · subst hk
        simp only [if_true, List.count_cons_self]
        push_cast
        ring
      · simp only [hk, if_false, List.count_cons_of_ne hk]
        ring

theorem sumPositions_cones {raw : List Cone} : ∀ (hs : List Nat) (acc r : PathPoint),
    sumPositions raw hs acc = .ok r → r.cone1 = acc.cone1 ∧ r.cone2 = acc.cone2 := by
  intro hs
  induction hs with
  | nil =>
    intro acc r e
    simp only [sumPositions, Except.ok.injEq] at e
    subst e
    exact ⟨rfl, rfl⟩
  | cons a rest ih =>
    intro acc r e
    unfold sumPositions at e
    split at e
    · cases e
    · have := ih _ _ e
      exact this

theorem timingAverage_cones {s : PathPlanner} {avg : PathPoint}
    (e : timingAverage s = .ok avg) : avg.cone1 = none ∧ avg.cone2 = none := by
  unfold timingAverage at e
  split at e
  · cases e
  · rename_i sum e1
    cases e
    exact sumPositions_cones _ _ _ e1

theorem PairInv.centralizeTimingCones {cfg : Config} {s t : PathPlanner} (inv : PairInv s)
    (h : centralizeTimingCones cfg s = .ok t) : PairInv t := by
  unfold PathPlanner.centralizeTimingCones at h
  split at h
  · cases h
    exact inv
  · split at h
    · cases h
    · cases h
    · rename_i avg c0 eavg ec0
      simp only at h
      split at h
      · split at h
        · cases h
        · rename_i raw e1
          cases h
          have sh := pairAll_shift _ _ _ e1
          have hnone := timingAverage_cones eavg
          refine inv.shift sh rfl rfl rfl rfl rfl ?_ rfl ?_
          · intro p hp
            simp only at hp
            rcases List.mem_append.1 hp with hp | hp
            · exact inv.points p hp
            · rw [List.mem_singleton] at hp
              rw [hp]
              exact Or.inl ⟨hnone.1, hnone.2⟩
          · intro k c2 hc2 hcol
            simp only at hc2 ⊢
            obtain ⟨c, q1, q2, q3⟩ := sh.back hc2
            have hnot : k ∉ s.timing_cones := by
              intro hk
              obtain ⟨col, hcl, n1, n2⟩ := inv.timing k hk
              rw [colourAt_getElem? q1] at hcl
              have : c.colour = col := Option.some.inj hcl
              rw [q2, this] at hcol
              rcases hcol with hcol | hcol
              · exact n1 hcol
              · exact n2 hcol
            rw [q3, List.count_eq_zero_of_not_mem hnot]
            have := inv.bound k c q1 (by rw [← q2]; exact hcol)
            rw [refCount_append]
            push_cast
            omega
      · cases h
        exact inv.shift (Shift.same _) rfl rfl rfl rfl rfl inv.points rfl inv.bound

theorem PairInv.addFirstCentrePoints {cfg : Config} {s t : PathPlanner} (inv : PairInv s)
    (h : addFirstCentrePoints cfg s = .ok t) : PairInv t := by
  unfold PathPlanner.addFirstCentrePoints at h
  split at h
  · cases h
  · rename_i s1 e1
    have i1 := inv.sortConesByDist e1
    split at h
    · cases h
    · cases h
    · rename_i l r el er
      split at h
      · cases h
      · cases h
      · rename_i cl cr ecl ecr
        simp only at h
        split at h
        · cases h
        · rename_i raw1 em1
          split at h
          · cases h
          · rename_i raw2 em2
            cases h
            have hf : ∀ c : Cone, (pairAndMap c).colour = c.colour ∧
                (pairAndMap c).paired = c.paired + 1 := fun c => ⟨rfl, rfl⟩
            have sh := (modifyCone_shift 1 hf em1).comp (modifyCone_shift 1 hf em2)
            have hl := i1.left l (front_mem el)
            have hr := i1.right r (front_mem er)
            have hne : l ≠ r := by
              intro e
              rw [e, hr] at hl
              exact absurd (Option.some.inj hl) (by decide)
            refine i1.shift sh rfl rfl rfl rfl rfl ?_ rfl ?_
            · intro p hp
              simp only at hp
              rcases List.mem_append.1 hp with hp | hp
              · exact i1.points p hp
              · rw [List.mem_singleton] at hp
                rw [hp]
                exact Or.inr ⟨l, r, rfl, rfl, hne⟩
            · exact i1.bound.pair_append sh hne rfl rfl

theorem PairInv.resetTempConeVectors {s : PathPlanner} (inv : PairInv s) :
    PairInv (resetTempConeVectors s) := by
  unfold PathPlanner.resetTempConeVectors
  simp only
  split
  · exact ⟨inv.left, inv.right, (fun _ hk => by cases hk), (fun _ hk => by cases hk), inv.timing,
      inv.points, inv.bound, inv.init⟩
  · exact ⟨inv.left, inv.right, (fun _ hk => by cases hk), (fun _ hk => by cases hk), inv.timing,
      inv.points, inv.bound, inv.init⟩

theorem PairInv.returnResult {s t : PathPlanner} {out o : Output} (inv : PairInv s)
    (h : returnResult s out = .ok (t, o)) : PairInv t := by
  rw [(returnResult_effect h).1]
  exact ⟨inv.left, inv.right, inv.leftU, inv.rightU, inv.timing, inv.points, inv.bound, inv.init⟩

theorem PairInv.closureStep {cfg : Config} {s t : PathPlanner} (inv : PairInv s)
    (h : closureStep cfg s = .ok t) : PairInv t := by
  unfold PathPlanner.closureStep at h
  split at h
  · split at h
    · cases h
    · cases h
      refine ⟨inv.left, inv.right, inv.leftU, inv.rightU, inv.timing, ?_,
        inv.bound.append_none _, inv.init⟩
      intro p hp
      simp only at hp
      rcases List.mem_append.1 hp with hp | hp
      · exact inv.points p hp
      · rw [List.mem_singleton] at hp
        rw [hp]
        exact Or.inl inv.init
    · cases h
      exact inv
  · split at h
    · cases h
      exact ⟨inv.left, inv.right, inv.leftU, inv.rightU, inv.timing, inv.points, inv.bound,
        inv.init⟩
    · cases h
      exact inv

theorem closestLoop_mem {cfg : Config} {raw : List Cone} {cone : Cone} :
    ∀ (l : List Nat) (md : ℚ) (closest count r : Nat),
      closestLoop cfg raw cone l md closest count = .ok r → r = closest ∨ r ∈ l := by
  intro l
  induction l with
  | nil =>
    intro md closest count r e
    simp only [closestLoop, Except.ok.injEq] at e
    exact Or.inl e.symm
  | cons a rest ih =>
    intro md closest count r e
    unfold closestLoop at e
    split at e
    · cases e
    · simp only at e
      split at e
      · rcases ih _ _ _ _ e with h | h
        · exact Or.inr (h ▸ List.mem_cons_self _ _)
        · exact Or.inr (List.mem_cons_of_mem _ h)
      · split at e
        · cases e
          exact Or.inl rfl
        · rcases ih _ _ _ _ e with h | h
          · exact Or.inl h
          · exact Or.inr (List.mem_cons_of_mem _ h)

theorem findOppositeClosest_mem {cfg : Config} {raw : List Cone} {cone : Cone}
    {cones : List Nat} {r : Nat} (e : findOppositeClosest cfg raw cone cones = .ok r) :
    r ∈ cones := by
  unfold findOppositeClosest at e
  split at e
  · cases e
  · rename_i last hlast
    rcases closestLoop_mem _ _ _ _ _ e with h | h
    · rw [h]
      exact back_mem hlast
    · exact List.mem_reverse.1 h

theorem generateCentrePoint_refs {cfg : Config} {raw : List Cone} {a b : Nat}
    {temp rej rej2 : List PathPoint} {cp : PathPoint} {feasible : Bool}
    (e : generateCentrePoint cfg raw a b temp rej = .ok (cp, feasible, rej2)) :
    cp.cone1 = some a ∧ cp.cone2 = some b := by
  unfold generateCentrePoint at e
  split at e
  · cases e
  · cases e
  · simp only at e
    split at e
    · cases e
      exact ⟨rfl, rfl⟩
    · split at e
      · cases e
      · cases e
      · split at e
        · cases e
          exact ⟨rfl, rfl⟩
        · cases e
          exact ⟨rfl, rfl⟩

theorem walkLoop_points {cfg : Config} {raw : List Cone} {opp : List Nat} {colA colB : Char}
    (hopp : AllColour raw colB opp) (hne : colA ≠ colB) :
    ∀ (l : List Nat) (c : Nat) (temp rej temp2 rej2 : List PathPoint),
      walkLoop cfg raw opp l c temp rej = .ok (temp2, rej2) → AllColour raw colA l →
      (∀ p ∈ temp, PointOk p) → ∀ p ∈ temp2, PointOk p := by
  intro l
  induction l with
  | nil =>
    intro c temp rej temp2 rej2 e _ ht
    simp only [walkLoop, Except.ok.injEq, Prod.mk.injEq] at e
    rw [← e.1]
    exact ht
  | cons a rest ih =>
    intro c temp rej temp2 rej2 e hl ht
    have hrest : AllColour raw colA rest := fun k hk => hl k (List.mem_cons_of_mem _ hk)
    unfold walkLoop at e
    split at e
    · cases e
      exact ht
    · split at e
      · cases e
      · split at e
        · split at e
          · cases e
          · rename_i oc eo
            split at e
            · cases e
            · rename_i cp feasible rej1 eg
              split at e
              · refine ih _ _ _ _ _ e hrest ?_
                intro p hp
                rcases List.mem_append.1 hp with hp | hp
                · exact ht p hp
                · rw [List.mem_singleton] at hp
                  obtain ⟨r1, r2⟩ := generateCentrePoint_refs eg
                  rw [hp]
                  refine Or.inr ⟨a, oc, r1, r2, ?_⟩
                  intro eq
                  have h1 := hl a (List.mem_cons_self _ _)
                  have h2 := hopp oc (findOppositeClosest_mem eo)
                  rw [eq, h2] at h1
                  exact hne (Option.some.inj h1).symm
              · exact ih _ _ _ _ _ e hrest ht
        · exact ih _ _ _ _ _ e hrest ht

theorem mem_mergeTemp {cfg : Config} {temp1 temp2 : List PathPoint} {p : PathPoint}
    (h : p ∈ mergeTemp cfg temp1 temp2) : p ∈ temp1 ∨ p ∈ temp2 := by
  unfold mergeTemp at h
  rcases List.mem_append.1 h with h | h
  · exact Or.inr h
  · exact Or.inl (List.mem_filter.1 h).1

theorem modifyPtr_some {raw raw2 : List Cone} {p : Option Nat} {f : Cone → Cone}
    (e : modifyPtr raw p f = .ok raw2) : ∃ a, p = some a ∧ modifyCone raw a f = .ok raw2 := by
  unfold modifyPtr at e
  split at e
  · cases e
  · rename_i a
    exact ⟨a, rfl, e⟩

theorem appendLoop_inv : ∀ (l : List PathPoint) (raw : List Cone) (cps : List PathPoint)
    (raw2 : List Cone) (cps2 : List PathPoint), appendLoop l raw cps = .ok (raw2, cps2) →
    (∀ p ∈ l, PointOk p) → Bounded raw cps → ∃ d, Shift d raw raw2 ∧ Bounded raw2 cps2 := by
  intro l
  induction l with
  | nil =>
    intro raw cps raw2 cps2 e _ hb
    simp only [appendLoop, Except.ok.injEq, Prod.mk.injEq] at e
    obtain ⟨e1, e2⟩ := e
    subst e1 e2
    exact ⟨_, Shift.same _, hb⟩
  | cons p rest ih =>
    intro raw cps raw2 cps2 e hp hb
    unfold appendLoop at e
    split at e
    · cases e
    · rename_i raw1 e1
      split at e
      · cases e
      · rename_i raw3 e3
        obtain ⟨a, ha, m1⟩ := modifyPtr_some e1
        obtain ⟨b, hb2, m2⟩ := modifyPtr_some e3
        have hab : a ≠ b := by
          rcases hp p (List.mem_cons_self _ _) with h | ⟨a2, b2, h1, h2, h3⟩
          · rw [h.1] at ha
            cases ha
          · rw [h1] at ha
            rw [h2] at hb2
            cases ha
            cases hb2
            exact h3
        have hf : ∀ c : Cone, (pairAndMap c).colour = c.colour ∧
            (pairAndMap c).paired = c.paired + 1 := fun c => ⟨rfl, rfl⟩
        have sh := (modifyCone_shift 1 hf m1).comp (modifyCone_shift 1 hf m2)
        obtain ⟨d, sh2, bd⟩ := ih _ _ _ _ e (fun q hq => hp q (List.mem_cons_of_mem _ hq))
          (hb.pair_append sh hab ha hb2)
        exact ⟨_, sh.comp sh2, bd⟩

theorem PairInv.addCentrePoints {cfg : Config} {s t : PathPlanner} (inv : PairInv s)
    (h : addCentrePoints cfg s = .ok t) : PairInv t := by
  unfold PathPlanner.addCentrePoints at h
  split at h
  · cases h
    exact inv
  · split at h
    · cases h
    · cases h
    · rename_i b2 b1 eb2 eb1
      have hstart : ∀ p ∈ [b2, b1], PointOk p := by
        intro p hp
        simp only [List.mem_cons, List.mem_singleton, List.not_mem_nil, or_false] at hp
        rcases hp with hp | hp
        · rw [hp]; exact inv.points _ (back2_mem eb2)
        · rw [hp]; exact inv.points _ (back_mem eb1)
      split at h
      · cases h
      · rename_i temp1 rej1 ew1
        have p1 := walkLoop_points inv.right (by decide : ('b' : Char) ≠ 'y') _ _ _ _ _ _ ew1
          (fun k hk => inv.left k (List.mem_of_mem_drop hk)) hstart
        split at h
        · cases h
        · rename_i temp2 rej2 ew2
          have p2 := walkLoop_points inv.left (by decide : ('y' : Char) ≠ 'b') _ _ _ _ _ _ ew2
            (fun k hk => inv.right k (List.mem_of_mem_drop hk)) hstart
          split at h
          · cases h
          · rename_i t0 et0
            split at h
            · cases h
            · rename_i raw cps ea
              cases h
              have hL : ∀ p ∈ (sortPathPoints cfg (mergeTemp cfg temp1 temp2) t0).drop 2,
                  PointOk p := by
                intro p hp
                obtain ⟨q, hq, e1, e2⟩ := mem_sortPathPoints (List.mem_of_mem_drop hp)
                rcases mem_mergeTemp hq with hq | hq
                · exact (p1 q hq).of_eq e1 e2
                · exact (p2 q hq).of_eq e1 e2
              obtain ⟨d, sh, bd⟩ := appendLoop_inv _ _ _ _ _ ea hL inv.bound
              refine inv.shift sh rfl rfl rfl rfl rfl ?_ rfl bd
              intro p hp
              simp only at hp
              rw [appendLoop_line _ _ _ _ _ ea] at hp
              rcases List.mem_append.1 hp with hp | hp
              · exact inv.points p hp
              · exact hL p hp

theorem PairInv.sortStep {cfg : Config} {s t : PathPlanner} (inv : PairInv s)
    (h : sortStep cfg s = .ok t) : PairInv t := by
  unfold PathPlanner.sortStep at h
  split at h
  · simp only at h
    split at h
    · cases h
    · rename_i s1 h1
      have i1 : PairInv s1 := by
        split at h1
        · split at h1
          · cases h1
          · rename_i t1 ht
            cases h1
            have it := inv.centralizeTimingCones ht
            exact ⟨it.left, it.right, it.leftU, it.rightU, it.timing,
              points_sortPathPoints it.points, it.bound.sortPathPoints, it.init⟩
        · cases h1
          exact inv
      split at h
      · split at h
        · cases h
        · rename_i s2 h2
          split at h
          · cases h
          · rename_i s3 h3
            exact ((i1.sortAndPushCone h2).sortAndPushCone h3).addCentrePoints h
      · cases h
        exact i1
  · cases h
    exact inv

theorem PairInv.buildStep {cfg : Config} {s t : PathPlanner} {nc : List Cone} (inv : PairInv s)
    (hf : FreshCones nc) (h : buildStep cfg s nc = .ok t) : PairInv t := by
  unfold PathPlanner.buildStep at h
  split at h
  · split at h
    · cases h
    · rename_i s1 h1
      split at h
      · cases h
      · rename_i s2 h2
        exact ((inv.addCones hf h1).updateCentrePoints h2).sortStep h
  · cases h
    exact inv

theorem PairInv.update {cfg : Config} {s t : PathPlanner} {nc : List Cone} {x y : ℚ}
    {out o : Output} (inv : PairInv s) (hf : FreshCones nc)
    (h : update cfg s nc x y out = .ok (t, o)) : PairInv t := by
  unfold PathPlanner.update at h
  split at h
  · split at h
    · cases h
    · rename_i s1 o1 h1
      cases h
      exact inv.returnResult h1
  · split at h
    · cases h
    · rename_i s1 h1
      split at h
      · cases h
      · rename_i s2 h2
        split at h
        · cases h
        · rename_i s3 o3 h3
          cases h
          have i0 : PairInv { s with car_pos := PathPoint.ofXY x y } :=
            ⟨inv.left, inv.right, inv.leftU, inv.rightU, inv.timing, inv.points, inv.bound,
              inv.init⟩
          exact (((i0.closureStep h1).buildStep hf h2).returnResult h3).resetTempConeVectors

theorem PairInv.run {cfg : Config} : ∀ (frames : List Frame) (s t : PathPlanner),
    PairInv s → (∀ f ∈ frames, FreshCones f.cones) → run cfg s frames = .ok t → PairInv t := by
  intro frames
  induction frames with
  | nil =>
    intro s t inv _ h
    simp only [SlowLap.run, Except.ok.injEq] at h
    rw [← h]
    exact inv
  | cons f rest ih =>
    intro s t inv hf h
    unfold SlowLap.run at h
    split at h
    · cases h
    · rename_i s1 o1 h1
      exact ih _ _ (inv.update (hf f (List.mem_cons_self _ _)) h1)
        (fun g hg => hf g (List.mem_cons_of_mem _ hg)) h

theorem PairInv.initial (cfg : Config) (x y : ℚ) : PairInv (initial cfg x y) := by
  refine ⟨?_, ?_, ?_, ?_, ?_, ?_, ?_, ⟨rfl, rfl⟩⟩
  · intro k hk; cases hk
  · intro k hk; cases hk
  · intro k hk; cases hk
  · intro k hk; cases hk
  · intro k hk; cases hk
  · intro p hp; cases hp
  · intro k c hc
    simp [PathPlanner.initial] at hc

theorem PairInv.construct {cfg : Config} {x y : ℚ} {cones : List Cone} {s0 : PathPlanner}
    (hf : FreshCones cones) (h : construct cfg x y cones = .ok s0) : PairInv s0 := by
  unfold PathPlanner.construct at h
  split at h
  · cases h
  · rename_i s1 h1
    have i1 := (PairInv.initial cfg x y).addCones hf h1
    simp only at h
    split at h
    · cases h
    · rename_i s3 h3
      have i2 : PairInv { s1 with centre_points := s1.centre_points ++ [PathPoint.ofXY x y] } := by
        refine ⟨i1.left, i1.right, i1.leftU, i1.rightU, i1.timing, ?_, i1.bound.append_none _,
          i1.init⟩
        intro p hp
        simp only at hp
        rcases List.mem_append.1 hp with hp | hp
        · exact i1.points p hp
        · rw [List.mem_singleton] at hp
          rw [hp]
          exact pointOk_ofXY x y
      have i3 := i2.addFirstCentrePoints h3
      split at h
      · cases h
      · rename_i s4 h4
        cases h
        have i4 := i3.centralizeTimingCones h4
        apply PairInv.resetTempConeVectors
        split
        · exact ⟨i4.left, i4.right, i4.leftU, i4.rightU, i4.timing,
            points_sortPathPoints i4.points, i4.bound.sortPathPoints, i4.init⟩
        · exact i4

/-- C5 (as stated) fails for a timing cone: after the constructor has seen a
gate and one timing cone straight ahead, the timing cone (handle 2) has pairing
counter 1 and no centre-line point references it. -/
theorem C5_pairing_bound_counterexample :
    construct demoConfig 0 0 timedCones = .ok timedStart ∧
    timedStart.raw_cones.map (fun c => (c.colour, c.paired)) = [('b', 1), ('y', 1), ('r', 1)] ∧
    timedStart.centre_points.map (fun p => (p.x, p.y, p.cone1, p.cone2))
      = [(0, 0, none, none), (3, 0, some 0, some 1), (6, 0, none, none)] ∧
    refCount timedStart.centre_points 2 = 0 := by
  decide!

/-- C5 (amended): in every state reached from the constructor through update
calls on observations with pairing counter 0, the pairing counter of every
left (blue) or right (yellow) cone is at most the number of centre-line points
whose back-references include that cone. -/
theorem C5_pairing_bound (cfg : Config) (car_x car_y : ℚ) (cones : List Cone)
    (frames : List Frame) (s0 s : PathPlanner)
    (h0 : construct cfg car_x car_y cones = .ok s0) (h1 : run cfg s0 frames = .ok s)
    (hf0 : FreshCones cones) (hf : ∀ f ∈ frames, FreshCones f.cones) :
    ∀ (h : Nat) (c : Cone), s.raw_cones[h]? = some c → (c.colour = 'b' ∨ c.colour = 'y') →
      c.paired ≤ (refCount s.centre_points h : Int) :=
  (PairInv.run frames s0 s (PairInv.construct hf0 h0) hf h1).bound

theorem corridor_fresh (xs : List ℚ) : FreshCones (corridor xs) := by
  induction xs with
  | nil => intro c hc; cases hc
  | cons x rest ih =>
    intro c hc
    simp only [corridor, List.mem_cons] at hc
    rcases hc with hc | hc | hc
    · rw [hc]; rfl
    · rw [hc]; rfl
    · exact ih c hc

theorem C5_pairing_bound_witness :
    construct demoConfig 0 0 corridorCones = .ok corridorStart ∧
    run demoConfig corridorStart [corridorFrame, corridorFrame]
      = .ok (corridorAfter [corridorFrame, corridorFrame]) ∧
    FreshCones corridorCones ∧
    (∀ f ∈ [corridorFrame, corridorFrame], FreshCones f.cones) ∧
    (corridorAfter [corridorFrame, corridorFrame]).raw_cones.map (fun c => c.paired)
      = [1, 1, 1, 1, 1, 1, 1, 1, 0, 0] ∧
    ∀ (h : Nat) (c : Cone),
      (corridorAfter [corridorFrame, corridorFrame]).raw_cones[h]? = some c →
      (c.colour = 'b' ∨ c.colour = 'y') →
      c.paired ≤ (refCount (corridorAfter [corridorFrame, corridorFrame]).centre_points h : Int) := by
  have hfr : ∀ f ∈ [corridorFrame, corridorFrame], FreshCones f.cones := by
    intro f hf
    simp only [List.mem_cons, List.mem_singleton, List.not_mem_nil, or_false, or_self] at hf
    rw [hf]
    exact corridor_fresh _
  have k : construct demoConfig 0 0 corridorCones = .ok corridorStart ∧
      run demoConfig corridorStart [corridorFrame, corridorFrame]
        = .ok (corridorAfter [corridorFrame, corridorFrame]) ∧
      (corridorAfter [corridorFrame, corridorFrame]).raw_cones.map (fun c => c.paired)
        = [1, 1, 1, 1, 1, 1, 1, 1, 0, 0] := by decide!
  exact ⟨k.1, k.2.1, corridor_fresh _, hfr, k.2.2,
    C5_pairing_bound demoConfig 0 0 corridorCones [corridorFrame, corridorFrame] corridorStart _
      k.1 k.2.1 (corridor_fresh _) hfr⟩

theorem back_append_two {α : Type} (pre : List α) (x y : α) : back (pre ++ [x, y]) = .ok y := by
  unfold back
  have : (pre ++ [x, y]).getLast? = some y := by
    rw [List.getLast?_append]
    simp
  rw [this]

theorem back2_append_two {α : Type} (pre : List α) (x y : α) :
    back2 (pre ++ [x, y]) = .ok x := by
  unfold back2
  have hl : (pre ++ [x, y]).length = pre.length + 2 := by simp
  rw [if_pos (by omega), hl]
  have : (pre ++ [x, y])[pre.length + 2 - 2]? = some x := by
    rw [List.getElem?_append_right (by omega)]
    simp
  rw [this]

theorem generateCentrePoint_accept {cfg : Config} {raw : List Cone} {a b : Nat} {c1 c2 : Cone}
    (h1 : deref raw a = .ok c1) (h2 : deref raw b = .ok c2) (hd : ¬ OffWidth cfg c1 c2)
    (pre : List PathPoint) {b2 b1 : PathPoint} (rej : List PathPoint)
    (hf : Feasible cfg b2 b1 (midpointOf c1 c2)) :
    generateCentrePoint cfg raw a b (pre ++ [b2, b1]) rej
      = .ok (acceptedRecord c1 c2 a b (turnAngle cfg b2 b1 (midpointOf c1 c2)), true, rej) := by
  unfold generateCentrePoint
  rw [h1, h2]
  simp only
  unfold OffWidth at hd
  rw [if_neg hd, back_append_two, back2_append_two]
  simp only
  unfold Feasible turnAngle midpointOf at hf
  rw [if_pos hf]
  rfl

theorem generateCentrePoint_reject {cfg : Config} {raw : List Cone} {a b : Nat} {c1 c2 : Cone}
    (h1 : deref raw a = .ok c1) (h2 : deref raw b = .ok c2) (hd : ¬ OffWidth cfg c1 c2)
    (pre : List PathPoint) {b2 b1 : PathPoint} (rej : List PathPoint)
    (hf : ¬ Feasible cfg b2 b1 (midpointOf c1 c2)) :
    generateCentrePoint cfg raw a b (pre ++ [b2, b1]) rej
      = .ok (rejectedRecord c1 c2 a b, false, rej ++ [rejectedRecord c1 c2 a b]) := by
  unfold generateCentrePoint
  rw [h1, h2]
  simp only
  unfold OffWidth at hd
  rw [if_neg hd, back_append_two, back2_append_two]
  simp only
  unfold Feasible turnAngle midpointOf at hf
  rw [if_neg hf]
  rfl

/-- C12: for a pair of stored markers between 0.5 and 1.5 track widths apart and
a list that ends with the two points b2, b1, generateCentrePoint returns feasible
exactly when the turn angle at b1 is below the low or above the high threshold in
magnitude and the midpoint is more than the minimum and less than the maximum
spacing away from b1; a feasible midpoint carries both back-references and the
turn angle and leaves the rejected buffer as it was, an infeasible one is
appended to the rejected buffer as exactly one record. -/
theorem C12_acceptance_predicate (cfg : Config) (raw : List Cone) (a b : Nat) (c1 c2 : Cone)
    (h1 : deref raw a = .ok c1) (h2 : deref raw b = .ok c2) (hd : ¬ OffWidth cfg c1 c2)
    (pre : List PathPoint) (b2 b1 : PathPoint) (rej : List PathPoint) :
    ∃ (p : PathPoint) (feasible : Bool) (rej2 : List PathPoint),
      generateCentrePoint cfg raw a b (pre ++ [b2, b1]) rej = .ok (p, feasible, rej2) ∧
      (feasible = true ↔ Feasible cfg b2 b1 (midpointOf c1 c2)) ∧
      p.x = (c1.position.x + c2.position.x) / 2 ∧ p.y = (c1.position.y + c2.position.y) / 2 ∧
      p.cone1 = some a ∧ p.cone2 = some b ∧
      (feasible = true → p.angle = turnAngle cfg b2 b1 (midpointOf c1 c2) ∧ rej2 = rej) ∧
      (feasible = false → rej2 = rej ++ [p]) := by
  by_cases hf : Feasible cfg b2 b1 (midpointOf c1 c2)
  · rw [generateCentrePoint_accept h1 h2 hd pre rej hf]
    exact ⟨_, true, rej, rfl, by simp [hf], rfl, rfl, rfl, rfl, (fun _ => ⟨rfl, rfl⟩),
      (fun h => by cases h)⟩
  · rw [generateCentrePoint_reject h1 h2 hd pre rej hf]
    exact ⟨_, false, _, rfl, by simp [hf], rfl, rfl, rfl, rfl, (fun h => by cases h),
      (fun _ => rfl)⟩

theorem C12_acceptance_predicate_witness :
    deref nextGate 0 = .ok (newCone 6 (3 / 2) 'b') ∧
    deref nextGate 1 = .ok (newCone 6 (-(3 / 2)) 'y') ∧
    ¬ OffWidth demoConfig (newCone 6 (3 / 2) 'b') (newCone 6 (-(3 / 2)) 'y') ∧
    Feasible demoConfig (PathPoint.ofXY 0 0) (PathPoint.ofXY 3 0)
      (midpointOf (newCone 6 (3 / 2) 'b') (newCone 6 (-(3 / 2)) 'y')) ∧
    ∃ (p : PathPoint) (rej2 : List PathPoint),
      generateCentrePoint demoConfig nextGate 0 1 ([] ++ [PathPoint.ofXY 0 0, PathPoint.ofXY 3 0]) []
        = .ok (p, true, rej2) ∧ p.x = 6 ∧ p.y = 0 ∧ rej2 = [] := by
  have h1 : deref nextGate 0 = .ok (newCone 6 (3 / 2) 'b') := rfl
  have h2 : deref nextGate 1 = .ok (newCone 6 (-(3 / 2)) 'y') := rfl
  have hd : ¬ OffWidth demoConfig (newCone 6 (3 / 2) 'b') (newCone 6 (-(3 / 2)) 'y') := by
    unfold OffWidth
    decide!
  have hf : Feasible demoConfig (PathPoint.ofXY 0 0) (PathPoint.ofXY 3 0)
      (midpointOf (newCone 6 (3 / 2) 'b') (newCone 6 (-(3 / 2)) 'y')) := by
    unfold Feasible
    decide!
  obtain ⟨p, feasible, rej2, e, hiff, hx, hy, _, _, hacc, _⟩ :=
    C12_acceptance_predicate demoConfig nextGate 0 1 _ _ h1 h2 hd []
      (PathPoint.ofXY 0 0) (PathPoint.ofXY 3 0) []
  have hft : feasible = true := hiff.2 hf
  subst hft
  refine ⟨h1, h2, hd, hf, p, rej2, e, ?_, ?_, (hacc rfl).2⟩
  · rw [hx]
    decide!
  · rw [hy]
    decide!

theorem generateCentrePoint_off {cfg : Config} {raw : List Cone} {a b : Nat} {c1 c2 : Cone}
    (h1 : deref raw a = .ok c1) (h2 : deref raw b = .ok c2) (hd : OffWidth cfg c1 c2)
    (temp rej : List PathPoint) :
    generateCentrePoint cfg raw a b temp rej
      = .ok (rejectedRecord c1 c2 a b, false, rej ++ [rejectedRecord c1 c2 a b]) := by
  unfold generateCentrePoint
  rw [h1, h2]
  simp only
  unfold OffWidth at hd
  rw [if_pos hd]
  rfl

theorem generateCentrePoint_feasible {cfg : Config} {raw : List Cone} {a b : Nat}
    {temp rej rej1 : List PathPoint} {cp : PathPoint}
    (e : generateCentrePoint cfg raw a b temp rej = .ok (cp, true, rej1)) :
    InWidth cfg raw cp ∧ rej1 = rej := by
  unfold generateCentrePoint at e
  split at e
  · cases e
  · cases e
  · rename_i c1 c2 h1 h2
    simp only at e
    split at e
    · cases e
    · rename_i hd
      split at e
      · cases e
      · cases e
      · split at e
        · cases e
          exact ⟨⟨a, b, c1, c2, rfl, rfl, h1, h2, hd, rfl, rfl⟩, rfl⟩
        · cases e

theorem walkLoop_in_width {cfg : Config} {raw : List Cone} {opp : List Nat} :
    ∀ (l : List Nat) (c : Nat) (temp rej temp2 rej2 : List PathPoint),
      walkLoop cfg raw opp l c temp rej = .ok (temp2, rej2) →
      ∃ acc, temp2 = temp ++ acc ∧ ∀ p ∈ acc, InWidth cfg raw p := by
  intro l
  induction l with
  | nil =>
    intro c temp rej temp2 rej2 e
    simp only [walkLoop, Except.ok.injEq, Prod.mk.injEq] at e
    exact ⟨[], by rw [← e.1]; simp, fun p hp => by cases hp⟩
  | cons a rest ih =>
    intro c temp rej temp2 rej2 e
    unfold walkLoop at e
    split at e
    · simp only [Except.ok.injEq, Prod.mk.injEq] at e
      exact ⟨[], by rw [← e.1]; simp, fun p hp => by cases hp⟩
    · split at e
      · cases e
      · split at e
        · split at e
          · cases e
          · split at e
            · cases e
            · rename_i cp feasible rej1 hg
              split at e
              · rename_i hf
                subst hf
                obtain ⟨hin, _⟩ := generateCentrePoint_feasible hg
                obtain ⟨acc, e1, e2⟩ := ih _ _ _ _ _ e
                refine ⟨cp :: acc, ?_, ?_⟩
                · rw [e1]
                  simp
                · intro p hp
                  rcases List.mem_cons.1 hp with hp | hp
                  · rw [hp]
                    exact hin
                  · exact e2 p hp
              · exact ih _ _ _ _ _ e
        · exact ih _ _ _ _ _ e

/-- Every candidate that a returning call of `addCentrePoints` has accepted, on
either side, comes from a pair of cones that passes the track-width gate. -/
theorem addCentrePoints_in_width {cfg : Config} {s t : PathPlanner}
    (h : addCentrePoints cfg s = .ok t) (hl : s.left_cones ≠ []) (hr : s.right_cones ≠ []) :
    ∀ p ∈ t.cenPoints_temp1.drop 2 ++ t.cenPoints_temp2.drop 2, InWidth cfg s.raw_cones p := by
  unfold addCentrePoints at h
  rw [if_neg (by
    intro hh
    rcases hh with hh | hh
    · exact hl hh
    · exact hr hh)] at h
  split at h
  · cases h
  · cases h
  · rename_i b2 b1 hb2 hb1
    split at h
    · cases h
    · rename_i temp1 rej1 hw1
      split at h
      · cases h
      · rename_i temp2 rej2 hw2
        obtain ⟨acc1, e1, l1⟩ := walkLoop_in_width _ _ _ _ _ _ hw1
        obtain ⟨acc2, e2, l2⟩ := walkLoop_in_width _ _ _ _ _ _ hw2
        split at h
        · cases h
        · split at h
          · cases h
          · cases h
            simp only [e1, e2, List.cons_append, List.nil_append, List.drop_succ_cons,
              List.drop_zero]
            intro p hp
            rcases List.mem_append.1 hp with hp | hp
            · exact l1 p hp
            · exact l2 p hp

theorem closestLoop_ok {cfg : Config} {raw : List Cone} {cone : Cone} :
    ∀ (l : List Nat) (md : ℚ) (closest count : Nat), (∀ k ∈ l, k < raw.length) →
      ∃ r, closestLoop cfg raw cone l md closest count = .ok r := by
  intro l
  induction l with
  | nil =>
    intro md closest count _
    exact ⟨closest, rfl⟩
  | cons a rest ih =>
    intro md closest count hv
    unfold closestLoop
    obtain ⟨ca, ea⟩ := @deref_ok raw a (hv a (List.mem_cons_self _ _))
    rw [ea]
    simp only
    have hrest : ∀ k ∈ rest, k < raw.length := fun k hk => hv k (List.mem_cons_of_mem _ hk)
    split
    · exact ih _ _ _ hrest
    · split
      · exact ⟨_, rfl⟩
      · exact ih _ _ _ hrest

theorem back_ok {α : Type} {v : List α} (h : v ≠ []) : ∃ a, back v = .ok a := by
  unfold back
  cases hl : v.getLast? with
  | none => exact absurd (List.getLast?_eq_none_iff.1 hl) h
  | some a => exact ⟨a, rfl⟩

theorem findOppositeClosest_ok {cfg : Config} {raw : List Cone} {cone : Cone} {cones : List Nat}
    (hne : cones ≠ []) (hv : ∀ k ∈ cones, k < raw.length) :
    ∃ r, findOppositeClosest cfg raw cone cones = .ok r := by
  unfold findOppositeClosest
  obtain ⟨last, hl⟩ := back_ok hne
  rw [hl]
  exact closestLoop_ok _ _ _ _ (fun k hk => hv k (List.mem_reverse.1 hk))

theorem computeCost2a_ok {cfg : Config} {raw : List Cone} {h : Nat} {c : Cone}
    {opp1 opp2 : List Nat} (hc : deref raw h = .ok c) (hne : opp1 ≠ [])
    (hv : ∀ k ∈ opp1 ++ opp2, k < raw.length) :
    ∃ cost2, computeCost2a cfg raw h opp1 opp2 = .ok cost2 ∧
      ((∃ k ∈ opp1 ++ opp2, ∃ ck, deref raw k = .ok ck ∧
          cost2 = calcDist cfg c.position ck.position) ∨ (opp2 = [] ∧ cost2 = 99)) := by
  unfold computeCost2a
  rw [hc]
  simp only
  obtain ⟨r1, e1⟩ := @findOppositeClosest_ok cfg raw c opp1 hne
    (fun k hk => hv k (List.mem_append_left _ hk))
  have m1 := findOppositeClosest_mem e1
  rw [e1]
  simp only
  obtain ⟨c1, d1⟩ := @deref_ok raw r1 (hv r1 (List.mem_append_left _ m1))
  rw [d1]
  simp only
  split
  · rename_i hpos
    have hne2 : opp2 ≠ [] := by
      intro h0
      rw [h0] at hpos
      simp at hpos
    obtain ⟨r2, e2⟩ := @findOppositeClosest_ok cfg raw c opp2 hne2
      (fun k hk => hv k (List.mem_append_right _ hk))
    have m2 := findOppositeClosest_mem e2
    rw [e2]
    simp only
    obtain ⟨c2, d2⟩ := @deref_ok raw r2 (hv r2 (List.mem_append_right _ m2))
    rw [d2]
    simp only
    refine ⟨_, rfl, Or.inl ?_⟩
    rcases min_choice (calcDist cfg c.position c1.position) (calcDist cfg c.position c2.position)
      with hm | hm
    · exact ⟨r1, List.mem_append_left _ m1, c1, d1, hm⟩
    · exact ⟨r2, List.mem_append_right _ m2, c2, d2, hm⟩
  · rename_i hpos
    have h0 : opp2 = [] := by
      cases opp2 with
      | nil => rfl
      | cons a l => simp at hpos
    rcases min_choice (calcDist cfg c.position c1.position) (99 : ℚ) with hm | hm
    · exact ⟨_, rfl, Or.inl ⟨r1, List.mem_append_left _ m1, c1, d1, hm⟩⟩
    · exact ⟨_, rfl, Or.inr ⟨h0, hm⟩⟩

theorem sortAndPushCone_single {cfg : Config} {s : PathPlanner} {side : Side} {h : Nat} {c : Cone}
    {cost2 : ℚ} (hst : staged s side = [h]) (hc : deref s.raw_cones h = .ok c)
    (hcol : c.colour = side.colour)
    (h2 : computeCost2a cfg s.raw_cones h (settled s side.other) (staged s side.other)
      = .ok cost2) :
    ∃ t, sortAndPushCone cfg s side = .ok t ∧ settled t side.other = settled s side.other ∧
      (cost2 < cfg.TRACKWIDTH * (5 / 4) → settled t side = settled s side ++ [h]) ∧
      (¬ cost2 < cfg.TRACKWIDTH * (5 / 4) → settled t side = settled s side) := by
  cases side with
  | left =>
    simp only [staged, settled, Side.other, Side.colour] at hst hcol h2 ⊢
    unfold sortAndPushCone
    simp only [hst, hc, hcol, List.length_singleton, back]
    simp only [List.getLast?_singleton, if_true, Nat.one_lt_ofNat, if_pos, h2]
    by_cases hlt : cost2 < cfg.TRACKWIDTH * (5 / 4)
    · simp [hlt, h2]
    · simp [hlt, h2]
  | right =>
    simp only [staged, settled, Side.other, Side.colour] at hst hcol h2 ⊢
    unfold sortAndPushCone
    simp only [hst, hc, hcol, List.length_singleton, back]
    simp only [List.getLast?_singleton, if_true, Nat.one_lt_ofNat, if_pos, h2]
    by_cases hlt : cost2 < cfg.TRACKWIDTH * (5 / 4)
    · simp [hlt, h2]
    · simp [hlt, h2]
/-- C13, as stated, fails: the settled left sequence has one entry, two left
markers are staged 29 and 39 away from the only right marker (1.25 track widths
are 3.75), and sortAndPushCone appends both. -/
theorem C13_bootstrap_counterexample :
    (nearStaged farLeftCones).left_cones = [0] ∧
    (nearStaged farLeftCones).right_cones = [1] ∧
    (nearStaged farLeftCones).left_unsorted = [2, 3] ∧
    (nearStaged farLeftCones).right_unsorted = [] ∧
    (nearStaged farLeftCones).raw_cones.map (fun c => (c.position.x, c.position.y, c.colour))
      = [(1, 3 / 2, 'b'), (1, -(3 / 2), 'y'), (30, 3 / 2, 'b'), (40, 3 / 2, 'b')] ∧
    ¬ (calcDist demoConfig (PathPoint.ofXY 30 (3 / 2)) (PathPoint.ofXY 1 (-(3 / 2)))
        < demoConfig.TRACKWIDTH * (5 / 4)) ∧
    ¬ (calcDist demoConfig (PathPoint.ofXY 40 (3 / 2)) (PathPoint.ofXY 1 (-(3 / 2)))
        < demoConfig.TRACKWIDTH * (5 / 4)) ∧
    (sortAndPushCone demoConfig (nearStaged farLeftCones) .left).toOption.map
      (fun t => (t.left_cones, t.right_cones)) = some ([0, 2, 3], [1]) := by
  decide!

/-- C13, amended: with no staged marker sortAndPushCone changes nothing; with
exactly one staged marker of a colour (and a non-empty settled opposite
sequence) it appends the marker to its sequence exactly when cost2 is below 1.25
track widths, where cost2 is what computeCost2a returns: the smaller of the
distances to the markers findOppositeClosest picks in the settled and in the
staged opposite markers (99 when none is staged). When it appends, an opposite
marker, settled or staged, is closer than 1.25 track widths (or none is staged
and 99 is below 1.25 track widths); otherwise both sequences are unchanged, and
the opposite sequence is unchanged in either case. -/
theorem C13_single_staged_marker (cfg : Config) (s : PathPlanner) (side : Side) :
    (staged s side = [] → sortAndPushCone cfg s side = .ok s) ∧
    (∀ (h : Nat) (c : Cone), staged s side = [h] → deref s.raw_cones h = .ok c →
      c.colour = side.colour → settled s side.other ≠ [] →
      (∀ k ∈ settled s side.other ++ staged s side.other, k < s.raw_cones.length) →
      ∃ (cost2 : ℚ) (t : PathPlanner),
        computeCost2a cfg s.raw_cones h (settled s side.other) (staged s side.other)
          = .ok cost2 ∧
        sortAndPushCone cfg s side = .ok t ∧ settled t side.other = settled s side.other ∧
        (cost2 < cfg.TRACKWIDTH * (5 / 4) → settled t side = settled s side ++ [h] ∧
          ((∃ k ∈ settled s side.other ++ staged s side.other, ∃ ck, deref s.raw_cones k = .ok ck ∧
              calcDist cfg c.position ck.position < cfg.TRACKWIDTH * (5 / 4)) ∨
            (staged s side.other = [] ∧ 99 < cfg.TRACKWIDTH * (5 / 4)))) ∧
        (¬ cost2 < cfg.TRACKWIDTH * (5 / 4) → settled t side = settled s side)) := by
  constructor
  · intro h0
    cases side <;> simp only [staged] at h0 <;> simp [sortAndPushCone, h0]
  · intro h c hst hc hcol hne hv
    obtain ⟨cost2, e2, hnear⟩ := @computeCost2a_ok cfg s.raw_cones h c _ _ hc hne hv
    obtain ⟨t, et, hopp, hyes, hno⟩ := sortAndPushCone_single hst hc hcol e2
    refine ⟨cost2, t, e2, et, hopp, fun hlt => ⟨hyes hlt, ?_⟩, hno⟩
    rcases hnear with ⟨k, hk, ck, dk, ek⟩ | ⟨h0, e99⟩
    · exact Or.inl ⟨k, hk, ck, dk, by rw [← ek]; exact hlt⟩
    · exact Or.inr ⟨h0, by rw [← e99]; exact hlt⟩

theorem C13_single_staged_marker_witness :
    staged (nearStaged oneLeftCone) .left = [2] ∧
    deref (nearStaged oneLeftCone).raw_cones 2 = .ok (newCone 2 (3 / 2) 'b') ∧
    settled (nearStaged oneLeftCone) .right = [1] ∧
    ∃ (cost2 : ℚ) (t : PathPlanner),
      sortAndPushCone demoConfig (nearStaged oneLeftCone) .left = .ok t ∧
      cost2 < demoConfig.TRACKWIDTH * (5 / 4) ∧
      settled t .left = [0, 2] ∧ settled t .right = [1] := by
  have hst : staged (nearStaged oneLeftCone) .left = [2] := by decide!
  have hc : deref (nearStaged oneLeftCone).raw_cones 2 = .ok (newCone 2 (3 / 2) 'b') := by decide!
  have hs : settled (nearStaged oneLeftCone) .right = [1] := by decide!
  have hl : settled (nearStaged oneLeftCone) .left = [0] := by decide!
  obtain ⟨cost2, t, e2, et, hopp, hyes, _⟩ :=
    (C13_single_staged_marker demoConfig (nearStaged oneLeftCone) .left).2 2 _ hst hc rfl
      (by rw [Side.other, hs]; simp) (by decide!)
  have hval : computeCost2a demoConfig (nearStaged oneLeftCone).raw_cones 2
      (settled (nearStaged oneLeftCone) Side.left.other)
      (staged (nearStaged oneLeftCone) Side.left.other) = .ok (3163 / 1000) := by decide!
  rw [hval] at e2
  cases e2
  have hlt : (3163 / 1000 : ℚ) < demoConfig.TRACKWIDTH * (5 / 4) := by decide!
  refine ⟨hst, hc, hs, _, t, et, hlt, ?_, ?_⟩
  · rw [(hyes hlt).1, hl]
    rfl
  · have := hopp
    rw [Side.other] at this
    rw [this, hs]

theorem SameGeom.itself (raw : List Cone) : SameGeom raw raw := rfl

theorem SameGeom.deref {raw0 raw : List Cone} (hg : SameGeom raw0 raw) (h : Nat) :
    (deref raw h = .error .badHandle ∧ deref raw0 h = .error .badHandle) ∨
    ∃ c c0, deref raw h = .ok c ∧ deref raw0 h = .ok c0 ∧ c.position = c0.position ∧
      c.passedBy = c0.passedBy := by
  have hk : (raw[h]?).map (fun c => (c.position, c.passedBy))
      = (raw0[h]?).map (fun c => (c.position, c.passedBy)) := by
    rw [← List.getElem?_map, ← List.getElem?_map, hg]
  unfold SlowLap.deref
  cases h1 : raw[h]? with
  | none =>
    cases h2 : raw0[h]? with
    | none => exact Or.inl ⟨rfl, rfl⟩
    | some c0 => rw [h1, h2] at hk; cases hk
  | some c =>
    cases h2 : raw0[h]? with
    | none => rw [h1, h2] at hk; cases hk
    | some c0 =>
      rw [h1, h2] at hk
      simp only [Option.map_some', Option.some.injEq, Prod.mk.injEq] at hk
      exact Or.inr ⟨c, c0, rfl, rfl, hk.1, hk.2⟩

theorem SameGeom.modify {raw0 raw raw2 : List Cone} (hg : SameGeom raw0 raw) {h : Nat} {v : ℚ}
    (e : modifyCone raw h (fun c => { c with cost := v }) = .ok raw2) : SameGeom raw0 raw2 := by
  unfold modifyCone at e
  split at e
  · rename_i c hc
    cases e
    unfold SameGeom at *
    rw [← hg, List.map_set]
    apply List.ext_getElem?
    intro i
    by_cases hi : i = h
    · subst hi
      rw [List.getElem?_set_self' , List.getElem?_map, hc]
      simp
    · rw [List.getElem?_set_ne (Ne.symm hi)]
  · cases e

theorem computeCost1_geom {cfg : Config} {raw0 raw : List Cone} (hg : SameGeom raw0 raw)
    (a b : Nat) : computeCost1 cfg raw a b = computeCost1 cfg raw0 a b := by
  unfold computeCost1
  rcases hg.deref a with ⟨e1, e2⟩ | ⟨c, c0, e1, e2, hp, _⟩ <;>
    rcases hg.deref b with ⟨f1, f2⟩ | ⟨d, d0, f1, f2, hq, _⟩ <;>
    rw [e1, e2, f1, f2]
  simp only [hp, hq]

theorem cost2bLoop_geom {cfg : Config} {raw0 raw : List Cone} (hg : SameGeom raw0 raw)
    {c c0 : Cone} (hp : c.position = c0.position) :
    ∀ l : List Nat, cost2bLoop cfg raw c l = cost2bLoop cfg raw0 c0 l := by
  intro l
  induction l with
  | nil => rfl
  | cons a rest ih =>
    unfold cost2bLoop
    rcases hg.deref a with ⟨e1, e2⟩ | ⟨d, d0, e1, e2, hq, hpass⟩
    · rw [e1, e2]
    · rw [e1, e2]
      simp only [hp, hq, hpass, ih]

theorem computeCost2b_geom {cfg : Config} {raw0 raw : List Cone} (hg : SameGeom raw0 raw)
    (a : Nat) (opp : List Nat) : computeCost2b cfg raw a opp = computeCost2b cfg raw0 a opp := by
  unfold computeCost2b
  rcases hg.deref a with ⟨e1, e2⟩ | ⟨c, c0, e1, e2, hp, _⟩
  · rw [e1, e2]
  · rw [e1, e2]
    exact cost2bLoop_geom hg hp _

theorem computeCost3_geom {cfg : Config} {raw0 raw : List Cone} (hg : SameGeom raw0 raw)
    (a : Nat) (cn2 : List Nat) : computeCost3 cfg raw a cn2 = computeCost3 cfg raw0 a cn2 := by
  unfold computeCost3
  split
  · rfl
  · split
    · rfl
    · rfl
    · rename_i hi hi1 _ _
      rcases hg.deref hi with ⟨e1, e2⟩ | ⟨c, c0, e1, e2, hp, _⟩ <;>
        rcases hg.deref hi1 with ⟨f1, f2⟩ | ⟨d, d0, f1, f2, hq, _⟩ <;>
        rcases hg.deref a with ⟨g1, g2⟩ | ⟨k, k0, g1, g2, hr, _⟩ <;>
        rw [e1, e2, f1, f2, g1, g2]
      simp only [hp, hq, hr]
theorem CompositeCost.unique {cfg : Config} {raw : List Cone} {thisSide oppSide : List Nat}
    {h : Nat} {v w : ℚ} (hv : CompositeCost cfg raw thisSide oppSide h v)
    (hw : CompositeCost cfg raw thisSide oppSide h w) : v = w := by
  obtain ⟨l1, a1, a2, a3, e0, e1, e2, e3, ev⟩ := hv
  obtain ⟨l2, b1, b2, b3, f0, f1, f2, f3, ew⟩ := hw
  rw [e0] at f0
  cases f0
  rw [e1] at f1
  rw [e2] at f2
  rw [e3] at f3
  cases f1
  cases f2
  cases f3
  rw [ev, ew]

theorem modifyCone_cost {raw raw1 : List Cone} {a : Nat} {v : ℚ}
    (e : modifyCone raw a (fun c => { c with cost := v }) = .ok raw1) :
    coneCost raw1 a = v ∧ ∀ h, h ≠ a → coneCost raw1 h = coneCost raw h := by
  unfold modifyCone at e
  split at e
  · rename_i c hc
    cases e
    have hlt : a < raw.length := by
      by_contra hn
      rw [List.getElem?_eq_none (by omega)] at hc
      cases hc
    constructor
    · unfold coneCost
      rw [List.getElem?_set_self hlt]
    · intro h hne
      unfold coneCost
      rw [List.getElem?_set_ne (Ne.symm hne)]
  · cases e

theorem costLoop_cost {cfg : Config} {thisSide oppSide : List Nat} {raw0 : List Cone} :
    ∀ (l : List Nat) (raw raw2 : List Cone), SameGeom raw0 raw →
      costLoop cfg thisSide oppSide l raw = .ok raw2 →
      SameGeom raw0 raw2 ∧
      (∀ h ∈ l, CompositeCost cfg raw0 thisSide oppSide h (coneCost raw2 h)) ∧
      (∀ h, CompositeCost cfg raw0 thisSide oppSide h (coneCost raw h) →
        CompositeCost cfg raw0 thisSide oppSide h (coneCost raw2 h)) := by
  intro l
  induction l with
  | nil =>
    intro raw raw2 hg e
    simp only [costLoop, Except.ok.injEq] at e
    subst e
    exact ⟨hg, (fun h hh => by cases hh), (fun _ hc => hc)⟩
  | cons a rest ih =>
    intro raw raw2 hg e
    unfold costLoop at e
    split at e
    · cases e
    · rename_i last hlast
      split at e
      · rename_i cost1 cost2 cost3 e1 e2 e3
        rw [computeCost1_geom hg] at e1
        rw [computeCost2b_geom hg] at e2
        rw [computeCost3_geom hg] at e3
        split at e
        · cases e
        · rename_i raw1 em
          have hg1 := hg.modify em
          obtain ⟨hca, hco⟩ := modifyCone_cost em
          have hA : CompositeCost cfg raw0 thisSide oppSide a (coneCost raw1 a) :=
            ⟨last, cost1, cost2, cost3, hlast, e1, e2, e3, hca⟩
          obtain ⟨hg2, hin, hkeep⟩ := ih raw1 raw2 hg1 e
          have hstep : ∀ h, CompositeCost cfg raw0 thisSide oppSide h (coneCost raw h) →
              CompositeCost cfg raw0 thisSide oppSide h (coneCost raw1 h) := by
            intro h hc
            by_cases hh : h = a
            · subst hh
              exact hA
            · rw [hco h hh]
              exact hc
          refine ⟨hg2, ?_, fun h hc => hkeep h (hstep h hc)⟩
          intro h hh
          rcases List.mem_cons.1 hh with hh | hh
          · subst hh
            exact hkeep _ hA
          · exact hin h hh
      · cases e
      · cases e
      · cases e

theorem sortAndPushCone_general {cfg : Config} {s : PathPlanner} {side : Side}
    (hlen : 2 ≤ (staged s side).length) (hcol : AllColour s.raw_cones side.colour (staged s side)) :
    (∀ t, sortAndPushCone cfg s side = .ok t →
      costLoop cfg (settled s side) (settled s side.other) (staged s side) s.raw_cones
        = .ok t.raw_cones ∧
      settled t side = settled s side ++ sortConesByKey (coneCost t.raw_cones) (staged s side) ∧
      settled t side.other = settled s side.other) ∧
    (∀ raw, costLoop cfg (settled s side) (settled s side.other) (staged s side) s.raw_cones
        = .ok raw → ∃ t, sortAndPushCone cfg s side = .ok t) := by
  cases hst : staged s side with
  | nil => rw [hst] at hlen; simp at hlen
  | cons h0 rest =>
    have hc0 := hcol h0 (by rw [hst]; exact List.mem_cons_self _ _)
    unfold colourAt at hc0
    cases hr : s.raw_cones[h0]? with
    | none => rw [hr] at hc0; cases hc0
    | some c0 =>
      rw [hr] at hc0
      simp only [Option.map_some', Option.some.injEq] at hc0
      have hd : deref s.raw_cones h0 = .ok c0 := by
        unfold SlowLap.deref
        rw [hr]
      have hl2 : ¬ (h0 :: rest).length < 2 := by
        rw [hst] at hlen
        omega
      have hl3 : 2 ≤ rest.length + 1 := by
        rw [hst] at hlen
        simpa using hlen
      cases side with
      | left =>
        simp only [staged, settled, Side.other, Side.colour] at hst hc0 ⊢
        constructor
        · intro t ht
          simp only [sortAndPushCone, hst, hd, hc0, List.length_cons, if_neg (not_lt.2 hl3),
            if_true] at ht
          split at ht
          · cases ht
          · rename_i raw hraw
            cases ht
            exact ⟨hraw, rfl, rfl⟩
        · intro raw hraw
          simp only [sortAndPushCone, hst, hd, hc0, List.length_cons, if_neg (not_lt.2 hl3),
            if_true, hraw]
          exact ⟨_, rfl⟩
      | right =>
        simp only [staged, settled, Side.other, Side.colour] at hst hc0 ⊢
        have hyb : ¬ ('y' = 'b') := by decide
        constructor
        · intro t ht
          simp only [sortAndPushCone, hst, hd, hc0, List.length_cons, if_neg (not_lt.2 hl3),
            if_true, if_neg hyb] at ht
          split at ht
          · cases ht
          · rename_i raw hraw
            cases ht
            exact ⟨hraw, rfl, rfl⟩
        · intro raw hraw
          simp only [sortAndPushCone, hst, hd, hc0, List.length_cons, if_neg (not_lt.2 hl3),
            if_true, if_neg hyb, hraw]
          exact ⟨_, rfl⟩

theorem cost2bLoop_ok {cfg : Config} {raw : List Cone} {c1 : Cone} :
    ∀ l : List Nat, (∀ x ∈ l, x < raw.length) →
      (∃ k ∈ l, ∃ ck, deref raw k = .ok ck ∧ ck.passedBy = true) →
      ∃ r, cost2bLoop cfg raw c1 l = .ok r := by
  intro l
  induction l with
  | nil =>
    intro _ hex
    obtain ⟨k, hk, _⟩ := hex
    cases hk
  | cons a rest ih =>
    intro hv hex
    unfold cost2bLoop
    obtain ⟨ca, ea⟩ := @deref_ok raw a (hv a (List.mem_cons_self _ _))
    rw [ea]
    simp only
    split
    · exact ⟨_, rfl⟩
    · rename_i hnp
      apply ih (fun x hx => hv x (List.mem_cons_of_mem _ hx))
      obtain ⟨k, hk, ck, dk, pk⟩ := hex
      rcases List.mem_cons.1 hk with hk | hk
      · subst hk
        rw [ea] at dk
        cases dk
        exact absurd pk hnp
      · exact ⟨k, hk, ck, dk, pk⟩

theorem back2_ok {α : Type} {v : List α} (h : 2 ≤ v.length) : ∃ a, back2 v = .ok a := by
  unfold back2
  rw [if_pos h]
  have hlt : v.length - 2 < v.length := by omega
  rw [List.getElem?_eq_getElem hlt]
  exact ⟨_, rfl⟩

theorem back2_mem_of {α : Type} {v : List α} {a : α} (h : back2 v = .ok a) : a ∈ v := by
  unfold back2 at h
  split at h
  · split at h
    · rename_i b hb
      cases h
      exact List.getElem?_mem hb
    · cases h
  · cases h

theorem compositeCost_ok {cfg : Config} {raw : List Cone} {thisSide oppSide : List Nat} {h : Nat}
    (hh : h < raw.length) (hne : thisSide ≠ [])
    (hv : ∀ k ∈ thisSide ++ oppSide, k < raw.length)
    (hp : ∃ k ∈ oppSide, ∃ ck, deref raw k = .ok ck ∧ ck.passedBy = true) :
    ∃ v, CompositeCost cfg raw thisSide oppSide h v := by
  obtain ⟨last, hlast⟩ := back_ok hne
  have hlv : last < raw.length := hv last (List.mem_append_left _ (back_mem hlast))
  obtain ⟨ch, eh⟩ := @deref_ok raw h hh
  obtain ⟨cl, el⟩ := @deref_ok raw last hlv
  have e1 : computeCost1 cfg raw h last = .ok (calcDist cfg ch.position cl.position) := by
    unfold computeCost1
    rw [eh, el]
  obtain ⟨r2, e2l⟩ := @cost2bLoop_ok cfg raw ch oppSide.reverse
    (fun x hx => hv x (List.mem_append_right _ (List.mem_reverse.1 hx)))
    (by
      obtain ⟨k, hk, rest⟩ := hp
      exact ⟨k, List.mem_reverse.2 hk, rest⟩)
  have e2 : computeCost2b cfg raw h oppSide = .ok r2 := by
    unfold computeCost2b
    rw [eh]
    exact e2l
  have e3 : ∃ r3, computeCost3 cfg raw h thisSide = .ok r3 := by
    unfold computeCost3
    split
    · exact ⟨_, rfl⟩
    · rename_i hlen
      obtain ⟨l2, hl2⟩ := @back2_ok _ thisSide (by omega)
      have hl2v : l2 < raw.length := hv l2 (List.mem_append_left _ (back2_mem_of hl2))
      obtain ⟨c2, ec2⟩ := @deref_ok raw l2 hl2v
      rw [hlast, hl2]
      simp only
      rw [el, ec2, eh]
      exact ⟨_, rfl⟩
  obtain ⟨r3, e3⟩ := e3
  exact ⟨_, last, _, r2, r3, hlast, e1, e2, e3, rfl⟩

theorem SameGeom.length {raw0 raw : List Cone} (hg : SameGeom raw0 raw) :
    raw.length = raw0.length := by
  have := congrArg List.length hg
  simpa using this

theorem costLoop_ok {cfg : Config} {thisSide oppSide : List Nat} {raw0 : List Cone} :
    ∀ (l : List Nat) (raw : List Cone), SameGeom raw0 raw →
      (∀ h ∈ l, h < raw0.length ∧ ∃ v, CompositeCost cfg raw0 thisSide oppSide h v) →
      ∃ raw2, costLoop cfg thisSide oppSide l raw = .ok raw2 := by
  intro l
  induction l with
  | nil =>
    intro raw _ _
    exact ⟨raw, rfl⟩
  | cons a rest ih =>
    intro raw hg hall
    obtain ⟨ha, v, last, c1, c2, c3, hlast, e1, e2, e3, _⟩ := hall a (List.mem_cons_self _ _)
    unfold costLoop
    rw [hlast]
    simp only
    rw [computeCost1_geom hg, computeCost2b_geom hg, computeCost3_geom hg, e1, e2, e3]
    simp only
    obtain ⟨raw1, em, _⟩ := @modifyCone_ok raw a
      (fun c => { c with cost := c1 * c1 + 2 * c2 * c2 + (3 / 2) * c3 * c3 })
      (by rw [hg.length]; exact ha)
    rw [em]
    simp only
    exact ih raw1 (hg.modify em) (fun h hh => hall h (List.mem_cons_of_mem _ hh))

theorem back_getLast? {α : Type} {v : List α} {a : α} (h : back v = .ok a) :
    v.getLast? = some a := by
  unfold back at h
  split at h
  · cases h
  · rename_i b hb
    cases h
    exact hb

theorem back_back2_split {α : Type} {v : List α} {a b : α} (hb : back v = .ok b)
    (ha : back2 v = .ok a) : ∃ pre, v = pre ++ [a, b] := by
  unfold back2 at ha
  split at ha
  · rename_i hlen
    split at ha
    · rename_i x hx
      cases ha
      have hl := back_getLast? hb
      refine ⟨v.take (v.length - 2), ?_⟩
      have h1 : v = v.take (v.length - 2) ++ v.drop (v.length - 2) :=
        (List.take_append_drop _ _).symm
      have h2 : v.drop (v.length - 2) = [a, b] := by
        have hlt : v.length - 2 < v.length := by omega
        rw [List.drop_eq_getElem_cons hlt]
        have hx2 : v[v.length - 2] = a := by
          rw [List.getElem?_eq_getElem hlt] at hx
          exact Option.some.inj hx
        rw [hx2]
        have hlt2 : v.length - 2 + 1 < v.length := by omega
        rw [List.drop_eq_getElem_cons hlt2]
        have hd : v.drop (v.length - 2 + 1 + 1) = [] := by
          apply List.drop_eq_nil_of_le
          omega
        rw [hd]
        have hb2 : v[v.length - 2 + 1] = b := by
          rw [List.getLast?_eq_getElem?] at hl
          have e : v.length - 1 = v.length - 2 + 1 := by omega
          rw [e, List.getElem?_eq_getElem hlt2] at hl
          exact Option.some.inj hl
        rw [hb2]
      rw [h2] at h1
      exact h1
    · cases ha
  · cases ha

theorem cost2bLoop_split {cfg : Config} {raw : List Cone} {c1 : Cone} :
    ∀ (l : List Nat) (d : ℚ), cost2bLoop cfg raw c1 l = .ok d →
      ∃ pre k post ck, l = pre ++ k :: post ∧ raw[k]? = some ck ∧ ck.passedBy = true ∧
        (∀ j ∈ pre, ∃ cj, raw[j]? = some cj ∧ cj.passedBy = false) ∧
        d = calcDist cfg c1.position ck.position := by
  intro l
  induction l with
  | nil =>
    intro d e
    simp [cost2bLoop] at e
  | cons a rest ih =>
    intro d e
    unfold cost2bLoop at e
    split at e
    · cases e
    · rename_i oc hoc
      have hget := deref_getElem? hoc
      split at e
      · rename_i hp
        cases e
        exact ⟨[], a, rest, oc, rfl, hget, hp, (fun j hj => by cases hj), rfl⟩
      · rename_i hp
        obtain ⟨pre, k, post, ck, e1, e2, e3, e4, e5⟩ := ih d e
        refine ⟨a :: pre, k, post, ck, by rw [e1]; rfl, e2, e3, ?_, e5⟩
        intro j hj
        rcases List.mem_cons.1 hj with hj | hj
        · rw [hj]
          exact ⟨oc, hget, by simpa using hp⟩
        · exact e4 j hj

/-- The three terms of the composite cost are what the specification says. -/
theorem CompositeCost.spec {cfg : Config} {raw : List Cone} {thisSide oppSide : List Nat}
    {h : Nat} {v : ℚ} (hc : CompositeCost cfg raw thisSide oppSide h v) :
    SequencingCost cfg raw thisSide oppSide h v := by
  obtain ⟨last, cost1, cost2, cost3, hlast, e1, e2, e3, ev⟩ := hc
  unfold computeCost1 at e1
  split at e1
  · cases e1
  · cases e1
  · rename_i c cl hd hdl
    cases e1
    have hget := deref_getElem? hd
    refine ⟨c, _, cost2, cost3, hget, ⟨last, cl, back_getLast? hlast, deref_getElem? hdl, rfl⟩,
      ?_, ?_, ev⟩
    · unfold computeCost2b at e2
      rw [hd] at e2
      simp only at e2
      obtain ⟨pre, k, post, ck, q1, q2, q3, q4, q5⟩ := cost2bLoop_split _ _ e2
      refine ⟨post.reverse, k, pre.reverse, ck, ?_, q2, q3,
        (fun j hj => q4 j (List.mem_reverse.1 hj)), q5⟩
      have := congrArg List.reverse q1
      rw [List.reverse_reverse, List.reverse_append, List.reverse_cons, List.append_assoc] at this
      exact this
    · unfold computeCost3 at e3
      split at e3
      · rename_i hlt
        cases e3
        exact Or.inl ⟨hlt, rfl⟩
      · split at e3
        · cases e3
        · cases e3
        · rename_i hi hi1 hb hb2
          split at e3
          · rename_i ci ci1 c1 di di1 d1
            cases e3
            rw [hd] at d1
            cases d1
            obtain ⟨pre, hpre⟩ := back_back2_split hb hb2
            exact Or.inr ⟨pre, hi1, hi, ci1, ci, hpre, deref_getElem? di1, deref_getElem? di,
              rfl⟩
          · cases e3
          · cases e3
          · cases e3

/-- C14: with two or more markers of one colour staged, whenever sortAndPushCone
returns, every staged marker carries the cost cost1² + 2·cost2² + 1.5·cost3²,
where cost1 is its distance to the last marker of the colour's sequence, cost2
its distance to the passed marker nearest the tail of the opposite sequence and
cost3 the heading of the last two markers of the colour's sequence minus the
heading from the staged marker to the last one (0 when that sequence has fewer
than two markers), all on the store before the call; the colour's sequence is
its previous content followed by a permutation of the staged markers in
non-decreasing cost order, and the opposite sequence is unchanged. It does
return when the colour's sequence is non-empty, the settled handles are valid
and the opposite sequence holds a passed marker. -/
theorem C14_general_case (cfg : Config) (s : PathPlanner) (side : Side)
    (hlen : 2 ≤ (staged s side).length)
    (hcol : AllColour s.raw_cones side.colour (staged s side)) :
    (∀ t, sortAndPushCone cfg s side = .ok t →
      (∀ h ∈ staged s side, SequencingCost cfg s.raw_cones (settled s side)
        (settled s side.other) h (coneCost t.raw_cones h)) ∧
      (∃ sorted, settled t side = settled s side ++ sorted ∧ sorted.Perm (staged s side) ∧
        sorted.Sorted (fun a b => coneCost t.raw_cones a ≤ coneCost t.raw_cones b)) ∧
      settled t side.other = settled s side.other) ∧
    (settled s side ≠ [] →
      (∀ k ∈ settled s side ++ settled s side.other, k < s.raw_cones.length) →
      (∃ k ∈ settled s side.other, ∃ ck, deref s.raw_cones k = .ok ck ∧ ck.passedBy = true) →
      ∃ t, sortAndPushCone cfg s side = .ok t) := by
  obtain ⟨hfwd, hbwd⟩ := @sortAndPushCone_general cfg s side hlen hcol
  constructor
  · intro t ht
    obtain ⟨hloop, hthis, hopp⟩ := hfwd t ht
    obtain ⟨_, hcost, _⟩ := costLoop_cost _ _ _ (SameGeom.itself s.raw_cones) hloop
    refine ⟨fun h hh => (hcost h hh).spec, ⟨_, hthis, List.perm_insertionSort _ _, ?_⟩, hopp⟩
    have instT : IsTotal Nat (fun a b => coneCost t.raw_cones a ≤ coneCost t.raw_cones b) :=
      ⟨fun a b => le_total _ _⟩
    have instR : IsTrans Nat (fun a b => coneCost t.raw_cones a ≤ coneCost t.raw_cones b) :=
      ⟨fun a b c => le_trans⟩
    exact List.sorted_insertionSort _ _
  · intro hne hv hp
    obtain ⟨raw, hraw⟩ := @costLoop_ok cfg (settled s side) (settled s side.other) s.raw_cones
      (staged s side) s.raw_cones (SameGeom.itself _) (by
        intro h hh
        have hlt : h < s.raw_cones.length := by
          have := hcol h hh
          exact colourAt_some_lt this
        exact ⟨hlt, compositeCost_ok hlt hne hv hp⟩)
    exact hbwd raw hraw

theorem C14_general_case_witness :
    2 ≤ (staged (nearStaged farLeftCones) .left).length ∧
    AllColour (nearStaged farLeftCones).raw_cones Side.left.colour
      (staged (nearStaged farLeftCones) .left) ∧
    ∃ t, sortAndPushCone demoConfig (nearStaged farLeftCones) .left = .ok t ∧
      settled t .left = [0, 2, 3] ∧ settled t .right = [1] ∧
      coneCost t.raw_cones 2 ≤ coneCost t.raw_cones 3 ∧
      coneCost t.raw_cones 2 = 29 * 29 + 2 * (5831 / 200) * (5831 / 200) + (3 / 2) * 0 * 0 ∧
      coneCost t.raw_cones 3 = 39 * 39 + 2 * (9779 / 250) * (9779 / 250) + (3 / 2) * 0 * 0 ∧
      calcDist demoConfig (PathPoint.ofXY 30 (3 / 2)) (PathPoint.ofXY 1 (3 / 2)) = 29 ∧
      calcDist demoConfig (PathPoint.ofXY 30 (3 / 2)) (PathPoint.ofXY 1 (-(3 / 2)))
        = 5831 / 200 := by
  have hlen : 2 ≤ (staged (nearStaged farLeftCones) .left).length := by decide!
  have hcol : AllColour (nearStaged farLeftCones).raw_cones Side.left.colour
      (staged (nearStaged farLeftCones) .left) := by
    unfold AllColour
    decide!
  have hthm := C14_general_case demoConfig (nearStaged farLeftCones) .left hlen hcol
  obtain ⟨t, ht⟩ := hthm.2 (by decide!) (by decide!)
    ⟨1, by decide!, (deref (nearStaged farLeftCones).raw_cones 1).toOption.getD (newCone 0 0 'y'),
      by decide!, by decide!⟩
  refine ⟨hlen, hcol, t, ht, ?_, ?_, ?_, ?_, ?_, by decide!, by decide!⟩
  all_goals
    have e : sortAndPushCone demoConfig (nearStaged farLeftCones) .left
        = .ok ((sortAndPushCone demoConfig (nearStaged farLeftCones) .left).toOption.getD
            (nearStaged farLeftCones)) := by decide!
    rw [e] at ht
    cases ht
    decide!

theorem cost2bLoop_skip {cfg : Config} {raw : List Cone} {c1 : Cone} {k : Nat} {ck : Cone}
    (dk : deref raw k = .ok ck) (pk : ck.passedBy = true) (m : List Nat) :
    ∀ l : List Nat, (∀ x ∈ l, ∃ cx, deref raw x = .ok cx ∧ cx.passedBy = false) →
      cost2bLoop cfg raw c1 (l ++ k :: m) = .ok (calcDist cfg c1.position ck.position) := by
  intro l
  induction l with
  | nil =>
    intro _
    simp only [List.nil_append, cost2bLoop, dk, pk, if_true]
  | cons a rest ih =>
    intro hall
    obtain ⟨ca, da, pa⟩ := hall a (List.mem_cons_self _ _)
    simp only [List.cons_append, cost2bLoop, da, pa]
    exact ih (fun x hx => hall x (List.mem_cons_of_mem _ hx))

/-- C15, as stated, fails: the opposite sequence holds two passed markers, 3 and
about 4.243 away from the staged marker, and computeCost2b returns the distance
to the second, the one at the tail, not the minimum. -/
theorem C15_closest_passed_counterexample :
    deref cost2bDemo 1 = .ok { newCone 6 (-(3 / 2)) 'y' with passedBy := true } ∧
    deref cost2bDemo 2 = .ok { newCone 9 (-(3 / 2)) 'y' with passedBy := true } ∧
    calcDist demoConfig (PathPoint.ofXY 6 (3 / 2)) (PathPoint.ofXY 6 (-(3 / 2))) = 3 ∧
    calcDist demoConfig (PathPoint.ofXY 6 (3 / 2)) (PathPoint.ofXY 9 (-(3 / 2))) = 4243 / 1000 ∧
    computeCost2b demoConfig cost2bDemo 0 [1, 2] = .ok (4243 / 1000) := by
  decide!

/-- C15, amended: for a stored marker and an opposite sequence that holds a
passed marker, computeCost2b returns the distance to the last passed marker of
the sequence, the passed one nearest its tail. -/
theorem C15_last_passed_marker (cfg : Config) (raw : List Cone) (cn1 k : Nat) (c1 ck : Cone)
    (pre post : List Nat) (h1 : deref raw cn1 = .ok c1) (hk : deref raw k = .ok ck)
    (hp : ck.passedBy = true)
    (hpost : ∀ x ∈ post, ∃ cx, deref raw x = .ok cx ∧ cx.passedBy = false) :
    computeCost2b cfg raw cn1 (pre ++ k :: post)
      = .ok (calcDist cfg c1.position ck.position) := by
  unfold computeCost2b
  rw [h1]
  simp only
  rw [List.reverse_append, List.reverse_cons, List.append_assoc]
  exact cost2bLoop_skip hk hp _ _ (fun x hx => hpost x (List.mem_reverse.1 hx))

theorem C15_last_passed_marker_witness :
    deref cost2bDemo 0 = .ok (newCone 6 (3 / 2) 'b') ∧
    deref cost2bDemo 2 = .ok { newCone 9 (-(3 / 2)) 'y' with passedBy := true } ∧
    computeCost2b demoConfig cost2bDemo 0 ([1] ++ 2 :: [])
      = .ok (calcDist demoConfig (newCone 6 (3 / 2) 'b').position
          ({ newCone 9 (-(3 / 2)) 'y' with passedBy := true } : Cone).position) ∧
    calcDist demoConfig (newCone 6 (3 / 2) 'b').position
      ({ newCone 9 (-(3 / 2)) 'y' with passedBy := true } : Cone).position = 4243 / 1000 :=
  ⟨rfl, rfl, C15_last_passed_marker demoConfig cost2bDemo 0 2 _ _ [1] [] rfl rfl rfl
    (fun x hx => by cases hx), by decide!⟩

theorem deref_distTo {cfg : Config} {raw : List Cone} {cone c : Cone} {k : Nat}
    (e : deref raw k = .ok c) : distTo cfg raw cone k = calcDist cfg cone.position c.position := by
  unfold deref at e
  unfold distTo
  cases h : raw[k]? with
  | none =>
    rw [h] at e
    cases e
  | some c2 =>
    rw [h] at e
    cases e
    rfl

theorem scanFrom_le (m : ℚ) (fails : Nat) (ds : List ℚ) : scanFrom m fails ds ≤ ds.length := by
  induction ds generalizing m fails with
  | nil => simp [scanFrom]
  | cons d rest ih =>
    unfold scanFrom
    split
    · have := ih d 0
      simp only [List.length_cons]
      omega
    · split
      · simp
      · have := ih m (fails + 1)
        simp only [List.length_cons]
        omega

theorem scanFrom_full (m : ℚ) (fails : Nat) (ds : List ℚ) (h : ds.length + fails ≤ 10) :
    scanFrom m fails ds = ds.length := by
  induction ds generalizing m fails with
  | nil => simp [scanFrom]
  | cons d rest ih =>
    simp only [List.length_cons] at h
    unfold scanFrom
    split
    · rw [ih d 0 (by omega)]
      simp only [List.length_cons]
      omega
    · split
      · rename_i hf
        have : rest = [] := List.length_eq_zero.1 (by omega)
        rw [this]
        rfl
      · rw [ih m (fails + 1) (by omega)]
        simp only [List.length_cons]
        omega

/-- The scan loop of `findOppositeClosest`, entered with `count = fails + 1`,
returns the running closest cone when no scanned entry is below the running
minimum, and otherwise a scanned entry that is below it and least among the
scanned ones; the scanned entries are those of the specification's scan. -/
theorem closestLoop_scan {cfg : Config} {raw : List Cone} {cone : Cone} :
    ∀ (l : List Nat) (md : ℚ) (closest fails r : Nat),
      closestLoop cfg raw cone l md closest (fails + 1) = .ok r →
      (r = closest ∧
        ∀ x ∈ l.take (scanFrom md fails (l.map (distTo cfg raw cone))),
          md ≤ distTo cfg raw cone x) ∨
      (r ∈ l.take (scanFrom md fails (l.map (distTo cfg raw cone))) ∧
        distTo cfg raw cone r < md ∧
        ∀ x ∈ l.take (scanFrom md fails (l.map (distTo cfg raw cone))),
          distTo cfg raw cone r ≤ distTo cfg raw cone x) := by
  intro l
  induction l with
  | nil =>
    intro md closest fails r e
    simp only [closestLoop, Except.ok.injEq] at e
    left
    exact ⟨e.symm, fun x hx => by simp at hx⟩
  | cons a rest ih =>
    intro md closest fails r e
    unfold closestLoop at e
    split at e
    · cases e
    · rename_i c hc
      have hd : distTo cfg raw cone a = calcDist cfg cone.position c.position := deref_distTo hc
      simp only at e
      rw [← hd] at e
      simp only [List.map_cons]
      unfold scanFrom
      split at e
      · rename_i hlt
        rw [if_pos hlt, Nat.add_comm 1, List.take_succ_cons]
        right
        rcases ih _ a 0 r e with ⟨hr, hall⟩ | ⟨hr, hlt2, hall⟩
        · subst hr
          refine ⟨List.mem_cons_self _ _, hlt, ?_⟩
          intro x hx
          rcases List.mem_cons.1 hx with hx | hx
          · rw [hx]
          · exact hall x hx
        · refine ⟨List.mem_cons_of_mem _ hr, lt_trans hlt2 hlt, ?_⟩
          intro x hx
          rcases List.mem_cons.1 hx with hx | hx
          · rw [hx]
            exact le_of_lt hlt2
          · exact hall x hx
      · rename_i hnlt
        rw [if_neg hnlt]
        split at e
        · rename_i h10
          rw [if_pos h10]
          cases e
          left
          refine ⟨rfl, ?_⟩
          intro x hx
          simp only [List.take_succ_cons, List.take_zero, List.mem_singleton] at hx
          rw [hx]
          exact not_lt.1 hnlt
        · rename_i h10
          rw [if_neg h10, Nat.add_comm 1, List.take_succ_cons]
          rcases ih _ closest (fails + 1) r e with ⟨hr, hall⟩ | ⟨hr, hlt2, hall⟩
          · left
            refine ⟨hr, ?_⟩
            intro x hx
            rcases List.mem_cons.1 hx with hx | hx
            · rw [hx]
              exact not_lt.1 hnlt
            · exact hall x hx
          · right
            refine ⟨List.mem_cons_of_mem _ hr, hlt2, ?_⟩
            intro x hx
            rcases List.mem_cons.1 hx with hx | hx
            · rw [hx]
              exact le_trans (le_of_lt hlt2) (not_lt.1 hnlt)
            · exact hall x hx
theorem back_reverse {α : Type} {v : List α} {a : α} (h : back v = .ok a) :
    ∃ rest, v.reverse = a :: rest := by
  unfold back at h
  split at h
  · cases h
  · rename_i b hb
    cases h
    obtain ⟨ys, e⟩ := List.getLast?_eq_some_iff.1 hb
    exact ⟨ys.reverse, by rw [e]; simp⟩

/-- C17, as stated, fails: with the two opposite markers 10000 and 20000 away
no distance is below the start value 9999, both entries are scanned, and the
result is the tail marker, 20000 away, not the nearer one. -/
theorem C17_nearest_scan_counterexample :
    findOppositeClosest demoConfig farPair (newCone 0 0 'b') [1, 2] = .ok 2 ∧
    distTo demoConfig farPair (newCone 0 0 'b') 1 = 10000 ∧
    distTo demoConfig farPair (newCone 0 0 'b') 2 = 20000 ∧
    scanLength ([1, 2].reverse.map (distTo demoConfig farPair (newCone 0 0 'b'))) = 2 := by
  decide!

/-- C17, amended: for a marker and a non-empty opposite sequence of stored
markers whose tail entry is less than 9999 away, findOppositeClosest returns a
member of the sequence whose distance is least among the entries scanned, the
scan running from the tail towards the head and stopping with the entry that
makes 10 consecutive failures to strictly improve the minimum; for a sequence of
at most 11 entries the result is a nearest marker of the whole sequence. -/
theorem C17_bounded_nearest_scan (cfg : Config) (raw : List Cone) (cone : Cone)
    (cones : List Nat) (last : Nat) (hlast : back cones = .ok last)
    (hv : ∀ k ∈ cones, k < raw.length) (htail : distTo cfg raw cone last < 9999) :
    ∃ r, findOppositeClosest cfg raw cone cones = .ok r ∧ r ∈ cones ∧
      r ∈ cones.reverse.take (scanLength (cones.reverse.map (distTo cfg raw cone))) ∧
      (∀ x ∈ cones.reverse.take (scanLength (cones.reverse.map (distTo cfg raw cone))),
        distTo cfg raw cone r ≤ distTo cfg raw cone x) ∧
      (cones.length ≤ 11 → ∀ x ∈ cones, distTo cfg raw cone r ≤ distTo cfg raw cone x) := by
  have hne : cones ≠ [] := by
    intro h0
    rw [h0] at hlast
    cases hlast
  obtain ⟨r, hr⟩ := @findOppositeClosest_ok cfg raw cone cones hne hv
  have hmem := findOppositeClosest_mem hr
  obtain ⟨rest, hrev⟩ := back_reverse hlast
  obtain ⟨cl, hcl⟩ := @deref_ok raw last (hv last (back_mem hlast))
  have hdl : distTo cfg raw cone last = calcDist cfg cone.position cl.position := deref_distTo hcl
  have hloop : closestLoop cfg raw cone rest (distTo cfg raw cone last) last (0 + 1) = .ok r := by
    unfold findOppositeClosest at hr
    rw [hlast] at hr
    simp only at hr
    rw [hrev] at hr
    unfold closestLoop at hr
    rw [hcl] at hr
    simp only at hr
    rw [← hdl, if_pos htail] at hr
    exact hr
  have hlen : scanLength ((last :: rest).map (distTo cfg raw cone))
      = scanFrom (distTo cfg raw cone last) 0 (rest.map (distTo cfg raw cone)) + 1 := by
    unfold scanLength
    simp only [List.map_cons]
    rw [scanFrom, if_pos htail, Nat.add_comm]
  have hscan := closestLoop_scan rest _ last 0 r hloop
  have hmin : r ∈ (last :: rest).take (scanLength ((last :: rest).map (distTo cfg raw cone))) ∧
      ∀ x ∈ (last :: rest).take (scanLength ((last :: rest).map (distTo cfg raw cone))),
        distTo cfg raw cone r ≤ distTo cfg raw cone x := by
    rw [hlen, List.take_succ_cons]
    rcases hscan with ⟨e, hall⟩ | ⟨hin, hlt, hall⟩
    · subst e
      refine ⟨List.mem_cons_self _ _, ?_⟩
      intro x hx
      rcases List.mem_cons.1 hx with hx | hx
      · rw [hx]
      · exact hall x hx
    · refine ⟨List.mem_cons_of_mem _ hin, ?_⟩
      intro x hx
      rcases List.mem_cons.1 hx with hx | hx
      · rw [hx]
        exact le_of_lt hlt
      · exact hall x hx
  rw [hrev]
  refine ⟨r, hr, hmem, hmin.1, hmin.2, ?_⟩
  intro h11 x hx
  have hrl : rest.length ≤ 10 := by
    have := congrArg List.length hrev
    simp only [List.length_reverse, List.length_cons] at this
    omega
  have hfull : scanLength ((last :: rest).map (distTo cfg raw cone)) = (last :: rest).length := by
    rw [hlen, scanFrom_full _ _ _ (by simpa using hrl)]
    simp
  apply hmin.2
  rw [hfull, List.take_length, ← hrev]
  exact List.mem_reverse.2 hx

theorem C17_bounded_nearest_scan_witness :
    back [1, 2] = .ok 2 ∧ distTo demoConfig cost2bDemo (newCone 6 (3 / 2) 'b') 2 < 9999 ∧
    ∃ r, findOppositeClosest demoConfig cost2bDemo (newCone 6 (3 / 2) 'b') [1, 2] = .ok r ∧
      r = 1 ∧ ∀ x ∈ [1, 2], distTo demoConfig cost2bDemo (newCone 6 (3 / 2) 'b') r
        ≤ distTo demoConfig cost2bDemo (newCone 6 (3 / 2) 'b') x := by
  have hlast : back [1, 2] = .ok 2 := rfl
  have htail : distTo demoConfig cost2bDemo (newCone 6 (3 / 2) 'b') 2 < 9999 := by decide!
  obtain ⟨r, hr, _, _, _, hall⟩ := C17_bounded_nearest_scan demoConfig cost2bDemo
    (newCone 6 (3 / 2) 'b') [1, 2] 2 hlast (by decide) htail
  have hval : findOppositeClosest demoConfig cost2bDemo (newCone 6 (3 / 2) 'b') [1, 2] = .ok 1 := by
    decide!
  rw [hval] at hr
  cases hr
  exact ⟨hlast, htail, 1, hval, rfl, hall (by decide)⟩

theorem walkLoop_accepted {cfg : Config} {raw : List Cone} {opp : List Nat} :
    ∀ (l : List Nat) (c : Nat) (temp rej temp2 rej2 : List PathPoint),
      walkLoop cfg raw opp l c temp rej = .ok (temp2, rej2) → c ≤ 2 →
      ∃ acc, temp2 = temp ++ acc ∧ acc.length + c ≤ 2 := by
  intro l
  induction l with
  | nil =>
    intro c temp rej temp2 rej2 e hc
    simp only [walkLoop, Except.ok.injEq, Prod.mk.injEq] at e
    exact ⟨[], by rw [← e.1]; simp, by simpa using hc⟩
  | cons a rest ih =>
    intro c temp rej temp2 rej2 e hc
    unfold walkLoop at e
    split at e
    · simp only [Except.ok.injEq, Prod.mk.injEq] at e
      exact ⟨[], by rw [← e.1]; simp, by simpa using hc⟩
    · rename_i hc2
      split at e
      · cases e
      · split at e
        · split at e
          · cases e
          · split at e
            · cases e
            · rename_i cp feasible rej1 _
              split at e
              · obtain ⟨acc, e1, e2⟩ := ih _ _ _ _ _ e (by omega)
                refine ⟨cp :: acc, ?_, ?_⟩
                · rw [e1]
                  simp
                · simp only [List.length_cons]
                  omega
              · exact ih _ _ _ _ _ e hc
        · exact ih _ _ _ _ _ e hc

/-- What a returning call of `addCentrePoints` with both boundaries non-empty
leaves behind: each side's list is the two latest centre-line points followed by
at most two accepted candidates, and the centre-line has grown by the sorted
merged list from its index 2 on. -/
theorem addCentrePoints_shape {cfg : Config} {s t : PathPlanner}
    (h : addCentrePoints cfg s = .ok t) (hl : s.left_cones ≠ []) (hr : s.right_cones ≠ []) :
    ∃ (b2 b1 : PathPoint) (acc1 acc2 : List PathPoint),
      back2 s.centre_points = .ok b2 ∧ back s.centre_points = .ok b1 ∧
      t.cenPoints_temp1 = [b2, b1] ++ acc1 ∧ acc1.length ≤ 2 ∧
      t.cenPoints_temp2 = [b2, b1] ++ acc2 ∧ acc2.length ≤ 2 ∧
      t.centre_points = s.centre_points ++
        (sortPathPoints cfg (mergeTemp cfg t.cenPoints_temp1 t.cenPoints_temp2) b2).drop 2 := by
  unfold addCentrePoints at h
  rw [if_neg (by
    intro hh
    rcases hh with hh | hh
    · exact hl hh
    · exact hr hh)] at h
  split at h
  · cases h
  · cases h
  · rename_i b2 b1 hb2 hb1
    split at h
    · cases h
    · rename_i temp1 rej1 hw1
      split at h
      · cases h
      · rename_i temp2 rej2 hw2
        obtain ⟨acc1, e1, l1⟩ := walkLoop_accepted _ _ _ _ _ _ hw1 (by omega)
        obtain ⟨acc2, e2, l2⟩ := walkLoop_accepted _ _ _ _ _ _ hw2 (by omega)
        split at h
        · cases h
        · rename_i t0 ht0
          have ht : t0 = b2 := by
            rw [e2] at ht0
            simp only [mergeTemp, List.cons_append, front, Except.ok.injEq] at ht0
            exact ht0.symm
          subst ht
          split at h
          · cases h
          · rename_i raw cps happ
            cases h
            have := appendLoop_line _ _ _ _ _ happ
            exact ⟨t0, b1, acc1, acc2, hb2, hb1, e1, by omega, e2, by omega, this⟩
theorem calcDist_self (cfg : Config) (p : PathPoint) : calcDist cfg p p = cfg.sqrt 0 := by
  unfold calcDist
  simp

theorem length_sortPathPoints (cfg : Config) (l : List PathPoint) (r : PathPoint) :
    (sortPathPoints cfg l r).length = l.length := by
  have hperm : (sortPathPoints cfg l r).Perm
      (l.map (fun p => { p with dist := calcDist cfg p r })) := List.perm_insertionSort _ _
  rw [hperm.length_eq, List.length_map]

theorem mergeTemp_length {cfg : Config} (h0 : cfg.sqrt 0 ≤ 1 / 10) (b2 b1 : PathPoint)
    (acc1 acc2 : List PathPoint) :
    (mergeTemp cfg ([b2, b1] ++ acc1) ([b2, b1] ++ acc2)).length
      ≤ 2 + acc2.length + acc1.length := by
  unfold mergeTemp
  rw [List.filter_append]
  have hb2 : ([b2, b1] ++ acc2).any (fun p2 => decide (calcDist cfg b2 p2 ≤ 1 / 10)) = true := by
    simp only [List.cons_append, List.any_cons, calcDist_self, decide_eq_true h0, Bool.true_or]
  have hb1 : ([b2, b1] ++ acc2).any (fun p2 => decide (calcDist cfg b1 p2 ≤ 1 / 10)) = true := by
    simp only [List.cons_append, List.any_cons, calcDist_self, decide_eq_true h0, Bool.true_or,
      Bool.or_true]
  have hf : List.filter (fun p1 =>
        !(([b2, b1] ++ acc2).any (fun p2 => decide (calcDist cfg p1 p2 ≤ 1 / 10)))) [b2, b1]
      = [] := by
    simp only [List.filter_cons, hb2, hb1, Bool.not_true, List.filter_nil]
    rfl
  rw [hf]
  simp only [List.nil_append, List.length_append, List.length_cons, List.length_nil]
  have := List.length_filter_le (fun p1 =>
    !(([b2, b1] ++ acc2).any (fun p2 => decide (calcDist cfg p1 p2 ≤ 1 / 10)))) acc1
  omega

/-- C18: one returning call of addCentrePoints leaves each side's list as the two
latest centre-line points followed by at most two accepted candidates, and the
centre-line as it was followed by at most 4 new points. -/
theorem C18_generation_bound (cfg : Config) (s t : PathPlanner) (h0 : cfg.sqrt 0 ≤ 1 / 10)
    (h : addCentrePoints cfg s = .ok t) :
    (∃ ext, t.centre_points = s.centre_points ++ ext ∧ ext.length ≤ 4) ∧
    (s.left_cones ≠ [] → s.right_cones ≠ [] →
      ∃ (b2 b1 : PathPoint) (acc1 acc2 : List PathPoint),
        t.cenPoints_temp1 = [b2, b1] ++ acc1 ∧ acc1.length ≤ 2 ∧
        t.cenPoints_temp2 = [b2, b1] ++ acc2 ∧ acc2.length ≤ 2) := by
  by_cases hl : s.left_cones = []
  · have e : addCentrePoints cfg s = .ok s := by
      unfold addCentrePoints
      rw [if_pos (Or.inl hl)]
    rw [e] at h
    cases h
    exact ⟨⟨[], by simp, by simp⟩, fun hne => absurd hl hne⟩
  · by_cases hr : s.right_cones = []
    · have e : addCentrePoints cfg s = .ok s := by
        unfold addCentrePoints
        rw [if_pos (Or.inr hr)]
      rw [e] at h
      cases h
      exact ⟨⟨[], by simp, by simp⟩, fun _ hne => absurd hr hne⟩
    · obtain ⟨b2, b1, acc1, acc2, _, _, e1, l1, e2, l2, ecp⟩ := addCentrePoints_shape h hl hr
      refine ⟨⟨_, ecp, ?_⟩, fun _ _ => ⟨b2, b1, acc1, acc2, e1, l1, e2, l2⟩⟩
      rw [List.length_drop, length_sortPathPoints, e1, e2]
      have := mergeTemp_length h0 b2 b1 acc1 acc2
      omega

theorem C18_generation_bound_witness :
    demoConfig.sqrt 0 ≤ 1 / 10 ∧
    laneReady.centre_points.length = 2 ∧
    ∃ t, addCentrePoints demoConfig laneReady = .ok t ∧ t.centre_points.length = 4 ∧
      ∃ ext, t.centre_points = laneReady.centre_points ++ ext ∧ ext.length ≤ 4 := by
  have h0 : demoConfig.sqrt 0 ≤ 1 / 10 := by decide!
  have e : addCentrePoints demoConfig laneReady
      = .ok ((addCentrePoints demoConfig laneReady).toOption.getD laneReady) := by decide!
  exact ⟨h0, by decide!, _, e, by decide!, (C18_generation_bound demoConfig laneReady _ h0 e).1⟩

/-- C19, as stated, fails: the left walk accepts a candidate at (0, 0), from the
cones 2 and 3, the only accepted right-side candidate lies at (13/10, 0), and
the merged set does not contain the left candidate: it is within 0.1 of the
copied centre-line point at (0, 0). -/
theorem C19_near_duplicate_counterexample :
    ∃ t, addCentrePoints reversalConfig reverseReady = .ok t ∧
      pointRefs t.cenPoints_temp1
        = [(0, 0, none, none), (3, 0, some 0, some 1), (13 / 10, 0, some 4, some 3),
            (0, 0, some 2, some 3)] ∧
      pointRefs t.cenPoints_temp2
        = [(0, 0, none, none), (3, 0, some 0, some 1), (13 / 10, 0, some 3, some 4)] ∧
      pointRefs (mergeTemp reversalConfig t.cenPoints_temp1 t.cenPoints_temp2)
        = [(0, 0, none, none), (3, 0, some 0, some 1), (13 / 10, 0, some 3, some 4)] ∧
      ¬ (calcDist reversalConfig (PathPoint.ofXY 0 0) (PathPoint.ofXY (13 / 10) 0) ≤ 1 / 10) := by
  have e : addCentrePoints reversalConfig reverseReady
      = .ok ((addCentrePoints reversalConfig reverseReady).toOption.getD reverseReady) := by
    decide!
  exact ⟨_, e, by decide!, by decide!, by decide!, by decide!⟩

/-- C19, amended: after a returning call of addCentrePoints with both boundaries
non-empty, the merged set is the whole right-side list followed by exactly those
entries of the left-side list that have no entry of the right-side list (its two
copied centre-line points included) within distance 0.1; the centre-line has
grown by the entries from index 2 on of the merged set sorted by distance to the
first copied point. -/
theorem C19_merge_keeps_right (cfg : Config) (s t : PathPlanner)
    (h : addCentrePoints cfg s = .ok t) (hl : s.left_cones ≠ []) (hr : s.right_cones ≠ []) :
    ∃ (b2 : PathPoint) (kept : List PathPoint),
      mergeTemp cfg t.cenPoints_temp1 t.cenPoints_temp2 = t.cenPoints_temp2 ++ kept ∧
      (∀ p1 ∈ kept, p1 ∈ t.cenPoints_temp1 ∧
        ∀ p2 ∈ t.cenPoints_temp2, ¬ calcDist cfg p1 p2 ≤ 1 / 10) ∧
      (∀ p1 ∈ t.cenPoints_temp1, (∀ p2 ∈ t.cenPoints_temp2, ¬ calcDist cfg p1 p2 ≤ 1 / 10) →
        p1 ∈ kept) ∧
      back2 s.centre_points = .ok b2 ∧
      t.centre_points = s.centre_points ++
        (sortPathPoints cfg (mergeTemp cfg t.cenPoints_temp1 t.cenPoints_temp2) b2).drop 2 := by
  obtain ⟨b2, b1, acc1, acc2, hb2, _, _, _, _, _, ecp⟩ := addCentrePoints_shape h hl hr
  refine ⟨b2, _, rfl, ?_, ?_, hb2, ecp⟩
  · intro p1 hp1
    obtain ⟨hin, hf⟩ := List.mem_filter.1 hp1
    refine ⟨hin, fun p2 hp2 hle => ?_⟩
    have hany : t.cenPoints_temp2.any (fun p2 => decide (calcDist cfg p1 p2 ≤ 1 / 10)) = true :=
      List.any_eq_true.2 ⟨p2, hp2, decide_eq_true hle⟩
    rw [hany] at hf
    cases hf
  · intro p1 hp1 hfar
    apply List.mem_filter.2
    refine ⟨hp1, ?_⟩
    cases hany : t.cenPoints_temp2.any (fun p2 => decide (calcDist cfg p1 p2 ≤ 1 / 10)) with
    | false => rfl
    | true =>
      obtain ⟨p2, hp2, hd⟩ := List.any_eq_true.1 hany
      exact absurd (of_decide_eq_true hd) (hfar p2 hp2)

theorem C19_merge_keeps_right_witness :
    laneReady.left_cones ≠ [] ∧ laneReady.right_cones ≠ [] ∧
    ∃ t, addCentrePoints demoConfig laneReady = .ok t ∧
      pointRefs t.cenPoints_temp1
        = [(0, 0, none, none), (1, 0, some 0, some 1), (4, 0, some 2, some 3),
            (7, 0, some 4, some 5)] ∧
      pointRefs (mergeTemp demoConfig t.cenPoints_temp1 t.cenPoints_temp2)
        = [(0, 0, none, none), (1, 0, some 0, some 1), (4, 0, some 3, some 2),
            (7, 0, some 5, some 4)] ∧
      ∃ kept, mergeTemp demoConfig t.cenPoints_temp1 t.cenPoints_temp2
        = t.cenPoints_temp2 ++ kept := by
  have hl : laneReady.left_cones ≠ [] := by decide!
  have hr : laneReady.right_cones ≠ [] := by decide!
  have e : addCentrePoints demoConfig laneReady
      = .ok ((addCentrePoints demoConfig laneReady).toOption.getD laneReady) := by decide!
  obtain ⟨_, kept, hk, _⟩ := C19_merge_keeps_right demoConfig laneReady _ e hl hr
  exact ⟨hl, hr, _, e, by decide!, by decide!, kept, hk⟩

/-- C20: under `reversalConfig` the planner built from one gate at abscissa 3 is
shown, from the pose (3, 0), a second gate at abscissa 3/2.  Both walks accept
the midpoint (3/2, 0); sorted by distance to the copy of the second-last
centre-line point (0, 0) the merged set is (0, 0), (3/2, 0), (3, 0), so the
point appended is the copy of the latest centre-line point (3, 0): the
centre-line ends with that point twice, its cones are counted twice, and the
accepted candidate is not appended. -/
theorem C20_sorted_merge_misorders :
    pointRefs (gateStart reversalConfig).centre_points
      = [(0, 0, none, none), (3, 0, some 0, some 1)] ∧
    ∃ t, run reversalConfig (gateStart reversalConfig) [backFrame] = .ok t ∧
      pointRefs t.cenPoints_temp1
        = [(0, 0, none, none), (3, 0, some 0, some 1), (3 / 2, 0, some 2, some 3)] ∧
      pointRefs t.cenPoints_temp2
        = [(0, 0, none, none), (3, 0, some 0, some 1), (3 / 2, 0, some 3, some 2)] ∧
      pointRefs (sortPathPoints reversalConfig
          (mergeTemp reversalConfig t.cenPoints_temp1 t.cenPoints_temp2) (PathPoint.ofXY 0 0))
        = [(0, 0, none, none), (3 / 2, 0, some 3, some 2), (3, 0, some 0, some 1)] ∧
      pointRefs t.centre_points
        = [(0, 0, none, none), (3, 0, some 0, some 1), (3, 0, some 0, some 1)] ∧
      t.raw_cones.map (fun c => (c.paired, c.mapped)) = [(2, 2), (2, 2), (0, 0), (0, 0)] := by
  have e : run reversalConfig (gateStart reversalConfig) [backFrame]
      = .ok ((run reversalConfig (gateStart reversalConfig) [backFrame]).toOption.getD
          (gateStart reversalConfig)) := by
    decide!
  exact ⟨by decide!, _, e, by decide!, by decide!, by decide!, by decide!, by decide!⟩

theorem returning_ok {α : Type} (a : α) : Returning (Except.ok a : Except Fault α) := by
  intro h
  cases h

theorem returning_error {α : Type} {e : Fault} (h : e ≠ .noReturn) :
    Returning (Except.error e : Except Fault α) := by
  intro h2
  cases h2
  exact h rfl

theorem Returning.passOn {α β : Type} {r : Except Fault α} {e : Fault} (hr : Returning r)
    (h : r = .error e) : Returning (Except.error e : Except Fault β) := by
  intro h2
  cases h2
  exact hr h

theorem deref_returning (raw : List Cone) (h : Nat) : Returning (deref raw h) := by
  unfold deref
  split
  · exact returning_ok _
  · exact returning_error (by decide)

theorem modifyCone_returning (raw : List Cone) (h : Nat) (f : Cone → Cone) :
    Returning (modifyCone raw h f) := by
  unfold modifyCone
  split
  · exact returning_ok _
  · exact returning_error (by decide)

theorem modifyPtr_returning (raw : List Cone) (p : Option Nat) (f : Cone → Cone) :
    Returning (modifyPtr raw p f) := by
  unfold modifyPtr
  split
  · exact returning_error (by decide)
  · exact modifyCone_returning _ _ _

theorem PassedKept.unchanged (raw : List Cone) : PassedKept raw raw :=
  fun _ c h hp => ⟨c, h, hp⟩

theorem PassedKept.chain {raw raw2 raw3 : List Cone} (h1 : PassedKept raw raw2)
    (h2 : PassedKept raw2 raw3) : PassedKept raw raw3 := by
  intro k c hk hp
  obtain ⟨c2, hk2, hp2⟩ := h1 k c hk hp
  exact h2 k c2 hk2 hp2

theorem HasPassed.kept {raw raw2 : List Cone} {l : List Nat} (h : HasPassed raw l)
    (hk : PassedKept raw raw2) : HasPassed raw2 l := by
  obtain ⟨k, hin, c, hc, hp⟩ := h
  obtain ⟨c2, hc2, hp2⟩ := hk k c hc hp
  exact ⟨k, hin, c2, hc2, hp2⟩

theorem modifyCone_passed {raw raw2 : List Cone} {h : Nat} {f : Cone → Cone}
    (e : modifyCone raw h f = .ok raw2) (hf : ∀ c, (f c).passedBy = c.passedBy) :
    PassedKept raw raw2 := by
  unfold modifyCone at e
  split at e
  · rename_i c hc
    cases e
    intro k ck hk hp
    by_cases hkh : k = h
    · subst hkh
      have hlt : k < raw.length := by
        by_contra hn
        rw [List.getElem?_eq_none (by omega)] at hc
        cases hc
      rw [hc] at hk
      cases hk
      exact ⟨f c, List.getElem?_set_self hlt, by rw [hf]; exact hp⟩
    · exact ⟨ck, by rw [List.getElem?_set_ne (Ne.symm hkh)]; exact hk, hp⟩
  · cases e

theorem modifyPtr_passed {raw raw2 : List Cone} {p : Option Nat} {f : Cone → Cone}
    (e : modifyPtr raw p f = .ok raw2) (hf : ∀ c, (f c).passedBy = c.passedBy) :
    PassedKept raw raw2 := by
  obtain ⟨a, _, ea⟩ := modifyPtr_some e
  exact modifyCone_passed ea hf

theorem unpairPoint_returning (raw : List Cone) (p : PathPoint) :
    Returning (unpairPoint raw p) := by
  unfold unpairPoint
  split
  · rename_i e he
    exact (modifyPtr_returning _ _ _).passOn he
  · exact modifyPtr_returning _ _ _

theorem unpairPoint_passed {raw raw2 : List Cone} {p : PathPoint}
    (e : unpairPoint raw p = .ok raw2) : PassedKept raw raw2 := by
  unfold unpairPoint at e
  split at e
  · cases e
  · rename_i raw1 e1
    exact (modifyPtr_passed e1 (fun _ => rfl)).chain (modifyPtr_passed e (fun _ => rfl))

theorem popUnpassedLoop_returning :
    ∀ (l : List PathPoint) (raw : List Cone) (tc : Bool),
      Returning (popUnpassedLoop l raw tc) ∧
      ∀ r raw2 tc2, popUnpassedLoop l raw tc = .ok (r, raw2, tc2) → PassedKept raw raw2 := by
  intro l
  induction l with
  | nil =>
    intro raw tc
    refine ⟨returning_ok _, ?_⟩
    intro r raw2 tc2 e
    simp only [popUnpassedLoop, Except.ok.injEq, Prod.mk.injEq] at e
    rw [← e.2.1]
    exact PassedKept.unchanged _
  | cons p rest ih =>
    intro raw tc
    unfold popUnpassedLoop
    split
    · split
      · split
        · split
          · split
            · rename_i e he
              refine ⟨(unpairPoint_returning _ _).passOn he, ?_⟩
              intro r raw2 tc2 e2
              cases e2
            · rename_i raw1 e1
              refine ⟨(ih raw1 tc).1, ?_⟩
              intro r raw2 tc2 e2
              exact (unpairPoint_passed e1).chain ((ih raw1 tc).2 r raw2 tc2 e2)
          · refine ⟨returning_ok _, ?_⟩
            intro r raw2 tc2 e2
            simp only [Except.ok.injEq, Prod.mk.injEq] at e2
            rw [← e2.2.1]
            exact PassedKept.unchanged _
        · refine ⟨(deref_returning _ _).passOn (by assumption), ?_⟩
          intro r raw2 tc2 e2
          cases e2
        · refine ⟨(deref_returning _ _).passOn (by assumption), ?_⟩
          intro r raw2 tc2 e2
          cases e2
      · exact ih raw false
    · refine ⟨returning_ok _, ?_⟩
      intro r raw2 tc2 e2
      simp only [Except.ok.injEq, Prod.mk.injEq] at e2
      rw [← e2.2.1]
      exact PassedKept.unchanged _

theorem capLoop_returning (n : Int) :
    ∀ (l : List PathPoint) (raw : List Cone),
      Returning (capLoop n l raw) ∧
      ∀ r raw2, capLoop n l raw = .ok (r, raw2) → PassedKept raw raw2 := by
  intro l
  induction l with
  | nil =>
    intro raw
    refine ⟨returning_ok _, ?_⟩
    intro r raw2 e
    simp only [capLoop, Except.ok.injEq, Prod.mk.injEq] at e
    rw [← e.2]
    exact PassedKept.unchanged _
  | cons p rest ih =>
    intro raw
    unfold capLoop
    split
    · split
      · rename_i e he
        refine ⟨(unpairPoint_returning _ _).passOn he, ?_⟩
        intro r raw2 e2
        cases e2
      · rename_i raw1 e1
        refine ⟨(ih raw1).1, ?_⟩
        intro r raw2 e2
        exact (unpairPoint_passed e1).chain ((ih raw1).2 r raw2 e2)
    · refine ⟨returning_ok _, ?_⟩
      intro r raw2 e2
      simp only [Except.ok.injEq, Prod.mk.injEq] at e2
      rw [← e2.2]
      exact PassedKept.unchanged _

theorem updateCentrePoints_returning (cfg : Config) (s : PathPlanner) :
    Returning (updateCentrePoints cfg s) ∧
    ∀ t, updateCentrePoints cfg s = .ok t →
      PassedKept s.raw_cones t.raw_cones ∧ t.left_cones = s.left_cones ∧
      t.right_cones = s.right_cones ∧ t.left_unsorted = s.left_unsorted ∧
      t.right_unsorted = s.right_unsorted ∧ t.newConesToSort = s.newConesToSort := by
  unfold updateCentrePoints
  split
  · refine ⟨returning_ok _, ?_⟩
    intro t e
    cases e
    exact ⟨PassedKept.unchanged _, rfl, rfl, rfl, rfl, rfl⟩
  · simp only
    split
    · rename_i e he
      refine ⟨((popUnpassedLoop_returning _ _ _).1).passOn he, ?_⟩
      intro t e2
      cases e2
    · rename_i cps raw tc e1
      have k1 := (popUnpassedLoop_returning _ _ _).2 _ _ _ e1
      split
      · split
        · rename_i e he
          refine ⟨((capLoop_returning _ _ _).1).passOn he, ?_⟩
          intro t e2
          cases e2
        · rename_i cps2 raw2 e3
          have k2 := (capLoop_returning _ _ _).2 _ _ e3
          refine ⟨returning_ok _, ?_⟩
          intro t e2
          cases e2
          exact ⟨k1.chain k2, rfl, rfl, rfl, rfl, rfl⟩
      · refine ⟨returning_ok _, ?_⟩
        intro t e2
        cases e2
        exact ⟨k1, rfl, rfl, rfl, rfl, rfl⟩

theorem sumPositions_returning (raw : List Cone) :
    ∀ (l : List Nat) (acc : PathPoint), Returning (sumPositions raw l acc) := by
  intro l
  induction l with
  | nil =>
    intro acc
    exact returning_ok _
  | cons h rest ih =>
    intro acc
    unfold sumPositions
    split
    · rename_i e he
      exact (deref_returning raw h).passOn he
    · exact ih _

theorem pairAll_returning :
    ∀ (l : List Nat) (raw : List Cone), Returning (pairAll raw l) ∧
      ∀ raw2, pairAll raw l = .ok raw2 → PassedKept raw raw2 := by
  intro l
  induction l with
  | nil =>
    intro raw
    refine ⟨returning_ok _, ?_⟩
    intro raw2 e
    simp only [pairAll, Except.ok.injEq] at e
    rw [← e]
    exact PassedKept.unchanged _
  | cons h rest ih =>
    intro raw
    unfold pairAll
    split
    · rename_i e he
      refine ⟨(modifyCone_returning _ _ _).passOn he, ?_⟩
      intro raw2 e2
      cases e2
    · rename_i raw1 e1
      refine ⟨(ih raw1).1, ?_⟩
      intro raw2 e2
      exact (modifyCone_passed e1 (fun _ => rfl)).chain ((ih raw1).2 raw2 e2)

theorem centralizeTimingCones_returning (cfg : Config) (s : PathPlanner) :
    Returning (centralizeTimingCones cfg s) ∧
    ∀ t, centralizeTimingCones cfg s = .ok t →
      PassedKept s.raw_cones t.raw_cones ∧ t.left_cones = s.left_cones ∧
      t.right_cones = s.right_cones ∧ t.left_unsorted = s.left_unsorted ∧
      t.right_unsorted = s.right_unsorted := by
  unfold centralizeTimingCones
  split
  · refine ⟨returning_ok _, ?_⟩
    intro t e
    cases e
    exact ⟨PassedKept.unchanged _, rfl, rfl, rfl, rfl⟩
  · split
    · rename_i e he
      have : Returning (timingAverage s) := by
        unfold timingAverage
        split
        · rename_i e2 he2
          exact (sumPositions_returning _ _ _).passOn he2
        · exact returning_ok _
      refine ⟨this.passOn he, ?_⟩
      intro t e2
      cases e2
    · refine ⟨(deref_returning _ _).passOn (by assumption), ?_⟩
      intro t e2
      cases e2
    · simp only
      split
      · split
        · rename_i e he
          refine ⟨((pairAll_returning _ _).1).passOn he, ?_⟩
          intro t e2
          cases e2
        · rename_i raw e1
          refine ⟨returning_ok _, ?_⟩
          intro t e2
          cases e2
          exact ⟨(pairAll_returning _ _).2 _ e1, rfl, rfl, rfl, rfl⟩
      · refine ⟨returning_ok _, ?_⟩
        intro t e2
        cases e2
        exact ⟨PassedKept.unchanged _, rfl, rfl, rfl, rfl⟩

/-- C11, as stated, fails in two ways.  First part: the two cones of `wideGate`
are three track widths apart, and the planner constructed from them has the
midpoint of the pair on its centre-line, with both back-references, and no
rejected record.  Second part: with a track width of 1/2 the gate of
`gateCones` is six track widths wide; the constructor puts its midpoint (3, 0)
on the centre-line, and the call of update that sees a second gate half way back
appends the point (3, 0) of that pair a second time (the sorted merged list
holds the accepted candidate (3/2, 0) before the copy of the latest centre-line
point) and counts its cones again. -/
theorem C11_constructor_counterexample :
    (OffWidth demoConfig (newCone 0 (9 / 2) 'b') (newCone 0 (-(9 / 2)) 'y') ∧
      ∃ s, construct demoConfig 0 0 wideGate = .ok s ∧
        s.raw_cones.map (fun c => (c.position.x, c.position.y, c.colour))
          = [(0, 9 / 2, 'b'), (0, -(9 / 2), 'y')] ∧
        pointRefs s.centre_points = [(0, 0, none, none), (0, 0, some 0, some 1)] ∧
        s.rejected_points = []) ∧
    (OffWidth narrowConfig (newCone 3 (3 / 2) 'b') (newCone 3 (-(3 / 2)) 'y') ∧
      construct narrowConfig 0 0 gateCones = .ok (gateStart narrowConfig) ∧
      pointRefs (gateStart narrowConfig).centre_points
        = [(0, 0, none, none), (3, 0, some 0, some 1)] ∧
      ∃ t, run narrowConfig (gateStart narrowConfig) [narrowFrame] = .ok t ∧
        t.raw_cones.map (fun c => (c.position.x, c.position.y, c.colour))
          = [(3, 3 / 2, 'b'), (3, -(3 / 2), 'y'), (3 / 2, 1 / 4, 'b'), (3 / 2, -(1 / 4), 'y')] ∧
        pointRefs t.centre_points
          = [(0, 0, none, none), (3, 0, some 0, some 1), (3, 0, some 0, some 1)] ∧
        t.raw_cones.map (fun c => c.paired) = [2, 2, 0, 0] ∧
        pointRefs t.rejected_points
          = [(9 / 4, 5 / 8, some 0, some 3), (9 / 4, -(5 / 8), some 1, some 2)]) := by
  have e : construct demoConfig 0 0 wideGate
      = .ok ((construct demoConfig 0 0 wideGate).toOption.getD (initial demoConfig 0 0)) := by
    decide!
  have e2 : run narrowConfig (gateStart narrowConfig) [narrowFrame]
      = .ok ((run narrowConfig (gateStart narrowConfig) [narrowFrame]).toOption.getD
          (gateStart narrowConfig)) := by
    decide!
  refine ⟨⟨?_, _, e, by decide!, by decide!, by decide!⟩,
    ⟨?_, by decide!, by decide!, _, e2, by decide!, by decide!, by decide!, by decide!⟩⟩
  · unfold OffWidth
    decide!
  · unfold OffWidth
    decide!

theorem pairPoints_append (a b : List PathPoint) :
    pairPoints (a ++ b) = pairPoints a ++ pairPoints b := by
  simp [pairPoints, pointRefs]

theorem pairPoints_sortPathPoints (cfg : Config) (cps : List PathPoint) (ref : PathPoint) :
    (pairPoints (sortPathPoints cfg cps ref)).Perm (pairPoints cps) := by
  have hperm : (sortPathPoints cfg cps ref).Perm
      (cps.map (fun p => { p with dist := calcDist cfg p ref })) := List.perm_insertionSort _ _
  have e : pairPoints (cps.map (fun p => { p with dist := calcDist cfg p ref }))
      = pairPoints cps := by
    simp [pairPoints, pointRefs, List.map_map, Function.comp_def]
  rw [← e]
  exact (hperm.map _).filter _

theorem pairPoints_timed {cfg : Config} {s t : PathPlanner}
    (h : centralizeTimingCones cfg s = .ok t) :
    pairPoints t.centre_points = pairPoints s.centre_points := by
  unfold centralizeTimingCones at h
  split at h
  · cases h
    rfl
  · split at h
    · cases h
    · cases h
    · rename_i avg c0 ea e0
      simp only at h
      split at h
      · split at h
        · cases h
        · cases h
          obtain ⟨a1, a2⟩ := timingAverage_cones ea
          simp [pairPoints, pointRefs, a1, a2]
      · cases h
        rfl

/-- With an empty boundary sequence the sorting block of `update` appends
nothing to the boundaries and no marker-pair point to the centre-line. -/
theorem sortStep_idle {cfg : Config} {s t : PathPlanner}
    (he : s.left_cones = [] ∨ s.right_cones = []) (h : sortStep cfg s = .ok t) :
    t.left_cones = s.left_cones ∧ t.right_cones = s.right_cones ∧
      (pairPoints t.centre_points).Perm (pairPoints s.centre_points) := by
  unfold sortStep at h
  split at h
  · simp only at h
    split at h
    · cases h
    · rename_i s1 h1
      have z1 : s1.left_cones = s.left_cones ∧ s1.right_cones = s.right_cones ∧
          (pairPoints s1.centre_points).Perm (pairPoints s.centre_points) := by
        split at h1
        · split at h1
          · cases h1
          · rename_i t1 ht
            cases h1
            obtain ⟨_, el, er, _⟩ := (centralizeTimingCones_returning cfg s).2 _ ht
            refine ⟨el, er, ?_⟩
            rw [← pairPoints_timed ht]
            exact pairPoints_sortPathPoints _ _ _
        · cases h1
          exact ⟨rfl, rfl, List.Perm.refl _⟩
      have hno : ¬ (s1.left_cones ≠ [] ∧ s1.right_cones ≠ []) := by
        rw [z1.1, z1.2.1]
        rintro ⟨a, b⟩
        rcases he with e | e
        · exact a e
        · exact b e
      rw [if_neg hno] at h
      cases h
      exact z1
  · cases h
    exact ⟨rfl, rfl, List.Perm.refl _⟩

theorem addCones_sides {cfg : Config} {s t : PathPlanner} {nc : List Cone}
    (h : addCones cfg s nc = .ok t) :
    ∃ u, updateStoredCones cfg s nc = .ok u ∧ t.left_cones = u.left_cones ∧
      t.right_cones = u.right_cones := by
  unfold addCones at h
  split at h
  · cases h
  · rename_i s1 h1
    refine ⟨s1, h1, ?_⟩
    repeat' (split at h)
    all_goals (first | (cases h; done) | (cases h; exact ⟨rfl, rfl⟩))

theorem closureStep_sides {cfg : Config} {s t : PathPlanner} (h : closureStep cfg s = .ok t) :
    t.left_cones = s.left_cones ∧ t.right_cones = s.right_cones ∧
      (t.reached_end_zone = false → t.centre_points = s.centre_points) := by
  unfold closureStep at h
  repeat' (split at h)
  all_goals (first | (cases h; done) | (cases h; exact ⟨rfl, rfl, fun _ => rfl⟩) |
    (cases h; exact ⟨rfl, rfl, fun e => by simp at e⟩))

/-- A call of `update` keeps an empty left sequence empty and an empty right
sequence empty. -/
theorem update_keeps_empty {cfg : Config} {s t : PathPlanner} {nc : List Cone} {x y : ℚ}
    {out o : Output} (h : update cfg s nc x y out = .ok (t, o)) :
    (s.left_cones = [] → t.left_cones = []) ∧ (s.right_cones = [] → t.right_cones = []) := by
  unfold update at h
  split at h
  · split at h
    · cases h
    · rename_i s1 o1 h1
      cases h
      obtain ⟨e, _⟩ := returnResult_effect h1
      rw [e]
      exact ⟨id, id⟩
  · split at h
    · cases h
    · rename_i s1 h1
      obtain ⟨cl, cr, _⟩ := closureStep_sides h1
      simp only at cl cr
      split at h
      · cases h
      · rename_i s2 h2
        split at h
        · cases h
        · rename_i s3 o3 h3
          cases h
          obtain ⟨e, _⟩ := returnResult_effect h3
          obtain ⟨_, _, rl, rr, _⟩ := reset_fields s3
          rw [rl, rr, e]
          simp only
          have key : (s1.left_cones = [] → s2.left_cones = []) ∧
              (s1.right_cones = [] → s2.right_cones = []) := by
            unfold buildStep at h2
            split at h2
            · split at h2
              · cases h2
              · rename_i a1 ha1
                split at h2
                · cases h2
                · rename_i a2 ha2
                  obtain ⟨u, hu, ul, ur⟩ := addCones_sides ha1
                  obtain ⟨sl, sr, _⟩ := updateStoredCones_fields hu
                  obtain ⟨_, cl2, cr2, _⟩ := (updateCentrePoints_returning cfg a1).2 _ ha2
                  constructor
                  · intro e0
                    have e1 : a2.left_cones = [] := by
                      rw [cl2, ul]
                      exact List.eq_nil_iff_forall_not_mem.2
                        (fun k hk => by have := sl k hk; rw [e0] at this; cases this)
                    rw [(sortStep_idle (Or.inl e1) h2).1, e1]
                  · intro e0
                    have e1 : a2.right_cones = [] := by
                      rw [cr2, ur]
                      exact List.eq_nil_iff_forall_not_mem.2
                        (fun k hk => by have := sr k hk; rw [e0] at this; cases this)
                    rw [(sortStep_idle (Or.inr e1) h2).2.1, e1]
            · cases h2
              exact ⟨id, id⟩
          rw [cl, cr] at key
          exact key

theorem run_keeps_empty {cfg : Config} : ∀ (frames : List Frame) (s t : PathPlanner),
    run cfg s frames = .ok t →
      (s.left_cones = [] → t.left_cones = []) ∧ (s.right_cones = [] → t.right_cones = []) := by
  intro frames
  induction frames with
  | nil =>
    intro s t h
    simp only [SlowLap.run, Except.ok.injEq] at h
    rw [← h]
    exact ⟨id, id⟩
  | cons f rest ih =>
    intro s t h
    unfold SlowLap.run at h
    split at h
    · cases h
    · rename_i s1 o1 h1
      obtain ⟨a, b⟩ := update_keeps_empty h1
      obtain ⟨c, d⟩ := ih _ _ h
      exact ⟨fun e => c (a e), fun e => d (b e)⟩

/-- What a non-complete tick does after an ingestion that leaves a boundary
sequence empty. -/
theorem update_idle {cfg : Config} {s s1 s2 t : PathPlanner} {nc : List Cone} {x y : ℚ}
    {out o : Output} (h : update cfg s nc x y out = .ok (t, o)) (hc : s.complete = false)
    (hcl : closureStep cfg { s with car_pos := PathPoint.ofXY x y } = .ok s1)
    (hz : s1.reached_end_zone = false) (hi : updateStoredCones cfg s1 nc = .ok s2)
    (he : s2.left_cones = [] ∨ s2.right_cones = []) :
    t.left_cones = s2.left_cones ∧ t.right_cones = s2.right_cones ∧
      (pairPoints t.centre_points).Subperm (pairPoints s.centre_points) := by
  unfold update at h
  rw [if_neg (by simp [hc]), hcl] at h
  simp only at h
  obtain ⟨_, _, ccp⟩ := closureStep_sides hcl
  have ccp := ccp hz
  simp only at ccp
  split at h
  · cases h
  · rename_i b2 hb
    split at h
    · cases h
    · rename_i s3 o3 h3
      cases h
      obtain ⟨e, _⟩ := returnResult_effect h3
      obtain ⟨_, rc, rl, rr, _⟩ := reset_fields s3
      rw [rl, rr, rc, e]
      simp only
      unfold buildStep at hb
      rw [if_pos (by simp [hz])] at hb
      split at hb
      · cases hb
      · rename_i a1 ha1
        split at hb
        · cases hb
        · rename_i a2 ha2
          obtain ⟨u, hu, ul, ur⟩ := addCones_sides ha1
          rw [hi] at hu
          cases hu
          obtain ⟨_, cl2, cr2, _⟩ := (updateCentrePoints_returning cfg a1).2 _ ha2
          have he2 : a2.left_cones = [] ∨ a2.right_cones = [] := by
            rw [cl2, cr2, ul, ur]
            exact he
          obtain ⟨zl, zr, zp⟩ := sortStep_idle he2 hb
          refine ⟨by rw [zl, cl2, ul], by rw [zr, cr2, ur], ?_⟩
          obtain ⟨tail, et, _⟩ := updateCentrePoints_line ha2
          rw [addCones_line ha1, ccp] at et
          rw [et, pairPoints_append]
          exact zp.subperm.trans (List.sublist_append_left _ _).subperm

/-- C23: in a tick of a planner that is not complete and does not close the
loop, if the ingestion (`updateStoredCones`, trimming included) leaves the left
or the right boundary sequence empty, then the tick leaves both boundary
sequences as the ingestion left them (no marker is appended to either) and the
marker-pair points of the centre-line after the tick are, up to order, among
those before it (none is appended); and the empty sequence is empty after every
later sequence of `update` calls, whatever the observations. -/
theorem C23_empty_boundary_absorbing (cfg : Config) (s s1 s2 t : PathPlanner)
    (cones : List Cone) (car_x car_y : ℚ) (out o : Output)
    (h : update cfg s cones car_x car_y out = .ok (t, o)) (hc : s.complete = false)
    (hcl : closureStep cfg { s with car_pos := PathPoint.ofXY car_x car_y } = .ok s1)
    (hz : s1.reached_end_zone = false) (hi : updateStoredCones cfg s1 cones = .ok s2)
    (he : s2.left_cones = [] ∨ s2.right_cones = []) :
    t.left_cones = s2.left_cones ∧ t.right_cones = s2.right_cones ∧
      (pairPoints t.centre_points).Subperm (pairPoints s.centre_points) ∧
      ∀ (frames : List Frame) (u : PathPlanner), run cfg t frames = .ok u →
        (s2.left_cones = [] → u.left_cones = []) ∧
        (s2.right_cones = [] → u.right_cones = []) := by
  obtain ⟨a, b, c⟩ := update_idle h hc hcl hz hi he
  refine ⟨a, b, c, fun frames u hu => ?_⟩
  obtain ⟨p, q⟩ := run_keeps_empty frames t u hu
  exact ⟨fun e => p (by rw [a, e]), fun e => q (by rw [b, e])⟩

theorem C23_empty_boundary_absorbing_witness :
    nearStart.complete = false ∧ nearStart.left_cones = [0] ∧ nearStart.right_cones = [1] ∧
    ∃ s2, updateStoredCones demoConfig aheadStart nearGate = .ok s2 ∧
      s2.left_cones = [] ∧ s2.left_unsorted = [] ∧
      update demoConfig nearStart nearGate 10 0 Output.empty
        = .ok (aheadAfter.1, aheadAfter.2) ∧
      aheadAfter.1.left_cones = [] ∧ aheadAfter.1.right_cones = [] ∧
      pairPoints aheadAfter.1.centre_points = [(1, 0, some 0, some 1)] ∧
      (∃ u, run demoConfig aheadAfter.1 [laneFrame, laneFrame] = .ok u ∧
        u.raw_cones.length = 6 ∧ u.left_cones = [] ∧ u.right_cones = []) ∧
      ∀ (frames : List Frame) (u : PathPlanner), run demoConfig aheadAfter.1 frames = .ok u →
        u.left_cones = [] := by
  have hc : nearStart.complete = false := by decide!
  have hcl : closureStep demoConfig { nearStart with car_pos := PathPoint.ofXY 10 0 }
      = .ok aheadStart := by decide!
  have hz : aheadStart.reached_end_zone = false := by decide!
  have hi : updateStoredCones demoConfig aheadStart nearGate
      = .ok ((updateStoredCones demoConfig aheadStart nearGate).toOption.getD aheadStart) := by
    decide!
  have hl : ((updateStoredCones demoConfig aheadStart nearGate).toOption.getD
      aheadStart).left_cones = [] := by decide!
  have h : update demoConfig nearStart nearGate 10 0 Output.empty
      = .ok (aheadAfter.1, aheadAfter.2) := by decide!
  have hu : run demoConfig aheadAfter.1 [laneFrame, laneFrame]
      = .ok ((run demoConfig aheadAfter.1 [laneFrame, laneFrame]).toOption.getD nearStart) := by
    decide!
  have key := C23_empty_boundary_absorbing demoConfig nearStart aheadStart _ _ nearGate 10 0
    Output.empty _ h hc hcl hz hi (Or.inl hl)
  exact ⟨hc, by decide!, by decide!, _, hi, hl, by decide!, h, by decide!, by decide!,
    by decide!, ⟨_, hu, by decide!, by decide!, by decide!⟩,
    fun frames u e => (key.2.2.2 frames u e).1 hl⟩

theorem tallied_grow {d : Nat → Int} {raw raw2 : List Cone} {cps : List PathPoint}
    (hs : Shift d raw raw2) (hd : ∀ h, 0 ≤ d h) (ht : Tallied raw cps) : Tallied raw2 cps := by
  refine ⟨fun h c2 hc2 => ?_, fun h hh => ht.2 h (by rw [← hs.1]; exact hh)⟩
  obtain ⟨c, q1, _, q3⟩ := hs.back hc2
  have h1 := ht.1 h c q1
  have h2 := hd h
  rw [q3]
  omega

theorem tallied_perm {raw : List Cone} {l1 l2 : List PathPoint} (hp : l1.Perm l2)
    (ht : Tallied raw l1) : Tallied raw l2 :=
  ⟨fun h c hc => by rw [← refCount_perm hp]; exact ht.1 h c hc,
    fun h hh => by rw [← refCount_perm hp]; exact ht.2 h hh⟩

theorem tallied_sorted {cfg : Config} {raw : List Cone} {cps : List PathPoint} {ref : PathPoint}
    (ht : Tallied raw cps) : Tallied raw (sortPathPoints cfg cps ref) :=
  ⟨fun h c hc => by rw [refCount_sortPathPoints]; exact ht.1 h c hc,
    fun h hh => by rw [refCount_sortPathPoints]; exact ht.2 h hh⟩

theorem tallied_drop {raw : List Cone} {p : PathPoint} {rest : List PathPoint}
    (ht : Tallied raw (p :: rest)) : Tallied raw rest := by
  refine ⟨fun h c hc => ?_, fun h hh => ?_⟩
  · have := ht.1 h c hc
    rw [refCount_cons] at this
    push_cast at this
    split_ifs at this <;> omega
  · have := ht.2 h hh
    rw [refCount_cons] at this
    omega

theorem tallied_unpair {raw raw2 : List Cone} {rest : List PathPoint} {p : PathPoint}
    {a b : Nat} (ht : Tallied raw (p :: rest))
    (hs : Shift (fun h => (if h = a then -1 else 0) + (if h = b then -1 else 0)) raw raw2)
    (h1 : p.cone1 = some a) (h2 : p.cone2 = some b) (hab : a ≠ b) : Tallied raw2 rest := by
  refine ⟨fun h c2 hc2 => ?_, fun h hh => (tallied_drop ht).2 h (by rw [← hs.1]; exact hh)⟩
  obtain ⟨c, q1, _, q3⟩ := hs.back hc2
  have := ht.1 h c q1
  rw [refCount_cons] at this
  rw [q3]
  simp only [h1, h2, Option.some.injEq] at this
  push_cast at this
  split_ifs at this ⊢ <;> omega

theorem tallied_pair {raw raw2 : List Cone} {cps : List PathPoint} {p : PathPoint}
    {a b : Nat} (ht : Tallied raw cps)
    (hs : Shift (fun h => (if h = a then 1 else 0) + (if h = b then 1 else 0)) raw raw2)
    (h1 : p.cone1 = some a) (h2 : p.cone2 = some b) (ha : a < raw.length)
    (hb : b < raw.length) : Tallied raw2 (cps ++ [p]) := by
  have hp : ∀ h, refCount [p] h = if (a = h ∨ b = h) then 1 else 0 := by
    intro h
    rw [refCount_cons]
    simp [refCount, h1, h2]
  refine ⟨fun h c2 hc2 => ?_, fun h hh => ?_⟩
  · obtain ⟨c, q1, _, q3⟩ := hs.back hc2
    have := ht.1 h c q1
    rw [q3, refCount_append, hp]
    push_cast
    split_ifs <;> omega
  · rw [hs.1] at hh
    rw [refCount_append, hp, ht.2 h hh]
    split_ifs <;> omega

theorem tallied_append_none {raw : List Cone} {cps : List PathPoint} {p : PathPoint}
    (ht : Tallied raw cps) (h1 : p.cone1 = none) (h2 : p.cone2 = none) :
    Tallied raw (cps ++ [p]) := by
  have hp : ∀ h, refCount (cps ++ [p]) h = refCount cps h := by
    intro h
    rw [refCount_append, refCount_cons]
    simp [refCount, h1, h2]
  exact ⟨fun h c hc => by rw [hp]; exact ht.1 h c hc, fun h hh => by rw [hp]; exact ht.2 h hh⟩

theorem tallied_ingested {cfg : Config} {car : PathPoint} {raw new_cones : List Cone}
    {cps : List PathPoint} (ht : Tallied raw cps) (hf : FreshCones new_cones) :
    Tallied (ingested cfg car raw new_cones) cps := by
  refine ⟨fun h c2 hc2 => ?_, fun h hh => ht.2 h ?_⟩
  · cases hr : raw[h]? with
    | some c =>
      obtain ⟨c3, q1, _, q3⟩ := ingested_old cfg car new_cones hr
      rw [hc2] at q1
      cases q1
      rw [q3]
      exact ht.1 h c hr
    | none =>
      have hlen : raw.length ≤ h := by
        by_contra hn
        rw [List.getElem?_eq_getElem (by omega)] at hr
        cases hr
      rw [ht.2 h hlen]
      rw [ingested_getElem?, hr] at hc2
      cases hn : new_cones[h]? with
      | none => rw [hn] at hc2; cases hc2
      | some nc =>
        rw [hn] at hc2
        cases hc2
        rw [hf c2 (List.getElem?_mem hn)]
        rfl
  · rw [ingested_length] at hh
    omega

theorem modifyCone_lt {raw raw2 : List Cone} {h : Nat} {f : Cone → Cone}
    (e : modifyCone raw h f = .ok raw2) : h < raw.length := by
  unfold modifyCone at e
  split at e
  · rename_i c hc
    by_contra hn
    rw [List.getElem?_eq_none (by omega)] at hc
    cases hc
  · cases e

theorem updateStoredCones_tallied {cfg : Config} {s t : PathPlanner} {nc : List Cone}
    (ht : Tallied s.raw_cones s.centre_points) (hf : FreshCones nc)
    (h : updateStoredCones cfg s nc = .ok t) : Tallied t.raw_cones t.centre_points := by
  rw [updateStoredCones_raw h, updateStoredCones_line h]
  exact tallied_ingested ht hf

theorem addCones_store {cfg : Config} {s t : PathPlanner} {nc : List Cone}
    (h : addCones cfg s nc = .ok t) :
    ∃ u, updateStoredCones cfg s nc = .ok u ∧ t.raw_cones = u.raw_cones ∧
      t.centre_points = u.centre_points := by
  unfold addCones at h
  split at h
  · cases h
  · rename_i s1 h1
    refine ⟨s1, h1, ?_⟩
    repeat' (split at h)
    all_goals (first | (cases h; done) | (cases h; exact ⟨rfl, rfl⟩))

theorem addCones_tallied {cfg : Config} {s t : PathPlanner} {nc : List Cone}
    (ht : Tallied s.raw_cones s.centre_points) (hf : FreshCones nc)
    (h : addCones cfg s nc = .ok t) : Tallied t.raw_cones t.centre_points := by
  obtain ⟨u, hu, e1, e2⟩ := addCones_store h
  rw [e1, e2]
  exact updateStoredCones_tallied ht hf hu

theorem popUnpassedLoop_tallied : ∀ (l : List PathPoint) (raw : List Cone) (tc : Bool)
    (r : List PathPoint) (raw2 : List Cone) (tc2 : Bool),
    popUnpassedLoop l raw tc = .ok (r, raw2, tc2) → (∀ p ∈ l, PointOk p) → Tallied raw l →
    Tallied raw2 r := by
  intro l
  induction l with
  | nil =>
    intro raw tc r raw2 tc2 e _ hb
    simp only [popUnpassedLoop, Except.ok.injEq, Prod.mk.injEq] at e
    obtain ⟨e1, e2, _⟩ := e
    subst e1 e2
    exact hb
  | cons p rest ih =>
    intro raw tc r raw2 tc2 e hp hb
    have hrest : ∀ q ∈ rest, PointOk q := fun q hq => hp q (List.mem_cons_of_mem _ hq)
    unfold popUnpassedLoop at e
    split at e
    · split at e
      · rename_i a b ha hb2
        split at e
        · split at e
          · split at e
            · cases e
            · rename_i raw1 e1
              obtain ⟨a2, b2, ha2, hb3, sh⟩ := unpairPoint_shift e1
              have hab : a2 ≠ b2 := by
                rcases hp p (List.mem_cons_self _ _) with h | ⟨a3, b3, h1, h2, h3⟩
                · rw [h.1] at ha2
                  cases ha2
                · rw [h1] at ha2
                  rw [h2] at hb3
                  cases ha2
                  cases hb3
                  exact h3
              exact ih _ _ _ _ _ e hrest (tallied_unpair hb sh ha2 hb3 hab)
          · cases e
            exact hb
        · cases e
        · cases e
      · exact ih _ _ _ _ _ e hrest (tallied_drop hb)
    · cases e
      exact hb

theorem capLoop_tallied (n : Int) : ∀ (l : List PathPoint) (raw : List Cone)
    (r : List PathPoint) (raw2 : List Cone),
    capLoop n l raw = .ok (r, raw2) → (∀ p ∈ l, PointOk p) → Tallied raw l →
    Tallied raw2 r := by
  intro l
  induction l with
  | nil =>
    intro raw r raw2 e _ hb
    simp only [capLoop, Except.ok.injEq, Prod.mk.injEq] at e
    obtain ⟨e1, e2⟩ := e
    subst e1 e2
    exact hb
  | cons p rest ih =>
    intro raw r raw2 e hp hb
    unfold capLoop at e
    split at e
    · split at e
      · cases e
      · rename_i raw1 e1
        obtain ⟨a2, b2, ha2, hb3, sh⟩ := unpairPoint_shift e1
        have hab : a2 ≠ b2 := by
          rcases hp p (List.mem_cons_self _ _) with h | ⟨a3, b3, h1, h2, h3⟩
          · rw [h.1] at ha2
            cases ha2
          · rw [h1] at ha2
            rw [h2] at hb3
            cases ha2
            cases hb3
            exact h3
        exact ih _ _ _ e (fun q hq => hp q (List.mem_cons_of_mem _ hq))
          (tallied_unpair hb sh ha2 hb3 hab)
    · cases e
      exact hb

theorem updateCentrePoints_tallied {cfg : Config} {s t : PathPlanner} (inv : PairInv s)
    (ht : Tallied s.raw_cones s.centre_points) (h : updateCentrePoints cfg s = .ok t) :
    Tallied t.raw_cones t.centre_points := by
  unfold PathPlanner.updateCentrePoints at h
  split at h
  · cases h
    exact ht
  · simp only at h
    split at h
    · cases h
    · rename_i cps raw tc e1
      have hp0 : ∀ p ∈ s.centre_points.reverse, PointOk p :=
        fun p hp => inv.points p (List.mem_reverse.1 hp)
      have b1 := popUnpassedLoop_tallied _ _ _ _ _ _ e1 hp0
        (tallied_perm (List.reverse_perm _).symm ht)
      obtain ⟨pre, epre, _⟩ := popUnpassedLoop_suffix _ _ _ _ _ _ e1
      have hp1 : ∀ p ∈ cps, PointOk p :=
        fun p hp => hp0 p (by rw [epre]; exact List.mem_append_right _ hp)
      split at h
      · split at h
        · cases h
        · rename_i cps2 raw2 e2
          cases h
          exact tallied_perm (List.reverse_perm _).symm (capLoop_tallied _ _ _ _ _ e2 hp1 b1)
      · cases h
        exact tallied_perm (List.reverse_perm _).symm b1

theorem centralizeTimingCones_tallied {cfg : Config} {s t : PathPlanner}
    (ht : Tallied s.raw_cones s.centre_points) (h : centralizeTimingCones cfg s = .ok t) :
    Tallied t.raw_cones t.centre_points := by
  unfold PathPlanner.centralizeTimingCones at h
  split at h
  · cases h
    exact ht
  · split at h
    · cases h
    · cases h
    · rename_i avg c0 eavg ec0
      simp only at h
      split at h
      · split at h
        · cases h
        · rename_i raw e1
          cases h
          have sh := pairAll_shift _ _ _ e1
          have hnone := timingAverage_cones eavg
          exact tallied_append_none (tallied_grow sh (fun _ => Int.natCast_nonneg _) ht)
            hnone.1 hnone.2
      · cases h
        exact ht

theorem sortConesByDist_tallied {cfg : Config} {s t : PathPlanner} {pos : PathPoint}
    (ht : Tallied s.raw_cones s.centre_points) (h : sortConesByDist cfg s pos = .ok t) :
    Tallied t.raw_cones t.centre_points := by
  unfold PathPlanner.sortConesByDist at h
  split at h
  · cases h
    exact ht
  · split at h
    · cases h
    · rename_i raw1 e1
      split at h
      · cases h
      · rename_i raw2 e2
        cases h
        exact tallied_grow ((assignDist_shift _ _ _ e1).comp (assignDist_shift _ _ _ e2))
          (fun _ => by simp) ht

theorem sortAndPushCone_tallied {cfg : Config} {s t : PathPlanner} {side : Side}
    (ht : Tallied s.raw_cones s.centre_points) (h : sortAndPushCone cfg s side = .ok t) :
    Tallied t.raw_cones t.centre_points := by
  unfold PathPlanner.sortAndPushCone at h
  simp only at h
  cases side <;> simp only at h <;> repeat' (split at h)
  all_goals (first | (cases h; done) | (cases h; exact ht) |
    (cases h; exact tallied_grow (costLoop_shift _ _ _ (by assumption)) (fun _ => le_refl _) ht))

theorem deref_lt {raw : List Cone} {h : Nat} {c : Cone} (e : deref raw h = .ok c) :
    h < raw.length := by
  have := deref_getElem? e
  by_contra hn
  rw [List.getElem?_eq_none (by omega)] at this
  cases this

theorem addFirstCentrePoints_tallied {cfg : Config} {s t : PathPlanner}
    (ht : Tallied s.raw_cones s.centre_points) (h : addFirstCentrePoints cfg s = .ok t) :
    Tallied t.raw_cones t.centre_points := by
  unfold PathPlanner.addFirstCentrePoints at h
  split at h
  · cases h
  · rename_i s1 e1
    have i1 := sortConesByDist_tallied ht e1
    split at h
    · cases h
    · cases h
    · rename_i l r el er
      split at h
      · cases h
      · cases h
      · rename_i cl cr ecl ecr
        simp only at h
        split at h
        · cases h
        · rename_i raw1 em1
          split at h
          · cases h
          · rename_i raw2 em2
            cases h
            have hf : ∀ c : Cone, (pairAndMap c).colour = c.colour ∧
                (pairAndMap c).paired = c.paired + 1 := fun c => ⟨rfl, rfl⟩
            have sh := (modifyCone_shift 1 hf em1).comp (modifyCone_shift 1 hf em2)
            exact tallied_pair i1 sh rfl rfl (deref_lt ecl) (deref_lt ecr)

theorem appendLoop_tallied : ∀ (l : List PathPoint) (raw : List Cone) (cps : List PathPoint)
    (raw2 : List Cone) (cps2 : List PathPoint), appendLoop l raw cps = .ok (raw2, cps2) →
    Tallied raw cps → Tallied raw2 cps2 := by
  intro l
  induction l with
  | nil =>
    intro raw cps raw2 cps2 e hb
    simp only [appendLoop, Except.ok.injEq, Prod.mk.injEq] at e
    obtain ⟨e1, e2⟩ := e
    subst e1 e2
    exact hb
  | cons p rest ih =>
    intro raw cps raw2 cps2 e hb
    unfold appendLoop at e
    split at e
    · cases e
    · rename_i raw1 e1
      split at e
      · cases e
      · rename_i raw3 e3
        obtain ⟨a, ha, m1⟩ := modifyPtr_some e1
        obtain ⟨b, hb2, m2⟩ := modifyPtr_some e3
        have hf : ∀ c : Cone, (pairAndMap c).colour = c.colour ∧
            (pairAndMap c).paired = c.paired + 1 := fun c => ⟨rfl, rfl⟩
        have sh := (modifyCone_shift 1 hf m1).comp (modifyCone_shift 1 hf m2)
        have hb3 : b < raw.length := by
          rw [← modifyCone_length m1]
          exact modifyCone_lt m2
        exact ih _ _ _ _ e (tallied_pair hb sh ha hb2 (modifyCone_lt m1) hb3)

theorem addCentrePoints_tallied {cfg : Config} {s t : PathPlanner}
    (ht : Tallied s.raw_cones s.centre_points) (h : addCentrePoints cfg s = .ok t) :
    Tallied t.raw_cones t.centre_points := by
  unfold PathPlanner.addCentrePoints at h
  repeat' (split at h)
  all_goals (first | (cases h; done) | (cases h; exact ht) |
    (cases h; exact appendLoop_tallied _ _ _ _ _ (by assumption) ht))

theorem closureStep_tallied {cfg : Config} {s t : PathPlanner} (inv : PairInv s)
    (ht : Tallied s.raw_cones s.centre_points) (h : closureStep cfg s = .ok t) :
    Tallied t.raw_cones t.centre_points := by
  unfold PathPlanner.closureStep at h
  repeat' (split at h)
  all_goals (first | (cases h; done) | (cases h; exact ht) |
    (cases h; exact tallied_append_none ht inv.init.1 inv.init.2))

theorem sortStep_tallied {cfg : Config} {s t : PathPlanner}
    (ht : Tallied s.raw_cones s.centre_points) (h : sortStep cfg s = .ok t) :
    Tallied t.raw_cones t.centre_points := by
  unfold PathPlanner.sortStep at h
  split at h
  · simp only at h
    split at h
    · cases h
    · rename_i s1 h1
      have i1 : Tallied s1.raw_cones s1.centre_points := by
        split at h1
        · split at h1
          · cases h1
          · rename_i t1 htc
            cases h1
            exact tallied_sorted (centralizeTimingCones_tallied ht htc)
        · cases h1
          exact ht
      split at h
      · split at h
        · cases h
        · rename_i s2 h2
          split at h
          · cases h
          · rename_i s3 h3
            exact addCentrePoints_tallied
              (sortAndPushCone_tallied (sortAndPushCone_tallied i1 h2) h3) h
      · cases h
        exact i1
  · cases h
    exact ht

theorem buildStep_tallied {cfg : Config} {s t : PathPlanner} {nc : List Cone} (inv : PairInv s)
    (ht : Tallied s.raw_cones s.centre_points) (hf : FreshCones nc)
    (h : buildStep cfg s nc = .ok t) : Tallied t.raw_cones t.centre_points := by
  unfold PathPlanner.buildStep at h
  split at h
  · split at h
    · cases h
    · rename_i s1 h1
      split at h
      · cases h
      · rename_i s2 h2
        exact sortStep_tallied
          (updateCentrePoints_tallied (inv.addCones hf h1) (addCones_tallied ht hf h1) h2) h
  · cases h
    exact ht

theorem update_tallied {cfg : Config} {s t : PathPlanner} {nc : List Cone} {x y : ℚ}
    {out o : Output} (inv : PairInv s) (ht : Tallied s.raw_cones s.centre_points)
    (hf : FreshCones nc) (h : update cfg s nc x y out = .ok (t, o)) :
    Tallied t.raw_cones t.centre_points := by
  unfold PathPlanner.update at h
  split at h
  · split at h
    · cases h
    · rename_i s1 o1 h1
      cases h
      rw [(returnResult_effect h1).1]
      exact ht
  · split at h
    · cases h
    · rename_i s1 h1
      split at h
      · cases h
      · rename_i s2 h2
        split at h
        · cases h
        · rename_i s3 o3 h3
          cases h
          have i0 : PairInv { s with car_pos := PathPoint.ofXY x y } :=
            ⟨inv.left, inv.right, inv.leftU, inv.rightU, inv.timing, inv.points, inv.bound,
              inv.init⟩
          have t1 : Tallied s1.raw_cones s1.centre_points := closureStep_tallied i0 ht h1
          have t2 := buildStep_tallied (i0.closureStep h1) t1 hf h2
          obtain ⟨r1, r2, _⟩ := reset_fields s3
          rw [r1, r2, (returnResult_effect h3).1]
          exact t2

theorem run_tallied {cfg : Config} : ∀ (frames : List Frame) (s t : PathPlanner),
    PairInv s → Tallied s.raw_cones s.centre_points → (∀ f ∈ frames, FreshCones f.cones) →
    run cfg s frames = .ok t → Tallied t.raw_cones t.centre_points := by
  intro frames
  induction frames with
  | nil =>
    intro s t _ ht _ h
    simp only [SlowLap.run, Except.ok.injEq] at h
    rw [← h]
    exact ht
  | cons f rest ih =>
    intro s t inv ht hf h
    unfold SlowLap.run at h
    split at h
    · cases h
    · rename_i s1 o1 h1
      have hf1 := hf f (List.mem_cons_self _ _)
      exact ih _ _ (inv.update hf1 h1) (update_tallied inv ht hf1 h1)
        (fun g hg => hf g (List.mem_cons_of_mem _ hg)) h

theorem construct_tallied {cfg : Config} {x y : ℚ} {cones : List Cone} {s0 : PathPlanner}
    (hf : FreshCones cones) (h : construct cfg x y cones = .ok s0) :
    Tallied s0.raw_cones s0.centre_points := by
  unfold PathPlanner.construct at h
  split at h
  · cases h
  · rename_i s1 h1
    have t0 : Tallied (initial cfg x y).raw_cones (initial cfg x y).centre_points :=
      ⟨fun h c hc => by simp [PathPlanner.initial] at hc, fun h _ => rfl⟩
    have i1 := addCones_tallied t0 hf h1
    simp only at h
    split at h
    · cases h
    · rename_i s3 h3
      have i2 : Tallied s1.raw_cones (s1.centre_points ++ [PathPoint.ofXY x y]) :=
        tallied_append_none i1 rfl rfl
      have i3 := addFirstCentrePoints_tallied (s := { s1 with centre_points :=
        s1.centre_points ++ [PathPoint.ofXY x y] }) i2 h3
      split at h
      · cases h
      · rename_i s4 h4
        cases h
        have i4 := centralizeTimingCones_tallied i3 h4
        obtain ⟨r1, r2, _⟩ := reset_fields
          (if s4.timingCalc = true then
            { s4 with centre_points := sortPathPoints cfg s4.centre_points s4.init_pos } else s4)
        rw [r1, r2]
        split
        · exact tallied_sorted i4
        · exact i4

/-- In a state reached from the constructor through `update` calls, on
observations whose pairing counter is 0, no stored pairing counter is negative. -/
theorem reachable_counters {cfg : Config} {x y : ℚ} {cones : List Cone} {frames : List Frame}
    {s0 s : PathPlanner} (hc : construct cfg x y cones = .ok s0) (hr : run cfg s0 frames = .ok s)
    (hf : FreshCones cones) (hfs : ∀ f ∈ frames, FreshCones f.cones) :
    ∀ c ∈ s.raw_cones, 0 ≤ c.paired := by
  have ht := run_tallied frames s0 s (PairInv.construct hf hc) (construct_tallied hf hc) hfs hr
  intro c hc
  obtain ⟨h, hh, e⟩ := List.mem_iff_getElem.1 hc
  have := ht.1 h c (by rw [List.getElem?_eq_getElem hh, e])
  have h0 : (0 : Int) ≤ (refCount s.centre_points h : Int) := Int.natCast_nonneg _
  omega

theorem trimLoop_run {raw : List Cone} : ∀ (l : List Nat) (indx : Nat) (r : List Nat)
    (i2 : Nat), trimLoop raw l indx = .ok (r, i2) →
    ∃ removed, l = removed ++ r ∧
      (∀ h ∈ removed, ∃ c, raw[h]? = some c ∧ (c.passedBy = false ∨ c.paired = 0)) ∧
      (r = [] → i2 = indx) ∧
      ∀ h rest, r = h :: rest →
        i2 = rest.length ∧ ∃ c, raw[h]? = some c ∧ c.passedBy = true ∧ c.paired ≠ 0 := by
  intro l
  induction l with
  | nil =>
    intro indx r i2 e
    simp only [trimLoop, Except.ok.injEq, Prod.mk.injEq] at e
    obtain ⟨e1, e2⟩ := e
    subst e1 e2
    exact ⟨[], rfl, (fun h hh => by cases hh), (fun _ => rfl), (fun h rest e => by cases e)⟩
  | cons a rest ih =>
    intro indx r i2 e
    unfold trimLoop at e
    split at e
    · cases e
    · rename_i c hc
      have hget := deref_getElem? hc
      split at e
      · rename_i hcond
        obtain ⟨removed, e1, e2, e3, e4⟩ := ih _ _ _ e
        refine ⟨a :: removed, by rw [e1]; rfl, ?_, e3, e4⟩
        intro h hh
        rcases List.mem_cons.1 hh with hh | hh
        · rw [hh]
          refine ⟨c, hget, ?_⟩
          simp only [Bool.or_eq_true, Bool.not_eq_true', decide_eq_true_eq] at hcond
          exact hcond
        · exact e2 h hh
      · rename_i hcond
        cases e
        refine ⟨[], rfl, (fun h hh => by cases hh), (fun e => by cases e), ?_⟩
        intro h rest2 e
        cases e
        refine ⟨rfl, c, hget, ?_⟩
        simp only [Bool.or_eq_true, Bool.not_eq_true', decide_eq_true_eq, not_or,
          Bool.not_eq_false] at hcond
        exact hcond

/-- What the trimming of one boundary sequence in `updateStoredCones` does. -/
theorem trimCones_run {raw : List Cone} {cones r : List Nat} {indx i2 : Nat}
    (e : trimCones raw cones indx = .ok (r, i2)) :
    ∃ removed, cones = r ++ removed ∧
      (∀ h ∈ removed, ∃ c, raw[h]? = some c ∧ (c.passedBy = false ∨ c.paired = 0)) ∧
      (r = [] → i2 = indx) ∧
      (r ≠ [] → ∃ h c, r[i2]? = some h ∧ i2 + 1 = r.length ∧ raw[h]? = some c ∧
        c.passedBy = true ∧ c.paired ≠ 0) := by
  unfold trimCones at e
  split at e
  · cases e
  · rename_i r1 i1 e1
    cases e
    obtain ⟨removed, q1, q2, q3, q4⟩ := trimLoop_run _ _ _ _ e1
    refine ⟨removed.reverse, ?_, fun h hh => q2 h (List.mem_reverse.1 hh), ?_, ?_⟩
    · have := congrArg List.reverse q1
      rw [List.reverse_reverse, List.reverse_append] at this
      exact this
    · intro hr
      exact q3 (by simpa using hr)
    · intro hr
      cases r1 with
      | nil => exact absurd rfl hr
      | cons h rest =>
        obtain ⟨ei, c, hc⟩ := q4 h rest rfl
        refine ⟨h, c, ?_, by rw [ei]; simp, hc⟩
        rw [ei, List.reverse_cons]
        rw [List.getElem?_append_right (by simp)]
        simp

theorem updateStoredCones_trim {cfg : Config} {s t : PathPlanner} {nc : List Cone}
    (h : updateStoredCones cfg s nc = .ok t) :
    trimCones t.raw_cones s.left_cones s.leftIndx = .ok (t.left_cones, t.leftIndx) ∧
      trimCones t.raw_cones s.right_cones s.rightIndx = .ok (t.right_cones, t.rightIndx) := by
  unfold updateStoredCones at h
  simp only at h
  split at h
  · cases h
  · split at h
    · cases h
    · rename_i l li hl
      split at h
      · cases h
      · rename_i r ri hr
        cases h
        exact ⟨hl, hr⟩

/-- C21: in a tick of a planner reached from the constructor through `update`
calls (observations carry pairing counter 0), `updateStoredCones` leaves each
boundary sequence as a prefix of its value before the call: the entries removed
form a trailing run, each of them is, in the cone store after the ingest loop,
not passed or has pairing counter 0, and the run is maximal, for if the trimmed
sequence is non-empty its last entry is passed with pairing counter > 0; the
anchor index of the side (`leftIndx`, `rightIndx`) is then the index of that
last entry. -/
theorem C21_boundary_trimming (cfg : Config) (x y : ℚ) (cones0 : List Cone)
    (frames : List Frame) (s0 s s1 t : PathPlanner) (car_x car_y : ℚ) (cones : List Cone)
    (hc : construct cfg x y cones0 = .ok s0) (hr : run cfg s0 frames = .ok s)
    (hf0 : FreshCones cones0) (hfs : ∀ f ∈ frames, FreshCones f.cones) (hf : FreshCones cones)
    (hcl : closureStep cfg { s with car_pos := PathPoint.ofXY car_x car_y } = .ok s1)
    (h : updateStoredCones cfg s1 cones = .ok t) :
    (∃ removed, s1.left_cones = t.left_cones ++ removed ∧
      (∀ k ∈ removed, ∃ c, t.raw_cones[k]? = some c ∧ (c.passedBy = false ∨ c.paired = 0)) ∧
      (t.left_cones ≠ [] → ∃ k c, t.left_cones[t.leftIndx]? = some k ∧
        t.leftIndx + 1 = t.left_cones.length ∧ t.raw_cones[k]? = some c ∧
        c.passedBy = true ∧ 0 < c.paired)) ∧
    (∃ removed, s1.right_cones = t.right_cones ++ removed ∧
      (∀ k ∈ removed, ∃ c, t.raw_cones[k]? = some c ∧ (c.passedBy = false ∨ c.paired = 0)) ∧
      (t.right_cones ≠ [] → ∃ k c, t.right_cones[t.rightIndx]? = some k ∧
        t.rightIndx + 1 = t.right_cones.length ∧ t.raw_cones[k]? = some c ∧
        c.passedBy = true ∧ 0 < c.paired)) := by
  have inv := PairInv.run frames s0 s (PairInv.construct hf0 hc) hfs hr
  have ht := run_tallied frames s0 s (PairInv.construct hf0 hc) (construct_tallied hf0 hc) hfs hr
  have i0 : PairInv { s with car_pos := PathPoint.ofXY car_x car_y } :=
    ⟨inv.left, inv.right, inv.leftU, inv.rightU, inv.timing, inv.points, inv.bound, inv.init⟩
  have t1 : Tallied s1.raw_cones s1.centre_points := closureStep_tallied i0 ht hcl
  have t2 := updateStoredCones_tallied t1 hf h
  have hpos : ∀ (k : Nat) (c : Cone), t.raw_cones[k]? = some c → c.paired ≠ 0 → 0 < c.paired := by
    intro k c hk hne
    have h1 := t2.1 k c hk
    have h0 : (0 : Int) ≤ (refCount t.centre_points k : Int) := Int.natCast_nonneg _
    omega
  obtain ⟨el, er⟩ := updateStoredCones_trim h
  obtain ⟨rl, l1, l2, _, l4⟩ := trimCones_run el
  obtain ⟨rr, r1, r2, _, r4⟩ := trimCones_run er
  refine ⟨⟨rl, l1, l2, fun hne => ?_⟩, ⟨rr, r1, r2, fun hne => ?_⟩⟩
  · obtain ⟨k, c, a1, a2, a3, a4, a5⟩ := l4 hne
    exact ⟨k, c, a1, a2, a3, a4, hpos k c a3 a5⟩
  · obtain ⟨k, c, a1, a2, a3, a4, a5⟩ := r4 hne
    exact ⟨k, c, a1, a2, a3, a4, hpos k c a3 a5⟩

theorem laneCones_fresh : FreshCones laneCones := by
  intro c hc
  simp only [laneCones, nearGate, List.cons_append, List.nil_append, List.mem_cons,
    List.mem_singleton, List.not_mem_nil, or_false] at hc
  rcases hc with hc | hc | hc | hc | hc | hc <;> rw [hc] <;> rfl

theorem C21_boundary_trimming_witness :
    construct demoConfig 0 0 nearGate = .ok nearStart ∧
    run demoConfig nearStart [laneFrame] = .ok laneAfter ∧
    laneAfter.left_cones = [0, 2, 4] ∧ laneAfter.right_cones = [1, 3, 5] ∧
    ∃ t, updateStoredCones demoConfig laneAfter laneCones = .ok t ∧
      t.left_cones = [0] ∧ t.leftIndx = 0 ∧ t.right_cones = [1] ∧ t.rightIndx = 0 ∧
      t.raw_cones.map (fun c => (c.passedBy, c.paired))
        = [(true, 1), (true, 1), (false, 1), (false, 1), (false, 1), (false, 1)] ∧
      (∃ removed, laneAfter.left_cones = t.left_cones ++ removed ∧
        (∀ k ∈ removed, ∃ c, t.raw_cones[k]? = some c ∧
          (c.passedBy = false ∨ c.paired = 0)) ∧
        (t.left_cones ≠ [] → ∃ k c, t.left_cones[t.leftIndx]? = some k ∧
          t.leftIndx + 1 = t.left_cones.length ∧ t.raw_cones[k]? = some c ∧
          c.passedBy = true ∧ 0 < c.paired)) := by
  have k : construct demoConfig 0 0 nearGate = .ok nearStart ∧
      run demoConfig nearStart [laneFrame] = .ok laneAfter ∧
      laneAfter.left_cones = [0, 2, 4] ∧ laneAfter.right_cones = [1, 3, 5] ∧
      closureStep demoConfig { laneAfter with car_pos := PathPoint.ofXY 0 0 }
        = .ok laneAfter := by decide!
  have hc : construct demoConfig 0 0 nearGate = .ok nearStart := k.1
  have hr : run demoConfig nearStart [laneFrame] = .ok laneAfter := k.2.1
  have hf0 : FreshCones nearGate := by
    intro c hc
    simp only [nearGate, List.mem_cons, List.mem_singleton, List.not_mem_nil, or_false] at hc
    rcases hc with hc | hc <;> rw [hc] <;> rfl
  have hfs : ∀ f ∈ [laneFrame], FreshCones f.cones := by
    intro f hf
    simp only [List.mem_singleton] at hf
    rw [hf]
    exact laneCones_fresh
  have hcl : closureStep demoConfig { laneAfter with car_pos := PathPoint.ofXY 0 0 }
      = .ok laneAfter := k.2.2.2.2
  have k2 : updateStoredCones demoConfig laneAfter laneCones
        = .ok ((updateStoredCones demoConfig laneAfter laneCones).toOption.getD laneAfter) ∧
      ((updateStoredCones demoConfig laneAfter laneCones).toOption.getD laneAfter).left_cones
        = [0] ∧
      ((updateStoredCones demoConfig laneAfter laneCones).toOption.getD laneAfter).leftIndx
        = 0 ∧
      ((updateStoredCones demoConfig laneAfter laneCones).toOption.getD laneAfter).right_cones
        = [1] ∧
      ((updateStoredCones demoConfig laneAfter laneCones).toOption.getD laneAfter).rightIndx
        = 0 ∧
      ((updateStoredCones demoConfig laneAfter laneCones).toOption.getD
          laneAfter).raw_cones.map (fun c => (c.passedBy, c.paired))
        = [(true, 1), (true, 1), (false, 1), (false, 1), (false, 1), (false, 1)] := by
    decide!
  have h := k2.1
  exact ⟨hc, hr, k.2.2.1, k.2.2.2.1, _, h, k2.2.1, k2.2.2.1, k2.2.2.2.1, k2.2.2.2.2.1,
    k2.2.2.2.2.2,
    (C21_boundary_trimming demoConfig 0 0 nearGate [laneFrame] nearStart laneAfter laneAfter _
      0 0 laneCones hc hr hf0 hfs laneCones_fresh hcl h).1⟩

theorem ingestStep_staging {cfg : Config} {car : PathPoint} {i : Nat} {nc : Cone}
    {st st1 : List Cone × List Nat × Bool} (h : ingestStep cfg car i nc st = .ok st1) :
    st.1.length ≤ st1.1.length ∧ (∀ k, k ≠ i → st1.1[k]? = st.1[k]?) ∧
    (st1.2.1 = st.2.1 ∨ (st1.2.1 = st.2.1 ++ [i] ∧
      (i = st.1.length ∨ ∃ c, st1.1[i]? = some c ∧ (c.passedBy = false ∨ c.paired = 0)))) := by
  unfold ingestStep at h
  split at h
  · rename_i he
    split at h
    · cases h
      refine ⟨by simp, fun k hk => ?_, Or.inr ⟨rfl, Or.inl he⟩⟩
      simp only
      by_cases hlt : k < st.1.length
      · rw [List.getElem?_append_left hlt]
      · rw [List.getElem?_eq_none (by simp; omega), List.getElem?_eq_none (by omega)]
    · cases h
  · split at h
    · cases h
    · rename_i c hc
      have hlt : i < st.1.length := by
        by_contra hn
        rw [List.getElem?_eq_none (by omega)] at hc
        cases hc
      split at h
      · rename_i hp
        have hp2 : c.passedBy = false := by simpa using hp
        split at h
        · cases h
          exact ⟨by simp, fun k hk => by simp [List.getElem?_set_ne (Ne.symm hk)], Or.inl rfl⟩
        · simp only at h
          split at h
          · cases h
            exact ⟨by simp, fun k hk => by simp [List.getElem?_set_ne (Ne.symm hk)], Or.inl rfl⟩
          · cases h
            refine ⟨by simp, fun k hk => by simp [List.getElem?_set_ne (Ne.symm hk)],
              Or.inr ⟨rfl, Or.inr ⟨c.updateConePos nc.position, ?_, Or.inl hp2⟩⟩⟩
            simp [hlt]
      · split at h
        · rename_i hz
          cases h
          exact ⟨le_refl _, fun _ _ => rfl, Or.inr ⟨rfl, Or.inr ⟨c, hc, Or.inr hz⟩⟩⟩
        · cases h
          exact ⟨le_refl _, fun _ _ => rfl, Or.inl rfl⟩

theorem ingestLoop_staging {cfg : Config} {car : PathPoint} :
    ∀ (ncs : List Cone) (i : Nat) (st st2 : List Cone × List Nat × Bool),
      ingestLoop cfg car ncs i st = .ok st2 →
      st.1.length ≤ st2.1.length ∧ (∀ k, k < i → st2.1[k]? = st.1[k]?) ∧
      ∃ added, st2.2.1 = st.2.1 ++ added ∧ added.Nodup ∧
        ∀ k ∈ added, i ≤ k ∧ (st.1.length ≤ k ∨
          ∃ c, st2.1[k]? = some c ∧ (c.passedBy = false ∨ c.paired = 0)) := by
  intro ncs
  induction ncs with
  | nil =>
    intro i st st2 h
    simp only [ingestLoop, Except.ok.injEq] at h
    subst h
    exact ⟨le_refl _, fun _ _ => rfl, [], by simp, List.nodup_nil, fun k hk => by cases hk⟩
  | cons nc rest ih =>
    intro i st st2 h
    unfold ingestLoop at h
    split at h
    · cases h
    · rename_i st1 h1
      obtain ⟨a1, a2, a3⟩ := ingestStep_staging h1
      obtain ⟨b1, b2, added, b3, b4, b5⟩ := ih _ _ _ h
      refine ⟨le_trans a1 b1, fun k hk => by rw [b2 k (by omega), a2 k (by omega)], ?_⟩
      rcases a3 with a3 | ⟨a3, a4⟩
      · refine ⟨added, by rw [b3, a3], b4, fun k hk => ?_⟩
        obtain ⟨c1, c2⟩ := b5 k hk
        refine ⟨by omega, ?_⟩
        rcases c2 with c2 | c2
        · exact Or.inl (by omega)
        · exact Or.inr c2
      · refine ⟨i :: added, by rw [b3, a3]; simp, ?_, fun k hk => ?_⟩
        · refine List.nodup_cons.2 ⟨fun hin => ?_, b4⟩
          have := (b5 i hin).1
          omega
        · rcases List.mem_cons.1 hk with hk | hk
          · subst hk
            refine ⟨le_refl _, ?_⟩
            rcases a4 with a4 | ⟨c, hc, hu⟩
            · exact Or.inl (by omega)
            · exact Or.inr ⟨c, by rw [b2 k (by omega)]; exact hc, hu⟩
          · obtain ⟨c1, c2⟩ := b5 k hk
            refine ⟨by omega, ?_⟩
            rcases c2 with c2 | c2
            · exact Or.inl (by omega)
            · exact Or.inr c2

/-- What `updateStoredCones` stages when the staging vector was empty: each
handle once, and only handles of new cones and of cones that are, after the
ingest loop, not passed or have pairing counter 0. -/
theorem updateStoredCones_staging {cfg : Config} {s t : PathPlanner} {nc : List Cone}
    (hcl : s.future_cones = []) (h : updateStoredCones cfg s nc = .ok t) :
    t.future_cones.Nodup ∧ ∀ k ∈ t.future_cones, s.raw_cones.length ≤ k ∨
      ∃ c, t.raw_cones[k]? = some c ∧ (c.passedBy = false ∨ c.paired = 0) := by
  unfold updateStoredCones at h
  simp only at h
  split at h
  · cases h
  · rename_i raw future tc e
    obtain ⟨_, _, added, b3, b4, b5⟩ := ingestLoop_staging _ _ _ _ e
    simp only [hcl, List.nil_append] at b3
    simp only at b5
    split at h
    · cases h
    · split at h
      · cases h
      · cases h
        simp only
        rw [b3]
        exact ⟨b4, fun k hk => (b5 k hk).2⟩

theorem classifyLoop_sublist {raw : List Cone} : ∀ (fut : List Nat)
    (lu ru tm : List Nat) (ls rs nts : Bool) (lu2 ru2 tm2 : List Nat) (ls2 rs2 nts2 : Bool),
    classifyLoop raw fut (lu, ru, tm, ls, rs, nts) = .ok (lu2, ru2, tm2, ls2, rs2, nts2) →
    ∃ l r, lu2 = lu ++ l ∧ ru2 = ru ++ r ∧ l.Sublist fut ∧ r.Sublist fut := by
  intro fut
  induction fut with
  | nil =>
    intro lu ru tm ls rs nts lu2 ru2 tm2 ls2 rs2 nts2 e
    simp only [classifyLoop, Except.ok.injEq, Prod.mk.injEq] at e
    obtain ⟨e1, e2, _⟩ := e
    subst e1 e2
    exact ⟨[], [], by simp, by simp, List.Sublist.refl _, List.Sublist.refl _⟩
  | cons a rest ih =>
    intro lu ru tm ls rs nts lu2 ru2 tm2 ls2 rs2 nts2 e
    unfold classifyLoop at e
    split at e
    · cases e
    · split at e
      · obtain ⟨l, r, e1, e2, s1, s2⟩ := ih _ _ _ _ _ _ _ _ _ _ _ _ e
        exact ⟨a :: l, r, by rw [e1]; simp, e2, s1.cons₂ a, s2.cons a⟩
      · split at e
        · obtain ⟨l, r, e1, e2, s1, s2⟩ := ih _ _ _ _ _ _ _ _ _ _ _ _ e
          exact ⟨l, a :: r, e1, by rw [e2]; simp, s1.cons a, s2.cons₂ a⟩
        · obtain ⟨l, r, e1, e2, s1, s2⟩ := ih _ _ _ _ _ _ _ _ _ _ _ _ e
          exact ⟨l, r, e1, e2, s1.cons a, s2.cons a⟩

/-- After `addCones` on a planner with empty staging vectors the staged cones
of each side are staged once and are new or, after the ingest loop, not passed
or with pairing counter 0. -/
theorem addCones_staging {cfg : Config} {s t : PathPlanner} {nc : List Cone}
    (hcl : Cleared s) (h : addCones cfg s nc = .ok t) :
    ∃ u, updateStoredCones cfg s nc = .ok u ∧ t.left_cones = u.left_cones ∧
      t.right_cones = u.right_cones ∧ t.raw_cones = u.raw_cones ∧
      t.left_unsorted.Nodup ∧ t.right_unsorted.Nodup ∧
      ∀ k, k ∈ t.left_unsorted ∨ k ∈ t.right_unsorted → s.raw_cones.length ≤ k ∨
        ∃ c, u.raw_cones[k]? = some c ∧ (c.passedBy = false ∨ c.paired = 0) := by
  obtain ⟨hfut, hlu, hru⟩ := hcl
  unfold addCones at h
  split at h
  · cases h
  · rename_i s1 h1
    obtain ⟨n1, n2⟩ := updateStoredCones_staging hfut h1
    obtain ⟨_, _, f3, f4, _⟩ := updateStoredCones_fields h1
    refine ⟨s1, h1, ?_⟩
    split at h
    · split at h
      · cases h
      · rename_i lu ru tm ls rs nts hcl
        cases h
        obtain ⟨l, r, e1, e2, q1, q2⟩ := classifyLoop_sublist _ _ _ _ _ _ _ _ _ _ _ _ _ hcl
        rw [f3, hlu, List.nil_append] at e1
        rw [f4, hru, List.nil_append] at e2
        subst e1 e2
        refine ⟨rfl, rfl, rfl, q1.nodup n1, q2.nodup n1, fun k hk => ?_⟩
        rcases hk with hk | hk
        · exact n2 k (q1.subset hk)
        · exact n2 k (q2.subset hk)
    · cases h
      refine ⟨rfl, rfl, rfl, by rw [f3, hlu]; exact List.nodup_nil,
        by rw [f4, hru]; exact List.nodup_nil, fun k hk => ?_⟩
      rw [f3, f4, hlu, hru] at hk
      rcases hk with hk | hk <;> cases hk

theorem subperm_nodup {l1 l2 : List Nat} (h : l1.Subperm l2) (hn : l2.Nodup) : l1.Nodup := by
  obtain ⟨l, hp, hs⟩ := h
  exact hp.nodup_iff.1 (hs.nodup hn)

/-- What one call of `sortAndPushCone` does to the boundary sequences: the
sequence of its side grows by some of the staged cones of that side, each at
most as often as it is staged; the other side is untouched. -/
theorem sortAndPushCone_pushed {cfg : Config} {s t : PathPlanner} {side : Side}
    (inv : PairInv s) (h : sortAndPushCone cfg s side = .ok t) :
    ∃ e, settled t side = settled s side ++ e ∧ e.Subperm (staged s side) ∧
      settled t side.other = settled s side.other ∧
      staged t side.other = staged s side.other := by
  unfold PathPlanner.sortAndPushCone at h
  simp only at h
  cases side with
  | left =>
    simp only at h
    split at h
    · cases h
      exact ⟨[], by simp, List.nil_subperm, rfl, rfl⟩
    · rename_i h0 rest hcn
      split at h
      · cases h
      · rename_i c0 hc0
        have hcol : c0.colour = 'b' := by
          have := inv.leftU h0 (by rw [hcn]; exact List.mem_cons_self _ _)
          rw [deref_colourAt hc0] at this
          exact Option.some.inj this
        simp only [hcol, if_true] at h
        split at h
        · split at h
          · cases h
          · rename_i last hlast
            have hmem : last ∈ s.left_unsorted := back_mem hlast
            split at h
            · cases h
            · split at h
              · cases h
                exact ⟨[last], rfl, (List.singleton_sublist.2 hmem).subperm, rfl, rfl⟩
              · cases h
                exact ⟨[], by simp [settled], List.nil_subperm, rfl, rfl⟩
        · split at h
          · cases h
          · rename_i raw e1
            cases h
            exact ⟨_, rfl, (List.perm_insertionSort _ _).subperm, rfl, rfl⟩
  | right =>
    simp only at h
    split at h
    · cases h
      exact ⟨[], by simp, List.nil_subperm, rfl, rfl⟩
    · rename_i h0 rest hcn
      split at h
      · cases h
      · rename_i c0 hc0
        have hcol : c0.colour = 'y' := by
          have := inv.rightU h0 (by rw [hcn]; exact List.mem_cons_self _ _)
          rw [deref_colourAt hc0] at this
          exact Option.some.inj this
        have hnb : ¬ c0.colour = 'b' := by rw [hcol]; decide
        simp only [hnb, hcol, if_true, if_false] at h
        split at h
        · split at h
          · cases h
          · rename_i last hlast
            have hmem : last ∈ s.right_unsorted := back_mem hlast
            split at h
            · cases h
            · split at h
              · simp only [show ¬ ('y' : Char) = 'b' by decide, if_false] at h
                cases h
                exact ⟨[last], rfl, (List.singleton_sublist.2 hmem).subperm, rfl, rfl⟩
              · cases h
                exact ⟨[], by simp [settled], List.nil_subperm, rfl, rfl⟩
        · split at h
          · cases h
          · rename_i raw e1
            simp only [show ¬ ('y' : Char) = 'b' by decide, if_false] at h
            cases h
            exact ⟨_, rfl, (List.perm_insertionSort _ _).subperm, rfl, rfl⟩

theorem addCentrePoints_sides {cfg : Config} {s t : PathPlanner}
    (h : addCentrePoints cfg s = .ok t) :
    t.left_cones = s.left_cones ∧ t.right_cones = s.right_cones := by
  unfold PathPlanner.addCentrePoints at h
  repeat' (split at h)
  all_goals (first | (cases h; done) | (cases h; exact ⟨rfl, rfl⟩))

/-- What the sorting block of `update` does to the boundary sequences. -/
theorem sortStep_pushed {cfg : Config} {s t : PathPlanner} (inv : PairInv s)
    (h : sortStep cfg s = .ok t) :
    ∃ e1 e2, t.left_cones = s.left_cones ++ e1 ∧ e1.Subperm s.left_unsorted ∧
      t.right_cones = s.right_cones ++ e2 ∧ e2.Subperm s.right_unsorted := by
  unfold PathPlanner.sortStep at h
  split at h
  · simp only at h
    split at h
    · cases h
    · rename_i s1 h1
      have i1 : PairInv s1 ∧ s1.left_cones = s.left_cones ∧ s1.right_cones = s.right_cones ∧
          s1.left_unsorted = s.left_unsorted ∧ s1.right_unsorted = s.right_unsorted := by
        split at h1
        · split at h1
          · cases h1
          · rename_i t1 ht
            cases h1
            have it := inv.centralizeTimingCones ht
            obtain ⟨_, a1, a2, a3, a4⟩ := (centralizeTimingCones_returning cfg s).2 _ ht
            exact ⟨⟨it.left, it.right, it.leftU, it.rightU, it.timing,
              points_sortPathPoints it.points, it.bound.sortPathPoints, it.init⟩, a1, a2, a3, a4⟩
        · cases h1
          exact ⟨inv, rfl, rfl, rfl, rfl⟩
      obtain ⟨i1, a1, a2, a3, a4⟩ := i1
      split at h
      · split at h
        · cases h
        · rename_i s2 h2
          split at h
          · cases h
          · rename_i s3 h3
            obtain ⟨e1, b1, b2, b3, b4⟩ := sortAndPushCone_pushed i1 h2
            obtain ⟨e2, c1, c2, c3, _⟩ := sortAndPushCone_pushed (i1.sortAndPushCone h2) h3
            obtain ⟨d1, d2⟩ := addCentrePoints_sides h
            simp only [settled, staged, Side.other] at b1 b2 b3 b4 c1 c2 c3
            refine ⟨e1, e2, ?_, ?_, ?_, ?_⟩
            · rw [d1, c3, b1, a1]
            · rw [← a3]
              exact b2
            · rw [d2, c1, b3, a2]
            · rw [← a4, ← b4]
              exact c2
      · cases h
        exact ⟨[], [], by simp [a1], List.nil_subperm, by simp [a2], List.nil_subperm⟩
  · cases h
    exact ⟨[], [], by simp, List.nil_subperm, by simp, List.nil_subperm⟩

/-- What the building block of `update` does to the boundary sequences of a
planner with empty staging vectors: each sequence is trimmed by
`updateStoredCones` and then grows by handles that occur once each and belong
to new cones or to cones that are, after the ingest loop, not passed or have
pairing counter 0. -/
theorem buildStep_pushed {cfg : Config} {s t : PathPlanner} {nc : List Cone} (inv : PairInv s)
    (hcl : Cleared s) (hf : FreshCones nc) (hz : s.reached_end_zone = false)
    (h : buildStep cfg s nc = .ok t) :
    ∃ u e1 e2, updateStoredCones cfg s nc = .ok u ∧ t.left_cones = u.left_cones ++ e1 ∧
      t.right_cones = u.right_cones ++ e2 ∧ e1.Nodup ∧ e2.Nodup ∧
      ∀ k, k ∈ e1 ∨ k ∈ e2 → s.raw_cones.length ≤ k ∨
        ∃ c, u.raw_cones[k]? = some c ∧ (c.passedBy = false ∨ c.paired = 0) := by
  unfold PathPlanner.buildStep at h
  rw [if_pos (by simp [hz])] at h
  split at h
  · cases h
  · rename_i a1 ha1
    split at h
    · cases h
    · rename_i a2 ha2
      obtain ⟨u, hu, ul, ur, _, n1, n2, n3⟩ := addCones_staging hcl ha1
      obtain ⟨_, cl, cr, clu, cru, _⟩ := (updateCentrePoints_returning cfg a1).2 _ ha2
      obtain ⟨e1, e2, p1, p2, p3, p4⟩ :=
        sortStep_pushed ((inv.addCones hf ha1).updateCentrePoints ha2) h
      rw [clu] at p2
      rw [cru] at p4
      refine ⟨u, e1, e2, hu, by rw [p1, cl, ul], by rw [p3, cr, ur], subperm_nodup p2 n1,
        subperm_nodup p4 n2, fun k hk => n3 k ?_⟩
      rcases hk with hk | hk
      · exact Or.inl (p2.subset hk)
      · exact Or.inr (p4.subset hk)

theorem reset_cleared (s : PathPlanner) : Cleared (resetTempConeVectors s) := by
  unfold PathPlanner.resetTempConeVectors
  simp only
  split <;> exact ⟨rfl, rfl, rfl⟩

theorem construct_cleared {cfg : Config} {x y : ℚ} {cones : List Cone} {s0 : PathPlanner}
    (h : construct cfg x y cones = .ok s0) : Cleared s0 := by
  unfold PathPlanner.construct at h
  split at h
  · cases h
  · simp only at h
    split at h
    · cases h
    · split at h
      · cases h
      · cases h
        exact reset_cleared _

theorem update_cleared {cfg : Config} {s t : PathPlanner} {nc : List Cone} {x y : ℚ}
    {out o : Output} (hcl : Cleared s) (h : update cfg s nc x y out = .ok (t, o)) :
    Cleared t := by
  unfold PathPlanner.update at h
  split at h
  · split at h
    · cases h
    · rename_i s1 o1 h1
      cases h
      rw [(returnResult_effect h1).1]
      exact hcl
  · repeat' (split at h)
    all_goals (first | (cases h; done) | (cases h; exact reset_cleared _))

theorem run_cleared {cfg : Config} : ∀ (frames : List Frame) (s t : PathPlanner),
    Cleared s → run cfg s frames = .ok t → Cleared t := by
  intro frames
  induction frames with
  | nil =>
    intro s t hcl h
    simp only [SlowLap.run, Except.ok.injEq] at h
    rw [← h]
    exact hcl
  | cons f rest ih =>
    intro s t hcl h
    unfold SlowLap.run at h
    split at h
    · cases h
    · rename_i s1 o1 h1
      exact ih _ _ (update_cleared hcl h1) h

theorem sortConesByDist_pushed {cfg : Config} {s t : PathPlanner} {pos : PathPoint}
    (h : sortConesByDist cfg s pos = .ok t) :
    ∃ e1 e2, t.left_cones = s.left_cones ++ e1 ∧ e1.Subperm s.left_unsorted ∧
      t.right_cones = s.right_cones ++ e2 ∧ e2.Subperm s.right_unsorted := by
  unfold PathPlanner.sortConesByDist at h
  split at h
  · cases h
    exact ⟨[], [], by simp, List.nil_subperm, by simp, List.nil_subperm⟩
  · split at h
    · cases h
    · split at h
      · cases h
      · cases h
        refine ⟨_, _, rfl, ?_, rfl, ?_⟩
        · split
          · exact (List.perm_insertionSort _ _).subperm
          · exact List.Subperm.refl _
        · split
          · exact (List.perm_insertionSort _ _).subperm
          · exact List.Subperm.refl _

theorem addFirstCentrePoints_pushed {cfg : Config} {s t : PathPlanner}
    (h : addFirstCentrePoints cfg s = .ok t) :
    ∃ e1 e2, t.left_cones = s.left_cones ++ e1 ∧ e1.Subperm s.left_unsorted ∧
      t.right_cones = s.right_cones ++ e2 ∧ e2.Subperm s.right_unsorted := by
  unfold PathPlanner.addFirstCentrePoints at h
  split at h
  · cases h
  · rename_i s1 h1
    have z := sortConesByDist_pushed h1
    repeat' (split at h)
    all_goals (first | (cases h; done) | (cases h; exact z))

/-- The constructor leaves both boundary sequences without duplicates. -/
theorem construct_nodup {cfg : Config} {x y : ℚ} {cones : List Cone} {s0 : PathPlanner}
    (h : construct cfg x y cones = .ok s0) : s0.left_cones.Nodup ∧ s0.right_cones.Nodup := by
  unfold PathPlanner.construct at h
  split at h
  · cases h
  · rename_i s1 h1
    obtain ⟨u, hu, ul, ur, _, n1, n2, _⟩ :=
      addCones_staging (s := initial cfg x y) ⟨rfl, rfl, rfl⟩ h1
    obtain ⟨sl, sr, _⟩ := updateStoredCones_fields hu
    have el : s1.left_cones = [] := by
      rw [ul]
      exact List.eq_nil_iff_forall_not_mem.2 (fun k hk => by have := sl k hk; cases this)
    have er : s1.right_cones = [] := by
      rw [ur]
      exact List.eq_nil_iff_forall_not_mem.2 (fun k hk => by have := sr k hk; cases this)
    simp only at h
    split at h
    · cases h
    · rename_i s3 h3
      obtain ⟨e1, e2, p1, p2, p3, p4⟩ := addFirstCentrePoints_pushed h3
      simp only [el, er, List.nil_append] at p1 p2 p3 p4
      split at h
      · cases h
      · rename_i s4 h4
        cases h
        obtain ⟨_, c1, c2, _⟩ := (centralizeTimingCones_returning cfg s3).2 _ h4
        obtain ⟨_, _, r1, r2, _⟩ := reset_fields
          (if s4.timingCalc = true then
            { s4 with centre_points := sortPathPoints cfg s4.centre_points s4.init_pos } else s4)
        rw [r1, r2]
        have q1 : s4.left_cones.Nodup := by rw [c1, p1]; exact subperm_nodup p2 n1
        have q2 : s4.right_cones.Nodup := by rw [c2, p3]; exact subperm_nodup p4 n2
        split
        · exact ⟨q1, q2⟩
        · exact ⟨q1, q2⟩

theorem closureStep_staging {cfg : Config} {s t : PathPlanner} (h : closureStep cfg s = .ok t) :
    t.raw_cones = s.raw_cones ∧ t.future_cones = s.future_cones ∧
      t.left_unsorted = s.left_unsorted ∧ t.right_unsorted = s.right_unsorted := by
  unfold PathPlanner.closureStep at h
  repeat' (split at h)
  all_goals (first | (cases h; done) | (cases h; exact ⟨rfl, rfl, rfl, rfl⟩))

/-- A trimmed sequence whose entries are all stable takes staged cones without
a duplicate. -/
theorem nodup_pushed {raw : List Cone} {n : Nat} {b kept e : List Nat}
    (hn : b.Nodup) (hpre : ∃ removed, b = kept ++ removed)
    (hv : ∀ k ∈ b, k < n) (hst : ∀ k ∈ kept, Stable raw k) (he : e.Nodup)
    (hnew : ∀ k ∈ e, n ≤ k ∨ ∃ c, raw[k]? = some c ∧ (c.passedBy = false ∨ c.paired = 0)) :
    (kept ++ e).Nodup := by
  obtain ⟨removed, epre⟩ := hpre
  have hk : kept.Nodup := by
    rw [epre] at hn
    exact (List.nodup_append.1 hn).1
  refine List.nodup_append.2 ⟨hk, he, fun k h1 h2 => ?_⟩
  rcases hnew k h2 with h3 | ⟨c, hc, hu⟩
  · have := hv k (by rw [epre]; exact List.mem_append_left _ h1)
    omega
  · obtain ⟨c2, hc2, p1, p2⟩ := hst k h1
    rw [hc] at hc2
    cases hc2
    rcases hu with hu | hu
    · rw [hu] at p1
      cases p1
    · exact p2 hu

/-- C22, as stated, fails.  First part: the planner constructed at the origin
from one gate is shown three gates (1, 4 and 7 ahead) from the origin, and the
same three gates again from the pose (7, 0).  In the second tick the cones of
the middle gate (handles 2 and 3) are still not passed, so they are staged
again; the trimming stops at once at the cones of the third gate (handles 4 and
5), which have just been passed and are paired, so the middle cones stay in the
sequences, and `sortAndPushCone` appends them a second time.  Second part: the
same happens when the member `passedByAll` is initialised to true, if the
second tick also shows a new gate (so that `gotNewCones` is set). -/
theorem C22_no_duplicates_counterexample :
    (construct demoConfig 0 0 nearGate = .ok nearStart ∧
      run demoConfig nearStart [laneFrame] = .ok laneAfter ∧
      laneAfter.left_cones = [0, 2, 4] ∧ laneAfter.right_cones = [1, 3, 5] ∧
      ∃ t, run demoConfig nearStart [laneFrame, lastGateFrame] = .ok t ∧
        t.left_cones = [0, 2, 4, 2] ∧ t.right_cones = [1, 3, 5, 3] ∧
        t.left_cones.count 2 = 2 ∧ t.right_cones.count 3 = 2 ∧
        t.raw_cones.map (fun c => (c.passedBy, c.paired))
          = [(true, 1), (true, 1), (false, 1), (false, 1), (true, 1), (true, 1)]) ∧
    (construct passedAllConfig 0 0 nearGate = .ok passedAllStart ∧
      passedAllStart.passedByAll = true ∧
      ∃ t, run passedAllConfig passedAllStart [laneFrame, fourthGateFrame] = .ok t ∧
        t.left_cones = [0, 2, 4, 2, 6] ∧ t.right_cones = [1, 3, 5, 3, 7] ∧
        t.left_cones.count 2 = 2 ∧ t.right_cones.count 3 = 2) := by
  have k1 : construct demoConfig 0 0 nearGate = .ok nearStart ∧
      run demoConfig nearStart [laneFrame] = .ok laneAfter ∧
      laneAfter.left_cones = [0, 2, 4] ∧ laneAfter.right_cones = [1, 3, 5] := by decide!
  have k2 : construct passedAllConfig 0 0 nearGate = .ok passedAllStart ∧
      passedAllStart.passedByAll = true := by decide!
  exact ⟨⟨k1.1, k1.2.1, k1.2.2.1, k1.2.2.2,
      (run demoConfig nearStart [laneFrame, lastGateFrame]).toOption.getD nearStart,
      by decide!⟩,
    ⟨k2.1, k2.2,
      (run passedAllConfig passedAllStart [laneFrame, fourthGateFrame]).toOption.getD
        passedAllStart,
      by decide!⟩⟩

/-- C22, amended: the constructor leaves both boundary sequences without
duplicates, and a call of `update` on a planner reached from the constructor
(observations carry pairing counter 0) keeps a duplicate-free boundary sequence
duplicate-free provided that, after the ingest loop of that call, every entry
which the trimming of `updateStoredCones` leaves in the sequence is passed with
pairing counter not 0, that is, provided the entries that are not passed or
not paired form a trailing run of the sequence. -/
theorem C22_ordered_settling (cfg : Config) (x y : ℚ) (cones0 : List Cone)
    (frames : List Frame) (s0 s s1 s2 t : PathPlanner) (cones : List Cone) (car_x car_y : ℚ)
    (out o : Output)
    (hc : construct cfg x y cones0 = .ok s0) (hr : run cfg s0 frames = .ok s)
    (hf0 : FreshCones cones0) (hfs : ∀ f ∈ frames, FreshCones f.cones) (hf : FreshCones cones)
    (h : update cfg s cones car_x car_y out = .ok (t, o))
    (hcl : closureStep cfg { s with car_pos := PathPoint.ofXY car_x car_y } = .ok s1)
    (hi : updateStoredCones cfg s1 cones = .ok s2) :
    (s0.left_cones.Nodup ∧ s0.right_cones.Nodup) ∧
    (s.left_cones.Nodup → (∀ k ∈ s2.left_cones, Stable s2.raw_cones k) →
      t.left_cones.Nodup) ∧
    (s.right_cones.Nodup → (∀ k ∈ s2.right_cones, Stable s2.raw_cones k) →
      t.right_cones.Nodup) := by
  refine ⟨construct_nodup hc, ?_⟩
  have inv := PairInv.run frames s0 s (PairInv.construct hf0 hc) hfs hr
  have hclr := run_cleared frames s0 s (construct_cleared hc) hr
  unfold PathPlanner.update at h
  split at h
  · split at h
    · cases h
    · rename_i r1 o1 h1
      cases h
      rw [(returnResult_effect h1).1]
      exact ⟨fun hn _ => hn, fun hn _ => hn⟩
  · rw [hcl] at h
    simp only at h
    split at h
    · cases h
    · rename_i b hb
      split at h
      · cases h
      · rename_i s3 o3 h3
        cases h
        obtain ⟨_, _, rl, rr, _⟩ := reset_fields s3
        rw [rl, rr, (returnResult_effect h3).1]
        simp only
        have i0 : PairInv { s with car_pos := PathPoint.ofXY car_x car_y } :=
          ⟨inv.left, inv.right, inv.leftU, inv.rightU, inv.timing, inv.points, inv.bound,
            inv.init⟩
        have i1 := i0.closureStep hcl
        obtain ⟨sl, sr, _⟩ := closureStep_sides hcl
        simp only at sl sr
        by_cases hz : s1.reached_end_zone = false
        · obtain ⟨g1, g2, g3, g4⟩ := closureStep_staging hcl
          have c1 : Cleared s1 := by
            refine ⟨by rw [g2]; exact hclr.1, by rw [g3]; exact hclr.2.1,
              by rw [g4]; exact hclr.2.2⟩
          obtain ⟨u, e1, e2, hu, pl, pr, n1, n2, n3⟩ := buildStep_pushed i1 c1 hf hz hb
          rw [hi] at hu
          cases hu
          obtain ⟨tl, tr⟩ := updateStoredCones_trim hi
          obtain ⟨rl2, l1, _⟩ := trimCones_run tl
          obtain ⟨rr2, r1, _⟩ := trimCones_run tr
          constructor
          · intro hn hst
            rw [pl]
            exact nodup_pushed (b := s1.left_cones) (by rw [sl]; exact hn) ⟨rl2, l1⟩
              (fun k hk => colourAt_some_lt (i1.left k hk)) hst n1
              (fun k hk => n3 k (Or.inl hk))
          · intro hn hst
            rw [pr]
            exact nodup_pushed (b := s1.right_cones) (by rw [sr]; exact hn) ⟨rr2, r1⟩
              (fun k hk => colourAt_some_lt (i1.right k hk)) hst n2
              (fun k hk => n3 k (Or.inr hk))
        · have eb : b = s1 := by
            unfold PathPlanner.buildStep at hb
            rw [if_neg (by simpa using hz)] at hb
            cases hb
            rfl
          rw [eb, sl, sr]
          exact ⟨fun hn _ => hn, fun hn _ => hn⟩

/-- A handle is stable when the flag list of the store says so. -/
theorem stable_of_flags {raw : List Cone} {l : List Bool} {k : Nat}
    (hm : raw.map (fun c => decide (c.passedBy = true ∧ c.paired ≠ 0)) = l)
    (hk : l[k]? = some true) : Stable raw k := by
  rw [← hm, List.getElem?_map] at hk
  cases hr : raw[k]? with
  | none =>
    rw [hr] at hk
    cases hk
  | some c =>
    rw [hr] at hk
    simp only [Option.map_some', Option.some.injEq, decide_eq_true_eq] at hk
    exact ⟨c, hr, hk.1, hk.2⟩

theorem C22_ordered_settling_witness :
    construct demoConfig 0 0 nearGate = .ok nearStart ∧
    nearStart.left_cones = [0] ∧ nearStart.right_cones = [1] ∧
    ∃ s2, updateStoredCones demoConfig nearStart laneCones = .ok s2 ∧
      s2.left_cones = [0] ∧ s2.right_cones = [1] ∧
      s2.raw_cones.map (fun c => (c.passedBy, c.paired))
        = [(true, 1), (true, 1), (false, 0), (false, 0), (false, 0), (false, 0)] ∧
      ∃ t o, update demoConfig nearStart laneCones 0 0 Output.empty = .ok (t, o) ∧
        t.left_cones = [0, 2, 4] ∧ t.right_cones = [1, 3, 5] ∧
        t.left_cones.Nodup ∧ t.right_cones.Nodup := by
  have hc : construct demoConfig 0 0 nearGate = .ok nearStart := by decide!
  have hr : run demoConfig nearStart [] = .ok nearStart := rfl
  have hf0 : FreshCones nearGate := by
    intro c hc
    simp only [nearGate, List.mem_cons, List.mem_singleton, List.not_mem_nil, or_false] at hc
    rcases hc with hc | hc <;> rw [hc] <;> rfl
  have hfs : ∀ f ∈ ([] : List Frame), FreshCones f.cones := fun f hf => by cases hf
  have hcl : closureStep demoConfig { nearStart with car_pos := PathPoint.ofXY 0 0 }
      = .ok nearStart := by decide!
  have hi : updateStoredCones demoConfig nearStart laneCones
      = .ok ((updateStoredCones demoConfig nearStart laneCones).toOption.getD nearStart) := by
    decide!
  have h : update demoConfig nearStart laneCones 0 0 Output.empty
      = .ok (((update demoConfig nearStart laneCones 0 0 Output.empty).toOption.getD
          (nearStart, Output.empty)).1,
        ((update demoConfig nearStart laneCones 0 0 Output.empty).toOption.getD
          (nearStart, Output.empty)).2) := by
    decide!
  have hl : ((updateStoredCones demoConfig nearStart laneCones).toOption.getD
      nearStart).left_cones = [0] := by decide!
  have hrr : ((updateStoredCones demoConfig nearStart laneCones).toOption.getD
      nearStart).right_cones = [1] := by decide!
  have key := C22_ordered_settling demoConfig 0 0 nearGate [] nearStart nearStart nearStart _ _
    laneCones 0 0 Output.empty _ hc hr hf0 hfs laneCones_fresh h hcl hi
  have stl : ∀ k ∈ ((updateStoredCones demoConfig nearStart laneCones).toOption.getD
      nearStart).left_cones, Stable ((updateStoredCones demoConfig nearStart
        laneCones).toOption.getD nearStart).raw_cones k := by
    intro k hk
    rw [hl, List.mem_singleton] at hk
    subst hk
    exact stable_of_flags (l := [true, true, false, false, false, false]) (by decide!)
      (by decide)
  have str : ∀ k ∈ ((updateStoredCones demoConfig nearStart laneCones).toOption.getD
      nearStart).right_cones, Stable ((updateStoredCones demoConfig nearStart
        laneCones).toOption.getD nearStart).raw_cones k := by
    intro k hk
    rw [hrr, List.mem_singleton] at hk
    subst hk
    exact stable_of_flags (l := [true, true, false, false, false, false]) (by decide!)
      (by decide)
  exact ⟨hc, by decide!, by decide!, _, hi, hl, hrr, by decide!, _, _, h, by decide!,
    by decide!, key.2.1 (by decide!) stl, key.2.2 (by decide!) str⟩

theorem mem_sortPathPoints_same {cfg : Config} {cps : List PathPoint} {ref q : PathPoint}
    (hq : q ∈ sortPathPoints cfg cps ref) :
    ∃ p ∈ cps, q.x = p.x ∧ q.y = p.y ∧ q.cone1 = p.cone1 ∧ q.cone2 = p.cone2 := by
  have hperm : (sortPathPoints cfg cps ref).Perm
      (cps.map (fun p => { p with dist := calcDist cfg p ref })) := List.perm_insertionSort _ _
  obtain ⟨p, hp, e⟩ := List.mem_map.1 (hperm.mem_iff.1 hq)
  exact ⟨p, hp, by rw [← e], by rw [← e], by rw [← e], by rw [← e]⟩

/-- What a returning call of `addCentrePoints` appends to the centre-line: each
appended point has the position and back-references of an accepted candidate,
which comes from a pair of cones inside the track-width gate, or of one of the
two latest centre-line points. -/
theorem addCentrePoints_appended {cfg : Config} {s t : PathPlanner}
    (h : addCentrePoints cfg s = .ok t) (hl : s.left_cones ≠ []) (hr : s.right_cones ≠ []) :
    ∃ ext b2 b1, t.centre_points = s.centre_points ++ ext ∧
      back2 s.centre_points = .ok b2 ∧ back s.centre_points = .ok b1 ∧
      ∀ p ∈ ext, (∃ q, InWidth cfg s.raw_cones q ∧ p.cone1 = q.cone1 ∧ p.cone2 = q.cone2) ∨
        (p.x = b2.x ∧ p.y = b2.y ∧ p.cone1 = b2.cone1 ∧ p.cone2 = b2.cone2) ∨
        (p.x = b1.x ∧ p.y = b1.y ∧ p.cone1 = b1.cone1 ∧ p.cone2 = b1.cone2) := by
  obtain ⟨b2, b1, acc1, acc2, hb2, hb1, e1, _, e2, _, ecp⟩ := addCentrePoints_shape h hl hr
  have hw := addCentrePoints_in_width h hl hr
  refine ⟨_, b2, b1, ecp, hb2, hb1, fun p hp => ?_⟩
  obtain ⟨q, hq, qx, qy, q1, q2⟩ := mem_sortPathPoints_same (List.mem_of_mem_drop hp)
  have hcase : q ∈ [b2, b1] ∨ q ∈ t.cenPoints_temp1.drop 2 ++ t.cenPoints_temp2.drop 2 := by
    rcases mem_mergeTemp hq with hq | hq
    · rw [e1] at hq ⊢
      rcases List.mem_append.1 hq with hq | hq
      · exact Or.inl hq
      · exact Or.inr (List.mem_append_left _ (by simpa using hq))
    · rw [e2] at hq ⊢
      rcases List.mem_append.1 hq with hq | hq
      · exact Or.inl hq
      · exact Or.inr (List.mem_append_right _ (by simpa using hq))
  rcases hcase with hq | hq
  · simp only [List.mem_cons, List.mem_singleton, List.not_mem_nil, or_false] at hq
    rcases hq with hq | hq
    · subst hq
      exact Or.inr (Or.inl ⟨qx, qy, q1, q2⟩)
    · subst hq
      exact Or.inr (Or.inr ⟨qx, qy, q1, q2⟩)
  · exact Or.inl ⟨q, hw q hq, q1, q2⟩

/-- C11, amended: for a pair of stored markers more than 1.5 or less than 0.5
track widths apart, generateCentrePoint returns not feasible whatever the
preceding points are and appends exactly one record with both back-references to
the rejected buffer; the side walk of addCentrePoints that meets the pair goes on
with its list of accepted points unchanged; no candidate accepted by a call of
addCentrePoints is built from the pair, and a point with the back-references of
the pair is among the points that the call appends to the centre-line only as a
copy of one of the two latest centre-line points. -/
theorem C11_track_width_gate (cfg : Config) (raw : List Cone) (a b : Nat) (c1 c2 : Cone)
    (h1 : deref raw a = .ok c1) (h2 : deref raw b = .ok c2) (hd : OffWidth cfg c1 c2) :
    (∀ temp rej : List PathPoint, ∃ p : PathPoint,
      generateCentrePoint cfg raw a b temp rej = .ok (p, false, rej ++ [p]) ∧
      p.cone1 = some a ∧ p.cone2 = some b ∧
      p.x = (c1.position.x + c2.position.x) / 2 ∧ p.y = (c1.position.y + c2.position.y) / 2) ∧
    (∀ (opp rest : List Nat) (c : Nat) (temp rej : List PathPoint), c ≠ 2 →
      (c1.passedBy = false ∨ c1.paired < 3) → findOppositeClosest cfg raw c1 opp = .ok b →
      walkLoop cfg raw opp (a :: rest) c temp rej
        = walkLoop cfg raw opp rest c temp (rej ++ [rejectedRecord c1 c2 a b])) ∧
    (∀ s t : PathPlanner, s.raw_cones = raw → s.left_cones ≠ [] → s.right_cones ≠ [] →
      addCentrePoints cfg s = .ok t →
      (∀ p ∈ t.cenPoints_temp1.drop 2 ++ t.cenPoints_temp2.drop 2,
        ¬ (p.cone1 = some a ∧ p.cone2 = some b)) ∧
      ∃ ext b2 b1, t.centre_points = s.centre_points ++ ext ∧
        back2 s.centre_points = .ok b2 ∧ back s.centre_points = .ok b1 ∧
        ∀ p ∈ ext, p.cone1 = some a → p.cone2 = some b →
          (p.x = b2.x ∧ p.y = b2.y ∧ p.cone1 = b2.cone1 ∧ p.cone2 = b2.cone2) ∨
          (p.x = b1.x ∧ p.y = b1.y ∧ p.cone1 = b1.cone1 ∧ p.cone2 = b1.cone2)) := by
  have hno : ∀ q : PathPoint, InWidth cfg raw q → ¬ (q.cone1 = some a ∧ q.cone2 = some b) := by
    intro q hq hab
    obtain ⟨a2, b2, ca, cb, e1, e2, d1, d2, hin, _⟩ := hq
    rw [hab.1] at e1
    rw [hab.2] at e2
    cases e1
    cases e2
    rw [h1] at d1
    rw [h2] at d2
    cases d1
    cases d2
    exact hin hd
  refine ⟨fun temp rej => ⟨rejectedRecord c1 c2 a b, generateCentrePoint_off h1 h2 hd temp rej,
    rfl, rfl, rfl, rfl⟩, ?_, ?_⟩
  rotate_left
  · intro s t hraw hl hr ht
    constructor
    · intro p hp
      exact hno p (by rw [← hraw]; exact addCentrePoints_in_width ht hl hr p hp)
    · obtain ⟨ext, b2, b1, ecp, hb2, hb1, hext⟩ := addCentrePoints_appended ht hl hr
      refine ⟨ext, b2, b1, ecp, hb2, hb1, fun p hp pa pb => ?_⟩
      rcases hext p hp with ⟨q, hq, q1, q2⟩ | hcopy
      · rw [hraw] at hq
        exact absurd ⟨by rw [← q1]; exact pa, by rw [← q2]; exact pb⟩ (hno q hq)
      · exact hcopy
  intro opp rest c temp rej hc hel hopp
  rw [walkLoop, if_neg hc, h1]
  simp only
  have hcond : (!c1.passedBy || decide (c1.paired < 3)) = true := by
    rcases hel with h | h
    · simp [h]
    · simp [h]
  rw [if_pos hcond, hopp]
  simp only
  rw [generateCentrePoint_off h1 h2 hd temp rej]
  simp

theorem C11_track_width_gate_witness :
    deref wideGate 0 = .ok (newCone 0 (9 / 2) 'b') ∧
    deref wideGate 1 = .ok (newCone 0 (-(9 / 2)) 'y') ∧
    OffWidth demoConfig (newCone 0 (9 / 2) 'b') (newCone 0 (-(9 / 2)) 'y') ∧
    (∃ p : PathPoint, generateCentrePoint demoConfig wideGate 0 1 [] [] = .ok (p, false, [] ++ [p])) ∧
    walkLoop demoConfig wideGate [1] [0] 0 [PathPoint.ofXY 0 0, PathPoint.ofXY 3 0] []
      = .ok ([PathPoint.ofXY 0 0, PathPoint.ofXY 3 0],
          [rejectedRecord (newCone 0 (9 / 2) 'b') (newCone 0 (-(9 / 2)) 'y') 0 1]) := by
  have h1 : deref wideGate 0 = .ok (newCone 0 (9 / 2) 'b') := rfl
  have h2 : deref wideGate 1 = .ok (newCone 0 (-(9 / 2)) 'y') := rfl
  have hd : OffWidth demoConfig (newCone 0 (9 / 2) 'b') (newCone 0 (-(9 / 2)) 'y') := by
    unfold OffWidth
    decide!
  have hthm := C11_track_width_gate demoConfig wideGate 0 1 _ _ h1 h2 hd
  refine ⟨h1, h2, hd, ?_, ?_⟩
  · obtain ⟨p, hp, _⟩ := hthm.1 [] []
    exact ⟨p, hp⟩
  · rw [hthm.2.1 [1] [] 0 _ [] (by decide) (Or.inl rfl) (by decide!)]
    rfl

theorem cone_scratch_fields {c d : Cone} (h : c.withoutScratch = d.withoutScratch) :
    c.position = d.position ∧ c.colour = d.colour ∧ c.passedBy = d.passedBy ∧
      c.paired = d.paired := by
  cases c
  cases d
  simp only [Cone.withoutScratch, Cone.mk.injEq] at h
  simp [h.1, h.2.1, h.2.2.1, h.2.2.2.1]

theorem sameCones_refl (raw : List Cone) : SameCones raw raw := rfl

theorem sameCones_symm {a b : List Cone} (h : SameCones a b) : SameCones b a := Eq.symm h

theorem sameCones_trans {a b c : List Cone} (h1 : SameCones a b) (h2 : SameCones b c) :
    SameCones a c := Eq.trans h1 h2

theorem sameCones_length {a b : List Cone} (h : SameCones a b) : a.length = b.length := by
  have := congrArg List.length h
  simpa using this

theorem sameCones_geom {a b : List Cone} (h : SameCones a b) : SameGeom a b := by
  unfold SameGeom
  have e := congrArg (List.map (fun c : Cone => (c.position, c.passedBy))) h
  simp only [List.map_map] at e
  exact e.symm

theorem sameCones_deref {a b : List Cone} (hs : SameCones a b) (h : Nat) :
    (deref a h = .error .badHandle ∧ deref b h = .error .badHandle) ∨
    ∃ c d, deref a h = .ok c ∧ deref b h = .ok d ∧ c.position = d.position ∧
      c.colour = d.colour ∧ c.passedBy = d.passedBy ∧ c.paired = d.paired := by
  have hk : (a[h]?).map Cone.withoutScratch = (b[h]?).map Cone.withoutScratch := by
    rw [← List.getElem?_map, ← List.getElem?_map, hs]
  unfold SlowLap.deref
  cases h1 : a[h]? with
  | none =>
    cases h2 : b[h]? with
    | none => exact Or.inl ⟨rfl, rfl⟩
    | some c0 => rw [h1, h2] at hk; cases hk
  | some c =>
    cases h2 : b[h]? with
    | none => rw [h1, h2] at hk; cases hk
    | some c0 =>
      rw [h1, h2] at hk
      simp only [Option.map_some', Option.some.injEq] at hk
      exact Or.inr ⟨c, c0, rfl, rfl, cone_scratch_fields hk⟩

theorem modifyCone_same {a b a1 : List Cone} {k : Nat} {g g2 : Cone → Cone}
    (hs : SameCones a b)
    (hg : ∀ c d : Cone, c.withoutScratch = d.withoutScratch →
      (g c).withoutScratch = (g2 d).withoutScratch)
    (e : modifyCone a k g = .ok a1) :
    ∃ b1, modifyCone b k g2 = .ok b1 ∧ SameCones a1 b1 := by
  have hk : (a[k]?).map Cone.withoutScratch = (b[k]?).map Cone.withoutScratch := by
    rw [← List.getElem?_map, ← List.getElem?_map, hs]
  unfold modifyCone at e ⊢
  split at e
  · rename_i c hc
    cases e
    cases h2 : b[k]? with
    | none => rw [hc, h2] at hk; cases hk
    | some d =>
      rw [hc, h2] at hk
      simp only [Option.map_some', Option.some.injEq] at hk
      refine ⟨_, rfl, ?_⟩
      unfold SameCones at hs ⊢
      rw [List.map_set, List.map_set, hs, hg c d hk]
  · cases e

theorem modifyPtr_same {a b a1 : List Cone} {p : Option Nat} {g g2 : Cone → Cone}
    (hs : SameCones a b)
    (hg : ∀ c d : Cone, c.withoutScratch = d.withoutScratch →
      (g c).withoutScratch = (g2 d).withoutScratch)
    (e : modifyPtr a p g = .ok a1) :
    ∃ b1, modifyPtr b p g2 = .ok b1 ∧ SameCones a1 b1 := by
  unfold modifyPtr at e ⊢
  cases p with
  | none => cases e
  | some k => exact modifyCone_same hs hg e

theorem pairAndMap_same (c d : Cone) (h : c.withoutScratch = d.withoutScratch) :
    (pairAndMap c).withoutScratch = (pairAndMap d).withoutScratch := by
  cases c
  cases d
  simp only [Cone.withoutScratch, Cone.mk.injEq, pairAndMap] at h ⊢
  simp [h.1, h.2.1, h.2.2.1, h.2.2.2.1]

theorem pairUp_same (c d : Cone) (h : c.withoutScratch = d.withoutScratch) :
    ({ c with paired := c.paired + 1 } : Cone).withoutScratch
      = ({ d with paired := d.paired + 1 } : Cone).withoutScratch := by
  cases c
  cases d
  simp only [Cone.withoutScratch, Cone.mk.injEq] at h ⊢
  simp [h.1, h.2.1, h.2.2.1, h.2.2.2.1]

theorem setCost_same (v w : ℚ) (c d : Cone) (h : c.withoutScratch = d.withoutScratch) :
    ({ c with cost := v } : Cone).withoutScratch = ({ d with cost := w } : Cone).withoutScratch := by
  cases c
  cases d
  simp only [Cone.withoutScratch, Cone.mk.injEq] at h ⊢
  simp [h.1, h.2.1, h.2.2.1, h.2.2.2.1]

theorem pairAll_same : ∀ (hs : List Nat) (a b a1 : List Cone), SameCones a b →
    pairAll a hs = .ok a1 → ∃ b1, pairAll b hs = .ok b1 ∧ SameCones a1 b1 := by
  intro hs
  induction hs with
  | nil =>
    intro a b a1 h e
    simp only [pairAll, Except.ok.injEq] at e
    subst e
    exact ⟨b, rfl, h⟩
  | cons k rest ih =>
    intro a b a1 h e
    unfold pairAll at e ⊢
    split at e
    · cases e
    · rename_i a2 em
      obtain ⟨b2, eb, hb⟩ := modifyCone_same h pairUp_same em
      rw [eb]
      exact ih _ _ _ hb e

theorem appendLoop_same : ∀ (l : List PathPoint) (a b a1 : List Cone) (cps cps1 cq : List PathPoint),
    SameCones a b → appendLoop l a cps = .ok (a1, cps1) →
    cps1 = cps ++ l ∧ ∃ b1, appendLoop l b cq = .ok (b1, cq ++ l) ∧ SameCones a1 b1 := by
  intro l
  induction l with
  | nil =>
    intro a b a1 cps cps1 cq h e
    simp only [appendLoop, Except.ok.injEq, Prod.mk.injEq] at e
    obtain ⟨e1, e2⟩ := e
    subst e1
    subst e2
    exact ⟨by simp, b, by simp [appendLoop], h⟩
  | cons p rest ih =>
    intro a b a1 cps cps1 cq h e
    unfold appendLoop at e ⊢
    split at e
    · cases e
    · rename_i a2 em
      obtain ⟨b2, eb, hb⟩ := modifyPtr_same h pairAndMap_same em
      split at e
      · cases e
      · rename_i a3 em3
        obtain ⟨b3, eb3, hb3⟩ := modifyPtr_same hb pairAndMap_same em3
        obtain ⟨e1, b1, e2, e3⟩ := ih _ _ _ _ _ (cq ++ [p]) hb3 e
        refine ⟨by rw [e1]; simp, b1, ?_, e3⟩
        rw [eb]
        simp only [eb3]
        rw [e2]
        simp

theorem closestLoop_same {cfg : Config} {a b : List Cone} (hs : SameCones a b)
    {cone cone2 : Cone} (hp : cone.position = cone2.position) :
    ∀ (l : List Nat) (m : ℚ) (cl k : Nat),
      closestLoop cfg b cone2 l m cl k = closestLoop cfg a cone l m cl k := by
  intro l
  induction l with
  | nil => intro m cl k; rfl
  | cons h rest ih =>
    intro m cl k
    unfold closestLoop
    rcases sameCones_deref hs h with ⟨e1, e2⟩ | ⟨c, d, e1, e2, hq, _⟩
    · rw [e1, e2]
    · rw [e1, e2]
      simp only [hp, hq, ih]

theorem findOppositeClosest_same {cfg : Config} {a b : List Cone} (hs : SameCones a b)
    {cone cone2 : Cone} (hp : cone.position = cone2.position) (cones : List Nat) :
    findOppositeClosest cfg b cone2 cones = findOppositeClosest cfg a cone cones := by
  unfold findOppositeClosest
  cases back cones with
  | error e => rfl
  | ok last => exact closestLoop_same hs hp _ _ _ _

theorem computeCost2a_same {cfg : Config} {a b : List Cone} (hs : SameCones a b)
    (cn1 : Nat) (o1 o2 : List Nat) :
    computeCost2a cfg b cn1 o1 o2 = computeCost2a cfg a cn1 o1 o2 := by
  unfold computeCost2a
  rcases sameCones_deref hs cn1 with ⟨e1, e2⟩ | ⟨c, d, e1, e2, hq, _⟩
  · rw [e1, e2]
  · rw [e1, e2]
    simp only
    rw [findOppositeClosest_same hs hq o1]
    cases findOppositeClosest cfg a c o1 with
    | error e => rfl
    | ok oc =>
      simp only
      rcases sameCones_deref hs oc with ⟨f1, f2⟩ | ⟨c1, d1, f1, f2, hq1, _⟩
      · rw [f1, f2]
      · rw [f1, f2]
        simp only
        split
        · rw [findOppositeClosest_same hs hq o2]
          cases findOppositeClosest cfg a c o2 with
          | error e => rfl
          | ok oc2 =>
            simp only
            rcases sameCones_deref hs oc2 with ⟨g1, g2⟩ | ⟨c2, d2, g1, g2, hq2, _⟩
            · rw [g1, g2]
            · rw [g1, g2]
              simp only [hq, hq1, hq2]
        · simp only [hq, hq1]

theorem sumPositions_same {a b : List Cone} (hs : SameCones a b) :
    ∀ (l : List Nat) (acc : PathPoint), sumPositions b l acc = sumPositions a l acc := by
  intro l
  induction l with
  | nil => intro acc; rfl
  | cons h rest ih =>
    intro acc
    unfold sumPositions
    rcases sameCones_deref hs h with ⟨e1, e2⟩ | ⟨c, d, e1, e2, hq, _⟩
    · rw [e1, e2]
    · rw [e1, e2]
      simp only [hq, ih]

theorem costLoop_same {cfg : Config} {thisSide oppSide : List Nat} :
    ∀ (l : List Nat) (a b a1 : List Cone), SameCones a b →
      costLoop cfg thisSide oppSide l a = .ok a1 →
      ∃ b1, costLoop cfg thisSide oppSide l b = .ok b1 ∧ SameCones a1 b1 := by
  intro l
  induction l with
  | nil =>
    intro a b a1 h e
    simp only [costLoop, Except.ok.injEq] at e
    subst e
    exact ⟨b, rfl, h⟩
  | cons k rest ih =>
    intro a b a1 h e
    unfold costLoop at e ⊢
    split at e
    · cases e
    · rename_i last hlast
      rw [← computeCost1_geom (sameCones_geom (sameCones_symm h)), ← computeCost2b_geom (sameCones_geom (sameCones_symm h)),
        ← computeCost3_geom (sameCones_geom (sameCones_symm h))]
      split at e
      · rename_i cost1 cost2 cost3 e1 e2 e3
        split at e
        · cases e
        · rename_i a2 em
          obtain ⟨b2, eb, hb⟩ := modifyCone_same h
            (setCost_same _ (cost1 * cost1 + 2 * cost2 * cost2 + (3 / 2) * cost3 * cost3)) em
          simp only [eb]
          exact ih _ _ _ hb e
      · cases e
      · cases e
      · cases e

theorem orderedInsert_key (key key2 : Nat → ℚ) (x : Nat) (hx : key x = key2 x) :
    ∀ l : List Nat, (∀ y ∈ l, key y = key2 y) →
      List.orderedInsert (fun a b => key a ≤ key b) x l
        = List.orderedInsert (fun a b => key2 a ≤ key2 b) x l := by
  intro l
  induction l with
  | nil => intro _; rfl
  | cons y rest ih =>
    intro h
    simp only [List.orderedInsert]
    have hy := h y (List.mem_cons_self _ _)
    rw [ih (fun z hz => h z (List.mem_cons_of_mem _ hz))]
    by_cases c : key x ≤ key y
    · rw [if_pos c, if_pos (by rw [← hx, ← hy]; exact c)]
    · rw [if_neg c, if_neg (by rw [← hx, ← hy]; exact c)]

theorem sortConesByKey_same (key key2 : Nat → ℚ) :
    ∀ v : List Nat, (∀ y ∈ v, key y = key2 y) → sortConesByKey key v = sortConesByKey key2 v := by
  intro v
  unfold sortConesByKey
  induction v with
  | nil => intro _; rfl
  | cons x rest ih =>
    intro h
    simp only [List.insertionSort]
    rw [ih (fun z hz => h z (List.mem_cons_of_mem _ hz))]
    apply orderedInsert_key _ _ _ (h x (List.mem_cons_self _ _))
    intro y hy
    exact h y (List.mem_cons_of_mem _ ((List.perm_insertionSort _ _).mem_iff.1 hy))

theorem point_scratch_fields {p q : PathPoint}
    (h : p.withoutScratch = q.withoutScratch) :
    p.x = q.x ∧ p.y = q.y ∧ p.angle = q.angle ∧ p.cone1 = q.cone1 ∧ p.cone2 = q.cone2 ∧
      p.accepted = q.accepted := by
  cases p
  cases q
  simp only [PathPoint.withoutScratch, PathPoint.mk.injEq] at h
  simp [h.1, h.2.1, h.2.2.2.1, h.2.2.2.2.1, h.2.2.2.2.2.1, h.2.2.2.2.2.2]

theorem samePoints_refl (l : List PathPoint) : SamePoints l l := rfl

theorem samePoints_length {l m : List PathPoint} (h : SamePoints l m) : l.length = m.length := by
  have := congrArg List.length h
  simpa using this

theorem samePoints_getElem {l m : List PathPoint} (h : SamePoints l m) (i : Nat) :
    (l[i]?).map PathPoint.withoutScratch = (m[i]?).map PathPoint.withoutScratch := by
  rw [← List.getElem?_map, ← List.getElem?_map, h]

theorem samePoints_append {l m l2 m2 : List PathPoint} (h : SamePoints l m)
    (h2 : SamePoints l2 m2) : SamePoints (l ++ l2) (m ++ m2) := by
  unfold SamePoints at *
  rw [List.map_append, List.map_append, h, h2]

theorem samePoints_pointRefs {l m : List PathPoint} (h : SamePoints l m) :
    pointRefs l = pointRefs m := by
  have e := congrArg SlowLap.pointRefs (show l.map PathPoint.withoutScratch
    = m.map PathPoint.withoutScratch from h)
  unfold SlowLap.pointRefs at e ⊢
  simp only [List.map_map] at e
  exact e

theorem samePoints_at {l m : List PathPoint} (h : SamePoints l m) {i : Nat} {p : PathPoint}
    (hp : l[i]? = some p) :
    ∃ q, m[i]? = some q ∧ p.withoutScratch = q.withoutScratch := by
  have e := samePoints_getElem h i
  rw [hp] at e
  cases hq : m[i]? with
  | none => rw [hq] at e; cases e
  | some q =>
    rw [hq] at e
    simp only [Option.map_some', Option.some.injEq] at e
    exact ⟨q, rfl, e⟩

theorem back_same {l m : List PathPoint} (h : SamePoints l m) {p : PathPoint}
    (hp : back l = .ok p) : ∃ q, back m = .ok q ∧ p.withoutScratch = q.withoutScratch := by
  unfold back at hp ⊢
  rw [List.getLast?_eq_getElem?] at hp ⊢
  split at hp
  · cases hp
  · rename_i a ha
    cases hp
    obtain ⟨q, hq, e⟩ := samePoints_at h ha
    rw [← samePoints_length h, hq]
    exact ⟨q, rfl, e⟩

theorem back2_same {l m : List PathPoint} (h : SamePoints l m) {p : PathPoint}
    (hp : back2 l = .ok p) : ∃ q, back2 m = .ok q ∧ p.withoutScratch = q.withoutScratch := by
  unfold back2 at hp ⊢
  rw [← samePoints_length h]
  split at hp
  · rename_i hl
    rw [if_pos hl]
    split at hp
    · rename_i a ha
      cases hp
      obtain ⟨q, hq, e⟩ := samePoints_at h ha
      rw [hq]
      exact ⟨q, rfl, e⟩
    · cases hp
  · cases hp

theorem front_same {l m : List PathPoint} (h : SamePoints l m) {p : PathPoint}
    (hp : front l = .ok p) : ∃ q, front m = .ok q ∧ p.withoutScratch = q.withoutScratch := by
  cases l with
  | nil => cases hp
  | cons a rest =>
    cases m with
    | nil => cases h
    | cons b rest2 =>
      simp only [front, Except.ok.injEq] at hp
      subst hp
      unfold SamePoints at h
      simp only [List.map_cons, List.cons.injEq] at h
      exact ⟨b, rfl, h.1⟩

theorem sortPathPoints_same {cfg : Config} {l m : List PathPoint} (h : SamePoints l m)
    {r r2 : PathPoint} (hx : r.x = r2.x) (hy : r.y = r2.y) :
    sortPathPoints cfg l r = sortPathPoints cfg m r2 := by
  unfold sortPathPoints
  have e : ∀ (k : List PathPoint) (ref : PathPoint),
      k.map (fun p => { p with dist := calcDist cfg p ref })
        = (k.map PathPoint.withoutScratch).map (fun p => { p with dist := calcDist cfg p ref }) := by
    intro k ref
    rw [List.map_map]
    rfl
  have e2 : ∀ p : PathPoint, calcDist cfg p r = calcDist cfg p r2 := by
    intro p
    unfold calcDist
    rw [hx, hy]
  rw [e l, e m, h]
  simp only [e2]

theorem mergeTemp_same {cfg : Config} {t1 t2 u1 u2 : List PathPoint} (h1 : SamePoints t1 u1)
    (h2 : SamePoints t2 u2) : SamePoints (mergeTemp cfg t1 t2) (mergeTemp cfg u1 u2) := by
  unfold mergeTemp
  refine samePoints_append h2 ?_
  unfold SamePoints at *
  have e : ∀ (k k2 : List PathPoint),
      (k.filter (fun p1 => !(k2.any (fun p2 => decide (calcDist cfg p1 p2 ≤ 1 / 10))))).map
          PathPoint.withoutScratch
        = (k.map PathPoint.withoutScratch).filter (fun p1 =>
            !((k2.map PathPoint.withoutScratch).any
              (fun p2 => decide (calcDist cfg p1 p2 ≤ 1 / 10)))) := by
    intro k k2
    rw [List.filter_map]
    congr 1
    congr 1
    funext p1
    simp only [Function.comp, List.any_map]
    rfl
  rw [e, e, h1, h2]

theorem generateCentrePoint_same {cfg : Config} {a b : List Cone} (hs : SameCones a b)
    {temp temp2 : List PathPoint} (ht : SamePoints temp temp2) (c1 c2 : Nat)
    (rej rej2 : List PathPoint) {cp : PathPoint} {f : Bool} {rej1 : List PathPoint}
    (h : generateCentrePoint cfg a c1 c2 temp rej = .ok (cp, f, rej1)) :
    ∃ rej3, generateCentrePoint cfg b c1 c2 temp2 rej2 = .ok (cp, f, rej3) := by
  unfold generateCentrePoint at h ⊢
  rcases sameCones_deref hs c1 with ⟨e1, e2⟩ | ⟨k1, d1, e1, e2, hq1, _⟩
  · simp [e1] at h
  rcases sameCones_deref hs c2 with ⟨f1, f2⟩ | ⟨k2, d2, f1, f2, hq2, _⟩
  · simp [e1, f1] at h
  rw [e1, f1] at h
  rw [e2, f2]
  simp only [← hq1, ← hq2] at h ⊢
  split at h
  · rename_i hc
    rw [if_pos hc]
    cases h
    exact ⟨_, rfl⟩
  · rename_i hc
    rw [if_neg hc]
    split at h
    · cases h
    · cases h
    · rename_i b1 b2 hb1 hb2
      obtain ⟨q1, hq1, ex1⟩ := back_same ht hb1
      obtain ⟨q2, hq2, ex2⟩ := back2_same ht hb2
      obtain ⟨x1, y1, _⟩ := point_scratch_fields ex1
      obtain ⟨x2, y2, _⟩ := point_scratch_fields ex2
      rw [hq1, hq2]
      simp only [calcDist, calcRelativeAngle, ← x1, ← y1, ← x2, ← y2] at h ⊢
      split at h
      · rename_i hc2
        rw [if_pos hc2]
        cases h
        exact ⟨_, rfl⟩
      · rename_i hc2
        rw [if_neg hc2]
        cases h
        exact ⟨_, rfl⟩

theorem walkLoop_same {cfg : Config} {a b : List Cone} (hs : SameCones a b) (opp : List Nat) :
    ∀ (l : List Nat) (c : Nat) (temp temp2 rej rej2 temp1 rej1 : List PathPoint),
      SamePoints temp temp2 → walkLoop cfg a opp l c temp rej = .ok (temp1, rej1) →
      ∃ temp3 rej3, walkLoop cfg b opp l c temp2 rej2 = .ok (temp3, rej3) ∧
        SamePoints temp1 temp3 := by
  intro l
  induction l with
  | nil =>
    intro c temp temp2 rej rej2 temp1 rej1 ht h
    simp only [walkLoop, Except.ok.injEq, Prod.mk.injEq] at h
    obtain ⟨h1, _⟩ := h
    subst h1
    exact ⟨temp2, rej2, rfl, ht⟩
  | cons k rest ih =>
    intro c temp temp2 rej rej2 temp1 rej1 ht h
    unfold walkLoop at h ⊢
    split at h
    · rename_i hc
      rw [if_pos hc]
      simp only [Except.ok.injEq, Prod.mk.injEq] at h
      obtain ⟨h1, _⟩ := h
      subst h1
      exact ⟨temp2, rej2, rfl, ht⟩
    · rename_i hc
      rw [if_neg hc]
      rcases sameCones_deref hs k with ⟨e1, e2⟩ | ⟨ck, dk, e1, e2, hq, _, hpass, hpair⟩
      · rw [e1] at h
        cases h
      · rw [e1] at h
        rw [e2]
        simp only [← hpass, ← hpair] at h ⊢
        split at h
        · rename_i hw
          rw [if_pos hw, findOppositeClosest_same hs hq opp]
          split at h
          · cases h
          · rename_i oc hoc
            split at h
            · cases h
            · rename_i cp f rej4 hg
              obtain ⟨rej5, hg2⟩ := generateCentrePoint_same hs ht k oc rej rej2 hg
              rw [hg2]
              simp only
              split at h
              · rename_i hf
                rw [if_pos hf]
                exact ih _ _ _ _ _ _ _ (samePoints_append ht (samePoints_refl [cp])) h
              · rename_i hf
                rw [if_neg hf]
                exact ih _ _ _ _ _ _ _ ht h
        · rename_i hw
          rw [if_neg hw]
          exact ih _ _ _ _ _ _ _ ht h

theorem withoutScratch_repr {s s2 : PathPlanner} (h : s.withoutScratch = s2.withoutScratch) :
    ∃ raw cps t1 t2 rej ts os os2 fut ns gn ls rs rc, SameCones s.raw_cones raw ∧
      SamePoints s.centre_points cps ∧
      s2 = { s with raw_cones := raw, centre_points := cps, cenPoints_temp1 := t1,
                    cenPoints_temp2 := t2, rejected_points := rej, thisSide_cone := ts,
                    oppSide_cone := os, oppSide_cone2 := os2, future_cones := fut,
                    newConesSorted := ns, gotNewCones := gn, l_cones_sorted := ls,
                    r_cones_sorted := rs, rejectCount := rc } := by
  refine ⟨s2.raw_cones, s2.centre_points, s2.cenPoints_temp1, s2.cenPoints_temp2,
    s2.rejected_points, s2.thisSide_cone, s2.oppSide_cone, s2.oppSide_cone2, s2.future_cones,
    s2.newConesSorted, s2.gotNewCones, s2.l_cones_sorted, s2.r_cones_sorted, s2.rejectCount,
    congrArg PathPlanner.raw_cones h, congrArg PathPlanner.centre_points h, ?_⟩
  cases s
  cases s2
  simp only [PathPlanner.withoutScratch, PathPlanner.mk.injEq] at h
  simp only [PathPlanner.mk.injEq]
  simp [h]

theorem withoutScratch_intro {s s2 : PathPlanner}
    (hraw : SameCones s.raw_cones s2.raw_cones)
    (hcps : SamePoints s.centre_points s2.centre_points)
    (h : { s with raw_cones := [], centre_points := [], cenPoints_temp1 := [],
                  cenPoints_temp2 := [], rejected_points := [], thisSide_cone := [],
                  oppSide_cone := [], oppSide_cone2 := [], future_cones := [],
                  newConesSorted := false, gotNewCones := false, l_cones_sorted := false,
                  r_cones_sorted := false, rejectCount := 0 }
      = { s2 with raw_cones := [], centre_points := [], cenPoints_temp1 := [],
                  cenPoints_temp2 := [], rejected_points := [], thisSide_cone := [],
                  oppSide_cone := [], oppSide_cone2 := [], future_cones := [],
                  newConesSorted := false, gotNewCones := false, l_cones_sorted := false,
                  r_cones_sorted := false, rejectCount := 0 }) :
    s.withoutScratch = s2.withoutScratch := by
  cases s
  cases s2
  simp only [PathPlanner.mk.injEq] at h
  simp only [PathPlanner.withoutScratch, PathPlanner.mk.injEq]
  unfold SameCones at hraw
  unfold SamePoints at hcps
  simp only at hraw hcps
  simp [h, hraw, hcps]

theorem centralizeTimingCones_same {cfg : Config} {s s2 t : PathPlanner}
    (hs : s.withoutScratch = s2.withoutScratch) (h : centralizeTimingCones cfg s = .ok t) :
    ∃ t2, centralizeTimingCones cfg s2 = .ok t2 ∧ t.withoutScratch = t2.withoutScratch := by
  obtain ⟨raw, cps, t1, t2, rej, ts, os, os2, fut, ns, gn, ls, rs, rc, hraw, hcps,
    rfl⟩ := withoutScratch_repr hs
  unfold centralizeTimingCones timingAverage at h ⊢
  simp only
  rw [sumPositions_same hraw]
  split at h
  · cases h
    rename_i h0
    simp only [h0]
    exact ⟨_, rfl, withoutScratch_intro hraw hcps (by simp [h0])⟩
  · rename_i t0 rest h0
    rcases sameCones_deref hraw t0 with ⟨f1, f2⟩ | ⟨k, d, f1, f2, hq, _⟩
    · rw [f1] at h
      split at h
      · cases h
      · cases h
      · rename_i q
        cases q
    · rw [f1] at h
      simp only [h0, f2]
      rw [h0] at h
      cases hsum : sumPositions s.raw_cones (t0 :: rest) (PathPoint.ofXY 0 0) with
      | error e =>
        rw [hsum] at h
        simp at h
      | ok sum =>
        rw [hsum] at h
        simp only [← hq] at h ⊢
        split at h
        · rename_i hc
          rw [if_pos hc]
          split at h
          · cases h
          · rename_i raw1 ep
            obtain ⟨raw2, ep2, hr2⟩ := pairAll_same _ _ _ _ hraw ep
            cases h
            simp only [ep2]
            exact ⟨_, rfl, withoutScratch_intro hr2 (samePoints_append hcps (samePoints_refl _))
              (by simp [h0])⟩
        · rename_i hc
          rw [if_neg hc]
          cases h
          exact ⟨_, rfl, withoutScratch_intro hraw hcps (by simp [h0])⟩

theorem costLoop_keys {cfg : Config} {thisSide oppSide : List Nat} {a b a1 b1 : List Cone}
    (l : List Nat) (hs : SameCones a b) (ea : costLoop cfg thisSide oppSide l a = .ok a1)
    (eb : costLoop cfg thisSide oppSide l b = .ok b1) :
    ∀ h ∈ l, coneCost a1 h = coneCost b1 h := by
  intro h hh
  have h1 := (@costLoop_cost cfg thisSide oppSide a l a a1 (SameGeom.itself a) ea).2.1 h hh
  have h2 := (@costLoop_cost cfg thisSide oppSide a l b b1 (sameCones_geom hs) eb).2.1 h hh
  exact h1.unique h2

theorem sortAndPushCone_same {cfg : Config} {s s2 t : PathPlanner} (side : Side)
    (hs : s.withoutScratch = s2.withoutScratch) (h : sortAndPushCone cfg s side = .ok t) :
    ∃ t2, sortAndPushCone cfg s2 side = .ok t2 ∧ t.withoutScratch = t2.withoutScratch := by
  obtain ⟨raw, cps, t1, t2, rej, ts, os, os2, fut, ns, gn, ls, rs, rc, hraw, hcps,
    rfl⟩ := withoutScratch_repr hs
  unfold sortAndPushCone at h ⊢
  simp only at h ⊢
  cases side with
  | left =>
    simp only at h ⊢
    split at h
    · cases h
      rename_i h0
      simp only [h0]
      exact ⟨_, rfl, withoutScratch_intro hraw hcps (by simp [h0])⟩
    · rename_i h0 rest hcn
      simp only [hcn] at h ⊢
      rcases sameCones_deref hraw h0 with ⟨f1, f2⟩ | ⟨c0, d0, f1, f2, _, hcol, _⟩
      · rw [f1] at h
        cases h
      · rw [f1] at h
        rw [f2]
        simp only [← hcol] at h ⊢
        by_cases hb : c0.colour = 'b'
        · simp only [hb, if_true] at h ⊢
          split at h
          · rename_i hlen
            rw [if_pos hlen]
            split at h
            · cases h
            · rename_i last hlast
              rw [computeCost2a_same hraw]
              split at h
              · cases h
              · rename_i cost2 hc2
                split at h
                · rename_i hlt
                  rw [if_pos hlt]
                  cases h
                  exact ⟨_, rfl, withoutScratch_intro hraw hcps rfl⟩
                · rename_i hlt
                  rw [if_neg hlt]
                  cases h
                  exact ⟨_, rfl, withoutScratch_intro hraw hcps rfl⟩
          · rename_i hlen
            rw [if_neg hlen]
            split at h
            · cases h
            · rename_i raw1 e1
              obtain ⟨raw2, e2, hr2⟩ := costLoop_same _ _ _ _ hraw e1
              have hk := costLoop_keys _ hraw e1 e2
              rw [e2]
              simp only
              rw [← sortConesByKey_same _ _ _ hk]
              cases h
              exact ⟨_, rfl, withoutScratch_intro hr2 hcps rfl⟩
        · by_cases hy : c0.colour = 'y'
          · simp only [hy, (show ¬ ('y' : Char) = 'b' from by decide), if_true, if_false] at h ⊢
            split at h
            · rename_i hlen
              rw [if_pos hlen]
              split at h
              · cases h
              · rename_i last hlast
                rw [computeCost2a_same hraw]
                split at h
                · cases h
                · rename_i cost2 hc2
                  split at h
                  · rename_i hlt
                    rw [if_pos hlt]
                    cases h
                    exact ⟨_, rfl, withoutScratch_intro hraw hcps rfl⟩
                  · rename_i hlt
                    rw [if_neg hlt]
                    cases h
                    exact ⟨_, rfl, withoutScratch_intro hraw hcps rfl⟩
            · rename_i hlen
              rw [if_neg hlen]
              split at h
              · cases h
              · rename_i raw1 e1
                obtain ⟨raw2, e2, hr2⟩ := costLoop_same _ _ _ _ hraw e1
                have hk := costLoop_keys _ hraw e1 e2
                rw [e2]
                simp only
                rw [← sortConesByKey_same _ _ _ hk]
                cases h
                exact ⟨_, rfl, withoutScratch_intro hr2 hcps rfl⟩
          · simp only [hb, hy, if_false] at h ⊢
            split at h
            · rename_i hlen
              rw [if_pos hlen]
              split at h
              · cases h
              · rename_i last hlast
                rw [computeCost2a_same hraw]
                split at h
                · cases h
                · rename_i cost2 hc2
                  split at h
                  · cases h
                  · rename_i hlt
                    rw [if_neg hlt]
                    cases h
                    exact ⟨_, rfl, withoutScratch_intro hraw hcps rfl⟩
            · split at h
              · cases h
              · cases h
  | right =>
    simp only at h ⊢
    split at h
    · cases h
      rename_i h0
      simp only [h0]
      exact ⟨_, rfl, withoutScratch_intro hraw hcps (by simp [h0])⟩
    · rename_i h0 rest hcn
      simp only [hcn] at h ⊢
      rcases sameCones_deref hraw h0 with ⟨f1, f2⟩ | ⟨c0, d0, f1, f2, _, hcol, _⟩
      · rw [f1] at h
        cases h
      · rw [f1] at h
        rw [f2]
        simp only [← hcol] at h ⊢
        by_cases hb : c0.colour = 'b'
        · simp only [hb, if_true] at h ⊢
          split at h
          · rename_i hlen
            rw [if_pos hlen]
            split at h
            · cases h
            · rename_i last hlast
              rw [computeCost2a_same hraw]
              split at h
              · cases h
              · rename_i cost2 hc2
                split at h
                · rename_i hlt
                  rw [if_pos hlt]
                  cases h
                  exact ⟨_, rfl, withoutScratch_intro hraw hcps rfl⟩
                · rename_i hlt
                  rw [if_neg hlt]
                  cases h
                  exact ⟨_, rfl, withoutScratch_intro hraw hcps rfl⟩
          · rename_i hlen
            rw [if_neg hlen]
            split at h
            · cases h
            · rename_i raw1 e1
              obtain ⟨raw2, e2, hr2⟩ := costLoop_same _ _ _ _ hraw e1
              have hk := costLoop_keys _ hraw e1 e2
              rw [e2]
              simp only
              rw [← sortConesByKey_same _ _ _ hk]
              cases h
              exact ⟨_, rfl, withoutScratch_intro hr2 hcps rfl⟩
        · by_cases hy : c0.colour = 'y'
          · simp only [hy, (show ¬ ('y' : Char) = 'b' from by decide), if_true, if_false] at h ⊢
            split at h
            · rename_i hlen
              rw [if_pos hlen]
              split at h
              · cases h
              · rename_i last hlast
                rw [computeCost2a_same hraw]
                split at h
                · cases h
                · rename_i cost2 hc2
                  split at h
                  · rename_i hlt
                    rw [if_pos hlt]
                    cases h
                    exact ⟨_, rfl, withoutScratch_intro hraw hcps rfl⟩
                  · rename_i hlt
                    rw [if_neg hlt]
                    cases h
                    exact ⟨_, rfl, withoutScratch_intro hraw hcps rfl⟩
            · rename_i hlen
              rw [if_neg hlen]
              split at h
              · cases h
              · rename_i raw1 e1
                obtain ⟨raw2, e2, hr2⟩ := costLoop_same _ _ _ _ hraw e1
                have hk := costLoop_keys _ hraw e1 e2
                rw [e2]
                simp only
                rw [← sortConesByKey_same _ _ _ hk]
                cases h
                exact ⟨_, rfl, withoutScratch_intro hr2 hcps rfl⟩
          · simp only [hb, hy, if_false] at h ⊢
            split at h
            · rename_i hlen
              rw [if_pos hlen]
              split at h
              · cases h
              · rename_i last hlast
                rw [computeCost2a_same hraw]
                split at h
                · cases h
                · rename_i cost2 hc2
                  split at h
                  · cases h
                  · rename_i hlt
                    rw [if_neg hlt]
                    cases h
                    exact ⟨_, rfl, withoutScratch_intro hraw hcps rfl⟩
            · split at h
              · cases h
              · cases h

theorem samePoints_pair {p q p2 q2 : PathPoint} (h1 : p.withoutScratch = p2.withoutScratch)
    (h2 : q.withoutScratch = q2.withoutScratch) : SamePoints [p, q] [p2, q2] := by
  unfold SamePoints
  simp only [List.map_cons, List.map_nil, h1, h2]

theorem addCentrePoints_same {cfg : Config} {s s2 t : PathPlanner}
    (hs : s.withoutScratch = s2.withoutScratch) (h : addCentrePoints cfg s = .ok t) :
    ∃ t2, addCentrePoints cfg s2 = .ok t2 ∧ t.withoutScratch = t2.withoutScratch := by
  obtain ⟨raw, cps, t1, t2, rej, ts, os, os2, fut, ns, gn, ls, rs, rc, hraw, hcps,
    rfl⟩ := withoutScratch_repr hs
  unfold addCentrePoints at h ⊢
  simp only at h ⊢
  split at h
  · rename_i hc
    rw [if_pos hc]
    cases h
    exact ⟨_, rfl, withoutScratch_intro hraw hcps rfl⟩
  · rename_i hc
    rw [if_neg hc]
    split at h
    · cases h
    · cases h
    · rename_i b2 b1 hb2 hb1
      obtain ⟨q2, hq2, ex2⟩ := back2_same hcps hb2
      obtain ⟨q1, hq1, ex1⟩ := back_same hcps hb1
      rw [hq2, hq1]
      simp only
      split at h
      · cases h
      · rename_i temp1 rej1 hw1
        obtain ⟨temp3, rej3, hw3, ht3⟩ := walkLoop_same hraw _ _ _ _ [q2, q1] _ rej _ _
          (samePoints_pair ex2 ex1) hw1
        rw [hw3]
        simp only
        split at h
        · cases h
        · rename_i temp2 rej2 hw2
          obtain ⟨temp4, rej4, hw4, ht4⟩ := walkLoop_same hraw _ _ _ _ [q2, q1] _ rej3 _ _
            (samePoints_pair ex2 ex1) hw2
          rw [hw4]
          simp only
          have hm := @mergeTemp_same cfg _ _ _ _ ht3 ht4
          split at h
          · cases h
          · rename_i t0 ht0
            obtain ⟨u0, hu0, ex0⟩ := front_same hm ht0
            obtain ⟨x0, y0, _⟩ := point_scratch_fields ex0
            rw [hu0]
            simp only
            rw [← sortPathPoints_same hm x0 y0]
            split at h
            · cases h
            · rename_i raw1 cps1 ha
              obtain ⟨ec, raw2, ha2, hr2⟩ := appendLoop_same _ _ _ _ _ _ cps hraw ha
              rw [ha2]
              cases h
              subst ec
              exact ⟨_, rfl, withoutScratch_intro hr2 (samePoints_append hcps (samePoints_refl _)) rfl⟩

theorem timedStep_same {cfg : Config} {s s2 s1 : PathPlanner}
    (hs : s.withoutScratch = s2.withoutScratch)
    (h1 : (if !s.timingCalc && !s.left_start_zone then
          match centralizeTimingCones cfg s with
          | .error e => .error e
          | .ok t => .ok { t with centre_points := sortPathPoints cfg t.centre_points t.init_pos }
        else Except.ok s) = .ok s1) :
    ∃ s3, (if !s2.timingCalc && !s2.left_start_zone then
          match centralizeTimingCones cfg s2 with
          | .error e => .error e
          | .ok t => .ok { t with centre_points := sortPathPoints cfg t.centre_points t.init_pos }
        else Except.ok s2) = .ok s3 ∧ s1.withoutScratch = s3.withoutScratch := by
  have e2 : s2.timingCalc = s.timingCalc := (congrArg PathPlanner.timingCalc hs).symm
  have e3 : s2.left_start_zone = s.left_start_zone :=
    (congrArg PathPlanner.left_start_zone hs).symm
  rw [e2, e3]
  by_cases hc : (!s.timingCalc && !s.left_start_zone) = true
  · rw [if_pos hc] at h1 ⊢
    cases hu : centralizeTimingCones cfg s with
    | error e =>
      rw [hu] at h1
      cases h1
    | ok u =>
      rw [hu] at h1
      obtain ⟨u2, hu2, hsu⟩ := centralizeTimingCones_same hs hu
      rw [hu2]
      cases h1
      obtain ⟨raw, cps, t1, t2, rej, ts, os, os2, fut, ns, gn, ls, rs, rc, hraw, hcps,
        rfl⟩ := withoutScratch_repr hsu
      simp only
      rw [← sortPathPoints_same hcps rfl rfl]
      exact ⟨_, rfl, withoutScratch_intro hraw (samePoints_refl _) rfl⟩
  · rw [if_neg hc] at h1 ⊢
    cases h1
    exact ⟨s2, rfl, hs⟩

theorem pushStep_same {cfg : Config} {s1 s3 t : PathPlanner}
    (hs3 : s1.withoutScratch = s3.withoutScratch)
    (h : (if s1.left_cones ≠ [] ∧ s1.right_cones ≠ [] then
        match sortAndPushCone cfg s1 Side.left with
        | .error e => .error e
        | .ok s2 =>
          match sortAndPushCone cfg s2 Side.right with
          | .error e => .error e
          | .ok s3 => addCentrePoints cfg s3
      else .ok s1 : Except Fault PathPlanner) = .ok t) :
    ∃ t2, (if s3.left_cones ≠ [] ∧ s3.right_cones ≠ [] then
        match sortAndPushCone cfg s3 Side.left with
        | .error e => .error e
        | .ok s2 =>
          match sortAndPushCone cfg s2 Side.right with
          | .error e => .error e
          | .ok s3 => addCentrePoints cfg s3
      else .ok s3 : Except Fault PathPlanner) = .ok t2 ∧ t.withoutScratch = t2.withoutScratch := by
  have f1 : s3.left_cones = s1.left_cones := (congrArg PathPlanner.left_cones hs3).symm
  have f2 : s3.right_cones = s1.right_cones := (congrArg PathPlanner.right_cones hs3).symm
  rw [f1, f2]
  split at h
  · rename_i hne
    rw [if_pos hne]
    split at h
    · cases h
    · rename_i s4 h4
      obtain ⟨s5, h5, hs5⟩ := sortAndPushCone_same _ hs3 h4
      rw [h5]
      simp only
      split at h
      · cases h
      · rename_i s6 h6
        obtain ⟨s7, h7, hs7⟩ := sortAndPushCone_same _ hs5 h6
        rw [h7]
        exact addCentrePoints_same hs7 h
  · rename_i hne
    rw [if_neg hne]
    cases h
    exact ⟨s3, rfl, hs3⟩

theorem sortStep_same {cfg : Config} {s s2 t : PathPlanner}
    (hs : s.withoutScratch = s2.withoutScratch) (h : sortStep cfg s = .ok t) :
    ∃ t2, sortStep cfg s2 = .ok t2 ∧ t.withoutScratch = t2.withoutScratch := by
  have e1 : s2.newConesToSort = s.newConesToSort := (congrArg PathPlanner.newConesToSort hs).symm
  unfold sortStep at h ⊢
  rw [e1]
  split at h
  · rename_i hn
    rw [if_pos hn]
    simp only at h ⊢
    split at h
    · cases h
    · rename_i s1 h1
      obtain ⟨s3, h3, hs3⟩ := timedStep_same hs h1
      obtain ⟨t2, h4, hs4⟩ := pushStep_same hs3 h
      refine ⟨t2, ?_, hs4⟩
      split
      · rename_i e he
        have := h3.symm.trans he
        cases this
      · rename_i s5 he
        have := h3.symm.trans he
        cases this
        exact h4
  · rename_i hn
    rw [if_neg hn]
    cases h
    exact ⟨s2, rfl, hs⟩

theorem rejectedOk_mono {raw raw2 : List Cone} {rej : List PathPoint}
    (h : RejectedOk raw rej) (hl : raw.length ≤ raw2.length) : RejectedOk raw2 rej := by
  intro r hr
  obtain ⟨a, b, ha, hb, la, lb⟩ := h r hr
  exact ⟨a, b, ha, hb, by omega, by omega⟩

theorem rejectedOk_snoc {raw : List Cone} {rej : List PathPoint} {r : PathPoint} {a b : Nat}
    (h : RejectedOk raw rej) (ha : r.cone1 = some a) (hb : r.cone2 = some b)
    (la : a < raw.length) (lb : b < raw.length) : RejectedOk raw (rej ++ [r]) := by
  intro q hq
  rcases List.mem_append.1 hq with hq | hq
  · exact h q hq
  · rw [List.mem_singleton] at hq
    subst hq
    exact ⟨a, b, ha, hb, la, lb⟩

theorem derefPtr_lt {raw : List Cone} {p : Option Nat} {c : Cone}
    (e : derefPtr raw p = .ok c) : ∃ a, p = some a ∧ a < raw.length := by
  unfold derefPtr at e
  cases p with
  | none => cases e
  | some a => exact ⟨a, rfl, deref_lt e⟩

theorem derefPtr_of_lt {raw : List Cone} {a : Nat} (h : a < raw.length) :
    ∃ c, derefPtr raw (some a) = .ok c := by
  unfold derefPtr
  exact deref_ok h

theorem rejectedLoop_valid (raw : List Cone) :
    ∀ (rej : List PathPoint) (mk r : List PathPoint),
      rejectedLoop raw rej mk = .ok r → RejectedOk raw rej := by
  intro rej
  induction rej with
  | nil =>
    intro mk r _ q hq
    cases hq
  | cons e rest ih =>
    intro mk r h
    unfold rejectedLoop at h
    split at h
    · cases h
    · cases h
    · rename_i c1 c2 h1 h2
      obtain ⟨a, ha, la⟩ := derefPtr_lt h1
      obtain ⟨b, hb, lb⟩ := derefPtr_lt h2
      intro q hq
      rcases List.mem_cons.1 hq with hq | hq
      · subst hq
        exact ⟨a, b, ha, hb, la, lb⟩
      · exact ih _ _ h q hq

theorem rejectedLoop_of_valid (raw : List Cone) :
    ∀ (rej : List PathPoint) (mk : List PathPoint), RejectedOk raw rej →
      ∃ r, rejectedLoop raw rej mk = .ok r := by
  intro rej
  induction rej with
  | nil =>
    intro mk _
    exact ⟨mk, rfl⟩
  | cons e rest ih =>
    intro mk h
    obtain ⟨a, b, ha, hb, la, lb⟩ := h e (List.mem_cons_self _ _)
    obtain ⟨c1, h1⟩ := derefPtr_of_lt la
    obtain ⟨c2, h2⟩ := derefPtr_of_lt lb
    unfold rejectedLoop
    rw [ha, hb, h1, h2]
    exact ih _ (fun q hq => h q (List.mem_cons_of_mem _ hq))

theorem generateCentrePoint_rejected {cfg : Config} {raw : List Cone} {a b : Nat}
    {temp rej rej1 : List PathPoint} {cp : PathPoint} {f : Bool} (hr : RejectedOk raw rej)
    (h : generateCentrePoint cfg raw a b temp rej = .ok (cp, f, rej1)) : RejectedOk raw rej1 := by
  unfold generateCentrePoint at h
  split at h
  · cases h
  · cases h
  · rename_i c1 c2 h1 h2
    have la := deref_lt h1
    have lb := deref_lt h2
    simp only at h
    split at h
    · cases h
      exact rejectedOk_snoc hr rfl rfl la lb
    · split at h
      · cases h
      · cases h
      · split at h
        · cases h
          exact hr
        · cases h
          exact rejectedOk_snoc hr rfl rfl la lb

theorem walkLoop_rejected {cfg : Config} {raw : List Cone} (opp : List Nat) :
    ∀ (l : List Nat) (c : Nat) (temp rej temp1 rej1 : List PathPoint), RejectedOk raw rej →
      walkLoop cfg raw opp l c temp rej = .ok (temp1, rej1) → RejectedOk raw rej1 := by
  intro l
  induction l with
  | nil =>
    intro c temp rej temp1 rej1 hr h
    simp only [walkLoop, Except.ok.injEq, Prod.mk.injEq] at h
    rw [← h.2]
    exact hr
  | cons k rest ih =>
    intro c temp rej temp1 rej1 hr h
    unfold walkLoop at h
    split at h
    · simp only [Except.ok.injEq, Prod.mk.injEq] at h
      rw [← h.2]
      exact hr
    · split at h
      · cases h
      · split at h
        · split at h
          · cases h
          · split at h
            · cases h
            · rename_i cp f rej2 hg
              have hr2 := generateCentrePoint_rejected hr hg
              split at h
              · exact ih _ _ _ _ _ hr2 h
              · exact ih _ _ _ _ _ hr2 h
        · exact ih _ _ _ _ _ hr h

theorem appendLoop_length : ∀ (l : List PathPoint) (raw : List Cone) (cps : List PathPoint)
    (raw1 : List Cone) (cps1 : List PathPoint), appendLoop l raw cps = .ok (raw1, cps1) →
    raw1.length = raw.length := by
  intro l
  induction l with
  | nil =>
    intro raw cps raw1 cps1 h
    simp only [appendLoop, Except.ok.injEq, Prod.mk.injEq] at h
    rw [h.1]
  | cons p rest ih =>
    intro raw cps raw1 cps1 h
    unfold appendLoop at h
    split at h
    · cases h
    · rename_i raw2 e2
      obtain ⟨a, _, ea⟩ := modifyPtr_some e2
      split at h
      · cases h
      · rename_i raw3 e3
        obtain ⟨b, _, eb⟩ := modifyPtr_some e3
        rw [ih _ _ _ _ h, modifyCone_length eb, modifyCone_length ea]

theorem addCentrePoints_rejected {cfg : Config} {s t : PathPlanner}
    (hr : RejectedOk s.raw_cones s.rejected_points) (h : addCentrePoints cfg s = .ok t) :
    RejectedOk t.raw_cones t.rejected_points := by
  unfold addCentrePoints at h
  split at h
  · cases h
    exact hr
  · split at h
    · cases h
    · cases h
    · split at h
      · cases h
      · rename_i temp1 rej1 hw1
        have hr1 := walkLoop_rejected _ _ _ _ _ _ _ hr hw1
        split at h
        · cases h
        · rename_i temp2 rej2 hw2
          have hr2 := walkLoop_rejected _ _ _ _ _ _ _ hr1 hw2
          split at h
          · cases h
          · split at h
            · cases h
            · rename_i raw cps ha
              cases h
              exact rejectedOk_mono hr2 (le_of_eq (appendLoop_length _ _ _ _ _ ha).symm)

theorem sortAndPushCone_rejected {cfg : Config} {s t : PathPlanner} {side : Side}
    (h : sortAndPushCone cfg s side = .ok t) :
    t.rejected_points = s.rejected_points ∧ t.raw_cones.length = s.raw_cones.length := by
  unfold PathPlanner.sortAndPushCone at h
  simp only at h
  cases side <;> simp only at h <;> repeat' (split at h)
  all_goals (first | (cases h; done) | (cases h; exact ⟨rfl, rfl⟩) |
    (cases h; exact ⟨rfl, (costLoop_shift _ _ _ (by assumption)).1⟩))

theorem centralizeTimingCones_rejected {cfg : Config} {s t : PathPlanner}
    (h : centralizeTimingCones cfg s = .ok t) :
    t.rejected_points = s.rejected_points ∧ t.raw_cones.length = s.raw_cones.length := by
  unfold centralizeTimingCones at h
  simp only at h
  repeat' (split at h)
  all_goals (first | (cases h; done) | (cases h; exact ⟨rfl, rfl⟩) |
    (cases h; exact ⟨rfl, (pairAll_shift _ _ _ (by assumption)).1⟩))

theorem sortStep_rejected {cfg : Config} {s t : PathPlanner}
    (hr : RejectedOk s.raw_cones s.rejected_points) (h : sortStep cfg s = .ok t) :
    RejectedOk t.raw_cones t.rejected_points := by
  unfold sortStep at h
  split at h
  · simp only at h
    split at h
    · cases h
    · rename_i s1 h1
      have hr1 : RejectedOk s1.raw_cones s1.rejected_points := by
        split at h1
        · split at h1
          · cases h1
          · rename_i u hu
            cases h1
            obtain ⟨e1, e2⟩ := centralizeTimingCones_rejected hu
            simp only
            rw [e1]
            exact rejectedOk_mono hr (le_of_eq e2.symm)
        · cases h1
          exact hr
      split at h
      · split at h
        · cases h
        · rename_i s4 h4
          obtain ⟨e1, e2⟩ := sortAndPushCone_rejected h4
          split at h
          · cases h
          · rename_i s6 h6
            obtain ⟨e3, e4⟩ := sortAndPushCone_rejected h6
            apply addCentrePoints_rejected _ h
            rw [e3, e1]
            exact rejectedOk_mono hr1 (le_of_eq (e4.trans e2).symm)
      · cases h
        exact hr1
  · cases h
    exact hr

theorem unpairPoint_length {raw raw2 : List Cone} {p : PathPoint}
    (h : unpairPoint raw p = .ok raw2) : raw2.length = raw.length := by
  unfold unpairPoint at h
  split at h
  · cases h
  · rename_i raw1 e1
    obtain ⟨a, _, ea⟩ := modifyPtr_some e1
    obtain ⟨b, _, eb⟩ := modifyPtr_some h
    rw [modifyCone_length eb, modifyCone_length ea]

theorem popUnpassedLoop_length : ∀ (l : List PathPoint) (raw : List Cone) (tc : Bool)
    (r : List PathPoint) (raw2 : List Cone) (tc2 : Bool),
    popUnpassedLoop l raw tc = .ok (r, raw2, tc2) → raw2.length = raw.length := by
  intro l
  induction l with
  | nil =>
    intro raw tc r raw2 tc2 h
    simp only [popUnpassedLoop, Except.ok.injEq, Prod.mk.injEq] at h
    rw [h.2.1]
  | cons p rest ih =>
    intro raw tc r raw2 tc2 h
    unfold popUnpassedLoop at h
    split at h
    · split at h
      · split at h
        · split at h
          · split at h
            · cases h
            · rename_i raw1 e1
              rw [ih _ _ _ _ _ h, unpairPoint_length e1]
          · simp only [Except.ok.injEq, Prod.mk.injEq] at h
            rw [h.2.1]
        · cases h
        · cases h
      · exact ih _ _ _ _ _ h
    · simp only [Except.ok.injEq, Prod.mk.injEq] at h
      rw [h.2.1]

theorem capLoop_length (n : Int) : ∀ (l : List PathPoint) (raw : List Cone)
    (r : List PathPoint) (raw2 : List Cone),
    capLoop n l raw = .ok (r, raw2) → raw2.length = raw.length := by
  intro l
  induction l with
  | nil =>
    intro raw r raw2 h
    simp only [capLoop, Except.ok.injEq, Prod.mk.injEq] at h
    rw [h.2]
  | cons p rest ih =>
    intro raw r raw2 h
    unfold capLoop at h
    split at h
    · split at h
      · cases h
      · rename_i raw1 e1
        rw [ih _ _ _ h, unpairPoint_length e1]
    · simp only [Except.ok.injEq, Prod.mk.injEq] at h
      rw [h.2]

theorem updateCentrePoints_rejected {cfg : Config} {s t : PathPlanner}
    (h : updateCentrePoints cfg s = .ok t) :
    t.rejected_points = s.rejected_points ∧ t.raw_cones.length = s.raw_cones.length := by
  unfold updateCentrePoints at h
  split at h
  · cases h
    exact ⟨rfl, rfl⟩
  · simp only at h
    split at h
    · cases h
    · rename_i cps raw tc hp
      have l1 := popUnpassedLoop_length _ _ _ _ _ _ hp
      split at h
      · split at h
        · cases h
        · rename_i cps2 raw2 hc
          cases h
          exact ⟨rfl, (capLoop_length _ _ _ _ _ hc).trans l1⟩
      · cases h
        exact ⟨rfl, l1⟩

theorem addCones_rejected {cfg : Config} {s t : PathPlanner} {nc : List Cone}
    (h : addCones cfg s nc = .ok t) :
    t.rejected_points = s.rejected_points ∧ s.raw_cones.length ≤ t.raw_cones.length := by
  obtain ⟨u, hu, e1, _⟩ := addCones_store h
  have e2 := updateStoredCones_raw hu
  have e3 : t.rejected_points = s.rejected_points := by
    unfold addCones at h
    rw [hu] at h
    simp only at h
    have e4 : u.rejected_points = s.rejected_points := by
      unfold updateStoredCones at hu
      simp only at hu
      repeat' (split at hu)
      all_goals (first | (cases hu; done) | (cases hu; rfl))
    repeat' (split at h)
    all_goals (first | (cases h; done) | (cases h; exact e4))
  refine ⟨e3, ?_⟩
  rw [e1, e2, ingested_length]
  exact le_max_left _ _

theorem closureStep_rejected {cfg : Config} {s t : PathPlanner} (h : closureStep cfg s = .ok t) :
    t.rejected_points = s.rejected_points ∧ t.raw_cones = s.raw_cones := by
  unfold closureStep at h
  repeat' (split at h)
  all_goals (first | (cases h; done) | (cases h; exact ⟨rfl, rfl⟩))

theorem entryState_rejected {cfg : Config} {s p : PathPlanner} {nc : List Cone} {x y : ℚ}
    (hr : RejectedOk s.raw_cones s.rejected_points) (h : entryState cfg s nc x y = .ok p) :
    RejectedOk p.raw_cones p.rejected_points := by
  unfold entryState at h
  split at h
  · cases h
  · rename_i s1 h1
    obtain ⟨e1, e2⟩ := closureStep_rejected h1
    have hr1 : RejectedOk s1.raw_cones s1.rejected_points := by
      rw [e1, e2]
      exact hr
    split at h
    · split at h
      · cases h
      · rename_i s2 h2
        obtain ⟨e3, e4⟩ := addCones_rejected h2
        obtain ⟨e5, e6⟩ := updateCentrePoints_rejected h
        rw [e5, e3]
        exact rejectedOk_mono hr1 (by omega)
    · cases h
      exact hr1

theorem derefPtr_length {raw raw2 : List Cone} (hl : raw.length = raw2.length) {p : Option Nat}
    {c : Cone} (e : derefPtr raw p = .ok c) : ∃ d, derefPtr raw2 p = .ok d := by
  obtain ⟨a, ha, la⟩ := derefPtr_lt e
  rw [ha]
  exact derefPtr_of_lt (by omega)

theorem pathLoop_same {raw raw2 : List Cone} (hl : raw.length = raw2.length) (n : Nat) :
    ∀ (cps cps2 : List PathPoint) (j : Nat) (acc acc2 r : List PathPoint × List PathPoint),
      SamePoints cps cps2 → pathLoop raw n cps j acc = .ok r →
      ∃ r2, pathLoop raw2 n cps2 j acc2 = .ok r2 := by
  intro cps
  induction cps with
  | nil =>
    intro cps2 j acc acc2 r hs _
    cases cps2 with
    | nil => exact ⟨acc2, by simp [pathLoop]⟩
    | cons b rest2 => cases hs
  | cons e rest ih =>
    intro cps2 j acc acc2 r hs h
    cases cps2 with
    | nil => cases hs
    | cons e2 rest2 =>
      unfold SamePoints at hs
      simp only [List.map_cons, List.cons.injEq] at hs
      obtain ⟨_, _, _, k1, k2, _⟩ := point_scratch_fields hs.1
      obtain ⟨cp, mk⟩ := acc
      obtain ⟨cp2, mk2⟩ := acc2
      unfold pathLoop at h ⊢
      rw [← k1, ← k2]
      split at h
      · rename_i hc
        rw [if_pos hc]
        split at h
        · cases h
        · cases h
        · rename_i c1 c2 h1 h2
          obtain ⟨d1, g1⟩ := derefPtr_length hl h1
          obtain ⟨d2, g2⟩ := derefPtr_length hl h2
          simp only [g1, g2]
          exact ih _ _ _ _ _ hs.2 h
      · rename_i hc
        rw [if_neg hc]
        exact ih _ _ _ _ _ hs.2 h

theorem copyCones_length {raw raw2 : List Cone} (hl : raw.length = raw2.length) :
    ∀ (hs : List Nat) (acc acc2 r : List Cone), copyCones raw hs acc = .ok r →
      ∃ r2, copyCones raw2 hs acc2 = .ok r2 := by
  intro hs
  induction hs with
  | nil =>
    intro acc acc2 r _
    exact ⟨acc2, by simp [copyCones]⟩
  | cons e rest ih =>
    intro acc acc2 r h
    unfold copyCones at h ⊢
    split at h
    · cases h
    · rename_i c h1
      obtain ⟨d, hd⟩ := @deref_ok raw2 e (by have := deref_lt h1; omega)
      rw [hd]
      exact ih _ _ _ h

theorem returnResult_same {q1 q2 : PathPlanner} {out : Output} {r : PathPlanner × Output}
    (out2 : Output) (hq : q1.withoutScratch = q2.withoutScratch)
    (hrej : RejectedOk q2.raw_cones q2.rejected_points) (h : returnResult q1 out = .ok r) :
    ∃ r2, returnResult q2 out2 = .ok r2 := by
  have hraw : SameCones q1.raw_cones q2.raw_cones := congrArg PathPlanner.raw_cones hq
  have hcps : SamePoints q1.centre_points q2.centre_points :=
    congrArg PathPlanner.centre_points hq
  have hl : q2.left_cones = q1.left_cones := (congrArg PathPlanner.left_cones hq).symm
  have hr : q2.right_cones = q1.right_cones := (congrArg PathPlanner.right_cones hq).symm
  unfold returnResult at h ⊢
  rw [hl, hr, ← samePoints_length hcps]
  split at h
  · cases h
  · rename_i cp mk1 e1
    obtain ⟨⟨cp2, mk2⟩, e2⟩ := pathLoop_same (sameCones_length hraw) _ _ _ _ _ (out2.Path, out2.markers) _
      hcps e1
    rw [e2]
    simp only at h ⊢
    obtain ⟨m, e4⟩ := rejectedLoop_of_valid _ _ mk2 hrej
    rw [e4]
    simp only
    split at h
    · cases h
    · split at h
      · cases h
      · cases h
      · rename_i l r e5 e6
        obtain ⟨l2, e7⟩ := copyCones_length (sameCones_length hraw) _ _ out2.Left _ e5
        obtain ⟨r2, e8⟩ := copyCones_length (sameCones_length hraw) _ _ out2.Right _ e6
        rw [e7, e8]
        exact ⟨_, rfl⟩

theorem update_entry {cfg : Config} {s : PathPlanner} {nc : List Cone} {x y : ℚ} {out : Output}
    (hc : s.complete = false) :
    update cfg s nc x y out =
      match entryState cfg s nc x y with
      | .error e => .error e
      | .ok p =>
        match (if !p.reached_end_zone then sortStep cfg p else .ok p) with
        | .error e => .error e
        | .ok q =>
          match returnResult q out with
          | .error e => .error e
          | .ok (s3, o3) => .ok (resetTempConeVectors s3, o3) := by
  unfold update entryState buildStep
  rw [if_neg (show ¬ s.complete = true from by rw [hc]; decide)]
  cases h1 : closureStep cfg { s with car_pos := PathPoint.ofXY x y } with
  | error e => rfl
  | ok s1 =>
    simp only
    by_cases hr : s1.reached_end_zone = true
    · simp only [hr, Bool.not_true, Bool.false_eq_true, if_false]
    · have hr2 : s1.reached_end_zone = false := by simpa using hr
      simp only [hr2, Bool.not_false, if_true]
      cases h2 : addCones cfg s1 nc with
      | error e => rfl
      | ok s2 =>
        simp only
        cases h3 : updateCentrePoints cfg s2 with
        | error e => rfl
        | ok p =>
          have e := ((addCones_zone h2).trans (updateCentrePoints_zone h3)).2.2.1
          simp only [e, hr2, Bool.not_false, if_true]

theorem update_same_entry {cfg : Config} {s t p1 p2 : PathPlanner} {nc : List Cone} {x y : ℚ}
    {out o : Output} (out2 : Output) (hs : s.complete = false) (ht : t.complete = false)
    (h : update cfg s nc x y out = .ok (t, o)) (e1 : entryState cfg s nc x y = .ok p1)
    (e2 : entryState cfg t nc x y = .ok p2) (hp : p1.withoutScratch = p2.withoutScratch) :
    ∃ t2 o2, update cfg t nc x y out2 = .ok (t2, o2) ∧ SamePoints t.centre_points t2.centre_points := by
  rw [update_entry hs, e1] at h
  rw [update_entry ht, e2]
  simp only at h ⊢
  have hz : p2.reached_end_zone = p1.reached_end_zone :=
    (congrArg PathPlanner.reached_end_zone hp).symm
  rw [hz]
  split at h
  · cases h
  · rename_i q1 hq1
    split at h
    · cases h
    · rename_i s3 o3 hr1
      cases h
      have eff := (returnResult_effect hr1).1
      have hrq : RejectedOk q1.raw_cones q1.rejected_points := by
        unfold returnResult at hr1
        split at hr1
        · cases hr1
        · simp only at hr1
          split at hr1
          · cases hr1
          · rename_i mk2 hm
            exact rejectedLoop_valid _ _ _ _ hm
      have hrt : RejectedOk (resetTempConeVectors s3).raw_cones
          (resetTempConeVectors s3).rejected_points := by
        obtain ⟨f1, _, _, _, _, f6⟩ := reset_fields s3
        rw [f1]
        rcases f6 with f6 | f6
        · rw [f6, eff]
          exact hrq
        · rw [f6]
          intro r hr
          cases hr
      have hrp := entryState_rejected hrt e2
      have key : ∃ q2, (if (!p1.reached_end_zone) = true then sortStep cfg p2 else .ok p2)
          = .ok q2 ∧ q1.withoutScratch = q2.withoutScratch ∧
            RejectedOk q2.raw_cones q2.rejected_points := by
        split at hq1
        · rename_i hc
          rw [if_pos hc]
          obtain ⟨q2, g1, g2⟩ := sortStep_same hp hq1
          exact ⟨q2, g1, g2, sortStep_rejected hrp g1⟩
        · rename_i hc
          rw [if_neg hc]
          cases hq1
          exact ⟨p2, rfl, hp, hrp⟩
      obtain ⟨q2, g1, g2, g3⟩ := key
      rw [g1]
      simp only
      obtain ⟨⟨s4, o4⟩, hr2⟩ := returnResult_same out2 g2 g3 hr1
      rw [hr2]
      refine ⟨_, _, rfl, ?_⟩
      have eff2 := (returnResult_effect hr2).1
      rw [(reset_fields s3).2.1, (reset_fields s4).2.1, eff, eff2]
      exact congrArg PathPlanner.centre_points g2

/-- C6 (amended): when a call of update has returned, a second call with the
same input returns and leaves the same centre-line in two cases.  If the first
call leaves the planner complete, the centre-line is left exactly as it was.  If
both calls come out of the statements that precede the block
`if (newConesToSort)` (the loop-closure statements and, unless the end zone is
reached, `addCones` and `updateCentrePoints`) with planners that agree on
everything but scratch data (the cone fields `mapped`, `dist` and `cost`, the
point field `dist`, the temporary lists, the side copies, the rejected
candidates with their counter, `future_cones` and the flags `newConesSorted`,
`gotNewCones`, `l_cones_sorted` and `r_cones_sorted`), the centre-line after the
second call has the same length, the same point positions and the same cone
back-references as after the first call. -/
theorem C6_repeat_same_entry (cfg : Config) (s t : PathPlanner) (new_cones : List Cone)
    (car_x car_y : ℚ) (out o out2 : Output)
    (h : update cfg s new_cones car_x car_y out = .ok (t, o)) :
    (t.complete = true →
      ∃ t2 o2, update cfg t new_cones car_x car_y out2 = .ok (t2, o2) ∧
        t2.centre_points = t.centre_points) ∧
    (∀ p1 p2, entryState cfg s new_cones car_x car_y = .ok p1 →
      entryState cfg t new_cones car_x car_y = .ok p2 →
      p1.withoutScratch = p2.withoutScratch →
      ∃ t2 o2, update cfg t new_cones car_x car_y out2 = .ok (t2, o2) ∧
        pointRefs t2.centre_points = pointRefs t.centre_points) := by
  have part1 : t.complete = true →
      ∃ t2 o2, update cfg t new_cones car_x car_y out2 = .ok (t2, o2) ∧
        t2.centre_points = t.centre_points := by
    intro hc
    obtain ⟨⟨t2, o2⟩, hret⟩ := update_ok_replayable h out2
    have e := (returnResult_effect hret).1
    refine ⟨t2, { o2 with plannerComp := true }, ?_, by rw [e]⟩
    unfold update
    rw [if_pos hc, hret]
  refine ⟨part1, ?_⟩
  intro p1 p2 e1 e2 hp
  cases hc : t.complete with
  | true =>
    obtain ⟨t2, o2, g1, g2⟩ := part1 hc
    exact ⟨t2, o2, g1, by rw [g2]⟩
  | false =>
    have hs : s.complete = false := by
      cases hsc : s.complete with
      | false => rfl
      | true =>
        unfold update at h
        rw [if_pos hsc] at h
        split at h
        · cases h
        · rename_i s1 o1 hr
          cases h
          have e := (returnResult_effect hr).1
          rw [e] at hc
          simp only at hc
          rw [hsc] at hc
          cases hc
    obtain ⟨t2, o2, g1, g2⟩ := update_same_entry out2 hs hc h e1 e2 hp
    exact ⟨t2, o2, g1, (samePoints_pointRefs g2).symm⟩

theorem C6_repeat_same_entry_witness :
    (update reversalConfig (gateAfter reversalConfig [farFrame]) gateCones 16 0 Output.empty
        = .ok (gateAfter reversalConfig farFrames, farOutput) ∧
      (gateAfter reversalConfig farFrames).complete = true ∧
      ∃ t2 o2, update reversalConfig (gateAfter reversalConfig farFrames) gateCones 16 0
          Output.empty = .ok (t2, o2) ∧
        t2.centre_points = (gateAfter reversalConfig farFrames).centre_points) ∧
    (update demoConfig corridorStart corridorCones 3 0 Output.empty
        = .ok ((steadyAfter corridorStart).1, (steadyAfter corridorStart).2) ∧
      corridorStart.complete = false ∧ (steadyAfter corridorStart).1.complete = false ∧
      entryState demoConfig corridorStart corridorCones 3 0 = .ok (steadyEntry corridorStart) ∧
      entryState demoConfig (steadyAfter corridorStart).1 corridorCones 3 0
        = .ok (steadyEntry (steadyAfter corridorStart).1) ∧
      (steadyEntry corridorStart).withoutScratch
        = (steadyEntry (steadyAfter corridorStart).1).withoutScratch ∧
      steadyEntry corridorStart ≠ steadyEntry (steadyAfter corridorStart).1 ∧
      pointRefs corridorStart.centre_points = [(0, 0, none, none), (3, 0, some 0, some 1)] ∧
      pointRefs (steadyAfter corridorStart).1.centre_points
        = [(0, 0, none, none), (3, 0, some 0, some 1), (6, 0, some 3, some 2),
            (9, 0, some 5, some 4)] ∧
      ∃ t2 o2, update demoConfig (steadyAfter corridorStart).1 corridorCones 3 0 Output.empty
          = .ok (t2, o2) ∧
        pointRefs t2.centre_points = pointRefs (steadyAfter corridorStart).1.centre_points) ∧
    (update demoConfig (gateStart demoConfig) corridorCones 3 0 Output.empty
        = .ok ((steadyAfter (gateStart demoConfig)).1, (steadyAfter (gateStart demoConfig)).2) ∧
      (gateStart demoConfig).raw_cones.length = 2 ∧
      (steadyAfter (gateStart demoConfig)).1.raw_cones.length = 10 ∧
      (steadyAfter (gateStart demoConfig)).1.complete = false ∧
      entryState demoConfig (gateStart demoConfig) corridorCones 3 0
        = .ok (steadyEntry (gateStart demoConfig)) ∧
      entryState demoConfig (steadyAfter (gateStart demoConfig)).1 corridorCones 3 0
        = .ok (steadyEntry (steadyAfter (gateStart demoConfig)).1) ∧
      (steadyEntry (gateStart demoConfig)).withoutScratch
        = (steadyEntry (steadyAfter (gateStart demoConfig)).1).withoutScratch ∧
      pointRefs (steadyAfter (gateStart demoConfig)).1.centre_points
        = [(0, 0, none, none), (3, 0, some 0, some 1), (6, 0, some 3, some 2),
            (9, 0, some 5, some 4)] ∧
      ∃ t2 o2, update demoConfig (steadyAfter (gateStart demoConfig)).1 corridorCones 3 0
          Output.empty = .ok (t2, o2) ∧
        pointRefs t2.centre_points
          = pointRefs (steadyAfter (gateStart demoConfig)).1.centre_points) := by
  have ka : update reversalConfig (gateAfter reversalConfig [farFrame]) gateCones 16 0
        Output.empty = .ok (gateAfter reversalConfig farFrames, farOutput) ∧
      (gateAfter reversalConfig farFrames).complete = true := by decide!
  have kb : update demoConfig corridorStart corridorCones 3 0 Output.empty
        = .ok ((steadyAfter corridorStart).1, (steadyAfter corridorStart).2) ∧
      corridorStart.complete = false ∧ (steadyAfter corridorStart).1.complete = false ∧
      entryState demoConfig corridorStart corridorCones 3 0 = .ok (steadyEntry corridorStart) ∧
      entryState demoConfig (steadyAfter corridorStart).1 corridorCones 3 0
        = .ok (steadyEntry (steadyAfter corridorStart).1) ∧
      (steadyEntry corridorStart).withoutScratch
        = (steadyEntry (steadyAfter corridorStart).1).withoutScratch ∧
      steadyEntry corridorStart ≠ steadyEntry (steadyAfter corridorStart).1 ∧
      pointRefs corridorStart.centre_points = [(0, 0, none, none), (3, 0, some 0, some 1)] ∧
      pointRefs (steadyAfter corridorStart).1.centre_points
        = [(0, 0, none, none), (3, 0, some 0, some 1), (6, 0, some 3, some 2),
            (9, 0, some 5, some 4)] := by decide!
  have kc : update demoConfig (gateStart demoConfig) corridorCones 3 0 Output.empty
        = .ok ((steadyAfter (gateStart demoConfig)).1, (steadyAfter (gateStart demoConfig)).2) ∧
      (gateStart demoConfig).raw_cones.length = 2 ∧
      (steadyAfter (gateStart demoConfig)).1.raw_cones.length = 10 ∧
      (steadyAfter (gateStart demoConfig)).1.complete = false ∧
      entryState demoConfig (gateStart demoConfig) corridorCones 3 0
        = .ok (steadyEntry (gateStart demoConfig)) ∧
      entryState demoConfig (steadyAfter (gateStart demoConfig)).1 corridorCones 3 0
        = .ok (steadyEntry (steadyAfter (gateStart demoConfig)).1) ∧
      (steadyEntry (gateStart demoConfig)).withoutScratch
        = (steadyEntry (steadyAfter (gateStart demoConfig)).1).withoutScratch ∧
      pointRefs (steadyAfter (gateStart demoConfig)).1.centre_points
        = [(0, 0, none, none), (3, 0, some 0, some 1), (6, 0, some 3, some 2),
            (9, 0, some 5, some 4)] := by decide!
  obtain ⟨a1, a2⟩ := ka
  obtain ⟨b1, b2, b3, b4, b5, b6, b7, b8, b9⟩ := kb
  obtain ⟨c1, c2, c3, c4, c5, c6, c7, c8⟩ := kc
  exact ⟨⟨a1, a2,
      (C6_repeat_same_entry reversalConfig (gateAfter reversalConfig [farFrame])
        (gateAfter reversalConfig farFrames) gateCones 16 0 Output.empty farOutput Output.empty
        a1).1 a2⟩,
    ⟨b1, b2, b3, b4, b5, b6, b7, b8, b9,
      (C6_repeat_same_entry demoConfig corridorStart (steadyAfter corridorStart).1 corridorCones
        3 0 Output.empty (steadyAfter corridorStart).2 Output.empty b1).2
        (steadyEntry corridorStart) (steadyEntry (steadyAfter corridorStart).1) b4 b5 b6⟩,
    ⟨c1, c2, c3, c4, c5, c6, c7, c8,
      (C6_repeat_same_entry demoConfig (gateStart demoConfig)
        (steadyAfter (gateStart demoConfig)).1 corridorCones 3 0 Output.empty
        (steadyAfter (gateStart demoConfig)).2 Output.empty c1).2
        (steadyEntry (gateStart demoConfig))
        (steadyEntry (steadyAfter (gateStart demoConfig)).1) c5 c6 c7⟩⟩

end SlowLap
